import Mathlib

/-!
# Freenachos.Poker: the Notion content-import parser

A shallow embedding of `src/app/articles/page.jsx` (the image-URL helpers,
`parseNotionContent`, `parseHTMLContent`) and theorems about it.

## Modelling conventions

* A JavaScript string is a `List Char` (`Str`).  The regular expressions of
  the source have no `u` flag and so work on UTF-16 code units; every class
  they use treats the two halves of a surrogate pair like any other ordinary
  character, so matching code point by code point gives the same captures.
  The one place where the code unit view shows is `charAt(0).toUpperCase()`,
  see `capitalize`.
* Regular expressions are transcribed literally into the syntax `Re` and run
  by `Re.run`, a backtracking matcher in continuation-passing style that
  follows the ECMAScript specification (greedy and lazy quantifiers, capture
  groups, first match in priority order).
* The `while (i < lines.length)` loop of `parseNotionContent` is the function
  `scan`; one pass through the loop body is `step`, which returns the blocks
  pushed and the amount by which the cursor `i` grew.  `scan` takes fuel and
  returns `none` when the fuel runs out.
* What the JavaScript runtime supplies and the source does not define (the
  Unicode case tables, the browser's `DOMParser`, URL resolution of
  `img.src`) is the parameter `Env`.

## Layout

Part I holds every definition: the embedding of the source, then the
predicates that the statements use.  Part II holds the theorems: the theory
of the matcher and of the string primitives, then the results on the parser,
construct by construct.
-/

namespace Freenachos

/-- A JavaScript string. -/
abbrev Str := List Char

/-! # Part I: definitions -/

/-! ## Character classes of ECMAScript -/

/-- The class `\s`, which is also what `String.prototype.trim` strips:
WhiteSpace and LineTerminator of the ECMAScript grammar. -/
def isWhiteSpace (c : Char) : Bool :=
  c.toNat == 0x09 || c.toNat == 0x0A || c.toNat == 0x0B || c.toNat == 0x0C ||
  c.toNat == 0x0D || c.toNat == 0x20 || c.toNat == 0xA0 || c.toNat == 0x1680 ||
  (0x2000 ≤ c.toNat && c.toNat ≤ 0x200A) || c.toNat == 0x2028 || c.toNat == 0x2029 ||
  c.toNat == 0x202F || c.toNat == 0x205F || c.toNat == 0x3000 || c.toNat == 0xFEFF

/-- LineTerminator: LF, CR, LINE SEPARATOR, PARAGRAPH SEPARATOR. -/
def isLineTerminator (c : Char) : Bool :=
  c.toNat == 0x0A || c.toNat == 0x0D || c.toNat == 0x2028 || c.toNat == 0x2029

/-- The atom `.` (no `s` flag): any character but a line terminator. -/
def isDot (c : Char) : Bool := !isLineTerminator c

/-- The class `\d`. -/
def isDigit (c : Char) : Bool := 0x30 ≤ c.toNat && c.toNat ≤ 0x39

/-- The class `[a-z]`. -/
def isLower (c : Char) : Bool := 0x61 ≤ c.toNat && c.toNat ≤ 0x7A

/-- The class `[A-Z]`. -/
def isUpper (c : Char) : Bool := 0x41 ≤ c.toNat && c.toNat ≤ 0x5A

/-- The class `\w`: `[A-Za-z0-9_]`. -/
def isWord (c : Char) : Bool := isLower c || isUpper c || isDigit c || c.toNat == 0x5F

/-- The class `[^\s]`. -/
def notWhiteSpace (c : Char) : Bool := !isWhiteSpace c

/-- The class `[\s\S]`. -/
def anyChar (_ : Char) : Bool := true

/-- ASCII upper-casing of one character. -/
def asciiUpper (c : Char) : Char := if isLower c then Char.ofNat (c.toNat - 32) else c

/-- ASCII lower-casing of one character. -/
def asciiLower (c : Char) : Char := if isUpper c then Char.ofNat (c.toNat + 32) else c

/-- A pattern character `a` under the `i` flag (no `u` flag), for an ASCII
letter or punctuation mark `a`.  ECMAScript compares `Canonicalize(c)` with
`Canonicalize(a)`; `Canonicalize` upper-cases, but never maps a character
above U+007F to one below U+0080, so for ASCII `a` this is the ASCII
case-insensitive comparison. -/
def eqIgnoreCase (a c : Char) : Bool := asciiUpper c == asciiUpper a

/-- The class `[a-z]` under the `i` flag: by the same rule, the ASCII letters. -/
def isLetterIgnoreCase (c : Char) : Bool := isLower c || isUpper c

/-! ## String primitives -/

/-- `String.prototype.trimStart`. -/
def trimStart (s : Str) : Str := s.dropWhile isWhiteSpace

/-- `String.prototype.trimEnd`. -/
def trimEnd (s : Str) : Str := (s.reverse.dropWhile isWhiteSpace).reverse

/-- `String.prototype.trim`. -/
def trim (s : Str) : Str := trimEnd (trimStart s)

/-- `s.startsWith(p)`. -/
def startsWith (p : Str) : Str → Bool
  | s => match p, s with
    | [], _ => true
    | _ :: _, [] => false
    | a :: p', c :: s' => a == c && startsWith p' s'

/-- `s.endsWith(p)`. -/
def endsWith (p s : Str) : Bool := startsWith p.reverse s.reverse

/-- `s.split(sep)` for a one-character separator; `"".split(sep)` is `[""]`. -/
def splitOn (sep : Char) : Str → List Str
  | [] => [[]]
  | c :: cs =>
    if c = sep then [] :: splitOn sep cs
    else match splitOn sep cs with
      | [] => [[c]]
      | l :: ls => (c :: l) :: ls

/-- `parts.join(sep)`. -/
def joinWith (sep : Str) : List Str → Str
  | [] => []
  | [a] => a
  | a :: b :: rest => a ++ sep ++ joinWith sep (b :: rest)

/-- `a || b` on strings: the empty string is falsy. -/
def orElseStr (a b : Str) : Str := if a.isEmpty then b else a

/-- `m[i] || b` for a capture `m[i]`, which is `undefined` when the group took
no part in the match. -/
def capOr (a : Option Str) (b : Str) : Str :=
  match a with
  | some s => orElseStr s b
  | none => b

/-! ## Regular expressions -/

/-- The syntax of the regular expressions used by the source.  Quantifiers
other than `?` are only ever applied to a single character class there, which
is what `rep` is. -/
inductive Re where
  /-- the empty pattern -/
  | eps : Re
  /-- one character of a class, or a literal character -/
  | chr (p : Char → Bool) : Re
  /-- concatenation -/
  | seq (a b : Re) : Re
  /-- alternation `a|b` -/
  | alt (a b : Re) : Re
  /-- greedy `(?:a)?`, for `a` that matches no empty string -/
  | opt (a : Re) : Re
  /-- a class quantified: `p{lo,hi}` (`hi = none` for no upper bound), greedy
  or lazy -/
  | rep (p : Char → Bool) (lo : Nat) (hi : Option Nat) (greedy : Bool) : Re
  /-- capture group number `i` -/
  | cap (i : Nat) (a : Re) : Re
  /-- the assertion `^` (no `m` flag) -/
  | bol : Re
  /-- the assertion `$` (no `m` flag) -/
  | eol : Re

/-- The state of a match: the index of the next character, the input from
there on, and the captures so far (`none` is `undefined`). -/
structure MState where
  pos : Nat
  rest : Str
  caps : List (Option Str)
deriving DecidableEq, Repr

/-- Whether a quantifier that has taken `n` characters may take one more. -/
def belowMax (n : Nat) : Option Nat → Bool
  | none => true
  | some hi => n < hi

/-- The matcher of a quantified class, having taken `n` characters so far.
Greedy: first try to take one more character, then to go on with `k`.
Lazy: the other way round. -/
def repRun (p : Char → Bool) (lo : Nat) (hi : Option Nat) (greedy : Bool)
    (caps : List (Option Str)) (k : MState → Option MState) :
    Str → Nat → Nat → Option MState
  | [], pos, n => if lo ≤ n then k ⟨pos, [], caps⟩ else none
  | c :: cs, pos, n =>
    let stop : Option MState := if lo ≤ n then k ⟨pos, c :: cs, caps⟩ else none
    let more : Option MState :=
      if p c && belowMax n hi then repRun p lo hi greedy caps k cs (pos + 1) (n + 1) else none
    if greedy then
      match more with
      | some r => some r
      | none => stop
    else
      match stop with
      | some r => some r
      | none => more

/-- The backtracking matcher: `r.run s k` matches `r` at state `s` and hands
every end state, in priority order, to the continuation `k` until `k`
succeeds. -/
def Re.run : Re → MState → (MState → Option MState) → Option MState
  | .eps, s, k => k s
  | .chr p, s, k =>
    match s.rest with
    | [] => none
    | c :: cs => if p c then k ⟨s.pos + 1, cs, s.caps⟩ else none
  | .seq a b, s, k => a.run s (fun s' => b.run s' k)
  | .alt a b, s, k =>
    match a.run s k with
    | some r => some r
    | none => b.run s k
  | .opt a, s, k =>
    match a.run s k with
    | some r => some r
    | none => k s
  | .rep p lo hi greedy, s, k => repRun p lo hi greedy s.caps k s.rest s.pos 0
  | .cap i a, s, k =>
    a.run s (fun s' =>
      k { s' with caps := s'.caps.set i (some (s.rest.take (s.rest.length - s'.rest.length))) })
  | .bol, s, k => if s.pos = 0 then k s else none
  | .eol, s, k =>
    match s.rest with
    | [] => k s
    | _ :: _ => none

/-- A literal string. -/
def Re.lit : Str → Re
  | [] => .eps
  | c :: cs => .seq (.chr (fun x => x == c)) (Re.lit cs)

/-- A literal string under the `i` flag. -/
def Re.litI : Str → Re
  | [] => .eps
  | c :: cs => .seq (.chr (eqIgnoreCase c)) (Re.litI cs)

/-- The concatenation of a list of patterns. -/
def Re.cat : List Re → Re
  | [] => .eps
  | [a] => a
  | a :: b :: rest => .seq a (Re.cat (b :: rest))

/-- The number of capture groups (the largest group number). -/
def Re.groups : Re → Nat
  | .eps => 0
  | .chr _ => 0
  | .seq a b => max a.groups b.groups
  | .alt a b => max a.groups b.groups
  | .opt a => a.groups
  | .rep _ _ _ _ => 0
  | .cap i a => max i a.groups
  | .bol => 0
  | .eol => 0

/-- A successful match: where it starts, where it ends, the text after it and
the captures (`caps[0]` is the whole match). -/
structure Match where
  index : Nat
  stop : Nat
  after : Str
  caps : List (Option Str)
deriving DecidableEq, Repr

/-- Capture `i` of a match, `undefined` as `none`. -/
def Match.group (m : Match) (i : Nat) : Option Str := (m.caps.get? i).join

/-- One attempt of `r` at index `pos`, `rest` being the input from there on.
All captures start out `undefined`. -/
def Re.matchAt (r : Re) (pos : Nat) (rest : Str) : Option Match :=
  match r.run ⟨pos, rest, List.replicate (r.groups + 1) none⟩ some with
  | none => none
  | some s =>
    some ⟨pos, s.pos, s.rest, s.caps.set 0 (some (rest.take (rest.length - s.rest.length)))⟩

/-- The search of `RegExp.prototype.exec` from index `pos` on: the first
index, left to right, at which `r` matches. -/
def Re.execFrom (r : Re) : Nat → Str → Option Match
  | pos, [] => r.matchAt pos []
  | pos, c :: cs =>
    match r.matchAt pos (c :: cs) with
    | some m => some m
    | none => Re.execFrom r (pos + 1) cs

/-- The call `s.match(r)` for `r` without the `g` flag (`r.exec(s)`). -/
def Re.exec (r : Re) (s : Str) : Option Match := r.execFrom 0 s

/-- The call `r.test(s)`. -/
def Re.test (r : Re) (s : Str) : Bool := (r.exec s).isSome

/-- The call `s.replace(r, by)` for `r` without the `g` flag and a replacement
`by` free of `$`: the first match is replaced. -/
def Re.replaceFirst (r : Re) (s by_ : Str) : Str :=
  match r.exec s with
  | none => s
  | some m => s.take m.index ++ by_ ++ m.after

/-- The matcher of `s.replace(r, by)` for `r` with the `g` flag, at index
`pos`, with `skip` characters of the last match still to pass over.  After an
empty match the search moves on by one character. -/
def Re.replaceAllGo (r : Re) (by_ : Str) : Str → Nat → Nat → Str
  | [], pos, skip =>
    if skip = 0 then
      match r.matchAt pos [] with
      | some _ => by_
      | none => []
    else []
  | c :: cs, pos, skip =>
    if skip = 0 then
      match r.matchAt pos (c :: cs) with
      | some m =>
        if m.stop - pos = 0 then by_ ++ c :: Re.replaceAllGo r by_ cs (pos + 1) 0
        else by_ ++ Re.replaceAllGo r by_ cs (pos + 1) (m.stop - pos - 1)
      | none => c :: Re.replaceAllGo r by_ cs (pos + 1) 0
    else Re.replaceAllGo r by_ cs (pos + 1) (skip - 1)

/-- The call `s.replace(r, by)` for `r` with the `g` flag and a replacement
free of `$`: every match, left to right, is replaced. -/
def Re.replaceAll (r : Re) (s by_ : Str) : Str := r.replaceAllGo by_ s 0 0

/-- The literal character `a` as a class. -/
def is (a : Char) : Char → Bool := fun c => c == a

/-- The class `[^a]`. -/
def isNot (a : Char) : Char → Bool := fun c => c != a

/-! ## The block model -/

/-- A content block, as the object literals pushed by the parsers build it. -/
inductive Block where
  | header (level : Nat) (content : Str)
  | paragraph (content : Str)
  | callout (variant title content : Str)
  | list (items : List Str)
  | code (language title content : Str)
  | quote (content attribution : Str)
  | image (src alt caption : Str)
deriving DecidableEq, Repr

/-! ## The runtime -/

/-- A DOM node, as `processNode` and `getTextWithFormatting` see it: a text
node, an element (its `tagName`, attributes and child nodes), or a node of
another kind (a comment). -/
inductive Node where
  | text (data : Str) : Node
  | element (tagName : Str) (attrs : List (Str × Str)) (children : List Node) : Node
  | other : Node

/-- What the JavaScript runtime supplies. -/
structure Env where
  /-- `String.prototype.toUpperCase` on a one-character string holding a
  character of the Basic Multilingual Plane above U+007F (the Unicode table) -/
  upperTable : Char → Str
  /-- `String.prototype.toLowerCase` on a string that is not pure ASCII -/
  lowerTable : Str → Str
  /-- the child nodes of `new DOMParser().parseFromString(html, 'text/html').body` -/
  domBody : Str → List Node
  /-- the `src` property of an `img` element whose `src` attribute has the
  given value (the URL resolved against the document) -/
  resolveSrc : Str → Str

/-- The call `s.charAt(0).toUpperCase()` for the first character `c` of `s`.
For a character outside the Basic Multilingual Plane `charAt(0)` is a lone
surrogate, which upper-casing leaves as it is, and `s.slice(1)` starts with
the other half: the character comes out unchanged. -/
def upperFirst (env : Env) (c : Char) : Str :=
  if c.toNat < 0x80 then [asciiUpper c]
  else if 0x10000 ≤ c.toNat then [c]
  else env.upperTable c

/-- The expression `s.charAt(0).toUpperCase() + s.slice(1)`. -/
def capitalize (env : Env) : Str → Str
  | [] => []
  | c :: cs => upperFirst env c ++ cs

/-- The call `s.toLowerCase()`. -/
def toLowerCase (env : Env) (s : Str) : Str :=
  if s.all (fun c => c.toNat < 0x80) then s.map asciiLower else env.lowerTable s

/-! ## Image URL detection helpers (source lines 76 to 104) -/

/-- The alternation `(?:jpg|jpeg|png|gif|webp|svg)` under the `i` flag. -/
def reImageExt : Re :=
  .alt (Re.litI "jpg".toList) (.alt (Re.litI "jpeg".toList) (.alt (Re.litI "png".toList)
    (.alt (Re.litI "gif".toList) (.alt (Re.litI "webp".toList) (Re.litI "svg".toList)))))

/-- The pattern `https?:\/\/[^\s]+\.(?:jpg|jpeg|png|gif|webp|svg)(?:\?[^\s]*)?`
under the `i` flag. -/
def reStandardBody : Re :=
  Re.cat [Re.litI "http".toList, .rep (eqIgnoreCase 's') 0 (some 1) true, Re.litI "://".toList,
    .rep notWhiteSpace 1 none true, Re.litI ".".toList, reImageExt,
    .opt (.seq (Re.litI "?".toList) (.rep notWhiteSpace 0 none true))]

/-- The regular expression of `isStandardImageUrl`:
`/^https?:\/\/[^\s]+\.(?:jpg|jpeg|png|gif|webp|svg)(?:\?[^\s]*)?$/i`. -/
def reStandardImage : Re := Re.cat [.bol, reStandardBody, .eol]

/-- The first regular expression of `extractImageUrl`:
`/^(https?:\/\/[^\s]+\.(?:jpg|jpeg|png|gif|webp|svg)(?:\?[^\s]*)?)$/i`. -/
def reStandardExtract : Re := Re.cat [.bol, .cap 1 reStandardBody, .eol]

/-- The pattern `https?:\/\/[^\/]+\.supabase\.co\/storage\/v1\/object\/`. -/
def reSupabaseBody : Re :=
  Re.cat [Re.lit "http".toList, .rep (is 's') 0 (some 1) true, Re.lit "://".toList,
    .rep (isNot '/') 1 none true, Re.lit ".supabase.co/storage/v1/object/".toList]

/-- The regular expression of `isSupabaseStorageUrl`:
`/^https?:\/\/[^\/]+\.supabase\.co\/storage\/v1\/object\//`. -/
def reSupabase : Re := Re.cat [.bol, reSupabaseBody]

/-- The second regular expression of `extractImageUrl`:
`/^(https?:\/\/[^\/]+\.supabase\.co\/storage\/v1\/object\/[^\s]+)$/`. -/
def reSupabaseExtract : Re :=
  Re.cat [.bol, .cap 1 (.seq reSupabaseBody (.rep notWhiteSpace 1 none true)), .eol]

/-- Source line 77. -/
def isStandardImageUrl (url : Str) : Bool := reStandardImage.test url

/-- Source line 82. -/
def isSupabaseStorageUrl (url : Str) : Bool := reSupabase.test url

/-- Source line 87. -/
def isImageUrl (url : Str) : Bool :=
  let trimmed := trim url
  isStandardImageUrl trimmed || isSupabaseStorageUrl trimmed

/-- Source line 93; `null` is `none`. -/
def extractImageUrl (line : Str) : Option Str :=
  let trimmed := trim line
  match reStandardExtract.exec trimmed with
  | some standardMatch => standardMatch.group 1
  | none =>
    match reSupabaseExtract.exec trimmed with
    | some supabaseMatch => supabaseMatch.group 1
    | none => none

/-! ## The regular expressions of `parseNotionContent` -/

/-- Source line 114: `/\r\n/g`. -/
def reCRLF : Re := Re.lit "\r\n".toList

/-- Source line 114: `/\r/g`. -/
def reCR : Re := Re.lit "\r".toList

/-- Source line 117: `/<[a-z][\s\S]*>/i`. -/
def reHtml : Re :=
  Re.cat [.chr (eqIgnoreCase '<'), .chr isLetterIgnoreCase, .rep anyChar 0 none true,
    .chr (eqIgnoreCase '>')]

/-- Source line 158: `/^:::(\w+)?\s*(.*?)(?:::)?$/`.  The last group,
`(?:::)?`, is a non-capturing group around two colons. -/
def reCallout : Re :=
  Re.cat [.bol, Re.lit ":::".toList, .opt (.cap 1 (.rep isWord 1 none true)),
    .rep isWhiteSpace 0 none true, .cap 2 (.rep isDot 0 none false),
    .opt (Re.lit "::".toList), .eol]

/-- Source line 164: `/^:::\w+\s*:::$/`. -/
def reCalloutBare : Re :=
  Re.cat [.bol, Re.lit ":::".toList, .rep isWord 1 none true, .rep isWhiteSpace 0 none true,
    Re.lit ":::".toList, .eol]

/-- Source line 169: `/:::$/`. -/
def reCalloutClose : Re := Re.cat [Re.lit ":::".toList, .eol]

/-- Source line 195: `/^(#{1,3})\s+(.+)$/`. -/
def reHeader : Re :=
  Re.cat [.bol, .cap 1 (.rep (is '#') 1 (some 3) true), .rep isWhiteSpace 1 none true,
    .cap 2 (.rep isDot 1 none true), .eol]

/-- Source line 210: `/^>\s*/`. -/
def reQuoteMark : Re := Re.cat [.bol, .chr (is '>'), .rep isWhiteSpace 0 none true]

/-- The class written between the brackets of the attribution pattern on
source line 215.  In the source file it is the seven characters U+201A,
U+00C4, U+00EE, U+201A, U+00C4, U+00EC and `-`. -/
def isDashClass (c : Char) : Bool :=
  c.toNat == 0x201A || c.toNat == 0xC4 || c.toNat == 0xEE || c.toNat == 0xEC || c.toNat == 0x2D

/-- Source line 215: `/(.+?)(?:\s*[...]{1,2}\s*)([^...]+)$/`, the class being
`isDashClass`. -/
def reAttribution : Re :=
  Re.cat [.cap 1 (.rep isDot 1 none false),
    Re.cat [.rep isWhiteSpace 0 none true, .rep isDashClass 1 (some 2) true,
      .rep isWhiteSpace 0 none true],
    .cap 2 (.rep (fun c => !isDashClass c) 1 none true), .eol]

/-- The class written between the brackets of the bullet patterns on source
lines 233, 237 and 308.  In the source file it is the five characters `-`,
`*`, U+201A, U+00C4 and U+00A2. -/
def isBulletClass (c : Char) : Bool :=
  c.toNat == 0x2D || c.toNat == 0x2A || c.toNat == 0x201A || c.toNat == 0xC4 || c.toNat == 0xA2

/-- Source lines 233 and 308: `/^[...]\s+/`, the class being `isBulletClass`. -/
def reBulletStart : Re := Re.cat [.bol, .chr isBulletClass, .rep isWhiteSpace 1 none true]

/-- Source lines 233 and 309: `/^\d+\.\s+/`. -/
def reNumberStart : Re :=
  Re.cat [.bol, .rep isDigit 1 none true, .chr (is '.'), .rep isWhiteSpace 1 none true]

/-- Source line 237: `/^[...]\s+(.+)$/`, the class being `isBulletClass`. -/
def reBullet : Re :=
  Re.cat [.bol, .chr isBulletClass, .rep isWhiteSpace 1 none true,
    .cap 1 (.rep isDot 1 none true), .eol]

/-- Source line 238: `/^\d+\.\s+(.+)$/`. -/
def reNumber : Re :=
  Re.cat [.bol, .rep isDigit 1 none true, .chr (is '.'), .rep isWhiteSpace 1 none true,
    .cap 1 (.rep isDot 1 none true), .eol]

/-- Source line 275: `/^!\[([^\]]*)\]\(([^)]+)\)$/`. -/
def reMdImage : Re :=
  Re.cat [.bol, Re.lit "![".toList, .cap 1 (.rep (isNot ']') 0 none true), Re.lit "](".toList,
    .cap 2 (.rep (isNot ')') 1 none true), Re.lit ")".toList, .eol]

/-- Source line 310: `/^!\[/`. -/
def reMdImageStart : Re := Re.cat [.bol, Re.lit "![".toList]

/-! ## The plain-text scanner (source lines 124 to 326) -/

/-- Three backticks. -/
def fence : Str := "```".toList

/-- The callout marker `:::`. -/
def marker : Str := ":::".toList

/-- The expression `['insight', 'warning', 'stat', 'tip'].includes(variant) ?
variant : 'insight'` of source lines 167 and 185. -/
def calloutVariant (variant : Str) : Str :=
  if ["insight".toList, "warning".toList, "stat".toList, "tip".toList].contains variant
  then variant else "insight".toList

/-- The caption of source line 284, character for character as the source
file has it. -/
def attachmentCaption : Str :=
  "‚ö†Ô∏è Notion attachment detected - please add image URL".toList

/-- The list loop of source lines 235 to 251, from the cursor on: the items
pushed and the amount by which the cursor grew. -/
def listLoop : List Str → List Str × Nat
  | [] => ([], 0)
  | l :: ls =>
    let listLine := trim l
    match reBullet.exec listLine with
    | some bulletMatch =>
      (((bulletMatch.group 1).getD []) :: (listLoop ls).1, (listLoop ls).2 + 1)
    | none =>
      match reNumber.exec listLine with
      | some numberMatch =>
        (((numberMatch.group 1).getD []) :: (listLoop ls).1, (listLoop ls).2 + 1)
      | none => if listLine.isEmpty then ([], 1) else ([], 0)

/-- The condition under which the paragraph loop breaks (source lines 303 to
311). -/
def paragraphStop (pLine : Str) : Bool :=
  pLine.isEmpty ||
  startsWith "#".toList pLine ||
  startsWith ">".toList pLine ||
  startsWith fence pLine ||
  startsWith marker pLine ||
  reBulletStart.test pLine ||
  reNumberStart.test pLine ||
  reMdImageStart.test pLine ||
  isImageUrl pLine

/-- The callout branch once `calloutMatch` is there (source lines 160 to
190); `ls` are the lines after the current one. -/
def stepCallout (env : Env) (trimmedLine : Str) (ls : List Str) (calloutMatch : Match) :
    List Block × Nat :=
  let variant := capOr (calloutMatch.group 1) "insight".toList
  let titleOrContent := capOr (calloutMatch.group 2) []
  if endsWith marker trimmedLine && !reCalloutBare.test trimmedLine then
    ([Block.callout (calloutVariant variant) (capitalize env variant)
        (trim (reCalloutClose.replaceFirst titleOrContent []))], 1)
  else
    let calloutLines := ls.takeWhile (fun l => !startsWith marker (trim l))
    let title := titleOrContent
    ([Block.callout (calloutVariant variant) (orElseStr title (capitalize env variant))
        (trim (joinWith "\n".toList calloutLines))], calloutLines.length + 2)

/-- The loop body from the header check on (source lines 194 to 323);
`line :: ls` are the lines from the cursor on. -/
def stepFrom (trimmedLine : Str) (line : Str) (ls : List Str) : List Block × Nat :=
  match reHeader.exec trimmedLine with
  | some headerMatch =>
    ([Block.header ((headerMatch.group 1).getD []).length (trim ((headerMatch.group 2).getD []))], 1)
  | none =>
    if startsWith ">".toList trimmedLine then
      let quoted := (line :: ls).takeWhile (fun l => startsWith ">".toList (trim l))
      let quoteLines := quoted.map (fun l => reQuoteMark.replaceFirst (trim l) [])
      let quoteContent := trim (joinWith " ".toList quoteLines)
      match reAttribution.exec quoteContent with
      | some attrMatch =>
        ([Block.quote (trim ((attrMatch.group 1).getD [])) (trim ((attrMatch.group 2).getD []))],
          quoted.length)
      | none => ([Block.quote quoteContent []], quoted.length)
    else if reBulletStart.test trimmedLine || reNumberStart.test trimmedLine then
      let listItems := (listLoop (line :: ls)).1
      (if 0 < listItems.length then [Block.list listItems] else [], (listLoop (line :: ls)).2)
    else
      match (extractImageUrl trimmedLine).filter (fun u => !u.isEmpty) with
      | some imageUrl => ([Block.image imageUrl [] []], 1)
      | none =>
        match reMdImage.exec trimmedLine with
        | some mdImageMatch =>
          let src := (mdImageMatch.group 2).getD []
          if startsWith "attachment:".toList src then
            ([Block.image [] (capOr (mdImageMatch.group 1) "Image placeholder - add URL".toList)
                attachmentCaption], 1)
          else
            ([Block.image src (capOr (mdImageMatch.group 1) []) []], 1)
        | none =>
          let paragraphLines :=
            ((line :: ls).map trim).takeWhile (fun pLine => !paragraphStop pLine)
          (if 0 < paragraphLines.length then [Block.paragraph (joinWith " ".toList paragraphLines)]
            else [], paragraphLines.length)

/-- One pass through the body of the loop `while (i < lines.length)` (source
lines 127 to 324), `lines.drop i` being the argument: the blocks pushed and
the amount by which `i` grew. -/
def step (env : Env) : List Str → List Block × Nat
  | [] => ([], 0)
  | line :: ls =>
    let trimmedLine := trim line
    if trimmedLine.isEmpty then ([], 1)
    else if startsWith fence trimmedLine then
      let language := orElseStr (trim (trimmedLine.drop 3)) "text".toList
      let codeLines := ls.takeWhile (fun l => !startsWith fence (trim l))
      ([Block.code language (capitalize env language) (joinWith "\n".toList codeLines)],
        codeLines.length + 2)
    else
      match (if startsWith marker trimmedLine then reCallout.exec trimmedLine else none) with
      | some calloutMatch => stepCallout env trimmedLine ls calloutMatch
      | none => stepFrom trimmedLine line ls

/-- The loop `while (i < lines.length)`, `lines.drop i` being the argument.
`none` when the fuel does not suffice. -/
def scan (env : Env) : Nat → List Str → Option (List Block)
  | _, [] => some []
  | 0, _ :: _ => none
  | fuel + 1, l :: ls =>
    match scan env fuel ((l :: ls).drop (step env (l :: ls)).2) with
    | some blocks => some ((step env (l :: ls)).1 ++ blocks)
    | none => none

/-- The normalisation of line endings (source line 114). -/
def normalize (content : Str) : Str :=
  reCR.replaceAll (reCRLF.replaceAll content "\n".toList) "\n".toList

/-- The test of source line 117. -/
def isHTML (text : Str) : Bool := reHtml.test text

/-! ## The HTML parser (source lines 329 to 497) -/

/-- The call `node.getAttribute(name)`; `null` is `none`. -/
def getAttribute (name : Str) : List (Str × Str) → Option Str
  | [] => none
  | (n, v) :: rest => if n = name then some v else getAttribute name rest

mutual
/-- The property `node.textContent`: the text of the text nodes below the
node, in document order. -/
def textContent : Node → Str
  | .text data => data
  | .element _ _ children => textContentList children
  | .other => []
/-- The `textContent` of a list of nodes, concatenated. -/
def textContentList : List Node → Str
  | [] => []
  | n :: ns => textContent n ++ textContentList ns
end

mutual
/-- The helper `getTextWithFormatting` (source lines 458 to 490) applied to an
element with the given child nodes: the loop over `element.childNodes`. -/
def getTextWithFormatting (env : Env) : List Node → Str
  | [] => []
  | n :: ns => formatChild env n ++ getTextWithFormatting env ns
/-- What one child node adds to `result` in `getTextWithFormatting`. -/
def formatChild (env : Env) : Node → Str
  | .text data => data
  | .other => []
  | .element tagName attrs children =>
    let tag := toLowerCase env tagName
    let innerText := getTextWithFormatting env children
    if tag = "strong".toList || tag = "b".toList then "**".toList ++ innerText ++ "**".toList
    else if tag = "em".toList || tag = "i".toList then "*".toList ++ innerText ++ "*".toList
    else if tag = "code".toList then fence.take 1 ++ innerText ++ fence.take 1
    else if tag = "a".toList then
      match (getAttribute "href".toList attrs).filter (fun h => !h.isEmpty) with
      | some href => "[".toList ++ innerText ++ "](".toList ++ href ++ ")".toList
      | none => innerText
    else if tag = "br".toList then " ".toList
    else innerText
end

/-- Source line 385: the class `[\u{1F300}-\u{1F9FF}\u{2600}-\u{26FF}\u{2700}-\u{27BF}]`
(the pattern has the `u` flag). -/
def isPictograph (c : Char) : Bool :=
  (0x1F300 ≤ c.toNat && c.toNat ≤ 0x1F9FF) || (0x2600 ≤ c.toNat && c.toNat ≤ 0x26FF) ||
  (0x2700 ≤ c.toNat && c.toNat ≤ 0x27BF)

/-- Source line 385: the pattern of the leading emoji, with the white space
after it. -/
def reLeadingEmoji : Re := Re.cat [.bol, .chr isPictograph, .rep isWhiteSpace 0 none true]

/-- Source line 410: `/language-(\w+)/`. -/
def reLanguageClass : Re := Re.cat [Re.lit "language-".toList, .cap 1 (.rep isWord 1 none true)]

/-- Whether a node is an element that the type selector `name` selects: its
lower-cased `tagName` is `name`. -/
def isElementNamed (env : Env) (name : Str) : Node → Bool
  | .element tagName _ _ => toLowerCase env tagName = name
  | _ => false

mutual
/-- The call `node.querySelector('code')` on the child nodes of `node`: the
first element named `code` below it, in document order. -/
def findCode (env : Env) : List Node → Option Node
  | [] => none
  | n :: ns =>
    match findCodeIn env n with
    | some c => some c
    | none => findCode env ns
/-- The first element named `code` that is the node or lies below it. -/
def findCodeIn (env : Env) : Node → Option Node
  | .text _ => none
  | .other => none
  | .element tagName attrs children =>
    if toLowerCase env tagName = "code".toList then some (.element tagName attrs children)
    else findCode env children
end

/-- The child nodes of a node. -/
def Node.childNodes : Node → List Node
  | .element _ _ children => children
  | _ => []

/-- The property `className` of a node: its `class` attribute, or `''`. -/
def Node.className : Node → Str
  | .element _ attrs _ => (getAttribute "class".toList attrs).getD []
  | _ => []

/-- The expression `Math.min(parseInt(tag[1]), 3)` for a tag among `h1` to
`h6`. -/
def headerLevel (tag : Str) : Nat :=
  match tag with
  | _ :: d :: _ => min (d.toNat - 0x30) 3
  | _ => 0

mutual
/-- The function `processNode` (source lines 337 to 455). -/
def processNode (env : Env) : Node → List Block
  | .text data =>
    let text := trim data
    if !text.isEmpty then [Block.paragraph text] else []
  | .other => []
  | .element tagName attrs children =>
    let tag := toLowerCase env tagName
    if ["h1".toList, "h2".toList, "h3".toList, "h4".toList, "h5".toList, "h6".toList].contains tag
    then [Block.header (headerLevel tag) (getTextWithFormatting env children)]
    else if tag = "p".toList then
      let content := getTextWithFormatting env children
      if !(trim content).isEmpty then
        match (extractImageUrl content).filter (fun u => !u.isEmpty) with
        | some imageUrl => [Block.image imageUrl [] []]
        | none => [Block.paragraph content]
      else []
    else if tag = "aside".toList then
      let content := getTextWithFormatting env children
      let cleanContent := trim (reLeadingEmoji.replaceFirst content [])
      [Block.callout "insight".toList "Quick Note".toList cleanContent]
    else if tag = "ul".toList || tag = "ol".toList then
      let items := (children.filter (isElementNamed env "li".toList)).map
        (fun li => getTextWithFormatting env li.childNodes)
      if 0 < items.length then [Block.list items] else []
    else if tag = "pre".toList then
      let code := findCode env children
      let content := match code with
        | some c => textContent c
        | none => textContentList children
      let langClass := match code with
        | some c => reLanguageClass.exec c.className
        | none => none
      [Block.code (match langClass with
          | some m => (m.group 1).getD []
          | none => "text".toList)
        "Code".toList (trim content)]
    else if tag = "blockquote".toList then
      [Block.quote (getTextWithFormatting env children) []]
    else if tag = "img".toList then
      [Block.image
        (match getAttribute "src".toList attrs with
          | some v => env.resolveSrc v
          | none => [])
        ((getAttribute "alt".toList attrs).getD []) []]
    else if ["div".toList, "article".toList, "section".toList, "main".toList,
        "span".toList].contains tag then
      processNodes env children
    else
      let text := getTextWithFormatting env children
      if !(trim text).isEmpty then [Block.paragraph text] else []
/-- The loop `childNodes.forEach(child => blocks.push(...processNode(child)))`. -/
def processNodes (env : Env) : List Node → List Block
  | [] => []
  | n :: ns => processNode env n ++ processNodes env ns
end

/-- The function `parseHTMLContent` (source lines 329 to 497). -/
def parseHTMLContent (env : Env) (html : Str) : List Block :=
  processNodes env (env.domBody html)

/-! ## The dispatcher -/

/-- The function `parseNotionContent` (source lines 110 to 327).  The fuel
bounds the number of passes through the scan loop; `none` when it does not
suffice. -/
def parseNotionContent (env : Env) (fuel : Nat) (content : Str) : Option (List Block) :=
  let text := normalize content
  if isHTML text then some (parseHTMLContent env text)
  else scan env fuel (splitOn '\n' text)


/-! ## The matcher: what a successful run means -/

/-- Whether a quantifier that has taken `m` characters in all is within its
upper bound. -/
def withinMax (m : Nat) : Option Nat → Prop
  | none => True
  | some hi => m ≤ hi

/-- The quantified class `p{lo,hi}`, having taken `n` characters, may take the
next `j` characters of `rest` and stop there. -/
def RepOk (p : Char → Bool) (lo : Nat) (hi : Option Nat) (n : Nat) (rest : Str) (j : Nat) : Prop :=
  j ≤ rest.length ∧ (∀ c ∈ rest.take j, p c = true) ∧ lo ≤ n + j ∧ (j = 0 ∨ withinMax (n + j) hi)

/-- The end states of the successful paths of a pattern from a state. -/
def Re.Matches : Re → MState → MState → Prop
  | .eps, s, s' => s' = s
  | .chr p, s, s' => ∃ c cs, s.rest = c :: cs ∧ p c = true ∧ s' = ⟨s.pos + 1, cs, s.caps⟩
  | .seq a b, s, s' => ∃ m, a.Matches s m ∧ b.Matches m s'
  | .alt a b, s, s' => a.Matches s s' ∨ b.Matches s s'
  | .opt a, s, s' => a.Matches s s' ∨ s' = s
  | .rep p lo hi _, s, s' =>
    ∃ j, RepOk p lo hi 0 s.rest j ∧ s' = ⟨s.pos + j, s.rest.drop j, s.caps⟩
  | .cap i a, s, s' =>
    ∃ m, a.Matches s m ∧
      s' = { m with caps := m.caps.set i (some (s.rest.take (s.rest.length - m.rest.length))) }
  | .bol, s, s' => s.pos = 0 ∧ s' = s
  | .eol, s, s' => s.rest = [] ∧ s' = s

/-! ## Predicates used in the statements -/

/-- The scan loop hangs on the one-line input `s`: `s` is not detected as HTML,
the pass on its only line pushes nothing and leaves the cursor where it was,
and `parseNotionContent` does not return with the given fuel. -/
def StallsOn (env : Env) (fuel : Nat) (s : Str) : Prop :=
  isHTML (normalize s) = false ∧
  step env (splitOn '\n' (normalize s)) = ([], 0) ∧
  parseNotionContent env fuel s = none

/-- All characters are white space. -/
def AllWs (w : Str) : Prop := ∀ c ∈ w, isWhiteSpace c = true

/-- No white space at either end. -/
def IsTrimmed (t : Str) : Prop :=
  (∀ c, t.head? = some c → isWhiteSpace c = false) ∧
  (∀ c, t.getLast? = some c → isWhiteSpace c = false)

/-- A runtime for evaluating examples: identity case tables, an empty
document, URLs left as they are. -/
def Env.plain : Env := ⟨fun c => [c], fun s => s, fun _ => [], fun s => s⟩

/-- The text holds a `<` immediately followed by an ASCII letter of either
case, with a `>` somewhere later. -/
def HasTag (t : Str) : Prop :=
  ∃ (a : Str) (c : Char) (b d : Str), t = a ++ '<' :: c :: (b ++ '>' :: d) ∧
    ((0x61 ≤ c.toNat ∧ c.toNat ≤ 0x7A) ∨ (0x41 ≤ c.toNat ∧ c.toNat ≤ 0x5A))

/-- A pattern without capture groups. -/
def Re.capFree : Re → Bool
  | .eps => true
  | .chr _ => true
  | .seq a b => a.capFree && b.capFree
  | .alt a b => a.capFree && b.capFree
  | .opt a => a.capFree
  | .rep _ _ _ _ => true
  | .cap _ _ => false
  | .bol => true
  | .eol => true

/-- The conditions of claim C6 on a line of a paragraph run: it is not blank
and, trimmed, does not start with `#`, `>`, three backticks, `:::` or `![`, is
not a list-item line (neither pattern of source lines 308 and 309 matches)
and is not an image-URL line (`isImageUrl` of source line 311 rejects it). -/
def PlainLine (l : Str) : Prop :=
  trim l ≠ [] ∧
  startsWith "#".toList (trim l) = false ∧
  startsWith ">".toList (trim l) = false ∧
  startsWith fence (trim l) = false ∧
  startsWith marker (trim l) = false ∧
  startsWith "![".toList (trim l) = false ∧
  reBulletStart.test (trim l) = false ∧
  reNumberStart.test (trim l) = false ∧
  isImageUrl (trim l) = false

/-- The dash characters of the specification: hyphen-minus, en dash U+2013
and em dash U+2014. -/
def isDashLike (c : Char) : Bool := c.toNat == 0x2D || c.toNat == 0x2013 || c.toNat == 0x2014

/-- The image extensions of source lines 78 and 96. -/
def imageExtensions : List Str :=
  ["jpg".toList, "jpeg".toList, "png".toList, "gif".toList, "webp".toList, "svg".toList]

/-- The line `l` is a bullet line or a numbered line with text `t`: trimmed,
it is `-` or `*`, or digits and a dot, then white space, then `t`; `t` starts
with a character that is no white space and holds no line terminator. -/
def ListLine (l t : Str) : Prop :=
  ∃ mk w, trim l = mk ++ w ++ t ∧
    (mk = "-".toList ∨ mk = "*".toList ∨
      ∃ ds, ds ≠ [] ∧ (∀ c ∈ ds, isDigit c = true) ∧ mk = ds ++ ".".toList) ∧
    w ≠ [] ∧ AllWs w ∧ t ≠ [] ∧ (∀ c, t.head? = some c → isWhiteSpace c = false) ∧
    (∀ c ∈ t, isLineTerminator c = false)

/-- The list loop stops at the line: neither item pattern (source lines 237
and 238) matches its trimmed form. -/
def NotListItem (l : Str) : Prop :=
  reBullet.exec (trim l) = none ∧ reNumber.exec (trim l) = none

/-- The cursor moves over a stopping line only when it is blank. -/
def blankNext : List Str → Nat
  | [] => 0
  | l :: _ => if (trim l).isEmpty then 1 else 0

/-- The text with every pair `\r\n` replaced by `\n`, left to right. -/
def dropCRLF : Str → Str
  | [] => []
  | [c] => [c]
  | c :: d :: s => if c = '\r' ∧ d = '\n' then '\n' :: dropCRLF s else c :: dropCRLF (d :: s)

/-- The character `c`, or `\n` in the place of `\r`. -/
def crToLf (c : Char) : Char := if c = '\r' then '\n' else c

/-- The four variants of a callout. -/
def calloutVariants : List Str :=
  ["insight".toList, "warning".toList, "stat".toList, "tip".toList]

/-- The invariants of a block: a header has a level from 1 to 3, a callout
one of the four variants, a list an item. -/
def Block.WellFormed : Block → Prop
  | .header level _ => 1 ≤ level ∧ level ≤ 3
  | .callout variant _ _ => variant ∈ calloutVariants
  | .list items => items ≠ []
  | _ => True

mutual
theorem processNode_wellFormed (env : Env) : ∀ (n : Node), ∀ b ∈ processNode env n, b.WellFormed
  | .text data => by
    intro b hb
    unfold processNode at hb
    dsimp only at hb
    split at hb
    · simp only [List.mem_singleton] at hb; subst hb; trivial
    · cases hb
  | .other => by
    intro b hb
    unfold processNode at hb
    cases hb
  | .element tagName attrs children => by
    intro b hb
    unfold processNode at hb
    dsimp only at hb
    split at hb
    · rename_i htag
      simp only [List.mem_singleton] at hb
      subst hb
      simp only [List.contains_eq_any_beq, List.any_cons, List.any_nil, Bool.or_false,
        Bool.or_eq_true, beq_iff_eq] at htag
      show 1 ≤ headerLevel _ ∧ headerLevel _ ≤ 3
      rcases htag with h | h | h | h | h | h <;> rw [h] <;> decide
    · split at hb
      · split at hb
        · split at hb <;> (simp only [List.mem_singleton] at hb; subst hb; trivial)
        · cases hb
      · split at hb
        · simp only [List.mem_singleton] at hb
          subst hb
          show "insight".toList ∈ calloutVariants
          decide
        · split at hb
          · split at hb
            · rename_i hpos
              simp only [List.mem_singleton] at hb
              subst hb
              intro h0
              rw [h0] at hpos
              exact absurd hpos (by decide)
            · cases hb
          · split at hb
            · simp only [List.mem_singleton] at hb; subst hb; trivial
            · split at hb
              · simp only [List.mem_singleton] at hb; subst hb; trivial
              · split at hb
                · simp only [List.mem_singleton] at hb; subst hb; trivial
                · split at hb
                  · exact processNodes_wellFormed env children b hb
                  · split at hb
                    · simp only [List.mem_singleton] at hb; subst hb; trivial
                    · cases hb
theorem processNodes_wellFormed (env : Env) :
    ∀ (ns : List Node), ∀ b ∈ processNodes env ns, b.WellFormed
  | [] => by
    intro b hb
    unfold processNodes at hb
    cases hb
  | n :: ns => by
    intro b hb
    unfold processNodes at hb
    rcases List.mem_append.1 hb with h | h
    · exact processNode_wellFormed env n b h
    · exact processNodes_wellFormed env ns b h
end

/-- The part `\s*(.*?)(?:::)?$` of the callout pattern can match the whole of
`s`: white space, characters that are no line terminators, and then nothing
or two colons. -/
def CalloutTailOk (s : Str) : Prop :=
  ∃ j1 j2, RepOk isWhiteSpace 0 none 0 s j1 ∧ RepOk isDot 0 none 0 (s.drop j1) j2 ∧
    ((s.drop j1).drop j2 = [] ∨ (s.drop j1).drop j2 = "::".toList)

/-- The line opens neither a code fence nor a callout. -/
def NoOpener (l : Str) : Prop :=
  startsWith fence (trim l) = false ∧ startsWith marker (trim l) = false

/-! ## The inline renderer (source lines 503 to 570) -/

/-- An entry of the array `parts` of `renderInlineMarkdown`: a string, or one
of the elements that the function builds (the `key` and the styles left
out). -/
inductive Inline where
  | text (s : Str) : Inline
  | strongEm (s : Str) : Inline
  | strong (s : Str) : Inline
  | em (s : Str) : Inline
  | code (s : Str) : Inline
  | link (href : Str) (s : Str) : Inline
deriving DecidableEq, Repr

/-- The pattern of source line 511, which has the `g` flag:
`(\*\*\*(.+?)\*\*\*|\*\*(.+?)\*\*|\*(.+?)\*|B(.+?)B|\[([^\]]+)\]\(([^)]+)\))`,
with a backtick for `B`. -/
def reInline : Re :=
  .cap 1 (.alt
    (Re.cat [Re.lit "***".toList, .cap 2 (.rep isDot 1 none false), Re.lit "***".toList])
    (.alt (Re.cat [Re.lit "**".toList, .cap 3 (.rep isDot 1 none false), Re.lit "**".toList])
    (.alt (Re.cat [Re.lit "*".toList, .cap 4 (.rep isDot 1 none false), Re.lit "*".toList])
    (.alt (Re.cat [Re.lit "`".toList, .cap 5 (.rep isDot 1 none false), Re.lit "`".toList])
      (Re.cat [Re.lit "[".toList, .cap 6 (.rep (isNot ']') 1 none true), Re.lit "](".toList,
        .cap 7 (.rep (isNot ')') 1 none true), Re.lit ")".toList])))))

/-- A capture that is truthy: defined and not empty. -/
def truthy (a : Option Str) : Option Str := a.filter (fun s => !s.isEmpty)

/-- What one match adds to `parts` (source lines 524 to 557). -/
def inlinePart (m : Match) : List Inline :=
  match truthy (m.group 2) with
  | some s => [.strongEm s]
  | none =>
    match truthy (m.group 3) with
    | some s => [.strong s]
    | none =>
      match truthy (m.group 4) with
      | some s => [.em s]
      | none =>
        match truthy (m.group 5) with
        | some s => [.code s]
        | none =>
          match truthy (m.group 6), truthy (m.group 7) with
          | some s, some href => [.link href s]
          | _, _ => []

/-- The loop `while ((match = pattern.exec(text)) !== null)` with the push of
the remaining text after it (source lines 516 to 567): `rest` is the text from
`lastIndex` on.  `none` when the fuel does not suffice. -/
def inlineLoop : Nat → Nat → Str → Option (List Inline)
  | 0, _, _ => none
  | fuel + 1, lastIndex, rest =>
    match reInline.execFrom lastIndex rest with
    | none => some (if rest.isEmpty then [] else [.text rest])
    | some m =>
      match inlineLoop fuel m.stop m.after with
      | none => none
      | some parts =>
        some ((if lastIndex < m.index then [Inline.text (rest.take (m.index - lastIndex))]
          else []) ++ inlinePart m ++ parts)

/-- What `renderInlineMarkdown` returns: `null`, the array `parts`, or the
text itself. -/
inductive Rendered where
  | null : Rendered
  | parts (ps : List Inline) : Rendered
  | raw (text : Str) : Rendered
deriving DecidableEq, Repr

/-- The function `renderInlineMarkdown` (source lines 503 to 570). -/
def renderInlineMarkdown (fuel : Nat) (text : Str) : Option Rendered :=
  if text.isEmpty then some .null
  else
    match inlineLoop fuel 0 text with
    | none => none
    | some parts => some (if 0 < parts.length then .parts parts else .raw text)

/-- The inline markup of a part: what `getTextWithFormatting` writes for the
element that the part stands for. -/
def Inline.markup : Inline → Str
  | .text s => s
  | .strongEm s => "***".toList ++ s ++ "***".toList
  | .strong s => "**".toList ++ s ++ "**".toList
  | .em s => "*".toList ++ s ++ "*".toList
  | .code s => "`".toList ++ s ++ "`".toList
  | .link href s => "[".toList ++ s ++ "](".toList ++ href ++ ")".toList

/-- The node re-serialises from the part: a text node with the same text; an
element `strong` or `b`, `em` or `i`, `code`, or `a` with a `href`, around
one text node, with the same mark, text and `href`; or a `strong` or `b`
around one `em` or `i` around one text node for the bold italic part. -/
def Represents (env : Env) (n : Node) : Inline → Prop
  | .text s => n = .text s
  | .strongEm s => ∃ tagName attrs inner attrs2,
      n = .element tagName attrs [.element inner attrs2 [.text s]] ∧
      (toLowerCase env tagName = "strong".toList ∨ toLowerCase env tagName = "b".toList) ∧
      (toLowerCase env inner = "em".toList ∨ toLowerCase env inner = "i".toList)
  | .strong s => ∃ tagName attrs, n = .element tagName attrs [.text s] ∧
      (toLowerCase env tagName = "strong".toList ∨ toLowerCase env tagName = "b".toList)
  | .em s => ∃ tagName attrs, n = .element tagName attrs [.text s] ∧
      (toLowerCase env tagName = "em".toList ∨ toLowerCase env tagName = "i".toList)
  | .code s => ∃ tagName attrs, n = .element tagName attrs [.text s] ∧
      toLowerCase env tagName = "code".toList
  | .link href s => ∃ tagName attrs, n = .element tagName attrs [.text s] ∧
      toLowerCase env tagName = "a".toList ∧ getAttribute "href".toList attrs = some href

/-- The texts on which the round trip holds: a literal text is not empty and
holds no `*`, backtick or `[`; the text of a bold or italic part is not empty
and holds no `*` and no line terminator; that of a code part is not empty and
holds no backtick and no line terminator; the text of a link is not empty and
holds no `]`, its `href` is not empty and holds no `)`. -/
def Inline.Plain : Inline → Prop
  | .text s => s ≠ [] ∧ ∀ c ∈ s, c ≠ '*' ∧ c ≠ Char.ofNat 96 ∧ c ≠ '['
  | .strongEm s => s ≠ [] ∧ ∀ c ∈ s, c ≠ '*' ∧ isLineTerminator c = false
  | .strong s => s ≠ [] ∧ ∀ c ∈ s, c ≠ '*' ∧ isLineTerminator c = false
  | .em s => s ≠ [] ∧ ∀ c ∈ s, c ≠ '*' ∧ isLineTerminator c = false
  | .code s => s ≠ [] ∧ ∀ c ∈ s, c ≠ Char.ofNat 96 ∧ isLineTerminator c = false
  | .link href s => s ≠ [] ∧ (∀ c ∈ s, c ≠ ']') ∧ href ≠ [] ∧ ∀ c ∈ href, c ≠ ')'

/-- Whether the part is a literal text. -/
def Inline.isText : Inline → Bool
  | .text _ => true
  | _ => false

/-- No two literal texts follow each other. -/
def NoAdjacentTexts : List Inline → Prop
  | [] => True
  | [_] => True
  | a :: b :: rest => (a.isText = false ∨ b.isText = false) ∧ NoAdjacentTexts (b :: rest)

/-- What the statement of a match says: it starts at `pos`, spans the markup
of the part, and adds the part to `parts`. -/
def MatchesPart (pos : Nat) (p : Inline) (R : Str) : Prop :=
  ∃ m, reInline.matchAt pos (p.markup ++ R) = some m ∧ m.index = pos ∧
    m.stop = pos + p.markup.length ∧ m.after = R ∧ inlinePart m = [p]

/-- The container tags of source line 440. -/
def containerTags : List Str :=
  ["div".toList, "article".toList, "section".toList, "main".toList, "span".toList]

/-- The nodes `ns` inside `k` nested `div` elements. -/
def nest : Nat → List Node → List Node
  | 0, ns => ns
  | k + 1, ns => [.element "div".toList [] (nest k ns)]

/-- The delimiters that the specification gives for a mark: two asterisks for
`strong` and `b`, one for `em` and `i`, a backtick for `code`. -/
def markDelimiter (tag : Str) : Option Str :=
  if tag ∈ ["strong".toList, "b".toList] then some "**".toList
  else if tag ∈ ["em".toList, "i".toList] then some "*".toList
  else if tag = "code".toList then some "`".toList
  else none

mutual
/-- The reference definition of the inline conversion, after the words of the
specification: what a child node contributes. -/
def conv (env : Env) : Node → Str
  | .text data => data
  | .other => []
  | .element tagName attrs children =>
    match markDelimiter (toLowerCase env tagName) with
    | some d => d ++ convAll env children ++ d
    | none =>
      if toLowerCase env tagName = "a".toList then
        match getAttribute "href".toList attrs with
        | some (c :: cs) =>
          "[".toList ++ convAll env children ++ "](".toList ++ (c :: cs) ++ ")".toList
        | _ => convAll env children
      else if toLowerCase env tagName = "br".toList then " ".toList
      else convAll env children
/-- The reference definition: the concatenation over the child nodes, in
document order. -/
def convAll (env : Env) : List Node → Str
  | [] => []
  | n :: ns => conv env n ++ convAll env ns
end

mutual
theorem formatChild_eq_conv (env : Env) : ∀ (n : Node), formatChild env n = conv env n
  | .text data => by rw [formatChild, conv]
  | .other => by rw [formatChild, conv]
  | .element tagName attrs children => by
    have ih := getTextWithFormatting_eq_convAll env children
    have e1 : fence.take 1 = "`".toList := by decide
    rw [formatChild, conv]
    simp only [ih, markDelimiter, List.mem_cons, List.mem_singleton, List.not_mem_nil, or_false,
      Bool.or_eq_true, decide_eq_true_eq, e1]
    by_cases h1 : toLowerCase env tagName = "strong".toList ∨ toLowerCase env tagName = "b".toList
    · simp only [h1, if_true]
    · simp only [h1, if_false]
      by_cases h2 : toLowerCase env tagName = "em".toList ∨ toLowerCase env tagName = "i".toList
      · simp only [h2, if_true]
      · simp only [h2, if_false]
        by_cases h3 : toLowerCase env tagName = "code".toList
        · simp only [h3, if_true]
        · simp only [h3, if_false]
          by_cases h4 : toLowerCase env tagName = "a".toList
          · simp only [h4, if_true]
            cases getAttribute "href".toList attrs with
            | none => rfl
            | some href =>
              cases href with
              | nil => rfl
              | cons c cs => rfl
          · simp only [h4, if_false]
theorem getTextWithFormatting_eq_convAll (env : Env) :
    ∀ (ns : List Node), getTextWithFormatting env ns = convAll env ns
  | [] => by rw [getTextWithFormatting, convAll]
  | n :: ns => by
    rw [getTextWithFormatting, convAll, formatChild_eq_conv env n,
      getTextWithFormatting_eq_convAll env ns]
end

/-- The line is a list item for the list loop: one of the two item patterns
(source lines 237 and 238) matches its trimmed form. -/
def IsListItem (l : Str) : Prop :=
  (reBullet.exec (trim l)).isSome = true ∨ (reNumber.exec (trim l)).isSome = true

instance (l : Str) : Decidable (IsListItem l) := by
  unfold IsListItem
  infer_instance

instance (l : Str) : Decidable (NotListItem l) := by
  unfold NotListItem
  infer_instance

/-- The joined text of the blockquote that starts at the first of the lines
(source lines 207 to 212): the run of lines whose trimmed form starts with
`>`, each without its `>` and the white space after it, joined with a space
and trimmed. -/
def quoteText (lines : List Str) : Str :=
  trim (joinWith " ".toList
    ((lines.takeWhile (fun l => startsWith ">".toList (trim l))).map
      (fun l => reQuoteMark.replaceFirst (trim l) [])))

/-- The number of lines of the blockquote that starts at the first of the
lines. -/
def quoteLength (lines : List Str) : Nat :=
  (lines.takeWhile (fun l => startsWith ">".toList (trim l))).length

/-- The text after the last character of the class of the attribution
pattern; the whole text when it holds no such character. -/
def afterLastDash (s : Str) : Str := s.rtakeWhile (fun c => !isDashClass c)

/-- The text up to and with the last character of the class of the
attribution pattern; empty when the text holds no such character. -/
def uptoLastDash (s : Str) : Str := s.rdropWhile (fun c => !isDashClass c)

/-- The text before the separator: what stands before the last character of
the class, without the character of the class right before that one, if
there is one and it is not the first character of the text. -/
def beforeSeparator (s : Str) : Str :=
  if 2 ≤ (uptoLastDash s).dropLast.length ∧
      (uptoLastDash s).dropLast.getLast?.map isDashClass = some true then
    (uptoLastDash s).dropLast.dropLast
  else (uptoLastDash s).dropLast

/-- The attribution pattern splits the text: its last character of the class
is neither the first nor the last character of the text. -/
def SplitsAtDash (s : Str) : Prop := 2 ≤ (uptoLastDash s).length ∧ afterLastDash s ≠ []

instance (s : Str) : Decidable (SplitsAtDash s) := by
  unfold SplitsAtDash
  infer_instance

/-- Source line 54: `/[^a-z0-9]+/g`. -/
def reSlugRun : Re := .rep (fun c => !(isLower c || isDigit c)) 1 none true

/-- Source line 54: `/(^-|-$)/g`. -/
def reSlugEnds : Re :=
  .cap 1 (.alt (.seq .bol (.chr (is '-'))) (.seq (.chr (is '-')) .eol))

/-- Source line 54: `generateSlug`,
`title.toLowerCase().replace(/[^a-z0-9]+/g, '-').replace(/(^-|-$)/g, '')`. -/
def generateSlug (env : Env) (title : Str) : Str :=
  reSlugEnds.replaceAll (reSlugRun.replaceAll (toLowerCase env title) "-".toList) []

/-- A character of `[a-z0-9]`. -/
def isSlugChar (c : Char) : Bool := isLower c || isDigit c

/-- The text with every maximal run of characters outside `[a-z0-9]` replaced
by one `-`; `inRun` tells that the character before the text was outside
`[a-z0-9]`. -/
def collapseRuns : Bool → Str → Str
  | _, [] => []
  | inRun, c :: cs =>
    if isSlugChar c then c :: collapseRuns false cs
    else if inRun then collapseRuns true cs
    else '-' :: collapseRuns true cs

/-- The text without its last character, if that is `-`. -/
def dropEndDash : Str → Str
  | [] => []
  | [c] => if c = '-' then [] else [c]
  | c :: d :: r => c :: dropEndDash (d :: r)

/-- The text without a `-` at its start and without a `-` at the end of what
is left. -/
def stripEnds : Str → Str
  | [] => []
  | c :: cs => if c = '-' then dropEndDash cs else c :: dropEndDash cs

/-- A clean slug: only characters of `[a-z0-9]` and `-`, no `-` at the start
or at the end, and no two `-` next to each other. -/
def IsSlug (x : Str) : Prop :=
  (∀ c ∈ x, isSlugChar c = true ∨ c = '-') ∧ x.head? ≠ some '-' ∧ x.getLast? ≠ some '-' ∧
    List.Chain' (fun a b => ¬ (a = '-' ∧ b = '-')) x

instance (x : Str) : Decidable (IsSlug x) := by
  unfold IsSlug
  infer_instance

/-- The text consists of one or more non-empty runs of characters from
`[a-z0-9]`, separated by single `-` characters. -/
def IsRuns (x : Str) : Prop :=
  ∃ runs : List Str, runs ≠ [] ∧ (∀ r ∈ runs, r ≠ [] ∧ ∀ c ∈ r, isSlugChar c = true) ∧
    x = joinWith "-".toList runs

/-- The state of the loop `while (i < lines.length)` (source line 127) after
`n` passes, or at its end if that comes first: the blocks pushed so far and
the lines from the cursor on. -/
def passes (env : Env) : Nat → List Str → List Block × List Str
  | 0, lines => ([], lines)
  | _ + 1, [] => ([], [])
  | n + 1, l :: ls =>
    ((step env (l :: ls)).1 ++ (passes env n ((l :: ls).drop (step env (l :: ls)).2)).1,
      (passes env n ((l :: ls).drop (step env (l :: ls)).2)).2)

/-- The line opens a code fence or a callout: its trimmed form starts with
three backticks or with `:::`. -/
def IsOpener (l : Str) : Prop :=
  startsWith fence (trim l) = true ∨ startsWith marker (trim l) = true

instance (l : Str) : Decidable (IsOpener l) := by
  unfold IsOpener
  infer_instance

instance (l : Str) : Decidable (NoOpener l) := by
  unfold NoOpener
  infer_instance

/-- The text after the last dash of the text (hyphen-minus, en dash or em
dash); the whole text when it holds no dash. -/
def afterLastDashLike (s : Str) : Str := s.rtakeWhile (fun c => !isDashLike c)

/-- The text up to and with the last dash of the text; empty when the text
holds no dash. -/
def uptoLastDashLike (s : Str) : Str := s.rdropWhile (fun c => !isDashLike c)

/-- The text before the last separator: what stands before the last dash,
without the dash right before that one, if there is one and it is not the
first character of the text. -/
def beforeSeparatorLike (s : Str) : Str :=
  if 2 ≤ (uptoLastDashLike s).dropLast.length ∧
      (uptoLastDashLike s).dropLast.getLast?.map isDashLike = some true then
    (uptoLastDashLike s).dropLast.dropLast
  else (uptoLastDashLike s).dropLast

/-- The text holds no dash other than the hyphen-minus and none of the
characters U+201A, U+00C4, U+00EE and U+00EC that the class of the pattern on
source line 215 holds. -/
def PlainDashes (s : Str) : Prop :=
  ∀ c ∈ s, c = '-' ∨ (isDashLike c = false ∧ isDashClass c = false)

instance (s : Str) : Decidable (PlainDashes s) := by
  unfold PlainDashes
  infer_instance

/-- The parts are the scan of their own markup from index `pos` on, as the
loop of `renderInlineMarkdown` makes it: at no index inside a literal part
does the pattern match, and any other part is what the pattern matches at
the index where the part starts, the next part starting where that match
ends. -/
def IsScan : Nat → List Inline → Prop
  | _, [] => True
  | pos, p :: ps =>
    (if p.isText then
        p.markup ≠ [] ∧ ∀ j, j < p.markup.length →
          reInline.matchAt (pos + j) (((p :: ps).map Inline.markup).flatten.drop j) = none
      else
        ∃ m, reInline.matchAt pos ((p :: ps).map Inline.markup).flatten = some m ∧
          inlinePart m = [p] ∧ m.after = (ps.map Inline.markup).flatten) ∧
    IsScan (pos + p.markup.length) ps

/-! # Part II: theorems -/

/-! ## The matcher: soundness, completeness and priority -/

theorem belowMax_iff (n : Nat) (hi : Option Nat) : belowMax n hi = true ↔ withinMax (n + 1) hi := by
  cases hi <;> simp [belowMax, withinMax, Nat.lt_iff_add_one_le]

theorem repOk_zero (p : Char → Bool) (lo : Nat) (hi : Option Nat) (n : Nat) (rest : Str)
    (h : lo ≤ n) : RepOk p lo hi n rest 0 := by
  refine ⟨Nat.zero_le _, ?_, by simpa using h, Or.inl rfl⟩
  intro c hc
  simp at hc

theorem repOk_succ {p : Char → Bool} {lo : Nat} {hi : Option Nat} {n : Nat} {c : Char} {cs : Str}
    {j : Nat} (hp : p c = true) (hb : belowMax n hi = true) (h : RepOk p lo hi (n + 1) cs j) :
    RepOk p lo hi n (c :: cs) (j + 1) := by
  obtain ⟨h1, h2, h3, h4⟩ := h
  refine ⟨by simpa using h1, ?_, by omega, Or.inr ?_⟩
  · intro x hx
    simp only [List.take_succ_cons, List.mem_cons] at hx
    rcases hx with rfl | hx
    · exact hp
    · exact h2 x hx
  · rcases h4 with rfl | h4
    · simpa using (belowMax_iff n hi).1 hb
    · have : n + (j + 1) = n + 1 + j := by omega
      rw [this]; exact h4

theorem repOk_of_succ {p : Char → Bool} {lo : Nat} {hi : Option Nat} {n : Nat} {c : Char} {cs : Str}
    {j : Nat} (h : RepOk p lo hi n (c :: cs) (j + 1)) :
    p c = true ∧ belowMax n hi = true ∧ RepOk p lo hi (n + 1) cs j := by
  obtain ⟨h1, h2, h3, h4⟩ := h
  have hw : withinMax (n + (j + 1)) hi := by
    rcases h4 with h4 | h4
    · omega
    · exact h4
  refine ⟨h2 c (by simp), ?_, ?_, ?_, by omega, ?_⟩
  · rw [belowMax_iff]
    cases hi with
    | none => trivial
    | some h => simp only [withinMax] at hw ⊢; omega
  · simpa using h1
  · intro x hx
    exact h2 x (by simp [hx])
  · right
    have : n + 1 + j = n + (j + 1) := by omega
    rw [this]; exact hw

/-- Soundness of the quantifier: a result comes from an admissible count. -/
theorem repRun_sound (p : Char → Bool) (lo : Nat) (hi : Option Nat) (g : Bool)
    (caps : List (Option Str)) (k : MState → Option MState) :
    ∀ (rest : Str) (pos n : Nat) (x : MState), repRun p lo hi g caps k rest pos n = some x →
      ∃ j, RepOk p lo hi n rest j ∧ k ⟨pos + j, rest.drop j, caps⟩ = some x := by
  intro rest
  induction rest with
  | nil =>
    intro pos n x h
    simp only [repRun] at h
    split at h
    · exact ⟨0, repOk_zero p lo hi n [] (by assumption), by simpa using h⟩
    · cases h
  | cons c cs ih =>
    intro pos n x h
    have stopCase : ∀ y, (if lo ≤ n then k ⟨pos, c :: cs, caps⟩ else none) = some y →
        ∃ j, RepOk p lo hi n (c :: cs) j ∧ k ⟨pos + j, (c :: cs).drop j, caps⟩ = some y := by
      intro y hy
      split at hy
      · exact ⟨0, repOk_zero p lo hi n _ (by assumption), by simpa using hy⟩
      · cases hy
    have moreCase : ∀ y, (if (p c && belowMax n hi) = true
          then repRun p lo hi g caps k cs (pos + 1) (n + 1) else none) = some y →
        ∃ j, RepOk p lo hi n (c :: cs) j ∧ k ⟨pos + j, (c :: cs).drop j, caps⟩ = some y := by
      intro y hy
      split at hy
      · rename_i hc
        simp only [Bool.and_eq_true] at hc
        obtain ⟨j, hj, hk⟩ := ih (pos + 1) (n + 1) y hy
        refine ⟨j + 1, repOk_succ hc.1 hc.2 hj, ?_⟩
        have : pos + (j + 1) = pos + 1 + j := by omega
        rw [this]
        simpa using hk
      · cases hy
    simp only [repRun] at h
    cases g with
    | true =>
      simp only [if_true] at h
      split at h
      · rename_i r hr
        cases h
        exact moreCase _ hr
      · exact stopCase _ h
    | false =>
      simp only [Bool.false_eq_true, if_false] at h
      split at h
      · rename_i r hr
        cases h
        exact stopCase _ hr
      · exact moreCase _ h

/-- Completeness of the quantifier: an admissible count on which the
continuation succeeds makes the quantifier succeed. -/
theorem repRun_complete (p : Char → Bool) (lo : Nat) (hi : Option Nat) (g : Bool)
    (caps : List (Option Str)) (k : MState → Option MState) :
    ∀ (rest : Str) (pos n j : Nat), RepOk p lo hi n rest j →
      (k ⟨pos + j, rest.drop j, caps⟩).isSome = true →
      (repRun p lo hi g caps k rest pos n).isSome = true := by
  intro rest
  induction rest with
  | nil =>
    intro pos n j hj hk
    have hj0 : j = 0 := by have := hj.1; simpa using this
    subst hj0
    have hlo : lo ≤ n := by simpa using hj.2.2.1
    simpa [repRun, hlo] using hk
  | cons c cs ih =>
    intro pos n j hj hk
    simp only [repRun]
    cases j with
    | zero =>
      have hlo : lo ≤ n := by simpa using hj.2.2.1
      simp only [Nat.add_zero, List.drop_zero] at hk
      simp only [hlo, if_true]
      cases g <;> simp only [Bool.false_eq_true, if_true, if_false]
      · split
        · rfl
        · rename_i h0
          rw [h0] at hk
          cases hk
      · split
        · rfl
        · exact hk
    | succ j =>
      obtain ⟨hc, hb, hj'⟩ := repOk_of_succ hj
      have hk' : (k ⟨pos + 1 + j, cs.drop j, caps⟩).isSome = true := by
        have : pos + (j + 1) = pos + 1 + j := by omega
        rw [this] at hk
        simpa using hk
      have hm := ih (pos + 1) (n + 1) j hj' hk'
      simp only [hc, hb, Bool.and_self, if_true]
      cases g <;> simp only [Bool.false_eq_true, if_true, if_false]
      · split
        · rfl
        · exact hm
      · split
        · rfl
        · rename_i h0
          rw [h0] at hm
          cases hm

/-- A greedy quantifier stops at the longest admissible count when the
continuation succeeds there. -/
theorem repRun_greedy (p : Char → Bool) (lo : Nat) (hi : Option Nat)
    (caps : List (Option Str)) (k : MState → Option MState) (x : MState) :
    ∀ (rest : Str) (pos n j : Nat), RepOk p lo hi n rest j →
      (∀ c, rest.get? j = some c → p c = false ∨ hi = some (n + j)) →
      k ⟨pos + j, rest.drop j, caps⟩ = some x →
      repRun p lo hi true caps k rest pos n = some x := by
  intro rest
  induction rest with
  | nil =>
    intro pos n j hj _ hk
    have hj0 : j = 0 := by have := hj.1; simpa using this
    subst hj0
    have hlo : lo ≤ n := by simpa using hj.2.2.1
    simpa [repRun, hlo] using hk
  | cons c cs ih =>
    intro pos n j hj hmax hk
    simp only [repRun, if_true]
    cases j with
    | zero =>
      have hlo : lo ≤ n := by simpa using hj.2.2.1
      have hno : (p c && belowMax n hi) = false := by
        rcases hmax c (by simp) with h | h
        · simp [h]
        · simp [h, belowMax]
      simp only [hno, Bool.false_eq_true, if_false, hlo, if_true]
      simpa using hk
    | succ j =>
      obtain ⟨hc, hb, hj'⟩ := repOk_of_succ hj
      have hk' : k ⟨pos + 1 + j, cs.drop j, caps⟩ = some x := by
        have : pos + (j + 1) = pos + 1 + j := by omega
        rw [this] at hk
        simpa using hk
      have hmax' : ∀ c', cs.get? j = some c' → p c' = false ∨ hi = some (n + 1 + j) := by
        intro c' hc'
        have := hmax c' (by simpa using hc')
        have e : n + (j + 1) = n + 1 + j := by omega
        rwa [e] at this
      have hm := ih (pos + 1) (n + 1) j hj' hmax' hk'
      simp only [hc, hb, Bool.and_self, if_true, hm]

/-- A lazy quantifier stops at the first admissible count on which the
continuation succeeds. -/
theorem repRun_lazy (p : Char → Bool) (lo : Nat) (hi : Option Nat)
    (caps : List (Option Str)) (k : MState → Option MState) (x : MState) :
    ∀ (rest : Str) (pos n j : Nat), RepOk p lo hi n rest j →
      (∀ i, i < j → lo ≤ n + i → k ⟨pos + i, rest.drop i, caps⟩ = none) →
      k ⟨pos + j, rest.drop j, caps⟩ = some x →
      repRun p lo hi false caps k rest pos n = some x := by
  intro rest
  induction rest with
  | nil =>
    intro pos n j hj _ hk
    have hj0 : j = 0 := by have := hj.1; simpa using this
    subst hj0
    have hlo : lo ≤ n := by simpa using hj.2.2.1
    simpa [repRun, hlo] using hk
  | cons c cs ih =>
    intro pos n j hj hmin hk
    simp only [repRun, Bool.false_eq_true, if_false]
    cases j with
    | zero =>
      have hlo : lo ≤ n := by simpa using hj.2.2.1
      simp only [Nat.add_zero, List.drop_zero] at hk
      simp only [hlo, if_true, hk]
    | succ j =>
      obtain ⟨hc, hb, hj'⟩ := repOk_of_succ hj
      have hk' : k ⟨pos + 1 + j, cs.drop j, caps⟩ = some x := by
        have : pos + (j + 1) = pos + 1 + j := by omega
        rw [this] at hk
        simpa using hk
      have hmin' : ∀ i, i < j → lo ≤ n + 1 + i → k ⟨pos + 1 + i, cs.drop i, caps⟩ = none := by
        intro i hi' hlo
        have := hmin (i + 1) (by omega) (by omega)
        have e : pos + (i + 1) = pos + 1 + i := by omega
        rw [e] at this
        simpa using this
      have hm := ih (pos + 1) (n + 1) j hj' hmin' hk'
      have hstop : (if lo ≤ n then k ⟨pos, c :: cs, caps⟩ else none) = none := by
        split
        · have := hmin 0 (by omega) (by omega)
          simpa using this
        · rfl
      simp only [hstop, hc, hb, Bool.and_self, if_true, hm]

/-- A quantifier fails when the continuation fails on every admissible count. -/
theorem repRun_none (p : Char → Bool) (lo : Nat) (hi : Option Nat) (g : Bool)
    (caps : List (Option Str)) (k : MState → Option MState) (rest : Str) (pos n : Nat)
    (h : ∀ j, RepOk p lo hi n rest j → k ⟨pos + j, rest.drop j, caps⟩ = none) :
    repRun p lo hi g caps k rest pos n = none := by
  cases hr : repRun p lo hi g caps k rest pos n with
  | none => rfl
  | some x =>
    obtain ⟨j, hj, hk⟩ := repRun_sound p lo hi g caps k rest pos n x hr
    rw [h j hj] at hk
    cases hk

/-- Soundness of the matcher: a result comes from a successful path. -/
theorem Re.run_sound (r : Re) :
    ∀ (s : MState) (k : MState → Option MState) (x : MState), r.run s k = some x →
      ∃ s', r.Matches s s' ∧ k s' = some x := by
  induction r with
  | eps => intro s k x h; exact ⟨s, rfl, h⟩
  | chr p =>
    intro s k x h
    simp only [Re.run] at h
    split at h
    · cases h
    · rename_i c cs hrest
      split at h
      · exact ⟨_, ⟨c, cs, hrest, by assumption, rfl⟩, h⟩
      · cases h
  | seq a b iha ihb =>
    intro s k x h
    simp only [Re.run] at h
    obtain ⟨m, hm, hk⟩ := iha s _ x h
    obtain ⟨s', hs', hk'⟩ := ihb m k x hk
    exact ⟨s', ⟨m, hm, hs'⟩, hk'⟩
  | alt a b iha ihb =>
    intro s k x h
    simp only [Re.run] at h
    split at h
    · rename_i r hr
      cases h
      obtain ⟨s', hs', hk'⟩ := iha s k _ hr
      exact ⟨s', Or.inl hs', hk'⟩
    · obtain ⟨s', hs', hk'⟩ := ihb s k x h
      exact ⟨s', Or.inr hs', hk'⟩
  | opt a iha =>
    intro s k x h
    simp only [Re.run] at h
    split at h
    · rename_i r hr
      cases h
      obtain ⟨s', hs', hk'⟩ := iha s k _ hr
      exact ⟨s', Or.inl hs', hk'⟩
    · exact ⟨s, Or.inr rfl, h⟩
  | rep p lo hi g =>
    intro s k x h
    simp only [Re.run] at h
    obtain ⟨j, hj, hk⟩ := repRun_sound p lo hi g s.caps k s.rest s.pos 0 x h
    exact ⟨_, ⟨j, hj, rfl⟩, hk⟩
  | cap i a iha =>
    intro s k x h
    simp only [Re.run] at h
    obtain ⟨m, hm, hk⟩ := iha s _ x h
    exact ⟨_, ⟨m, hm, rfl⟩, hk⟩
  | bol =>
    intro s k x h
    simp only [Re.run] at h
    split at h
    · exact ⟨s, ⟨by assumption, rfl⟩, h⟩
    · cases h
  | eol =>
    intro s k x h
    simp only [Re.run] at h
    split at h
    · exact ⟨s, ⟨by assumption, rfl⟩, h⟩
    · cases h

/-- Completeness of the matcher: a successful path on whose end state the
continuation succeeds makes the matcher succeed. -/
theorem Re.run_complete (r : Re) :
    ∀ (s s' : MState) (k : MState → Option MState), r.Matches s s' → (k s').isSome = true →
      (r.run s k).isSome = true := by
  induction r with
  | eps => intro s s' k h hk; cases h; exact hk
  | chr p =>
    intro s s' k h hk
    obtain ⟨c, cs, hrest, hp, rfl⟩ := h
    simp only [Re.run, hrest, hp, if_true]
    exact hk
  | seq a b iha ihb =>
    intro s s' k h hk
    obtain ⟨m, hm, hs'⟩ := h
    simp only [Re.run]
    exact iha s m _ hm (ihb m s' k hs' hk)
  | alt a b iha ihb =>
    intro s s' k h hk
    simp only [Re.run]
    split
    · rfl
    · rename_i hnone
      rcases h with h | h
      · have := iha s s' k h hk
        rw [hnone] at this
        cases this
      · exact ihb s s' k h hk
  | opt a iha =>
    intro s s' k h hk
    simp only [Re.run]
    split
    · rfl
    · rename_i hnone
      rcases h with h | h
      · have := iha s s' k h hk
        rw [hnone] at this
        cases this
      · cases h; exact hk
  | rep p lo hi g =>
    intro s s' k h hk
    obtain ⟨j, hj, rfl⟩ := h
    simp only [Re.run]
    exact repRun_complete p lo hi g s.caps k s.rest s.pos 0 j hj hk
  | cap i a iha =>
    intro s s' k h hk
    obtain ⟨m, hm, rfl⟩ := h
    simp only [Re.run]
    exact iha s m _ hm hk
  | bol =>
    intro s s' k h hk
    obtain ⟨h0, rfl⟩ := h
    simp only [Re.run, h0, if_true]
    exact hk
  | eol =>
    intro s s' k h hk
    obtain ⟨h0, rfl⟩ := h
    simp only [Re.run]
    split
    · exact hk
    · rename_i c cs hrest
      rw [h0] at hrest
      cases hrest

/-- The matcher fails when no path succeeds. -/
theorem Re.run_none (r : Re) (s : MState) (k : MState → Option MState)
    (h : ∀ s', r.Matches s s' → k s' = none) : r.run s k = none := by
  cases hr : r.run s k with
  | none => rfl
  | some x =>
    obtain ⟨s', hs', hk⟩ := r.run_sound s k x hr
    rw [h s' hs'] at hk
    cases hk

/-! ## Searching and literals -/

theorem Re.execFrom_of_matchAt (r : Re) (pos : Nat) (rest : Str) (m : Match)
    (h : r.matchAt pos rest = some m) : r.execFrom pos rest = some m := by
  cases rest with
  | nil => simpa [Re.execFrom] using h
  | cons c cs => simp [Re.execFrom, h]

/-- A search that succeeds found a match at some index. -/
theorem Re.execFrom_sound (r : Re) (m : Match) :
    ∀ (rest : Str) (pos : Nat), r.execFrom pos rest = some m →
      ∃ i, i ≤ rest.length ∧ r.matchAt (pos + i) (rest.drop i) = some m := by
  intro rest
  induction rest with
  | nil =>
    intro pos h
    exact ⟨0, Nat.le_refl _, by simpa [Re.execFrom] using h⟩
  | cons c cs ih =>
    intro pos h
    simp only [Re.execFrom] at h
    split at h
    · rename_i m' hm'
      cases h
      exact ⟨0, Nat.zero_le _, by simpa using hm'⟩
    · obtain ⟨i, hi, hm⟩ := ih (pos + 1) h
      refine ⟨i + 1, by simpa using hi, ?_⟩
      have e : pos + (i + 1) = pos + 1 + i := by omega
      rw [e]
      simpa using hm

/-- A match at some index makes the search succeed. -/
theorem Re.execFrom_complete (r : Re) :
    ∀ (rest : Str) (pos i : Nat), i ≤ rest.length →
      (r.matchAt (pos + i) (rest.drop i)).isSome = true → (r.execFrom pos rest).isSome = true := by
  intro rest
  induction rest with
  | nil =>
    intro pos i hi h
    have hi0 : i = 0 := by simpa using hi
    subst hi0
    simpa [Re.execFrom] using h
  | cons c cs ih =>
    intro pos i hi h
    simp only [Re.execFrom]
    split
    · rfl
    · rename_i hnone
      cases i with
      | zero =>
        simp only [Nat.add_zero, List.drop_zero] at h
        rw [hnone] at h
        cases h
      | succ i =>
        have e : pos + (i + 1) = pos + 1 + i := by omega
        rw [e] at h
        exact ih (pos + 1) i (by simpa using hi) (by simpa using h)

/-- A search that finds nothing at any index fails. -/
theorem Re.execFrom_none (r : Re) (rest : Str) (pos : Nat)
    (h : ∀ i, i ≤ rest.length → r.matchAt (pos + i) (rest.drop i) = none) :
    r.execFrom pos rest = none := by
  cases hr : r.execFrom pos rest with
  | none => rfl
  | some m =>
    obtain ⟨i, hi, hm⟩ := r.execFrom_sound m rest pos hr
    rw [h i hi] at hm
    cases hm

theorem Re.matchAt_bol_none (r : Re) (pos : Nat) (rest : Str) (h : 0 < pos) :
    (Re.seq .bol r).matchAt pos rest = none := by
  have : pos ≠ 0 := by omega
  simp [Re.matchAt, Re.run, this]

/-- A pattern that starts with `^` matches at index 0 or not at all. -/
theorem Re.exec_bol (r : Re) (s : Str) : (Re.seq .bol r).exec s = (Re.seq .bol r).matchAt 0 s := by
  have hnone : ∀ (rest : Str) (pos : Nat), 0 < pos → (Re.seq .bol r).execFrom pos rest = none := by
    intro rest pos hpos
    apply Re.execFrom_none
    intro i _
    exact Re.matchAt_bol_none r _ _ (by omega)
  cases s with
  | nil => rfl
  | cons c cs =>
    simp only [Re.exec, Re.execFrom]
    split
    · rename_i m hm; rw [hm]
    · rename_i hm; rw [hm]; exact hnone cs 1 (by omega)

theorem Re.run_lit (w : Str) : ∀ (pos : Nat) (b : Str) (caps : List (Option Str))
    (k : MState → Option MState),
    (Re.lit w).run ⟨pos, w ++ b, caps⟩ k = k ⟨pos + w.length, b, caps⟩ := by
  induction w with
  | nil => intro pos b caps k; rfl
  | cons c cs ih =>
    intro pos b caps k
    simp only [Re.lit, Re.run, List.cons_append, beq_self_eq_true, if_true, ih, List.length_cons]
    congr 2
    omega

theorem Re.lit_matches (w : Str) : ∀ (s s' : MState),
    (Re.lit w).Matches s s' ↔ ∃ b, s.rest = w ++ b ∧ s' = ⟨s.pos + w.length, b, s.caps⟩ := by
  induction w with
  | nil =>
    intro s s'
    simp only [Re.lit, Re.Matches, List.nil_append, List.length_nil, Nat.add_zero]
    constructor
    · intro h; exact ⟨s.rest, rfl, by rw [h]⟩
    · rintro ⟨b, hb, h⟩; rw [h]; cases s; simp_all
  | cons c cs ih =>
    intro s s'
    simp only [Re.lit, Re.Matches, ih]
    constructor
    · rintro ⟨m, ⟨c', cs', hrest, hc, rfl⟩, b, hb, rfl⟩
      simp only [beq_iff_eq] at hc
      subst hc
      simp only at hb
      refine ⟨b, by simp [hrest, hb], ?_⟩
      simp only [List.length_cons, MState.mk.injEq, and_true]
      omega
    · rintro ⟨b, hb, rfl⟩
      refine ⟨⟨s.pos + 1, cs ++ b, s.caps⟩, ⟨c, cs ++ b, by simpa using hb, by simp, rfl⟩, b, rfl, ?_⟩
      simp only [List.length_cons, MState.mk.injEq, and_true]
      omega

/-! ## Strings -/

theorem trimEnd_eq (s : Str) : trimEnd s = s.rdropWhile isWhiteSpace := rfl

theorem trimStart_append_ws (w s : Str) (hw : AllWs w) : trimStart (w ++ s) = trimStart s := by
  unfold trimStart
  exact List.dropWhile_append_of_pos hw

theorem trimStart_of_head (s : Str) (h : ∀ c, s.head? = some c → isWhiteSpace c = false) :
    trimStart s = s := by
  cases s with
  | nil => rfl
  | cons c cs => simp [trimStart, List.dropWhile, h c rfl]

theorem trimEnd_append_ws (s w : Str) (hw : AllWs w) : trimEnd (s ++ w) = trimEnd s := by
  unfold trimEnd
  rw [List.reverse_append]
  congr 1
  exact List.dropWhile_append_of_pos (by intro a ha; exact hw a (by simpa using ha))

theorem trimEnd_of_last (s : Str) (h : ∀ c, s.getLast? = some c → isWhiteSpace c = false) :
    trimEnd s = s := by
  rw [trimEnd_eq, List.rdropWhile_eq_self_iff]
  intro hl
  have := h (s.getLast hl) (List.getLast?_eq_getLast s hl)
  simp [this]

theorem trimEnd_nil : trimEnd [] = [] := rfl

theorem trim_nil : trim [] = [] := rfl

theorem head?_append_of_ne_nil (a b : Str) (h : a ≠ []) : (a ++ b).head? = a.head? := by
  cases a with
  | nil => exact absurd rfl h
  | cons c cs => rfl

/-- Trimming removes white space around a trimmed core. -/
theorem trim_eq (w1 t w2 : Str) (h1 : AllWs w1) (h2 : AllWs w2) (ht : IsTrimmed t) :
    trim (w1 ++ t ++ w2) = t := by
  unfold trim
  rw [List.append_assoc, trimStart_append_ws _ _ h1]
  by_cases hne : t = []
  · subst hne
    have : trimStart ([] ++ w2) = [] := by
      simp only [List.nil_append, trimStart, List.dropWhile_eq_nil_iff]
      exact h2
    rw [this]; rfl
  · rw [trimStart_of_head, trimEnd_append_ws _ _ h2, trimEnd_of_last _ ht.2]
    intro c hc
    rw [head?_append_of_ne_nil _ _ hne] at hc
    exact ht.1 c hc

theorem trim_of_isTrimmed (t : Str) (ht : IsTrimmed t) : trim t = t := by
  have := trim_eq [] t [] (by intro c hc; cases hc) (by intro c hc; cases hc) ht
  simpa using this

theorem trimEnd_append_rtakeWhile (s : Str) :
    trimEnd s ++ s.rtakeWhile isWhiteSpace = s := by
  unfold trimEnd List.rtakeWhile
  rw [← List.reverse_append, List.takeWhile_append_dropWhile, List.reverse_reverse]

theorem isTrimmed_trimEnd_of (s : Str) (h : ∀ c, s.head? = some c → isWhiteSpace c = false) :
    IsTrimmed (trimEnd s) := by
  constructor
  · intro c hc
    have hne : trimEnd s ≠ [] := by
      intro h0; rw [h0] at hc; cases hc
    apply h
    rw [← trimEnd_append_rtakeWhile s, head?_append_of_ne_nil _ _ hne]
    exact hc
  · intro c hc
    rw [trimEnd_eq] at hc
    have hne : s.rdropWhile isWhiteSpace ≠ [] := by
      intro h0; rw [h0] at hc; cases hc
    have := List.rdropWhile_last_not isWhiteSpace s hne
    rw [List.getLast?_eq_getLast _ hne] at hc
    cases hc
    simpa using this

theorem trimStart_head (s : Str) : ∀ c, (trimStart s).head? = some c → isWhiteSpace c = false := by
  induction s with
  | nil => intro c hc; cases hc
  | cons a as ih =>
    intro c hc
    unfold trimStart at hc ih
    rw [List.dropWhile_cons] at hc
    split at hc
    · exact ih c hc
    · cases hc
      simpa using ‹¬isWhiteSpace a = true›

theorem isTrimmed_trim (s : Str) : IsTrimmed (trim s) :=
  isTrimmed_trimEnd_of _ (trimStart_head s)

/-- Every string is its trimmed form with white space around it. -/
theorem trim_decomp (s : Str) :
    ∃ w1 w2, AllWs w1 ∧ AllWs w2 ∧ s = w1 ++ trim s ++ w2 := by
  refine ⟨s.takeWhile isWhiteSpace, (trimStart s).rtakeWhile isWhiteSpace, ?_, ?_, ?_⟩
  · intro c hc
    exact List.mem_takeWhile_imp hc
  · intro c hc
    unfold List.rtakeWhile at hc
    rw [List.mem_reverse] at hc
    exact List.mem_takeWhile_imp hc
  · have h1 : s = s.takeWhile isWhiteSpace ++ trimStart s :=
      (List.takeWhile_append_dropWhile isWhiteSpace s).symm
    have h2 : trimStart s = trim s ++ (trimStart s).rtakeWhile isWhiteSpace :=
      (trimEnd_append_rtakeWhile (trimStart s)).symm
    rw [List.append_assoc, ← h2]
    exact h1

theorem trim_trim (s : Str) : trim (trim s) = trim s := trim_of_isTrimmed _ (isTrimmed_trim s)

theorem trim_append_ws_left (w s : Str) (hw : AllWs w) : trim (w ++ s) = trim s := by
  unfold trim
  rw [trimStart_append_ws _ _ hw]

theorem trim_trimStart (s : Str) : trim (trimStart s) = trim s := by
  unfold trim trimStart
  rw [List.dropWhile_idempotent]

theorem allWs_append {a b : Str} (ha : AllWs a) (hb : AllWs b) : AllWs (a ++ b) := by
  intro c hc
  rcases List.mem_append.1 hc with h | h
  · exact ha c h
  · exact hb c h

theorem trim_of_allWs (s : Str) (h : AllWs s) : trim s = [] := by
  have := trim_eq s [] [] h (by intro c hc; cases hc) ⟨(by intro c hc; cases hc), (by intro c hc; cases hc)⟩
  simpa using this

theorem getLast?_append_of_ne_nil (a b : Str) (h : b ≠ []) : (a ++ b).getLast? = b.getLast? := by
  rw [List.getLast?_append]
  cases hb : b.getLast? with
  | none => rw [List.getLast?_eq_none_iff] at hb; exact absurd hb h
  | some c => rfl

theorem trim_trimEnd (s : Str) : trim (trimEnd s) = trim s := by
  obtain ⟨w1, w2, h1, h2, hs⟩ := trim_decomp s
  by_cases hne : trim s = []
  · rw [hne] at hs
    simp only [List.append_nil] at hs
    have hall : AllWs s := by rw [hs]; exact allWs_append h1 h2
    have e1 : trimEnd s = [] := by
      rw [trimEnd_eq]; exact List.rdropWhile_eq_nil_iff.2 hall
    rw [e1, hne]; rfl
  · have e : trimEnd s = w1 ++ trim s := by
      conv_lhs => rw [hs]
      rw [trimEnd_append_ws _ _ h2]
      apply trimEnd_of_last
      intro c hc
      rw [getLast?_append_of_ne_nil _ _ hne] at hc
      exact (isTrimmed_trim s).2 c hc
    rw [e]
    have := trim_eq w1 (trim s) [] h1 (by intro c hc; cases hc) (isTrimmed_trim s)
    simpa using this

theorem ne_nil_of_trim_ne_nil (s : Str) (h : trim s ≠ []) : s ≠ [] := by
  intro h0; subst h0; exact h rfl

/-! ## Lines -/

theorem splitOn_of_not_mem (sep : Char) (l : Str) (h : sep ∉ l) : splitOn sep l = [l] := by
  induction l with
  | nil => rfl
  | cons c cs ih =>
    have hc : c ≠ sep := by intro e; exact h (by simp [e])
    have hcs : sep ∉ cs := by intro e; exact h (by simp [e])
    simp [splitOn, hc, ih hcs]

theorem splitOn_append_sep (sep : Char) (l rest : Str) (h : sep ∉ l) :
    splitOn sep (l ++ sep :: rest) = l :: splitOn sep rest := by
  induction l with
  | nil => simp [splitOn]
  | cons c cs ih =>
    have hc : c ≠ sep := by intro e; exact h (by simp [e])
    have hcs : sep ∉ cs := by intro e; exact h (by simp [e])
    simp [splitOn, hc, ih hcs]

/-- Splitting undoes joining, for lines that do not hold the separator. -/
theorem splitOn_joinWith (sep : Char) (l : Str) (ls : List Str)
    (h : ∀ x ∈ l :: ls, sep ∉ x) : splitOn sep (joinWith [sep] (l :: ls)) = l :: ls := by
  induction ls generalizing l with
  | nil => exact splitOn_of_not_mem sep l (h l (by simp))
  | cons b rest ih =>
    have hl : sep ∉ l := h l (by simp)
    have hrest : ∀ x ∈ b :: rest, sep ∉ x := by
      intro x hx; exact h x (by simp [hx])
    simp only [joinWith, List.append_assoc, List.singleton_append]
    rw [splitOn_append_sep sep l _ hl, ih b hrest]

theorem mem_joinWith (sep : Str) (c : Char) : ∀ (ls : List Str), c ∈ joinWith sep ls →
    c ∈ sep ∨ ∃ l ∈ ls, c ∈ l := by
  intro ls
  induction ls with
  | nil => intro h; cases h
  | cons a rest ih =>
    intro h
    cases rest with
    | nil => exact Or.inr ⟨a, by simp, by simpa [joinWith] using h⟩
    | cons b rest' =>
      simp only [joinWith, List.append_assoc, List.mem_append] at h
      rcases h with h | h | h
      · exact Or.inr ⟨a, by simp, h⟩
      · exact Or.inl h
      · rcases ih h with h' | ⟨l, hl, hc⟩
        · exact Or.inl h'
        · exact Or.inr ⟨l, by simp [hl], hc⟩

theorem mem_joinWith_of_mem (sep : Str) (c : Char) (l : Str) (hc : c ∈ l) :
    ∀ (ls : List Str), l ∈ ls → c ∈ joinWith sep ls := by
  intro ls
  induction ls with
  | nil => intro h; cases h
  | cons a rest ih =>
    intro h
    cases rest with
    | nil =>
      simp only [List.mem_singleton] at h
      subst h
      simpa [joinWith] using hc
    | cons b rest' =>
      simp only [joinWith, List.append_assoc, List.mem_append]
      rcases List.mem_cons.1 h with h | h
      · subst h; exact Or.inl hc
      · exact Or.inr (Or.inr (ih h))

/-! ## Normalisation of line endings -/

theorem matchAt_lit_cons_none (c : Char) (w : Str) (pos : Nat) (rest : Str)
    (h : ∀ d, rest.head? = some d → d ≠ c) : (Re.lit (c :: w)).matchAt pos rest = none := by
  cases rest with
  | nil => simp [Re.matchAt, Re.lit, Re.run]
  | cons d ds =>
    have : d ≠ c := h d rfl
    simp [Re.matchAt, Re.lit, Re.run, this]

theorem replaceAllGo_lit_of_not_mem (c : Char) (w by_ : Str) :
    ∀ (s : Str) (pos : Nat), c ∉ s → (Re.lit (c :: w)).replaceAllGo by_ s pos 0 = s := by
  intro s
  induction s with
  | nil =>
    intro pos _
    simp [Re.replaceAllGo, matchAt_lit_cons_none c w pos [] (by intro d hd; cases hd)]
  | cons d ds ih =>
    intro pos h
    have hd : d ≠ c := by intro e; exact h (by simp [e])
    have hds : c ∉ ds := by intro e; exact h (by simp [e])
    have hm := matchAt_lit_cons_none c w pos (d :: ds) (by intro x hx; cases hx; exact hd)
    simp [Re.replaceAllGo, hm, ih (pos + 1) hds]

/-- A text without carriage returns is left as it is. -/
theorem normalize_of_no_cr (s : Str) (h : '\r' ∉ s) : normalize s = s := by
  have e1 : reCRLF = Re.lit ('\r' :: ['\n']) := rfl
  have e2 : reCR = Re.lit ('\r' :: []) := rfl
  unfold normalize Re.replaceAll
  rw [e1, e2, replaceAllGo_lit_of_not_mem '\r' _ _ s 0 h, replaceAllGo_lit_of_not_mem '\r' _ _ s 0 h]

/-! ## Prefixes -/

theorem startsWith_append (p s : Str) : startsWith p (p ++ s) = true := by
  induction p with
  | nil => cases s <;> simp [startsWith]
  | cons a p ih => simp [startsWith, ih]

theorem startsWith_iff (p s : Str) : startsWith p s = true ↔ ∃ t, s = p ++ t := by
  constructor
  · induction p generalizing s with
    | nil => intro _; exact ⟨s, rfl⟩
    | cons a p ih =>
      intro h
      cases s with
      | nil => simp [startsWith] at h
      | cons c cs =>
        simp only [startsWith, Bool.and_eq_true, beq_iff_eq] at h
        obtain ⟨t, ht⟩ := ih cs h.2
        exact ⟨t, by rw [h.1, ht]; rfl⟩
  · rintro ⟨t, rfl⟩
    exact startsWith_append p t

theorem startsWith_cons_of_head (a : Char) (p s : Str)
    (h : ∀ c, s.head? = some c → c ≠ a) : startsWith (a :: p) s = false := by
  cases s with
  | nil => simp [startsWith]
  | cons c cs =>
    have : a ≠ c := fun e => h c rfl e.symm
    simp [startsWith, this]

theorem takeWhile_append_stop {α : Type} (p : α → Bool) (a : List α) (x : α) (b : List α)
    (ha : ∀ y ∈ a, p y = true) (hx : p x = false) : (a ++ x :: b).takeWhile p = a := by
  rw [List.takeWhile_append_of_pos ha]
  simp [List.takeWhile_cons, hx]

theorem takeWhile_all {α : Type} (p : α → Bool) (a : List α)
    (ha : ∀ y ∈ a, p y = true) : a.takeWhile p = a := by
  rw [List.takeWhile_eq_self_iff]; exact ha

theorem trimEnd_last (l : Str) : ∀ c, (trimEnd l).getLast? = some c → isWhiteSpace c = false := by
  intro c hc
  have hne : l.rdropWhile isWhiteSpace ≠ [] := by
    intro h0; rw [trimEnd_eq, h0] at hc; cases hc
  have h2 := List.rdropWhile_last_not isWhiteSpace l hne
  rw [trimEnd_eq, List.getLast?_eq_getLast _ hne] at hc
  cases hc
  simpa using h2

theorem trim_append_of_isTrimmed (a l : Str) (hne : a ≠ []) (ha : IsTrimmed a) :
    trim (a ++ l) = a ++ trimEnd l := by
  unfold trim
  rw [trimStart_of_head]
  · have e : a ++ l = (a ++ trimEnd l) ++ l.rtakeWhile isWhiteSpace := by
      rw [List.append_assoc, trimEnd_append_rtakeWhile]
    rw [e, trimEnd_append_ws _ _ (fun c hc => List.mem_rtakeWhile_imp hc)]
    apply trimEnd_of_last
    intro c hc
    by_cases h0 : trimEnd l = []
    · rw [h0, List.append_nil] at hc
      exact ha.2 c hc
    · rw [getLast?_append_of_ne_nil _ _ h0] at hc
      exact trimEnd_last l c hc
  · intro c hc
    rw [head?_append_of_ne_nil _ _ hne] at hc
    exact ha.1 c hc

theorem scan_all (env : Env) (fuel : Nat) (l : Str) (ls : List Str) (bs : List Block) (n : Nat)
    (h : step env (l :: ls) = (bs, n)) (hn : ls.length < n) :
    scan env (fuel + 1) (l :: ls) = some bs := by
  have hd : (l :: ls).drop n = [] := by
    apply List.drop_eq_nil_of_le
    simp only [List.length_cons]; omega
  cases fuel <;> simp [scan, h, hd]

/-- The pass on a line that opens a code fence. -/
theorem step_fence (env : Env) (L : Str) (body : List Str) (close : Str) (post : List Str)
    (hfence : ∀ l ∈ body, startsWith fence (trim l) = false)
    (hclose : startsWith fence (trim close) = true) :
    step env ((fence ++ L) :: (body ++ close :: post)) =
      ([Block.code (orElseStr (trim L) "text".toList)
          (capitalize env (orElseStr (trim L) "text".toList))
          (joinWith "\n".toList body)], body.length + 2) := by
  have ht : trim (fence ++ L) = fence ++ trimEnd L :=
    trim_append_of_isTrimmed fence L (by decide) ⟨by decide, by decide⟩
  have h1 : (fence ++ trimEnd L).isEmpty = false := by
    simp [fence]
  have h2 : startsWith fence (fence ++ trimEnd L) = true := startsWith_append _ _
  have h3 : (fence ++ trimEnd L).drop 3 = trimEnd L := by
    have : fence.length = 3 := by decide
    rw [← this, List.drop_left]
  have h4 : (body ++ close :: post).takeWhile (fun l => !startsWith fence (trim l)) = body :=
    takeWhile_append_stop _ body close post (by intro y hy; simp [hfence y hy]) (by simp [hclose])
  simp only [step, ht, h1, h2, h3, h4, trim_trimEnd, Bool.false_eq_true, if_false, if_true]

/-- C3 (well-formed code fence).  A text free of carriage returns and not
detected as HTML that is the line of three backticks and `L`, content lines
none of which starts (trimmed) with three backticks, and a closing line of
three backticks, parses to one code block: its language is `L` trimmed, or
`text` when that is empty, its title is the language with
`charAt(0).toUpperCase()` applied, its content the content lines joined with
a line feed. -/
theorem parseNotionContent_code_fence (env : Env) (fuel : Nat) (L : Str) (body : List Str)
    (hL : '\n' ∉ L) (hbody : ∀ l ∈ body, '\n' ∉ l)
    (hfence : ∀ l ∈ body, startsWith fence (trim l) = false)
    (hcr : '\r' ∉ joinWith "\n".toList ((fence ++ L) :: (body ++ [fence])))
    (hhtml : isHTML (joinWith "\n".toList ((fence ++ L) :: (body ++ [fence]))) = false) :
    parseNotionContent env (fuel + 1) (joinWith "\n".toList ((fence ++ L) :: (body ++ [fence]))) =
      some [Block.code (orElseStr (trim L) "text".toList)
        (capitalize env (orElseStr (trim L) "text".toList))
        (joinWith "\n".toList body)] := by
  have hlines : splitOn '\n' (joinWith ['\n'] ((fence ++ L) :: (body ++ [fence]))) =
      (fence ++ L) :: (body ++ [fence]) := by
    apply splitOn_joinWith
    intro x hx
    simp only [List.mem_cons, List.mem_append, List.mem_singleton, List.not_mem_nil,
      or_false] at hx
    rcases hx with rfl | hx | rfl
    · intro h
      rcases List.mem_append.1 h with h | h
      · revert h; decide
      · exact hL h
    · exact hbody x hx
    · decide
  have e : "\n".toList = ['\n'] := rfl
  simp only [parseNotionContent, normalize_of_no_cr _ hcr, hhtml, Bool.false_eq_true, if_false]
  rw [e] at *
  rw [hlines]
  exact scan_all env fuel _ _ _ _ (step_fence env L body fence [] hfence (by decide))
    (by simp)

/-- C3, the example of the specification. -/
theorem parseNotionContent_code_fence_example :
    parseNotionContent Env.plain 1 "```js\nconsole.log(1)\n```".toList =
      some [Block.code "js".toList "Js".toList "console.log(1)".toList] :=
  parseNotionContent_code_fence Env.plain 0 "js".toList ["console.log(1)".toList]
    (by decide) (by decide) (by decide) (by decide) (by decide)

/-! ## Characters -/

theorem toNat_ofNat_of_lt (n : Nat) (h : n < 0xD800) : (Char.ofNat n).toNat = n := by
  have hv : n.isValidChar := Or.inl h
  simp only [Char.ofNat, hv, dif_pos, Char.ofNatAux, Char.toNat]
  rfl

theorem char_eq_of_toNat_eq (c d : Char) (h : c.toNat = d.toNat) : c = d := by
  rw [← Char.ofNat_toNat c, ← Char.ofNat_toNat d, h]

theorem toNat_asciiUpper (c : Char) :
    (asciiUpper c).toNat = if isLower c = true then c.toNat - 32 else c.toNat := by
  unfold asciiUpper
  split
  · rename_i h
    simp only [isLower, Bool.and_eq_true, decide_eq_true_eq] at h
    exact toNat_ofNat_of_lt _ (by omega)
  · rfl

theorem toNat_asciiLower (c : Char) :
    (asciiLower c).toNat = if isUpper c = true then c.toNat + 32 else c.toNat := by
  unfold asciiLower
  split
  · rename_i h
    simp only [isUpper, Bool.and_eq_true, decide_eq_true_eq] at h
    exact toNat_ofNat_of_lt _ (by omega)
  · rfl

/-- Under the `i` flag a pattern character that is no letter matches itself
only. -/
theorem eqIgnoreCase_of_not_letter (a c : Char) (h1 : isLower a = false) (h2 : isUpper a = false) :
    eqIgnoreCase a c = true ↔ c = a := by
  unfold eqIgnoreCase
  rw [beq_iff_eq]
  constructor
  · intro h
    have h' := congrArg Char.toNat h
    rw [toNat_asciiUpper, toNat_asciiUpper, h1] at h'
    simp only [Bool.false_eq_true, if_false] at h'
    apply char_eq_of_toNat_eq
    split at h'
    · rename_i hl
      simp only [isLower, isUpper, Bool.and_eq_true, decide_eq_true_eq, Bool.and_eq_false_iff,
        decide_eq_false_iff_not] at hl h1 h2
      omega
    · exact h'
  · rintro rfl; rfl

/-! ## The scan loop -/

/-- A pass that leaves the cursor where it is repeats for ever: no amount of
fuel lets the loop return. -/
theorem scan_stalled (env : Env) (l : Str) (ls : List Str)
    (h : (step env (l :: ls)).2 = 0) : ∀ fuel, scan env fuel (l :: ls) = none := by
  intro fuel
  induction fuel with
  | zero => rfl
  | succ n ih =>
    simp only [scan, h, List.drop_zero, ih]

theorem stallsOn_of_step (env : Env) (fuel : Nat) (t : Str)
    (h1 : isHTML (normalize t) = false) (hl : splitOn '\n' (normalize t) = [t])
    (hstep : step env [t] = ([], 0)) : StallsOn env fuel t := by
  refine ⟨h1, by rw [hl, hstep], ?_⟩
  simp only [parseNotionContent, h1, hl]
  exact scan_stalled env t [] (by rw [hstep]) fuel

/-- C1 (termination of the plain-text parser), evaluated on the four lines the
claim names.  None of them is detected as HTML, each reaches the default
paragraph path, and there the pass pushes nothing and leaves the cursor
unchanged, so `parseNotionContent` returns for no amount of fuel. -/
theorem parseNotionContent_stalls (env : Env) (fuel : Nat) :
    StallsOn env fuel "#hashtag".toList ∧
    StallsOn env fuel "#### Heading".toList ∧
    StallsOn env fuel "![alt](url) trailing text".toList ∧
    StallsOn env fuel "https://x.supabase.co/storage/v1/object/".toList :=
  ⟨stallsOn_of_step env fuel _ (by decide) (by decide) (by rfl),
   stallsOn_of_step env fuel _ (by decide) (by decide) (by rfl),
   stallsOn_of_step env fuel _ (by decide) (by decide) (by rfl),
   stallsOn_of_step env fuel _ (by decide) (by decide) (by rfl)⟩

/-! ## The dispatcher -/

theorem isLetterIgnoreCase_iff (c : Char) : isLetterIgnoreCase c = true ↔
    ((0x61 ≤ c.toNat ∧ c.toNat ≤ 0x7A) ∨ (0x41 ≤ c.toNat ∧ c.toNat ≤ 0x5A)) := by
  simp [isLetterIgnoreCase, isLower, isUpper]

theorem repOk_any (rest : Str) (j : Nat) (h : j ≤ rest.length) : RepOk anyChar 0 none 0 rest j :=
  ⟨h, fun _ _ => rfl, Nat.zero_le _, Or.inr trivial⟩

/-- The test of source line 117 holds exactly for the texts with a tag. -/
theorem isHTML_iff (t : Str) : isHTML t = true ↔ HasTag t := by
  have hlt : ∀ c, eqIgnoreCase '<' c = true ↔ c = '<' :=
    fun c => eqIgnoreCase_of_not_letter '<' c (by decide) (by decide)
  have hgt : ∀ c, eqIgnoreCase '>' c = true ↔ c = '>' :=
    fun c => eqIgnoreCase_of_not_letter '>' c (by decide) (by decide)
  unfold isHTML Re.test Re.exec
  constructor
  · intro h
    cases hm : reHtml.execFrom 0 t with
    | none => rw [hm] at h; cases h
    | some m =>
      obtain ⟨i, hi, hmatch⟩ := Re.execFrom_sound reHtml m t 0 hm
      unfold Re.matchAt at hmatch
      split at hmatch
      · cases hmatch
      · rename_i s hs
        obtain ⟨s', hpath, -⟩ := Re.run_sound reHtml _ _ _ hs
        simp only [reHtml, Re.cat, Re.Matches] at hpath
        obtain ⟨m1, ⟨c1, cs1, h1, hc1, rfl⟩, m2, ⟨c2, cs2, h2, hc2, rfl⟩, m3,
          ⟨j, hj, rfl⟩, c3, cs3, h3, hc3, -⟩ := hpath
        simp only at h1 h2 h3
        subst h2
        rw [hlt] at hc1
        rw [hgt] at hc3
        subst hc1 hc3
        refine ⟨t.take i, c2, cs2.take j, cs3, ?_, (isLetterIgnoreCase_iff c2).1 hc2⟩
        have e1 : t = t.take i ++ t.drop i := (List.take_append_drop i t).symm
        have e2 : cs2 = cs2.take j ++ cs2.drop j := (List.take_append_drop j cs2).symm
        rw [← h3, ← e2]
        rw [← h1]
        exact e1
  · rintro ⟨a, c, b, d, rfl, hc⟩
    apply Re.execFrom_complete reHtml _ 0 a.length (by simp)
    unfold Re.matchAt
    have hrun : (reHtml.run ⟨0 + a.length, (a ++ '<' :: c :: (b ++ '>' :: d)).drop a.length,
        List.replicate (reHtml.groups + 1) none⟩ some).isSome = true := by
      refine Re.run_complete reHtml _ ⟨0 + a.length + 1 + 1 + b.length + 1, d,
        List.replicate (reHtml.groups + 1) none⟩ some ?_ rfl
      simp only [reHtml, Re.cat, Re.Matches, List.drop_left]
      refine ⟨_, ⟨'<', _, rfl, (hlt _).2 rfl, rfl⟩, _, ⟨c, _, rfl,
        (isLetterIgnoreCase_iff c).2 hc, rfl⟩, _, ⟨b.length, repOk_any _ _ (by simp), rfl⟩,
        '>', d, by simp, (hgt _).2 rfl, rfl⟩
    cases hr : reHtml.run ⟨0 + a.length, (a ++ '<' :: c :: (b ++ '>' :: d)).drop a.length,
        List.replicate (reHtml.groups + 1) none⟩ some with
    | none => rw [hr] at hrun; cases hrun
    | some s => rfl

/-- C2 (dispatcher rule).  When the normalised text holds a `<` immediately
followed by an ASCII letter with a `>` somewhere later, `parseNotionContent`
returns the result of the HTML parser on the normalised text; in every other
case it returns what the line scanner produces on the lines of that text. -/
theorem parseNotionContent_dispatch (env : Env) (fuel : Nat) (content : Str) :
    (HasTag (normalize content) →
      parseNotionContent env fuel content = some (parseHTMLContent env (normalize content))) ∧
    (¬ HasTag (normalize content) →
      parseNotionContent env fuel content = scan env fuel (splitOn '\n' (normalize content))) := by
  constructor
  · intro h
    simp [parseNotionContent, (isHTML_iff _).2 h]
  · intro h
    have : isHTML (normalize content) = false := by
      cases hh : isHTML (normalize content) with
      | false => rfl
      | true => exact absurd ((isHTML_iff _).1 hh) h
    simp [parseNotionContent, this]

/-! ## Evaluating quantifiers on a split input -/

theorem repOk_append (p : Char → Bool) (lo : Nat) (hi : Option Nat) (a b : Str)
    (ha : ∀ c ∈ a, p c = true) (hlo : lo ≤ a.length) (hhi : a = [] ∨ withinMax a.length hi) :
    RepOk p lo hi 0 (a ++ b) a.length := by
  refine ⟨by simp, by simpa using ha, by simpa using hlo, ?_⟩
  rcases hhi with h | h
  · left; simp [h]
  · right; simpa using h

theorem take_append_sub (a b : Str) : (a ++ b).take ((a ++ b).length - b.length) = a := by
  simp

/-- A greedy quantifier on `a ++ b` takes `a` when it cannot take more and the
continuation succeeds after `a`. -/
theorem Re.run_rep_greedy (p : Char → Bool) (lo : Nat) (hi : Option Nat) (a b rest : Str)
    (pos : Nat) (caps : List (Option Str)) (k : MState → Option MState) (x : MState)
    (hrest : rest = a ++ b)
    (ha : ∀ c ∈ a, p c = true) (hlo : lo ≤ a.length) (hhi : a = [] ∨ withinMax a.length hi)
    (hmax : ∀ c, b.head? = some c → p c = false ∨ hi = some a.length)
    (hk : k ⟨pos + a.length, b, caps⟩ = some x) :
    (Re.rep p lo hi true).run ⟨pos, rest, caps⟩ k = some x := by
  subst hrest
  simp only [Re.run]
  apply repRun_greedy p lo hi caps k x (a ++ b) pos 0 a.length (repOk_append p lo hi a b ha hlo hhi)
  · intro c hc
    have : (a ++ b).get? a.length = b.head? := by
      rw [List.get?_eq_getElem?, List.getElem?_append_right (Nat.le_refl _)]
      simp [List.head?_eq_getElem?]
    rw [this] at hc
    simpa using hmax c hc
  · simpa using hk

/-- A lazy quantifier on `a ++ b` takes `a` when the continuation succeeds
after `a` and after no shorter admissible part of `a`. -/
theorem Re.run_rep_lazy (p : Char → Bool) (lo : Nat) (hi : Option Nat) (a b rest : Str)
    (pos : Nat) (caps : List (Option Str)) (k : MState → Option MState) (x : MState)
    (hrest : rest = a ++ b)
    (ha : ∀ c ∈ a, p c = true) (hlo : lo ≤ a.length) (hhi : a = [] ∨ withinMax a.length hi)
    (hmin : ∀ i, i < a.length → lo ≤ i → k ⟨pos + i, a.drop i ++ b, caps⟩ = none)
    (hk : k ⟨pos + a.length, b, caps⟩ = some x) :
    (Re.rep p lo hi false).run ⟨pos, rest, caps⟩ k = some x := by
  subst hrest
  simp only [Re.run]
  apply repRun_lazy p lo hi caps k x (a ++ b) pos 0 a.length (repOk_append p lo hi a b ha hlo hhi)
  · intro i hi' hlo'
    have : (a ++ b).drop i = a.drop i ++ b := by
      rw [List.drop_append_of_le_length (by omega)]
    rw [this]
    exact hmin i hi' (by simpa using hlo')
  · simpa using hk

/-- A quantifier fails when the continuation fails after every admissible part. -/
theorem Re.run_rep_none (p : Char → Bool) (lo : Nat) (hi : Option Nat) (g : Bool) (rest : Str)
    (pos : Nat) (caps : List (Option Str)) (k : MState → Option MState)
    (h : ∀ j, RepOk p lo hi 0 rest j → k ⟨pos + j, rest.drop j, caps⟩ = none) :
    (Re.rep p lo hi g).run ⟨pos, rest, caps⟩ k = none := by
  simp only [Re.run]
  exact repRun_none p lo hi g caps k rest pos 0 h

/-- A quantifier that needs a character fails on an input whose first
character is not in the class. -/
theorem Re.run_rep_none_of_head (p : Char → Bool) (lo : Nat) (hi : Option Nat) (g : Bool)
    (rest : Str) (pos : Nat) (caps : List (Option Str)) (k : MState → Option MState)
    (hlo : 0 < lo) (h : ∀ c, rest.head? = some c → p c = false) :
    (Re.rep p lo hi g).run ⟨pos, rest, caps⟩ k = none := by
  apply Re.run_rep_none
  intro j hj
  obtain ⟨h1, h2, h3, -⟩ := hj
  cases rest with
  | nil => simp at h1; omega
  | cons c cs =>
    cases j with
    | zero => omega
    | succ j =>
      have := h2 c (by simp)
      rw [h c rfl] at this
      cases this

theorem Re.run_lit_of_eq (w b rest : Str) (pos : Nat) (caps : List (Option Str))
    (k : MState → Option MState) (hrest : rest = w ++ b) :
    (Re.lit w).run ⟨pos, rest, caps⟩ k = k ⟨pos + w.length, b, caps⟩ := by
  subst hrest; exact Re.run_lit w pos b caps k

theorem Re.run_lit_none (w rest : Str) (pos : Nat) (caps : List (Option Str))
    (k : MState → Option MState) (h : startsWith w rest = false) :
    (Re.lit w).run ⟨pos, rest, caps⟩ k = none := by
  apply Re.run_none
  intro s' hs'
  rw [Re.lit_matches] at hs'
  obtain ⟨b, hb, -⟩ := hs'
  simp only at hb
  rw [hb, startsWith_append] at h
  cases h

/-! ## Headers -/

theorem isDot_of_not_lineTerminator (c : Char) (h : isLineTerminator c = false) : isDot c = true := by
  simp [isDot, h]

theorem trimStart_ne_nil (t : Str) (h : trim t ≠ []) : trimStart t ≠ [] := by
  intro h0
  apply h
  unfold trim
  rw [h0]; rfl

theorem mem_trimStart (t : Str) (c : Char) (h : c ∈ trimStart t) : c ∈ t :=
  (List.dropWhile_sublist _).subset h

/-- The header pattern on `n` hashes, white space and text without a line
terminator. -/
theorem reHeader_exec (n : Nat) (w t : Str) (hn : 1 ≤ n ∧ n ≤ 3) (hw : w ≠ []) (hws : AllWs w)
    (ht : trim t ≠ []) (hdot : ∀ c ∈ t, isLineTerminator c = false) :
    reHeader.exec (List.replicate n '#' ++ w ++ t) =
      some ⟨0, n + (w ++ t.takeWhile isWhiteSpace).length + (trimStart t).length, [],
        [some (List.replicate n '#' ++ w ++ t), some (List.replicate n '#'),
          some (trimStart t)]⟩ := by
  have hsplit : t = t.takeWhile isWhiteSpace ++ trimStart t := by
    unfold trimStart
    exact (List.takeWhile_append_dropWhile isWhiteSpace t).symm
  have hrun : reHeader.run ⟨0, List.replicate n '#' ++ w ++ t, [none, none, none]⟩ some =
      some ⟨n + (w ++ t.takeWhile isWhiteSpace).length + (trimStart t).length, [],
        [none, some (List.replicate n '#'), some (trimStart t)]⟩ := by
    simp only [reHeader, Re.cat, Re.run, if_true]
    apply Re.run_rep_greedy (is '#') 1 (some 3) (List.replicate n '#') (w ++ t) _ _ _ _ _
      (by simp)
      (by intro c hc; simp [List.mem_replicate] at hc; simp [is, hc.2])
      (by simpa using hn.1) (Or.inr (by simpa [withinMax] using hn.2))
    · intro c hc
      left
      cases w with
      | nil => exact absurd rfl hw
      | cons d ds =>
        simp only [List.cons_append, List.head?_cons, Option.some.injEq] at hc
        subst hc
        have := hws d (by simp)
        simp only [is, beq_eq_false_iff_ne, ne_eq]
        rintro rfl
        revert this; decide
    · simp only [List.length_replicate, Nat.zero_add]
      apply Re.run_rep_greedy isWhiteSpace 1 none (w ++ t.takeWhile isWhiteSpace) (trimStart t)
        _ _ _ _ _ (by rw [List.append_assoc, ← hsplit])
        (allWs_append hws (fun c hc => List.mem_takeWhile_imp hc))
        (by cases w with
          | nil => exact absurd rfl hw
          | cons d ds => simp)
        (Or.inr trivial)
      · intro c hc
        left
        exact trimStart_head t c hc
      · simp only
        apply Re.run_rep_greedy isDot 1 none (trimStart t) [] _ _ _ _ _ (List.append_nil _).symm
          (fun c hc => isDot_of_not_lineTerminator c (hdot c (mem_trimStart t c hc)))
          (by
            have := trimStart_ne_nil t ht
            cases h : trimStart t with
            | nil => exact absurd h this
            | cons d ds => simp)
          (Or.inr trivial)
        · intro c hc; cases hc
        · simp [take_append_sub, List.take_left']
  have hb : reHeader = Re.seq .bol (Re.cat [.cap 1 (.rep (is '#') 1 (some 3) true),
      .rep isWhiteSpace 1 none true, .cap 2 (.rep isDot 1 none true), .eol]) := rfl
  have hg : reHeader.groups = 2 := rfl
  rw [hb, Re.exec_bol, ← hb]
  simp only [Re.matchAt, hg, List.replicate, hrun]
  simp

theorem step_of_plain_head (env : Env) (line : Str) (ls : List Str) (c : Char) (cs : Str)
    (h : trim line = c :: cs) (h1 : c ≠ (Char.ofNat 96)) (h2 : c ≠ ':') :
    step env (line :: ls) = stepFrom (c :: cs) line ls := by
  have e1 : startsWith fence (c :: cs) = false :=
    startsWith_cons_of_head _ _ _ (by intro d hd; cases hd; exact h1)
  have e2 : startsWith marker (c :: cs) = false :=
    startsWith_cons_of_head _ _ _ (by intro d hd; cases hd; exact h2)
  simp [step, h, e1, e2]

/-- C5 (header rule), amended: the text after the hashes holds no line
terminator.  A line whose trimmed form is `n` hashes (`n` from 1 to 3), at
least one white space character and a non-blank text `t` without line
terminator makes the pass push a header of level `n` with content `t`
trimmed, and move the cursor by one line. -/
theorem step_header (env : Env) (n : Nat) (w t line : Str) (ls : List Str)
    (hn : 1 ≤ n ∧ n ≤ 3) (hw : w ≠ []) (hws : AllWs w) (ht : trim t ≠ [])
    (hdot : ∀ c ∈ t, isLineTerminator c = false)
    (hline : trim line = List.replicate n '#' ++ w ++ t) :
    step env (line :: ls) = ([Block.header n (trim t)], 1) := by
  obtain ⟨m, rfl⟩ : ∃ m, n = m + 1 := ⟨n - 1, by omega⟩
  have hline' : trim line = '#' :: (List.replicate m '#' ++ w ++ t) := by
    rw [hline]; rfl
  rw [step_of_plain_head env line ls '#' _ hline' (by decide) (by decide), ← hline', hline]
  simp only [stepFrom, reHeader_exec (m + 1) w t hn hw hws ht hdot]
  simp [Match.group, trim_trimStart]

/-- C5, an instance of the header rule and the example of the specification. -/
theorem step_header_example :
    step Env.plain ["# Title".toList, [], "Some text here.".toList] =
        ([Block.header 1 "Title".toList], 1) ∧
      parseNotionContent Env.plain 3 "# Title\n\nSome text here.".toList =
        some [Block.header 1 "Title".toList, Block.paragraph "Some text here.".toList] :=
  ⟨step_header Env.plain 1 " ".toList "Title".toList "# Title".toList
      [[], "Some text here.".toList] (by decide) (by decide) (by unfold AllWs; decide) (by decide) (by decide)
      (by decide),
    by decide⟩

/-- C5 as stated fails: a line of one hash, a space and the non-blank text
`a`, U+2028, `b` gets no header; the pass pushes nothing and leaves the cursor
where it is. -/
theorem step_header_line_separator :
    trim "# a\u2028b".toList = List.replicate 1 '#' ++ " ".toList ++ "a\u2028b".toList ∧
      trim "a\u2028b".toList ≠ [] ∧
      step Env.plain ["# a\u2028b".toList] = ([], 0) := by
  decide

/-! ## Unfolding the matcher one constructor at a time -/

theorem Re.run_seq (a b : Re) (s : MState) (k : MState → Option MState) :
    (Re.seq a b).run s k = a.run s (fun s' => b.run s' k) := rfl

theorem Re.run_cap (i : Nat) (a : Re) (s : MState) (k : MState → Option MState) :
    (Re.cap i a).run s k = a.run s (fun s' =>
      k { s' with caps := s'.caps.set i (some (s.rest.take (s.rest.length - s'.rest.length))) }) :=
  rfl

theorem Re.run_bol_zero (rest : Str) (caps : List (Option Str)) (k : MState → Option MState) :
    Re.bol.run ⟨0, rest, caps⟩ k = k ⟨0, rest, caps⟩ := rfl

theorem Re.run_eol_nil (pos : Nat) (caps : List (Option Str)) (k : MState → Option MState) :
    Re.eol.run ⟨pos, [], caps⟩ k = k ⟨pos, [], caps⟩ := rfl

theorem Re.run_eol_cons (pos : Nat) (c : Char) (cs : Str) (caps : List (Option Str))
    (k : MState → Option MState) : Re.eol.run ⟨pos, c :: cs, caps⟩ k = none := rfl

theorem Re.cat_cons_cons (a b : Re) (rest : List Re) :
    Re.cat (a :: b :: rest) = Re.seq a (Re.cat (b :: rest)) := rfl

theorem Re.cat_singleton (a : Re) : Re.cat [a] = a := rfl

theorem Re.matches_seq (a b : Re) (s s' : MState) :
    (Re.seq a b).Matches s s' ↔ ∃ m, a.Matches s m ∧ b.Matches m s' := Iff.rfl

theorem Re.matches_alt (a b : Re) (s s' : MState) :
    (Re.alt a b).Matches s s' ↔ (a.Matches s s' ∨ b.Matches s s') := Iff.rfl

theorem Re.matches_opt (a : Re) (s s' : MState) :
    (Re.opt a).Matches s s' ↔ (a.Matches s s' ∨ s' = s) := Iff.rfl

theorem Re.matches_chr (p : Char → Bool) (s s' : MState) :
    (Re.chr p).Matches s s' ↔
      ∃ c cs, s.rest = c :: cs ∧ p c = true ∧ s' = ⟨s.pos + 1, cs, s.caps⟩ := Iff.rfl

theorem Re.matches_rep (p : Char → Bool) (lo : Nat) (hi : Option Nat) (g : Bool) (s s' : MState) :
    (Re.rep p lo hi g).Matches s s' ↔
      ∃ j, RepOk p lo hi 0 s.rest j ∧ s' = ⟨s.pos + j, s.rest.drop j, s.caps⟩ := Iff.rfl

theorem Re.matches_cap (i : Nat) (a : Re) (s s' : MState) :
    (Re.cap i a).Matches s s' ↔ ∃ m, a.Matches s m ∧
      s' = { m with caps := m.caps.set i (some (s.rest.take (s.rest.length - m.rest.length))) } :=
  Iff.rfl

theorem Re.matches_bol (s s' : MState) : Re.bol.Matches s s' ↔ (s.pos = 0 ∧ s' = s) := Iff.rfl

theorem Re.matches_eol (s s' : MState) : Re.eol.Matches s s' ↔ (s.rest = [] ∧ s' = s) := Iff.rfl

/-! ## Callouts -/

theorem Re.run_opt_some (a : Re) (s x : MState) (k : MState → Option MState)
    (h : a.run s k = some x) : (Re.opt a).run s k = some x := by
  simp [Re.run, h]

theorem Re.run_opt_none (a : Re) (s : MState) (k : MState → Option MState)
    (h : a.run s k = none) : (Re.opt a).run s k = k s := by
  simp [Re.run, h]

theorem endsWith_append (p x : Str) : endsWith p (x ++ p) = true := by
  unfold endsWith
  rw [List.reverse_append]
  exact startsWith_append _ _

/-- The tail `(?:::)?$` of the callout pattern fails on a remainder that is
neither empty nor two colons. -/
theorem calloutTail_none (r : Str) (pos : Nat) (caps : List (Option Str))
    (h1 : r ≠ []) (h2 : r ≠ "::".toList) :
    (Re.seq (.opt (Re.lit "::".toList)) .eol).run ⟨pos, r, caps⟩ some = none := by
  apply Re.run_none
  intro s' hs'
  rw [Re.matches_seq] at hs'
  obtain ⟨m, hm, hnil, -⟩ := hs'
  rw [Re.matches_opt, Re.lit_matches] at hm
  rcases hm with ⟨b, hb, rfl⟩ | rfl
  · simp only at hnil hb
    subst hnil
    exact absurd (by simpa using hb) h2
  · exact absurd hnil h1

/-- The callout pattern on `:::`, a keyword, a space and a title without line
terminator that does not end in two colons. -/
theorem reCallout_exec (k T : Str) (hk : k ≠ []) (hkw : ∀ c ∈ k, isWord c = true)
    (hTt : IsTrimmed T) (hTe : endsWith "::".toList T = false)
    (hdot : ∀ c ∈ T, isLineTerminator c = false) :
    reCallout.exec (marker ++ k ++ " ".toList ++ T) =
      some ⟨0, 3 + k.length + 1 + T.length, [],
        [some (marker ++ k ++ " ".toList ++ T), some k, some T]⟩ := by
  have hrun : reCallout.run ⟨0, marker ++ k ++ " ".toList ++ T, [none, none, none]⟩ some =
      some ⟨3 + k.length + 1 + T.length, [], [none, some k, some T]⟩ := by
    simp only [reCallout, Re.cat_cons_cons, Re.cat_singleton, Re.run_seq, Re.run_bol_zero]
    rw [Re.run_lit_of_eq ":::".toList (k ++ " ".toList ++ T) _ _ _ _
      (by simp [marker, List.append_assoc])]
    apply Re.run_opt_some
    rw [Re.run_cap]
    apply Re.run_rep_greedy isWord 1 none k (" ".toList ++ T) _ _ _ _ _
      (by simp [List.append_assoc]) hkw
      (by cases k with
        | nil => exact absurd rfl hk
        | cons d ds => simp)
      (Or.inr trivial)
    · intro c hc
      left
      have : c = ' ' := by
        have e : (" ".toList ++ T).head? = some ' ' := rfl
        rw [e] at hc
        cases hc; rfl
      subst this
      decide
    · simp only
      apply Re.run_rep_greedy isWhiteSpace 0 none " ".toList T _ _ _ _ _ rfl
        (by decide) (Nat.zero_le _) (Or.inr trivial)
      · intro c hc
        left
        exact hTt.1 c hc
      · rw [Re.run_cap]
        apply Re.run_rep_lazy isDot 0 none T [] _ _ _ _ _ (List.append_nil _).symm
          (fun c hc => isDot_of_not_lineTerminator c (hdot c hc)) (Nat.zero_le _) (Or.inr trivial)
        · intro i hi _
          have hne : T.drop i ++ [] ≠ [] := by
            simp only [List.append_nil, ne_eq, List.drop_eq_nil_iff, not_le]
            exact hi
          have hcol : T.drop i ++ [] ≠ "::".toList := by
            intro h0
            rw [List.append_nil] at h0
            have : T = T.take i ++ "::".toList := by
              rw [← h0, List.take_append_drop]
            rw [this, endsWith_append] at hTe
            cases hTe
          exact calloutTail_none _ _ _ hne hcol
        · have e : ∀ pos caps, (Re.lit "::".toList).run ⟨pos, [], caps⟩
              (fun s' => Re.eol.run s' some) = none :=
            fun pos caps => Re.run_lit_none _ _ _ _ _ (by decide)
          have l1 : ":::".toList.length = 3 := rfl
          have l2 : " ".toList.length = 1 := rfl
          dsimp only
          rw [Re.run_opt_none _ _ _ (e _ _), Re.run_eol_nil]
          simp [l1, l2, List.take_left']
  have hb : reCallout = Re.seq .bol (Re.cat [Re.lit ":::".toList,
      .opt (.cap 1 (.rep isWord 1 none true)), .rep isWhiteSpace 0 none true,
      .cap 2 (.rep isDot 0 none false), .opt (Re.lit "::".toList), .eol]) := rfl
  have hg : reCallout.groups = 2 := rfl
  rw [hb, Re.exec_bol, ← hb]
  simp only [Re.matchAt, hg, List.replicate, hrun]
  simp

theorem endsWith_marker_false (y T : Str) (hT : T ≠ [])
    (hTe : endsWith "::".toList T = false) : endsWith marker (y ++ ' ' :: T) = false := by
  unfold endsWith at hTe ⊢
  rw [List.reverse_append, List.reverse_cons, List.append_assoc]
  have hr : T.reverse ≠ [] := by simpa using hT
  have e1 : marker.reverse = [':', ':', ':'] := rfl
  have e2 : "::".toList.reverse = [':', ':'] := rfl
  rw [e1]
  rw [e2] at hTe
  cases h : T.reverse with
  | nil => exact absurd h hr
  | cons c1 r =>
    rw [h] at hTe
    cases r with
    | nil => simp [startsWith]
    | cons c2 r' =>
      simp only [startsWith, Bool.and_true, Bool.and_eq_false_iff, beq_eq_false_iff_ne] at hTe
      simp only [List.cons_append, startsWith, Bool.and_eq_false_iff, beq_eq_false_iff_ne]
      rcases hTe with h1 | h1
      · exact Or.inl h1
      · exact Or.inr (Or.inl h1)

theorem isTrimmed_callout_line (k T : Str) (hT : T ≠ []) (hTt : IsTrimmed T) :
    IsTrimmed (marker ++ k ++ " ".toList ++ T) := by
  constructor
  · intro c hc
    have : (marker ++ k ++ " ".toList ++ T).head? = some ':' := rfl
    rw [this] at hc
    cases hc
    decide
  · intro c hc
    rw [getLast?_append_of_ne_nil _ _ hT] at hc
    exact hTt.2 c hc

/-- The pass on a line that opens a multi-line callout. -/
theorem step_callout (env : Env) (k T : Str) (body : List Str) (close : Str) (post : List Str)
    (hk : k ∈ ["insight".toList, "warning".toList, "stat".toList, "tip".toList])
    (hT : T ≠ []) (hTt : IsTrimmed T) (hTe : endsWith "::".toList T = false)
    (hdot : ∀ c ∈ T, isLineTerminator c = false)
    (hmark : ∀ l ∈ body, startsWith marker (trim l) = false)
    (hclose : startsWith marker (trim close) = true) :
    step env ((marker ++ k ++ " ".toList ++ T) :: (body ++ close :: post)) =
      ([Block.callout k T (trim (joinWith "\n".toList body))], body.length + 2) := by
  have hkne : k ≠ [] := by
    simp only [List.mem_cons, List.mem_singleton, List.not_mem_nil, or_false] at hk
    rcases hk with rfl | rfl | rfl | rfl <;> decide
  have hkw : ∀ c ∈ k, isWord c = true := by
    simp only [List.mem_cons, List.mem_singleton, List.not_mem_nil, or_false] at hk
    rcases hk with rfl | rfl | rfl | rfl <;> decide
  have hvar : calloutVariant k = k := by
    simp only [List.mem_cons, List.mem_singleton, List.not_mem_nil, or_false] at hk
    rcases hk with rfl | rfl | rfl | rfl <;> rfl
  have ht : trim (marker ++ k ++ " ".toList ++ T) = marker ++ k ++ " ".toList ++ T :=
    trim_of_isTrimmed _ (isTrimmed_callout_line k T hT hTt)
  have h1 : (marker ++ k ++ " ".toList ++ T).isEmpty = false := rfl
  have h2 : startsWith fence (marker ++ k ++ " ".toList ++ T) = false := rfl
  have h3 : startsWith marker (marker ++ k ++ " ".toList ++ T) = true := by
    rw [List.append_assoc, List.append_assoc]; exact startsWith_append _ _
  have h4 : endsWith marker (marker ++ k ++ " ".toList ++ T) = false := by
    have : marker ++ k ++ " ".toList ++ T = (marker ++ k) ++ ' ' :: T := by
      simp [List.append_assoc]
    rw [this]; exact endsWith_marker_false _ T hT hTe
  have h5 : (body ++ close :: post).takeWhile (fun l => !startsWith marker (trim l)) = body :=
    takeWhile_append_stop _ body close post (by intro y hy; simp [hmark y hy]) (by simp [hclose])
  simp only [step, ht, h1, h2, h3, Bool.false_eq_true, if_false, if_true,
    reCallout_exec k T hkne hkw hTt hTe hdot, stepCallout, h4, Bool.false_and, h5]
  simp [Match.group, capOr, orElseStr, hvar, hkne, hT]

/-- C4 (multi-line callout), amended: the title holds no line terminator.
For a keyword `k` among insight, warning, stat and tip, a non-empty title `T`
without white space at its ends, not ending in two colons and free of line
terminators, and body lines (free of line breaks) none of which starts,
trimmed, with `:::`, the text of the lines `:::` `k` space `T`, the body lines
and `:::`, when not detected as HTML, parses to one callout of variant `k`,
title `T` and content the body lines joined with a line feed and trimmed. -/
theorem parseNotionContent_callout (env : Env) (fuel : Nat) (k T : Str) (body : List Str)
    (hk : k ∈ ["insight".toList, "warning".toList, "stat".toList, "tip".toList])
    (hT : T ≠ []) (hTt : IsTrimmed T) (hTe : endsWith "::".toList T = false)
    (hdot : ∀ c ∈ T, isLineTerminator c = false)
    (hbody : ∀ l ∈ body, '\n' ∉ l ∧ '\r' ∉ l)
    (hmark : ∀ l ∈ body, startsWith marker (trim l) = false)
    (hhtml : isHTML (joinWith "\n".toList
      ((marker ++ k ++ " ".toList ++ T) :: (body ++ [marker]))) = false) :
    parseNotionContent env (fuel + 1)
        (joinWith "\n".toList ((marker ++ k ++ " ".toList ++ T) :: (body ++ [marker]))) =
      some [Block.callout k T (trim (joinWith "\n".toList body))] := by
  have hkc : ∀ c ∈ k, isLineTerminator c = false := by
    simp only [List.mem_cons, List.mem_singleton, List.not_mem_nil, or_false] at hk
    rcases hk with rfl | rfl | rfl | rfl <;> decide
  have hfirst : ∀ c ∈ marker ++ k ++ " ".toList ++ T, isLineTerminator c = false := by
    intro c hc
    simp only [List.mem_append] at hc
    rcases hc with ((hc | hc) | hc) | hc
    · revert c; decide
    · exact hkc c hc
    · revert c; decide
    · exact hdot c hc
  have hno : ∀ (c : Char), isLineTerminator c = true →
      ∀ x ∈ (marker ++ k ++ " ".toList ++ T) :: (body ++ [marker]),
        (∀ l ∈ body, c ∉ l) → c ∉ x := by
    intro c hc x hx hb
    simp only [List.mem_cons, List.mem_append, List.mem_singleton, List.not_mem_nil,
      or_false] at hx
    rcases hx with rfl | hx | rfl
    · intro h; rw [hfirst c h] at hc; cases hc
    · exact hb x hx
    · intro h
      have : ∀ d ∈ marker, isLineTerminator d = false := by decide
      rw [this c h] at hc; cases hc
  have e : "\n".toList = ['\n'] := rfl
  have hcr : '\r' ∉ joinWith "\n".toList
      ((marker ++ k ++ " ".toList ++ T) :: (body ++ [marker])) := by
    intro h
    rcases mem_joinWith _ _ _ h with h | ⟨l, hl, hc⟩
    · revert h; decide
    · exact hno '\r' (by decide) l hl (fun l hl => (hbody l hl).2) hc
  have hlines : splitOn '\n' (joinWith ['\n']
      ((marker ++ k ++ " ".toList ++ T) :: (body ++ [marker]))) =
      (marker ++ k ++ " ".toList ++ T) :: (body ++ [marker]) := by
    apply splitOn_joinWith
    intro x hx
    exact hno '\n' (by decide) x hx (fun l hl => (hbody l hl).1)
  simp only [parseNotionContent, normalize_of_no_cr _ hcr, hhtml, Bool.false_eq_true, if_false]
  rw [e] at *
  rw [hlines]
  exact scan_all env fuel _ _ _ _
    (step_callout env k T body marker [] hk hT hTt hTe hdot hmark (by decide)) (by simp)

/-- C4, the example of the specification. -/
theorem parseNotionContent_callout_example :
    parseNotionContent Env.plain 1 ":::warning Be Careful\nDon't go broke\n:::".toList =
      some [Block.callout "warning".toList "Be Careful".toList "Don't go broke".toList] :=
  parseNotionContent_callout Env.plain 0 "warning".toList "Be Careful".toList
    ["Don't go broke".toList] (by decide) (by decide) (by unfold IsTrimmed; decide) (by decide)
    (by decide) (by decide) (by decide) (by decide)

/-- C4 as stated fails: with the title `a`, U+2028, `b` (non-empty, no white
space at its ends, not ending in two colons) the opening line does not match
the callout pattern; no callout is pushed and the scan does not return. -/
theorem parseNotionContent_callout_line_separator :
    IsTrimmed "a\u2028b".toList ∧ endsWith "::".toList "a\u2028b".toList = false ∧
      isHTML (normalize ":::tip a\u2028b\nx\n:::".toList) = false ∧
      step Env.plain (splitOn '\n' (normalize ":::tip a\u2028b\nx\n:::".toList)) = ([], 0) ∧
      ∀ fuel, parseNotionContent Env.plain fuel ":::tip a\u2028b\nx\n:::".toList = none := by
  refine ⟨by unfold IsTrimmed; decide, by decide, by decide, by decide, ?_⟩
  intro fuel
  have h1 : isHTML (normalize ":::tip a\u2028b\nx\n:::".toList) = false := by decide
  have h2 : splitOn '\n' (normalize ":::tip a\u2028b\nx\n:::".toList) =
      [":::tip a\u2028b".toList, "x".toList, ":::".toList] := by decide
  simp only [parseNotionContent, h1, h2]
  exact scan_stalled Env.plain _ _ (by decide) fuel

/-! ## Patterns without capture groups -/

/-- A path of a pattern without capture groups leaves the captures alone and
does not depend on them. -/
theorem Re.matches_capFree (r : Re) (h : r.capFree = true) :
    ∀ (s s' : MState), r.Matches s s' →
      s'.caps = s.caps ∧ ∀ caps, r.Matches ⟨s.pos, s.rest, caps⟩ ⟨s'.pos, s'.rest, caps⟩ := by
  induction r with
  | eps =>
    intro s s' hm
    cases hm
    exact ⟨rfl, fun caps => rfl⟩
  | chr p =>
    intro s s' hm
    obtain ⟨c, cs, hrest, hp, rfl⟩ := hm
    exact ⟨rfl, fun caps => ⟨c, cs, hrest, hp, rfl⟩⟩
  | seq a b iha ihb =>
    intro s s' hm
    simp only [Re.capFree, Bool.and_eq_true] at h
    obtain ⟨m, hm1, hm2⟩ := hm
    obtain ⟨e1, f1⟩ := iha h.1 s m hm1
    obtain ⟨e2, f2⟩ := ihb h.2 m s' hm2
    exact ⟨e2.trans e1, fun caps => ⟨_, f1 caps, f2 caps⟩⟩
  | alt a b iha ihb =>
    intro s s' hm
    simp only [Re.capFree, Bool.and_eq_true] at h
    rcases hm with hm | hm
    · obtain ⟨e1, f1⟩ := iha h.1 s s' hm
      exact ⟨e1, fun caps => Or.inl (f1 caps)⟩
    · obtain ⟨e1, f1⟩ := ihb h.2 s s' hm
      exact ⟨e1, fun caps => Or.inr (f1 caps)⟩
  | opt a iha =>
    intro s s' hm
    simp only [Re.capFree] at h
    rcases hm with hm | hm
    · obtain ⟨e1, f1⟩ := iha h s s' hm
      exact ⟨e1, fun caps => Or.inl (f1 caps)⟩
    · subst hm
      exact ⟨rfl, fun caps => Or.inr rfl⟩
  | rep p lo hi g =>
    intro s s' hm
    obtain ⟨j, hj, rfl⟩ := hm
    exact ⟨rfl, fun caps => ⟨j, hj, rfl⟩⟩
  | cap i a _ => simp [Re.capFree] at h
  | bol =>
    intro s s' hm
    obtain ⟨h0, rfl⟩ := hm
    exact ⟨rfl, fun caps => ⟨h0, rfl⟩⟩
  | eol =>
    intro s s' hm
    obtain ⟨h0, rfl⟩ := hm
    exact ⟨rfl, fun caps => ⟨h0, rfl⟩⟩

/-- What a successful attempt at an index means. -/
theorem Re.matchAt_sound (r : Re) (pos : Nat) (rest : Str) (m : Match)
    (h : r.matchAt pos rest = some m) :
    ∃ s', r.Matches ⟨pos, rest, List.replicate (r.groups + 1) none⟩ s' ∧
      m = ⟨pos, s'.pos, s'.rest,
        s'.caps.set 0 (some (rest.take (rest.length - s'.rest.length)))⟩ := by
  unfold Re.matchAt at h
  split at h
  · cases h
  · rename_i s hs
    obtain ⟨s', hs', hk⟩ := r.run_sound _ _ _ hs
    cases hk
    cases h
    exact ⟨s, hs', rfl⟩

theorem Re.matchAt_complete (r : Re) (pos : Nat) (rest : Str) (s' : MState)
    (h : r.Matches ⟨pos, rest, List.replicate (r.groups + 1) none⟩ s') :
    (r.matchAt pos rest).isSome = true := by
  have := r.run_complete _ s' some h rfl
  unfold Re.matchAt
  split
  · rename_i h0; rw [h0] at this; cases this
  · rfl

theorem Re.test_bol_iff (r : Re) (s : Str) :
    (Re.seq .bol r).test s = true ↔
      ∃ s', r.Matches ⟨0, s, List.replicate (r.groups + 1) none⟩ s' := by
  unfold Re.test
  rw [Re.exec_bol]
  have hg : (Re.seq Re.bol r).groups = r.groups := by simp [Re.groups]
  constructor
  · intro h
    cases hm : (Re.seq Re.bol r).matchAt 0 s with
    | none => rw [hm] at h; cases h
    | some m =>
      obtain ⟨s', hs', -⟩ := Re.matchAt_sound _ _ _ _ hm
      rw [Re.matches_seq] at hs'
      obtain ⟨m1, hb, hr⟩ := hs'
      rw [Re.matches_bol] at hb
      obtain ⟨-, rfl⟩ := hb
      rw [hg] at hr
      exact ⟨s', hr⟩
  · rintro ⟨s', hs'⟩
    apply Re.matchAt_complete _ _ _ s'
    rw [Re.matches_seq]
    refine ⟨_, (Re.matches_bol _ _).2 ⟨rfl, rfl⟩, ?_⟩
    rw [hg]; exact hs'

theorem Re.exec_bol_sound (r : Re) (s : Str) (m : Match) (h : (Re.seq .bol r).exec s = some m) :
    ∃ s', r.Matches ⟨0, s, List.replicate (r.groups + 1) none⟩ s' ∧
      m = ⟨0, s'.pos, s'.rest, s'.caps.set 0 (some (s.take (s.length - s'.rest.length)))⟩ := by
  rw [Re.exec_bol] at h
  have hg : (Re.seq Re.bol r).groups = r.groups := by simp [Re.groups]
  obtain ⟨s', hs', hm⟩ := Re.matchAt_sound _ _ _ _ h
  rw [Re.matches_seq] at hs'
  obtain ⟨m1, hb, hr⟩ := hs'
  rw [Re.matches_bol] at hb
  obtain ⟨-, rfl⟩ := hb
  rw [hg] at hr
  exact ⟨s', hr, hm⟩

/-! ## The two image tests -/

/-- What `extractImageUrl` accepts, `isImageUrl` accepts. -/
theorem isImageUrl_of_extractImageUrl (line u : Str) (h : extractImageUrl line = some u) :
    isImageUrl line = true := by
  unfold extractImageUrl at h
  unfold isImageUrl isStandardImageUrl isSupabaseStorageUrl
  simp only [Bool.or_eq_true]
  have e1 : reStandardExtract = Re.seq .bol (Re.seq (.cap 1 reStandardBody) .eol) := rfl
  have e2 : reStandardImage = Re.seq .bol (Re.seq reStandardBody .eol) := rfl
  have e3 : reSupabaseExtract =
      Re.seq .bol (Re.seq (.cap 1 (.seq reSupabaseBody (.rep notWhiteSpace 1 none true))) .eol) :=
    rfl
  have e4 : reSupabase = Re.seq .bol reSupabaseBody := rfl
  have c1 : reStandardBody.capFree = true := by decide
  have c2 : reSupabaseBody.capFree = true := by decide
  dsimp only at h
  split at h
  · rename_i m hm
    left
    rw [e1] at hm
    obtain ⟨s', hs', -⟩ := Re.exec_bol_sound _ _ _ hm
    rw [Re.matches_seq] at hs'
    obtain ⟨m1, hcap, heol⟩ := hs'
    rw [Re.matches_cap] at hcap
    obtain ⟨m0, hbody, rfl⟩ := hcap
    rw [Re.matches_eol] at heol
    rw [e2, Re.test_bol_iff]
    have := (Re.matches_capFree _ c1 _ _ hbody).2
      (List.replicate ((Re.seq reStandardBody Re.eol).groups + 1) none)
    exact ⟨_, (Re.matches_seq _ _ _ _).2 ⟨_, this, (Re.matches_eol _ _).2 ⟨heol.1, rfl⟩⟩⟩
  · split at h
    · rename_i m hm
      right
      rw [e3] at hm
      obtain ⟨s', hs', -⟩ := Re.exec_bol_sound _ _ _ hm
      rw [Re.matches_seq] at hs'
      obtain ⟨m1, hcap, -⟩ := hs'
      rw [Re.matches_cap] at hcap
      obtain ⟨m0, hbody, -⟩ := hcap
      rw [Re.matches_seq] at hbody
      obtain ⟨m2, hbody, -⟩ := hbody
      rw [e4, Re.test_bol_iff]
      exact ⟨_, (Re.matches_capFree _ c2 _ _ hbody).2 _⟩
    · cases h

theorem extractImageUrl_eq_none (line : Str) (h : isImageUrl line = false) :
    extractImageUrl line = none := by
  cases he : extractImageUrl line with
  | none => rfl
  | some u => rw [isImageUrl_of_extractImageUrl line u he] at h; cases h

/-! ## Lines that no rule before the paragraph takes -/

theorem test_bol_lit (w s : Str) : (Re.seq .bol (Re.lit w)).test s = startsWith w s := by
  cases h : startsWith w s with
  | true =>
    rw [Re.test_bol_iff]
    obtain ⟨t, rfl⟩ := (startsWith_iff w s).1 h
    exact ⟨_, (Re.lit_matches w _ _).2 ⟨t, rfl, rfl⟩⟩
  | false =>
    cases ht : (Re.seq .bol (Re.lit w)).test s with
    | false => rfl
    | true =>
      rw [Re.test_bol_iff] at ht
      obtain ⟨s', hs'⟩ := ht
      rw [Re.lit_matches] at hs'
      obtain ⟨b, hb, -⟩ := hs'
      simp only at hb
      rw [hb, startsWith_append] at h
      cases h

theorem exec_bol_none (r : Re) (s : Str)
    (h : ∀ s', ¬ r.Matches ⟨0, s, List.replicate (r.groups + 1) none⟩ s') :
    (Re.seq .bol r).exec s = none := by
  cases he : (Re.seq .bol r).exec s with
  | none => rfl
  | some m =>
    obtain ⟨s', hs', -⟩ := Re.exec_bol_sound _ _ _ he
    exact absurd hs' (h s')

theorem head_ne_of_startsWith_false (a : Char) (s : Str) (h : startsWith [a] s = false) :
    ∀ c, s.head? = some c → c ≠ a := by
  intro c hc e
  subst e
  cases s with
  | nil => cases hc
  | cons d ds =>
    cases hc
    simp [startsWith] at h

theorem reHeader_exec_none (s : Str) (h : startsWith "#".toList s = false) :
    reHeader.exec s = none := by
  have hb : reHeader = Re.seq .bol (Re.seq (.cap 1 (.rep (is '#') 1 (some 3) true))
      (Re.cat [.rep isWhiteSpace 1 none true, .cap 2 (.rep isDot 1 none true), .eol])) := rfl
  rw [hb]
  apply exec_bol_none
  intro s' hs'
  rw [Re.matches_seq] at hs'
  obtain ⟨m1, hcap, -⟩ := hs'
  rw [Re.matches_cap] at hcap
  obtain ⟨m0, hrep, -⟩ := hcap
  rw [Re.matches_rep] at hrep
  obtain ⟨j, ⟨h1, h2, h3, -⟩, -⟩ := hrep
  simp only at h1 h2 h3
  cases s with
  | nil => simp at h1; omega
  | cons c cs =>
    cases j with
    | zero => omega
    | succ j =>
      have hc := h2 c (by simp)
      simp only [is, beq_iff_eq] at hc
      exact head_ne_of_startsWith_false '#' (c :: cs) h c rfl hc

theorem reMdImage_exec_none (s : Str) (h : startsWith "![".toList s = false) :
    reMdImage.exec s = none := by
  have hb : reMdImage = Re.seq .bol (Re.seq (Re.lit "![".toList)
      (Re.cat [.cap 1 (.rep (isNot ']') 0 none true), Re.lit "](".toList,
        .cap 2 (.rep (isNot ')') 1 none true), Re.lit ")".toList, .eol])) := rfl
  rw [hb]
  apply exec_bol_none
  intro s' hs'
  rw [Re.matches_seq] at hs'
  obtain ⟨m1, hlit, -⟩ := hs'
  rw [Re.lit_matches] at hlit
  obtain ⟨b, hb', -⟩ := hlit
  simp only at hb'
  rw [hb', startsWith_append] at h
  cases h

theorem paragraphStop_eq_false_iff (l : Str) : paragraphStop (trim l) = false ↔ PlainLine l := by
  have hmd : reMdImageStart.test (trim l) = startsWith "![".toList (trim l) :=
    test_bol_lit _ _
  have hemp : (trim l).isEmpty = false ↔ trim l ≠ [] := by
    cases trim l <;> simp
  unfold paragraphStop PlainLine
  rw [hmd]
  simp only [Bool.or_eq_false_iff, hemp]
  tauto

/-! ## Paragraphs -/

theorem takeWhile_run {α : Type} (p : α → Bool) (a b : List α) (ha : ∀ y ∈ a, p y = true)
    (hb : ∀ y, b.head? = some y → p y = false) : (a ++ b).takeWhile p = a := by
  cases b with
  | nil => rw [List.append_nil]; exact takeWhile_all p a ha
  | cons x rest => exact takeWhile_append_stop p a x rest ha (hb x rfl)

/-- C6 (paragraph merging).  A non-empty run of lines each of which is not
blank and, trimmed, does not start with `#`, `>`, three backticks, `:::` or
`![`, is not a list-item line and is not an image-URL line, followed by the
end of the input or by a line that is not of this kind, makes the pass push
one paragraph whose content is the trimmed lines of the run joined with a
single space, in order, and move the cursor past the run. -/
theorem step_paragraph (env : Env) (run post : List Str) (hne : run ≠ [])
    (hrun : ∀ l ∈ run, PlainLine l)
    (hpost : ∀ l, post.head? = some l → ¬ PlainLine l) :
    step env (run ++ post) =
      ([Block.paragraph (joinWith " ".toList (run.map trim))], run.length) := by
  cases run with
  | nil => exact absurd rfl hne
  | cons l rest =>
    obtain ⟨h1, h2, h3, h4, h5, h6, h7, h8, h9⟩ := hrun l (by simp)
    have hemp : (trim l).isEmpty = false := by
      cases h : trim l with
      | nil => exact absurd h h1
      | cons c cs => rfl
    have htake : (((l :: (rest ++ post)).map trim).takeWhile (fun pLine => !paragraphStop pLine)) =
        (l :: rest).map trim := by
      have : (l :: (rest ++ post)).map trim = (l :: rest).map trim ++ post.map trim := by simp
      rw [this]
      apply takeWhile_run
      · intro y hy
        obtain ⟨x, hx, rfl⟩ := List.mem_map.1 hy
        simp [(paragraphStop_eq_false_iff x).2 (hrun x hx)]
      · intro y hy
        cases post with
        | nil => cases hy
        | cons x post' =>
          simp only [List.map_cons, List.head?_cons, Option.some.injEq] at hy
          subst hy
          have hx := hpost x rfl
          cases hs : paragraphStop (trim x) with
          | true => rfl
          | false => exact absurd ((paragraphStop_eq_false_iff x).1 hs) hx
    simp only [List.cons_append, step, hemp, h4, h5, Bool.false_eq_true, if_false, stepFrom,
      reHeader_exec_none _ h2, h3, h7, h8, Bool.or_self, extractImageUrl_eq_none _ h9,
      Option.filter, reMdImage_exec_none _ h6, htake]
    simp

/-- C6, an instance of the paragraph rule: two lines merged, a blank line
after them. -/
theorem step_paragraph_example :
    step Env.plain (["Some text".toList, "  goes on here. ".toList] ++ [[], "next".toList]) =
      ([Block.paragraph "Some text goes on here.".toList], 2) :=
  step_paragraph Env.plain ["Some text".toList, "  goes on here. ".toList] [[], "next".toList]
    (by decide)
    (by
      intro l hl
      simp only [List.mem_cons, List.mem_singleton, List.not_mem_nil, or_false] at hl
      rcases hl with rfl | rfl <;> exact (paragraphStop_eq_false_iff _).1 (by decide))
    (by
      intro l hl
      cases hl
      intro h
      exact h.1 rfl)

/-! ## Blockquotes -/

/-- Removing the quote mark (source line 210) leaves the text after the `>`
without its leading white space. -/
theorem reQuoteMark_replaceFirst (s : Str) :
    reQuoteMark.replaceFirst ('>' :: s) [] = trimStart s := by
  have hb : reQuoteMark = Re.seq .bol (Re.seq (.chr (is '>')) (.rep isWhiteSpace 0 none true)) :=
    rfl
  have hsplit : s = s.takeWhile isWhiteSpace ++ trimStart s := by
    unfold trimStart
    exact (List.takeWhile_append_dropWhile isWhiteSpace s).symm
  have hrun : reQuoteMark.run ⟨0, '>' :: s, [none]⟩ some =
      some ⟨0 + 1 + (s.takeWhile isWhiteSpace).length, trimStart s, [none]⟩ := by
    rw [hb, Re.run_seq, Re.run_bol_zero, Re.run_seq]
    show (Re.rep isWhiteSpace 0 none true).run ⟨0 + 1, s, [none]⟩ some = _
    exact Re.run_rep_greedy isWhiteSpace 0 none (s.takeWhile isWhiteSpace) (trimStart s) s _ _ _ _
      hsplit (fun c hc => List.mem_takeWhile_imp hc) (Nat.zero_le _) (Or.inr trivial)
      (fun c hc => Or.inl (trimStart_head s c hc)) rfl
  have hg : reQuoteMark.groups = 0 := rfl
  unfold Re.replaceFirst
  rw [hb, Re.exec_bol, ← hb]
  simp only [Re.matchAt, hg, List.replicate, hrun]
  simp

/-- After a stretch of white space inside a text that ends with a character
that is no white space, the next character still belongs to the text. -/
theorem head_drop_of_take_ws (P : Char → Prop) (b : Str) :
    ∀ (u : Str) (j : Nat), u ≠ [] →
      (∀ z, u.getLast? = some z → isWhiteSpace z = false) → (∀ c ∈ u, P c) →
      (∀ c ∈ (u ++ b).take j, isWhiteSpace c = true) →
      ∀ c, ((u ++ b).drop j).head? = some c → P c := by
  intro u
  induction u with
  | nil => intro j h; exact absurd rfl h
  | cons x u2 ih =>
    intro j _ hlast hP htake c hc
    cases j with
    | zero =>
      simp only [List.drop_zero, List.cons_append, List.head?_cons, Option.some.injEq] at hc
      subst hc
      exact hP x (by simp)
    | succ j =>
      have hx : isWhiteSpace x = true := htake x (by simp)
      by_cases h2 : u2 = []
      · subst h2
        have := hlast x rfl
        rw [this] at hx; cases hx
      · apply ih j h2 _ (fun c hc => hP c (by simp [hc])) _ c (by simpa using hc)
        · intro z hz
          apply hlast z
          rw [← hz]
          cases u2 with
          | nil => exact absurd rfl h2
          | cons y ys => exact List.getLast?_cons_cons
        · intro d hd
          exact htake d (by simp [hd])

theorem getLast?_drop_of_lt (l : Str) (i : Nat) (h : i < l.length) :
    (l.drop i).getLast? = l.getLast? := by
  have e : l = l.take i ++ l.drop i := (List.take_append_drop i l).symm
  have hne : l.drop i ≠ [] := by
    simp only [ne_eq, List.drop_eq_nil_iff, not_le]; exact h
  conv_rhs => rw [e]
  exact (getLast?_append_of_ne_nil _ _ hne).symm

/-- The attribution pattern on a quote text, two dashes with white space
around and an attribution, the texts free of the characters of the dash class
and the quote text free of line terminators. -/
theorem reAttribution_exec (Qt w1 w2 At : Str)
    (hQ : Qt ≠ []) (hQt : IsTrimmed Qt) (hQdot : ∀ c ∈ Qt, isLineTerminator c = false)
    (hQd : ∀ c ∈ Qt, isDashClass c = false) (hw1 : AllWs w1) (hw2 : AllWs w2)
    (hA : At ≠ []) (hAt : IsTrimmed At) (hAd : ∀ c ∈ At, isDashClass c = false) :
    reAttribution.exec (Qt ++ (w1 ++ ("--".toList ++ (w2 ++ At)))) =
      some ⟨0, Qt.length + w1.length + 2 + w2.length + At.length, [],
        [some (Qt ++ (w1 ++ ("--".toList ++ (w2 ++ At)))), some Qt, some At]⟩ := by
  have hb : reAttribution = Re.seq (.cap 1 (.rep isDot 1 none false))
      (Re.seq (Re.seq (.rep isWhiteSpace 0 none true)
        (Re.seq (.rep isDashClass 1 (some 2) true) (.rep isWhiteSpace 0 none true)))
        (Re.seq (.cap 2 (.rep (fun c => !isDashClass c) 1 none true)) .eol)) := rfl
  have hrun : reAttribution.run ⟨0, Qt ++ (w1 ++ ("--".toList ++ (w2 ++ At))),
      [none, none, none]⟩ some =
      some ⟨Qt.length + w1.length + 2 + w2.length + At.length, [],
        [none, some Qt, some At]⟩ := by
    rw [hb]
    simp only [Re.run_seq]
    rw [Re.run_cap]
    apply Re.run_rep_lazy isDot 1 none Qt (w1 ++ ("--".toList ++ (w2 ++ At))) _ _ _ _ _ rfl
      (fun c hc => isDot_of_not_lineTerminator c (hQdot c hc))
      (by cases Qt with
        | nil => exact absurd rfl hQ
        | cons d ds => simp)
      (Or.inr trivial)
    · intro i hi _
      dsimp only
      apply Re.run_rep_none
      intro j hj
      apply Re.run_rep_none_of_head _ _ _ _ _ _ _ _ (by decide)
      intro c hc
      have hne : Qt.drop i ≠ [] := by
        simp only [ne_eq, List.drop_eq_nil_iff, not_le]; exact hi
      exact head_drop_of_take_ws (fun c => isDashClass c = false) _ (Qt.drop i) j hne
        (by rw [getLast?_drop_of_lt Qt i hi]; exact hQt.2)
        (fun c hc => hQd c (List.mem_of_mem_drop hc)) hj.2.1 c hc
    · dsimp only
      apply Re.run_rep_greedy isWhiteSpace 0 none w1 ("--".toList ++ (w2 ++ At)) _ _ _ _ _ rfl
        hw1 (Nat.zero_le _) (Or.inr trivial)
      · intro c hc
        left
        have e : ("--".toList ++ (w2 ++ At)).head? = some '-' := rfl
        rw [e] at hc
        cases hc
        decide
      · apply Re.run_rep_greedy isDashClass 1 (some 2) "--".toList (w2 ++ At) _ _ _ _ _ rfl
          (by decide) (by decide) (Or.inr (Nat.le_refl 2))
        · intro c _
          exact Or.inr rfl
        · apply Re.run_rep_greedy isWhiteSpace 0 none w2 At _ _ _ _ _ rfl
            hw2 (Nat.zero_le _) (Or.inr trivial)
          · intro c hc
            exact Or.inl (hAt.1 c hc)
          · rw [Re.run_cap]
            apply Re.run_rep_greedy (fun c => !isDashClass c) 1 none At [] _ _ _ _ _
              (List.append_nil _).symm
              (fun c hc => by simp [hAd c hc])
              (by cases At with
                | nil => exact absurd rfl hA
                | cons d ds => simp)
              (Or.inr trivial)
            · intro c hc; cases hc
            · have l2 : "--".toList.length = 2 := rfl
              dsimp only
              rw [Re.run_eol_nil]
              simp [l2, List.take_left', Nat.add_assoc]
  have hg : reAttribution.groups = 2 := rfl
  unfold Re.exec
  apply Re.execFrom_of_matchAt
  simp only [Re.matchAt, hg, List.replicate, hrun]
  simp

theorem isTrimmed_append (a m b : Str) (ha : a ≠ []) (hb : b ≠ [])
    (h1 : ∀ c, a.head? = some c → isWhiteSpace c = false)
    (h2 : ∀ c, b.getLast? = some c → isWhiteSpace c = false) : IsTrimmed (a ++ (m ++ b)) := by
  constructor
  · intro c hc
    rw [head?_append_of_ne_nil _ _ ha] at hc
    exact h1 c hc
  · intro c hc
    rw [← List.append_assoc, getLast?_append_of_ne_nil _ _ hb] at hc
    exact h2 c hc

/-- The pass on the single line `> Q -- A`. -/
theorem step_quote_attribution (env : Env) (Q A : Str)
    (hQ : trim Q ≠ []) (hA : trim A ≠ [])
    (hQd : ∀ c ∈ Q, isDashClass c = false) (hAd : ∀ c ∈ A, isDashClass c = false)
    (hQl : ∀ c ∈ Q, isLineTerminator c = false) :
    step env ["> ".toList ++ Q ++ " -- ".toList ++ A] = ([Block.quote (trim Q) (trim A)], 1) := by
  obtain ⟨q1, q2, hq1, hq2, hQe⟩ := trim_decomp Q
  obtain ⟨a1, a2, ha1, ha2, hAe⟩ := trim_decomp A
  have hQt := isTrimmed_trim Q
  have hAt := isTrimmed_trim A
  have hsubQ : ∀ c ∈ trim Q, c ∈ Q := by
    intro c hc; rw [hQe]; simp [hc]
  have hsubA : ∀ c ∈ trim A, c ∈ A := by
    intro c hc; rw [hAe]; simp [hc]
  -- the line, its trimmed form and the quote text
  have e0 : "> ".toList ++ Q ++ " -- ".toList ++ A =
      [] ++ ('>' :: ((' ' :: q1) ++ (trim Q ++ ((q2 ++ " ".toList) ++
        ("--".toList ++ ((" ".toList ++ a1) ++ trim A)))))) ++ a2 := by
    conv_lhs => rw [hQe, hAe]
    have e1 : "> ".toList = ['>', ' '] := rfl
    have e2 : " -- ".toList = ' ' :: ("--".toList ++ [' ']) := rfl
    have e3 : " ".toList = [' '] := rfl
    rw [e1, e2, e3]
    simp [List.append_assoc]
  have hS : IsTrimmed (trim Q ++ ((q2 ++ " ".toList) ++
      ("--".toList ++ ((" ".toList ++ a1) ++ trim A)))) := by
    have := isTrimmed_append (trim Q) ((q2 ++ " ".toList) ++ ("--".toList ++ (" ".toList ++ a1)))
      (trim A) hQ hA hQt.1 hAt.2
    simpa [List.append_assoc] using this
  have hline : trim ("> ".toList ++ Q ++ " -- ".toList ++ A) =
      '>' :: ((' ' :: q1) ++ (trim Q ++ ((q2 ++ " ".toList) ++
        ("--".toList ++ ((" ".toList ++ a1) ++ trim A))))) := by
    rw [e0]
    apply trim_eq _ _ _ (by intro c hc; cases hc) ha2
    have := isTrimmed_append ['>'] ((' ' :: q1) ++ (trim Q ++ ((q2 ++ " ".toList) ++
      ("--".toList ++ (" ".toList ++ a1))))) (trim A) (by simp) hA
      (by intro c hc; cases hc; decide) hAt.2
    simpa [List.append_assoc] using this
  have hstart : trimStart ((' ' :: q1) ++ (trim Q ++ ((q2 ++ " ".toList) ++
      ("--".toList ++ ((" ".toList ++ a1) ++ trim A))))) =
      trim Q ++ ((q2 ++ " ".toList) ++ ("--".toList ++ ((" ".toList ++ a1) ++ trim A))) := by
    rw [trimStart_append_ws _ _ (by
      intro c hc
      rcases List.mem_cons.1 hc with rfl | hc
      · decide
      · exact hq1 c hc)]
    exact trimStart_of_head _ hS.1
  have hws1 : AllWs (q2 ++ " ".toList) := allWs_append hq2 (by unfold AllWs; decide)
  have hws2 : AllWs (" ".toList ++ a1) := allWs_append (by unfold AllWs; decide) ha1
  rw [step_of_plain_head env _ [] '>' _ hline (by decide) (by decide)]
  have hhead : reHeader.exec ('>' :: ((' ' :: q1) ++ (trim Q ++ ((q2 ++ " ".toList) ++
      ("--".toList ++ ((" ".toList ++ a1) ++ trim A)))))) = none :=
    reHeader_exec_none _ rfl
  have hgt : ∀ s, startsWith ">".toList ('>' :: s) = true := fun s => by
    cases s <;> rfl
  simp only [stepFrom, hhead, hgt, if_true, List.takeWhile_cons, hline, List.takeWhile_nil,
    List.map_cons, List.map_nil, reQuoteMark_replaceFirst, hstart, joinWith,
    trim_of_isTrimmed _ hS,
    reAttribution_exec (trim Q) (q2 ++ " ".toList) (" ".toList ++ a1) (trim A) hQ hQt
      (fun c hc => hQl c (hsubQ c hc)) (fun c hc => hQd c (hsubQ c hc)) hws1 hws2 hA hAt
      (fun c hc => hAd c (hsubA c hc))]
  simp [Match.group, trim_trim]

/-- C7 (blockquote attribution split), amended: the texts hold none of the
characters that the pattern of source line 215 has in its class as well, the
quote text holds no line terminator, and the line is not detected as HTML.
For a quote text `Q` and an attribution `A` that are not blank, hold no dash
character (hyphen-minus, en dash, em dash) and none of the characters U+201A,
U+00C4, U+00EE, U+00EC, with `Q` free of line terminators and `A` free of
line breaks, the single line `> Q -- A`, when not detected as HTML, parses to
one quote block with content `Q` trimmed and attribution `A` trimmed. -/
theorem parseNotionContent_quote_attribution (env : Env) (fuel : Nat) (Q A : Str)
    (hQ : trim Q ≠ []) (hA : trim A ≠ [])
    (hQd : ∀ c ∈ Q, isDashLike c = false ∧ isDashClass c = false)
    (hAd : ∀ c ∈ A, isDashLike c = false ∧ isDashClass c = false)
    (hQl : ∀ c ∈ Q, isLineTerminator c = false)
    (hAl : '\n' ∉ A ∧ '\r' ∉ A)
    (hhtml : isHTML ("> ".toList ++ Q ++ " -- ".toList ++ A) = false) :
    parseNotionContent env (fuel + 1) ("> ".toList ++ Q ++ " -- ".toList ++ A) =
      some [Block.quote (trim Q) (trim A)] := by
  have hno : ∀ c, isLineTerminator c = true → c ∉ A →
      c ∉ "> ".toList ++ Q ++ " -- ".toList ++ A := by
    have f1 : ∀ c ∈ "> ".toList, isLineTerminator c = false := by decide
    have f2 : ∀ c ∈ " -- ".toList, isLineTerminator c = false := by decide
    intro c hc hcA h
    simp only [List.mem_append] at h
    rcases h with ((h | h) | h) | h
    · rw [f1 c h] at hc; cases hc
    · rw [hQl c h] at hc; cases hc
    · rw [f2 c h] at hc; cases hc
    · exact hcA h
  have hcr := hno '\r' (by decide) hAl.2
  have hlf := hno '\n' (by decide) hAl.1
  simp only [parseNotionContent, normalize_of_no_cr _ hcr, hhtml, Bool.false_eq_true, if_false,
    splitOn_of_not_mem _ _ hlf]
  exact scan_all env fuel _ _ _ _
    (step_quote_attribution env Q A hQ hA (fun c hc => (hQd c hc).2) (fun c hc => (hAd c hc).2)
      hQl) (by simp)

/-- C7, the example of the specification. -/
theorem parseNotionContent_quote_attribution_example :
    parseNotionContent Env.plain 1 "> Winners never quit -- Anonymous".toList =
      some [Block.quote "Winners never quit".toList "Anonymous".toList] :=
  parseNotionContent_quote_attribution Env.plain 0 "Winners never quit".toList
    "Anonymous".toList (by decide) (by decide) (by decide) (by decide) (by decide) (by decide)
    (by decide)

/-- C7 as stated fails, in three ways.  An attribution with the letter U+00EE,
which the class of source line 215 holds, is cut after that letter; a quote
text with the line separator U+2028 inside loses what stands before it; a
quote text with a tag in it sends the whole input to the HTML parser. -/
theorem parseNotionContent_quote_attribution_counterexamples :
    parseNotionContent Env.plain 1 "> Poker is life -- Beno\u00EEt".toList =
        some [Block.quote "Poker is life -- Beno".toList "t".toList] ∧
      parseNotionContent Env.plain 1 "> a\u2028b -- c".toList =
        some [Block.quote "b".toList "c".toList] ∧
      (∀ env fuel, parseNotionContent env fuel "> <b>x</b> -- y".toList =
        some (parseHTMLContent env "> <b>x</b> -- y".toList)) := by
  refine ⟨by decide, by decide, ?_⟩
  intro env fuel
  have h1 : normalize "> <b>x</b> -- y".toList = "> <b>x</b> -- y".toList := by decide
  have h2 : isHTML "> <b>x</b> -- y".toList = true := by decide
  simp only [parseNotionContent, h1, h2, if_true]

/-! ## Image URL lines -/

theorem eqIgnoreCase_asciiLower (c : Char) : eqIgnoreCase (asciiLower c) c = true := by
  unfold eqIgnoreCase
  rw [beq_iff_eq]
  apply char_eq_of_toNat_eq
  rw [toNat_asciiUpper, toNat_asciiUpper]
  by_cases hu : isUpper c = true
  · have h1 : (asciiLower c).toNat = c.toNat + 32 := by rw [toNat_asciiLower, if_pos hu]
    simp only [isUpper, Bool.and_eq_true, decide_eq_true_eq] at hu
    have h2 : isLower c = false := by
      simp only [isLower, Bool.and_eq_false_iff, decide_eq_false_iff_not]; omega
    have h3 : isLower (asciiLower c) = true := by
      simp only [isLower, Bool.and_eq_true, decide_eq_true_eq, h1]; omega
    rw [h2, h3, h1]
    simp
  · have h1 : asciiLower c = c := by
      unfold asciiLower; rw [if_neg hu]
    rw [h1]

theorem Re.matches_litI_map (x : Str) : ∀ (b : Str) (pos : Nat) (caps : List (Option Str)),
    (Re.litI (x.map asciiLower)).Matches ⟨pos, x ++ b, caps⟩ ⟨pos + x.length, b, caps⟩ := by
  induction x with
  | nil => intro b pos caps; exact rfl
  | cons c cs ih =>
    intro b pos caps
    refine ⟨⟨pos + 1, cs ++ b, caps⟩, ⟨c, cs ++ b, rfl, eqIgnoreCase_asciiLower c, rfl⟩, ?_⟩
    have := ih b (pos + 1) caps
    have e : pos + (c :: cs).length = pos + 1 + cs.length := by
      simp only [List.length_cons]; omega
    rw [e]; exact this

theorem Re.matches_seq_intro {a b : Re} {s m s' : MState} (h1 : a.Matches s m)
    (h2 : b.Matches m s') : (Re.seq a b).Matches s s' := ⟨m, h1, h2⟩

theorem Re.matches_opt_skip (a : Re) (s : MState) : (Re.opt a).Matches s s := Or.inr rfl

theorem Re.matches_opt_take {a : Re} {s s' : MState} (h : a.Matches s s') :
    (Re.opt a).Matches s s' := Or.inl h

theorem Re.matches_rep_append (p : Char → Bool) (lo : Nat) (hi : Option Nat) (g : Bool)
    (a b : Str) (pos : Nat) (caps : List (Option Str))
    (ha : ∀ c ∈ a, p c = true) (hlo : lo ≤ a.length) (hhi : a = [] ∨ withinMax a.length hi) :
    (Re.rep p lo hi g).Matches ⟨pos, a ++ b, caps⟩ ⟨pos + a.length, b, caps⟩ :=
  ⟨a.length, repOk_append p lo hi a b ha hlo hhi, by simp⟩

theorem reImageExt_matches (ext b : Str) (pos : Nat) (caps : List (Option Str))
    (h : ext.map asciiLower ∈ imageExtensions) :
    reImageExt.Matches ⟨pos, ext ++ b, caps⟩ ⟨pos + ext.length, b, caps⟩ := by
  have hm := Re.matches_litI_map ext b pos caps
  unfold imageExtensions at h
  simp only [List.mem_cons, List.mem_singleton, List.not_mem_nil, or_false] at h
  unfold reImageExt
  rcases h with h | h | h | h | h | h <;> rw [h] at hm
  · exact Or.inl hm
  · exact Or.inr (Or.inl hm)
  · exact Or.inr (Or.inr (Or.inl hm))
  · exact Or.inr (Or.inr (Or.inr (Or.inl hm)))
  · exact Or.inr (Or.inr (Or.inr (Or.inr (Or.inl hm))))
  · exact Or.inr (Or.inr (Or.inr (Or.inr (Or.inr hm))))

/-- The body of the standard image pattern has a path through a URL of the
claimed shape. -/
theorem reStandardBody_matches (scheme mid ext query : Str) (caps : List (Option Str))
    (hs : scheme = "http://".toList ∨ scheme = "https://".toList)
    (hmid : mid ≠ []) (hmidws : ∀ c ∈ mid, isWhiteSpace c = false)
    (hext : ext.map asciiLower ∈ imageExtensions)
    (hq : query = [] ∨ ∃ q, query = '?' :: q ∧ ∀ c ∈ q, isWhiteSpace c = false) :
    ∃ pos, reStandardBody.Matches ⟨0, scheme ++ mid ++ ".".toList ++ ext ++ query, caps⟩
      ⟨pos, [], caps⟩ := by
  have hbody : reStandardBody = Re.seq (Re.litI "http".toList)
      (Re.seq (.rep (eqIgnoreCase 's') 0 (some 1) true) (Re.seq (Re.litI "://".toList)
      (Re.seq (.rep notWhiteSpace 1 none true) (Re.seq (Re.litI ".".toList) (Re.seq reImageExt
      (.opt (.seq (Re.litI "?".toList) (.rep notWhiteSpace 0 none true)))))))) := rfl
  -- the part after the scheme
  have htail : ∀ pos, ∃ pos', (Re.seq (.rep notWhiteSpace 1 none true)
      (Re.seq (Re.litI ".".toList) (Re.seq reImageExt
      (.opt (.seq (Re.litI "?".toList) (.rep notWhiteSpace 0 none true)))))).Matches
      ⟨pos, mid ++ (".".toList ++ (ext ++ query)), caps⟩ ⟨pos', [], caps⟩ := by
    intro pos
    have h1 := Re.matches_rep_append notWhiteSpace 1 none true mid (".".toList ++ (ext ++ query))
      pos caps (fun c hc => by simp [notWhiteSpace, hmidws c hc])
      (by cases mid with
        | nil => exact absurd rfl hmid
        | cons d ds => simp)
      (Or.inr trivial)
    have h2 := Re.matches_litI_map ".".toList (ext ++ query) (pos + mid.length) caps
    have h3 := reImageExt_matches ext query (pos + mid.length + ".".toList.length) caps hext
    rcases hq with rfl | ⟨q, rfl, hqws⟩
    · rw [List.append_nil] at h1 h2 h3 ⊢
      exact ⟨_, Re.matches_seq_intro h1 (Re.matches_seq_intro h2
        (Re.matches_seq_intro h3 (Re.matches_opt_skip _ _)))⟩
    · have h4 := Re.matches_litI_map "?".toList q
        (pos + mid.length + ".".toList.length + ext.length) caps
      have h5 := Re.matches_rep_append notWhiteSpace 0 none true q []
        (pos + mid.length + ".".toList.length + ext.length + "?".toList.length) caps
        (fun c hc => by simp [notWhiteSpace, hqws c hc]) (Nat.zero_le _) (Or.inr trivial)
      rw [List.append_nil] at h5
      exact ⟨_, Re.matches_seq_intro h1 (Re.matches_seq_intro h2
        (Re.matches_seq_intro h3 (Re.matches_opt_take (Re.matches_seq_intro h4 h5))))⟩
  rw [hbody]
  rcases hs with rfl | rfl
  · obtain ⟨pos', ht⟩ := htail (0 + "http".toList.length + 0 + "://".toList.length)
    have h1 := Re.matches_litI_map "http".toList
      ("://".toList ++ (mid ++ (".".toList ++ (ext ++ query)))) 0 caps
    have h2 := Re.matches_rep_append (eqIgnoreCase 's') 0 (some 1) true []
      ("://".toList ++ (mid ++ (".".toList ++ (ext ++ query)))) (0 + "http".toList.length) caps
      (by intro c hc; cases hc) (Nat.zero_le _) (Or.inl rfl)
    have h3 := Re.matches_litI_map "://".toList (mid ++ (".".toList ++ (ext ++ query)))
      (0 + "http".toList.length + ([] : Str).length) caps
    refine ⟨pos', Re.matches_seq_intro ?_ (Re.matches_seq_intro h2
      (Re.matches_seq_intro h3 ht))⟩
    have e : "http://".toList ++ mid ++ ".".toList ++ ext ++ query =
        "http".toList ++ ("://".toList ++ (mid ++ (".".toList ++ (ext ++ query)))) := by
      have : "http://".toList = "http".toList ++ "://".toList := rfl
      rw [this]; simp [List.append_assoc]
    rw [e]; exact h1
  · obtain ⟨pos', ht⟩ := htail (0 + "http".toList.length + 1 + "://".toList.length)
    have h1 := Re.matches_litI_map "http".toList
      (['s'] ++ ("://".toList ++ (mid ++ (".".toList ++ (ext ++ query))))) 0 caps
    have h2 := Re.matches_rep_append (eqIgnoreCase 's') 0 (some 1) true ['s']
      ("://".toList ++ (mid ++ (".".toList ++ (ext ++ query)))) (0 + "http".toList.length) caps
      (by decide) (Nat.zero_le _) (Or.inr (Nat.le_refl 1))
    have h3 := Re.matches_litI_map "://".toList (mid ++ (".".toList ++ (ext ++ query)))
      (0 + "http".toList.length + ['s'].length) caps
    refine ⟨pos', Re.matches_seq_intro ?_ (Re.matches_seq_intro h2
      (Re.matches_seq_intro h3 ht))⟩
    have e : "https://".toList ++ mid ++ ".".toList ++ ext ++ query =
        "http".toList ++ (['s'] ++ ("://".toList ++ (mid ++ (".".toList ++ (ext ++ query))))) := by
      have : "https://".toList = "http".toList ++ (['s'] ++ "://".toList) := rfl
      rw [this]; simp [List.append_assoc]
    rw [e]; exact h1

/-- A match of the first pattern of `extractImageUrl` captures the whole
input. -/
theorem reStandardExtract_group (t : Str) (m : Match) (h : reStandardExtract.exec t = some m) :
    m.group 1 = some t := by
  have e1 : reStandardExtract = Re.seq .bol (Re.seq (.cap 1 reStandardBody) .eol) := rfl
  have c1 : reStandardBody.capFree = true := by decide
  rw [e1] at h
  obtain ⟨s', hs', hm⟩ := Re.exec_bol_sound _ _ _ h
  rw [Re.matches_seq] at hs'
  obtain ⟨m1, hcap, heol⟩ := hs'
  rw [Re.matches_cap] at hcap
  obtain ⟨m0, hbody, rfl⟩ := hcap
  rw [Re.matches_eol] at heol
  obtain ⟨hnil, rfl⟩ := heol
  have hcaps := (Re.matches_capFree _ c1 _ _ hbody).1
  simp only at hnil hcaps
  have hg : (Re.seq (Re.cap 1 reStandardBody) Re.eol).groups = 1 := rfl
  rw [hm]
  simp [Match.group, hnil, hcaps, hg, List.replicate]

theorem reStandardExtract_exec_isSome (t : Str)
    (h : ∃ pos, reStandardBody.Matches ⟨0, t, [none, none]⟩ ⟨pos, [], [none, none]⟩) :
    (reStandardExtract.exec t).isSome = true := by
  have e1 : reStandardExtract = Re.seq .bol (Re.seq (.cap 1 reStandardBody) .eol) := rfl
  obtain ⟨pos, hp⟩ := h
  rw [e1, Re.exec_bol]
  apply Re.matchAt_complete _ _ _
    ⟨pos, [], ([none, none] : List (Option Str)).set 1 (some (t.take (t.length - 0)))⟩
  exact Re.matches_seq_intro ((Re.matches_bol _ _).2 ⟨rfl, rfl⟩)
    (Re.matches_seq_intro ((Re.matches_cap _ _ _ _).2 ⟨_, hp, rfl⟩)
      ((Re.matches_eol _ _).2 ⟨rfl, rfl⟩))

theorem reBulletStart_test_false (s : Str)
    (h : ∀ c, s.head? = some c → isBulletClass c = false) : reBulletStart.test s = false := by
  have e : reBulletStart = Re.seq .bol (Re.seq (.chr isBulletClass)
      (.rep isWhiteSpace 1 none true)) := rfl
  cases ht : reBulletStart.test s with
  | false => rfl
  | true =>
    rw [e, Re.test_bol_iff] at ht
    obtain ⟨s', m, hchr, -⟩ := ht
    rw [Re.matches_chr] at hchr
    obtain ⟨c, cs, hrest, hc, -⟩ := hchr
    simp only at hrest
    rw [h c (by rw [hrest]; rfl)] at hc
    cases hc

theorem reNumberStart_test_false (s : Str)
    (h : ∀ c, s.head? = some c → isDigit c = false) : reNumberStart.test s = false := by
  have e : reNumberStart = Re.seq .bol (Re.seq (.rep isDigit 1 none true)
      (Re.seq (.chr (is '.')) (.rep isWhiteSpace 1 none true))) := rfl
  cases ht : reNumberStart.test s with
  | false => rfl
  | true =>
    rw [e, Re.test_bol_iff] at ht
    obtain ⟨s', m, hrep, -⟩ := ht
    rw [Re.matches_rep] at hrep
    obtain ⟨j, ⟨h1, h2, h3, -⟩, -⟩ := hrep
    simp only at h1 h2 h3
    cases s with
    | nil => simp at h1; omega
    | cons c cs =>
      cases j with
      | zero => omega
      | succ j =>
        have hc := h2 c (by simp)
        rw [h c rfl] at hc
        cases hc

/-- The rules before the image rule leave a line alone whose trimmed form
starts with the letter `h`. -/
theorem stepFrom_of_h (cs line : Str) (ls : List Str) :
    stepFrom ('h' :: cs) line ls =
      match (extractImageUrl ('h' :: cs)).filter (fun u => !u.isEmpty) with
      | some imageUrl => ([Block.image imageUrl [] []], 1)
      | none =>
        match reMdImage.exec ('h' :: cs) with
        | some mdImageMatch =>
          let src := (mdImageMatch.group 2).getD []
          if startsWith "attachment:".toList src then
            ([Block.image [] (capOr (mdImageMatch.group 1) "Image placeholder - add URL".toList)
                attachmentCaption], 1)
          else
            ([Block.image src (capOr (mdImageMatch.group 1) []) []], 1)
        | none =>
          let paragraphLines :=
            ((line :: ls).map trim).takeWhile (fun pLine => !paragraphStop pLine)
          (if 0 < paragraphLines.length then [Block.paragraph (joinWith " ".toList paragraphLines)]
            else [], paragraphLines.length) := by
  have h1 : reHeader.exec ('h' :: cs) = none := reHeader_exec_none _ rfl
  have h2 : startsWith ">".toList ('h' :: cs) = false := rfl
  have h3 : reBulletStart.test ('h' :: cs) = false :=
    reBulletStart_test_false _ (by intro c hc; cases hc; decide)
  have h4 : reNumberStart.test ('h' :: cs) = false :=
    reNumberStart_test_false _ (by intro c hc; cases hc; decide)
  simp only [stepFrom, h1, h2, h3, h4, Bool.or_self, Bool.false_eq_true, if_false]

/-- C8 (image URL line).  A line whose trimmed form is `http://` or
`https://`, then one or more characters that are no white space, then a dot
and one of the extensions jpg, jpeg, png, gif, webp, svg in any letter case,
then nothing or `?` and a query free of white space, makes the pass push an
image block whose `src` is the trimmed line, with empty `alt` and `caption`,
and move the cursor by one line. -/
theorem step_image_url (env : Env) (line : Str) (ls : List Str) (scheme mid ext query : Str)
    (hs : scheme = "http://".toList ∨ scheme = "https://".toList)
    (hmid : mid ≠ []) (hmidws : ∀ c ∈ mid, isWhiteSpace c = false)
    (hext : ext.map asciiLower ∈ imageExtensions)
    (hq : query = [] ∨ ∃ q, query = '?' :: q ∧ ∀ c ∈ q, isWhiteSpace c = false)
    (hline : trim line = scheme ++ mid ++ ".".toList ++ ext ++ query) :
    step env (line :: ls) = ([Block.image (trim line) [] []], 1) := by
  obtain ⟨cs, hcs⟩ : ∃ cs, trim line = 'h' :: cs := by
    rw [hline]
    rcases hs with rfl | rfl
    · exact ⟨_, rfl⟩
    · exact ⟨_, rfl⟩
  have hpath := reStandardBody_matches scheme mid ext query [none, none] hs hmid hmidws hext hq
  rw [← hline] at hpath
  have hsome := reStandardExtract_exec_isSome (trim line) hpath
  have hex : extractImageUrl (trim line) = some (trim line) := by
    unfold extractImageUrl
    dsimp only
    rw [trim_trim]
    cases hm : reStandardExtract.exec (trim line) with
    | none => rw [hm] at hsome; cases hsome
    | some m => exact reStandardExtract_group _ _ hm
  rw [step_of_plain_head env line ls 'h' cs hcs (by decide) (by decide), stepFrom_of_h,
    ← hcs, hex]
  simp [Option.filter, hcs]

/-- C8, the example of the specification. -/
theorem step_image_url_example :
    step Env.plain ["https://example.com/photo.jpg".toList] =
        ([Block.image "https://example.com/photo.jpg".toList [] []], 1) ∧
      parseNotionContent Env.plain 1 "https://example.com/photo.jpg".toList =
        some [Block.image "https://example.com/photo.jpg".toList [] []] :=
  ⟨step_image_url Env.plain "https://example.com/photo.jpg".toList [] "https://".toList
      "example.com/photo".toList "jpg".toList [] (Or.inr rfl) (by decide) (by decide)
      (by decide) (Or.inl rfl) (by decide),
    by decide⟩

/-! ## Markdown images -/

theorem Re.litI_cons (c : Char) (cs : Str) :
    Re.litI (c :: cs) = Re.seq (.chr (eqIgnoreCase c)) (Re.litI cs) := rfl

/-- A line that does not start with the letter `h` is no image URL for
`extractImageUrl`. -/
theorem extractImageUrl_none_of_head (line : Str) (c : Char) (cs : Str)
    (ht : trim line = c :: cs) (hc : eqIgnoreCase 'h' c = false) :
    extractImageUrl line = none := by
  have e1 : reStandardExtract = Re.seq .bol (Re.seq (.cap 1 (Re.seq (Re.litI "http".toList)
      (Re.cat [.rep (eqIgnoreCase 's') 0 (some 1) true, Re.litI "://".toList,
        .rep notWhiteSpace 1 none true, Re.litI ".".toList, reImageExt,
        .opt (.seq (Re.litI "?".toList) (.rep notWhiteSpace 0 none true))]))) .eol) := rfl
  have e2 : reSupabaseExtract = Re.seq .bol (Re.seq (.cap 1 (Re.seq (Re.seq (Re.lit "http".toList)
      (Re.cat [.rep (is 's') 0 (some 1) true, Re.lit "://".toList,
        .rep (isNot '/') 1 none true, Re.lit ".supabase.co/storage/v1/object/".toList]))
      (.rep notWhiteSpace 1 none true))) .eol) := rfl
  have e3 : "http".toList = 'h' :: "ttp".toList := rfl
  have h1 : reStandardExtract.exec (c :: cs) = none := by
    rw [e1]
    apply exec_bol_none
    intro s' hs'
    rw [Re.matches_seq] at hs'
    obtain ⟨m1, hcap, -⟩ := hs'
    rw [Re.matches_cap] at hcap
    obtain ⟨m0, hbody, -⟩ := hcap
    rw [Re.matches_seq, e3, Re.litI_cons] at hbody
    obtain ⟨m2, hlit, -⟩ := hbody
    rw [Re.matches_seq] at hlit
    obtain ⟨m3, hchr, -⟩ := hlit
    rw [Re.matches_chr] at hchr
    obtain ⟨d, ds, hrest, hd, -⟩ := hchr
    simp only [List.cons.injEq] at hrest
    rw [← hrest.1, hc] at hd
    cases hd
  have h2 : reSupabaseExtract.exec (c :: cs) = none := by
    rw [e2]
    apply exec_bol_none
    intro s' hs'
    rw [Re.matches_seq] at hs'
    obtain ⟨m1, hcap, -⟩ := hs'
    rw [Re.matches_cap] at hcap
    obtain ⟨m0, hbody, -⟩ := hcap
    rw [Re.matches_seq] at hbody
    obtain ⟨m2, hbody, -⟩ := hbody
    rw [Re.matches_seq] at hbody
    obtain ⟨m3, hlit, -⟩ := hbody
    rw [Re.lit_matches] at hlit
    obtain ⟨b, hb, -⟩ := hlit
    simp only [e3, List.cons_append, List.cons.injEq] at hb
    rw [hb.1] at hc
    revert hc; decide
  unfold extractImageUrl
  dsimp only
  rw [ht, h1, h2]

/-- The markdown image pattern on `![alt](url)`, `alt` free of `]` and `url`
not empty and free of `)`. -/
theorem reMdImage_exec (alt url : Str) (halt : ']' ∉ alt) (hurl : ')' ∉ url) (hne : url ≠ []) :
    reMdImage.exec ("![".toList ++ alt ++ "](".toList ++ url ++ ")".toList) =
      some ⟨0, 2 + alt.length + 2 + url.length + 1, [],
        [some ("![".toList ++ alt ++ "](".toList ++ url ++ ")".toList), some alt, some url]⟩ := by
  have hb : reMdImage = Re.seq .bol (Re.seq (Re.lit "![".toList)
      (Re.seq (.cap 1 (.rep (isNot ']') 0 none true)) (Re.seq (Re.lit "](".toList)
      (Re.seq (.cap 2 (.rep (isNot ')') 1 none true)) (Re.seq (Re.lit ")".toList) .eol))))) := rfl
  have hrun : reMdImage.run ⟨0, "![".toList ++ alt ++ "](".toList ++ url ++ ")".toList,
      [none, none, none]⟩ some =
      some ⟨2 + alt.length + 2 + url.length + 1, [], [none, some alt, some url]⟩ := by
    rw [hb]
    simp only [Re.run_seq, Re.run_bol_zero]
    rw [Re.run_lit_of_eq "![".toList (alt ++ ("](".toList ++ (url ++ ")".toList))) _ _ _ _
      (by simp [List.append_assoc]), Re.run_cap]
    apply Re.run_rep_greedy (isNot ']') 0 none alt ("](".toList ++ (url ++ ")".toList)) _ _ _ _ _
      rfl (fun c hc => by
        simp only [isNot, bne_iff_ne, ne_eq]
        rintro rfl
        exact halt hc) (Nat.zero_le _) (Or.inr trivial)
    · intro c hc
      left
      have e : ("](".toList ++ (url ++ ")".toList)).head? = some ']' := rfl
      rw [e] at hc
      cases hc
      decide
    · dsimp only
      rw [Re.run_lit_of_eq "](".toList (url ++ ")".toList) _ _ _ _ rfl, Re.run_cap]
      apply Re.run_rep_greedy (isNot ')') 1 none url ")".toList _ _ _ _ _ rfl
        (fun c hc => by
          simp only [isNot, bne_iff_ne, ne_eq]
          rintro rfl
          exact hurl hc)
        (by cases url with
          | nil => exact absurd rfl hne
          | cons d ds => simp)
        (Or.inr trivial)
      · intro c hc
        left
        cases hc
        decide
      · dsimp only
        rw [Re.run_lit_of_eq ")".toList [] ")".toList _ _ _ (List.append_nil _).symm,
          Re.run_eol_nil]
        have l1 : "![".toList.length = 2 := rfl
        have l2 : "](".toList.length = 2 := rfl
        have l3 : ")".toList.length = 1 := rfl
        simp [l1, l2, l3, List.take_left', Nat.add_assoc]
  have hg : reMdImage.groups = 2 := rfl
  rw [hb, Re.exec_bol, ← hb]
  simp only [Re.matchAt, hg, List.replicate, hrun]
  simp

/-- C9 (Notion attachment placeholder), amended: the alt text holds no `]`
and the URL no `)`.  A line whose trimmed form is `![alt](url)` with `alt`
free of `]` and `url` free of `)` and starting with `attachment:` makes the
pass push one image block with empty `src`, with `alt` the given alt text
when that is not empty and the fallback text of the source otherwise, and
with the caption of the source; fallback and caption are not empty.  The
cursor moves by one line. -/
theorem step_attachment (env : Env) (line : Str) (ls : List Str) (alt url : Str)
    (halt : ']' ∉ alt) (hurl : ')' ∉ url)
    (hatt : startsWith "attachment:".toList url = true)
    (hline : trim line = "![".toList ++ alt ++ "](".toList ++ url ++ ")".toList) :
    step env (line :: ls) =
        ([Block.image [] (if alt = [] then "Image placeholder - add URL".toList else alt)
          attachmentCaption], 1) ∧
      "Image placeholder - add URL".toList ≠ [] ∧ attachmentCaption ≠ [] := by
  refine ⟨?_, by decide, by decide⟩
  have hne : url ≠ [] := by
    intro h0; rw [h0] at hatt; revert hatt; decide
  have hcs : trim line = '!' :: ('[' :: (alt ++ "](".toList ++ url ++ ")".toList)) := by
    rw [hline]
    have : "![".toList = ['!', '['] := rfl
    rw [this]; simp [List.append_assoc]
  have h1 : reHeader.exec (trim line) = none := reHeader_exec_none _ (by rw [hcs]; rfl)
  have h2 : startsWith ">".toList (trim line) = false := by rw [hcs]; rfl
  have h3 : reBulletStart.test (trim line) = false :=
    reBulletStart_test_false _ (by rw [hcs]; intro c hc; cases hc; decide)
  have h4 : reNumberStart.test (trim line) = false :=
    reNumberStart_test_false _ (by rw [hcs]; intro c hc; cases hc; decide)
  have h5 : extractImageUrl (trim line) = none :=
    extractImageUrl_none_of_head _ '!' _ (by rw [trim_trim]; exact hcs) (by decide)
  rw [step_of_plain_head env line ls '!' _ hcs (by decide) (by decide), ← hcs]
  simp only [stepFrom, h1, h2, h3, h4, h5, Bool.or_self, Bool.false_eq_true, if_false,
    Option.filter]
  rw [hline, reMdImage_exec alt url halt hurl hne]
  have hatt' : startsWith ['a', 't', 't', 'a', 'c', 'h', 'm', 'e', 'n', 't', ':'] url = true :=
    hatt
  simp only [Match.group, List.get?, Option.join, Option.getD, hatt, if_true, capOr, orElseStr]
  cases alt <;> simp [hatt']

/-- C9, the example of the specification. -/
theorem step_attachment_example :
    (step Env.plain ["![logo](attachment:123)".toList] =
        ([Block.image [] (if "logo".toList = [] then "Image placeholder - add URL".toList
          else "logo".toList) attachmentCaption], 1) ∧
      "Image placeholder - add URL".toList ≠ [] ∧ attachmentCaption ≠ []) ∧
    parseNotionContent Env.plain 1 "![logo](attachment:123)".toList =
      some [Block.image [] "logo".toList attachmentCaption] :=
  ⟨step_attachment Env.plain "![logo](attachment:123)".toList [] "logo".toList
      "attachment:123".toList (by decide) (by decide) (by decide) (by decide),
    by decide⟩

/-- C9 as stated fails: for the alt text `a[b]c` and for the URL
`attachment:a(b)c` the line is of the form `![alt](url)` with `url` starting
with `attachment:`, but the pattern of source line 275 does not match; no
image is pushed, the cursor stays, and the scan does not return. -/
theorem step_attachment_brackets :
    trim "![a[b]c](attachment:1)".toList =
        "![".toList ++ "a[b]c".toList ++ "](".toList ++ "attachment:1".toList ++ ")".toList ∧
      step Env.plain ["![a[b]c](attachment:1)".toList] = ([], 0) ∧
      (∀ fuel, parseNotionContent Env.plain fuel "![a[b]c](attachment:1)".toList = none) ∧
      trim "![x](attachment:a(b)c)".toList =
        "![".toList ++ "x".toList ++ "](".toList ++ "attachment:a(b)c".toList ++ ")".toList ∧
      step Env.plain ["![x](attachment:a(b)c)".toList] = ([], 0) := by
  refine ⟨by decide, by decide, ?_, by decide, by decide⟩
  intro fuel
  exact (stallsOn_of_step Env.plain fuel _ (by decide) (by decide) (by decide)).2.2

/-! ## Lists -/

/-- The tail `\s+(.+)$` of both item patterns on white space and a text. -/
theorem itemTail_run (w t : Str) (pos : Nat) (hw : w ≠ []) (hws : AllWs w) (ht : t ≠ [])
    (hhead : ∀ c, t.head? = some c → isWhiteSpace c = false)
    (hdot : ∀ c ∈ t, isLineTerminator c = false) :
    (Re.seq (.rep isWhiteSpace 1 none true) (Re.seq (.cap 1 (.rep isDot 1 none true)) .eol)).run
        ⟨pos, w ++ t, [none, none]⟩ some =
      some ⟨pos + w.length + t.length, [], [none, some t]⟩ := by
  simp only [Re.run_seq]
  apply Re.run_rep_greedy isWhiteSpace 1 none w t _ _ _ _ _ rfl hws
    (by cases w with
      | nil => exact absurd rfl hw
      | cons d ds => simp)
    (Or.inr trivial) (fun c hc => Or.inl (hhead c hc))
  rw [Re.run_cap]
  apply Re.run_rep_greedy isDot 1 none t [] _ _ _ _ _ (List.append_nil _).symm
    (fun c hc => isDot_of_not_lineTerminator c (hdot c hc))
    (by cases t with
      | nil => exact absurd rfl ht
      | cons d ds => simp)
    (Or.inr trivial) (by intro c hc; cases hc)
  dsimp only
  rw [Re.run_eol_nil]
  simp

/-- The bullet pattern on a bullet line. -/
theorem reBullet_exec (b : Char) (w t : Str) (hb : isBulletClass b = true)
    (hw : w ≠ []) (hws : AllWs w) (ht : t ≠ [])
    (hhead : ∀ c, t.head? = some c → isWhiteSpace c = false)
    (hdot : ∀ c ∈ t, isLineTerminator c = false) :
    ∃ m, reBullet.exec (b :: (w ++ t)) = some m ∧ m.group 1 = some t := by
  have he : reBullet = Re.seq .bol (Re.seq (.chr isBulletClass)
      (Re.seq (.rep isWhiteSpace 1 none true) (Re.seq (.cap 1 (.rep isDot 1 none true)) .eol))) :=
    rfl
  have hrun : reBullet.run ⟨0, b :: (w ++ t), [none, none]⟩ some =
      some ⟨0 + 1 + w.length + t.length, [], [none, some t]⟩ := by
    rw [he, Re.run_seq, Re.run_bol_zero, Re.run_seq]
    have : (Re.chr isBulletClass).run ⟨0, b :: (w ++ t), [none, none]⟩
        (fun s' => (Re.seq (.rep isWhiteSpace 1 none true)
          (Re.seq (.cap 1 (.rep isDot 1 none true)) .eol)).run s' some) =
        (Re.seq (.rep isWhiteSpace 1 none true)
          (Re.seq (.cap 1 (.rep isDot 1 none true)) .eol)).run ⟨0 + 1, w ++ t, [none, none]⟩
          some := by
      simp [Re.run, hb]
    rw [this]
    exact itemTail_run w t (0 + 1) hw hws ht hhead hdot
  have hg : reBullet.groups = 1 := rfl
  rw [he, Re.exec_bol, ← he]
  simp only [Re.matchAt, hg, List.replicate, hrun]
  exact ⟨_, rfl, by simp [Match.group]⟩

/-- The number pattern on a numbered line. -/
theorem reNumber_exec (ds w t : Str) (hds : ds ≠ []) (hdig : ∀ c ∈ ds, isDigit c = true)
    (hw : w ≠ []) (hws : AllWs w) (ht : t ≠ [])
    (hhead : ∀ c, t.head? = some c → isWhiteSpace c = false)
    (hdot : ∀ c ∈ t, isLineTerminator c = false) :
    ∃ m, reNumber.exec (ds ++ ".".toList ++ w ++ t) = some m ∧ m.group 1 = some t := by
  have he : reNumber = Re.seq .bol (Re.seq (.rep isDigit 1 none true) (Re.seq (.chr (is '.'))
      (Re.seq (.rep isWhiteSpace 1 none true) (Re.seq (.cap 1 (.rep isDot 1 none true)) .eol)))) :=
    rfl
  have hrun : reNumber.run ⟨0, ds ++ ".".toList ++ w ++ t, [none, none]⟩ some =
      some ⟨0 + ds.length + 1 + w.length + t.length, [], [none, some t]⟩ := by
    rw [he, Re.run_seq, Re.run_bol_zero, Re.run_seq]
    apply Re.run_rep_greedy isDigit 1 none ds ('.' :: (w ++ t)) _ _ _ _ _
      (by
        have : ".".toList = ['.'] := rfl
        rw [this]; simp [List.append_assoc])
      hdig
      (by cases ds with
        | nil => exact absurd rfl hds
        | cons d ds => simp)
      (Or.inr trivial) (by intro c hc; cases hc; exact Or.inl (by decide))
    have : (Re.seq (Re.chr (is '.')) (Re.seq (.rep isWhiteSpace 1 none true)
          (Re.seq (.cap 1 (.rep isDot 1 none true)) .eol))).run
          ⟨0 + ds.length, '.' :: (w ++ t), [none, none]⟩ some =
        (Re.seq (.rep isWhiteSpace 1 none true)
          (Re.seq (.cap 1 (.rep isDot 1 none true)) .eol)).run
          ⟨0 + ds.length + 1, w ++ t, [none, none]⟩ some := by
      rw [Re.run_seq]
      simp [Re.run, is]
    rw [this]
    exact itemTail_run w t _ hw hws ht hhead hdot
  have hg : reNumber.groups = 1 := rfl
  rw [he, Re.exec_bol, ← he]
  simp only [Re.matchAt, hg, List.replicate, hrun]
  exact ⟨_, rfl, by simp [Match.group]⟩

theorem reBullet_exec_none (s : Str)
    (h : ∀ c, s.head? = some c → isBulletClass c = false) : reBullet.exec s = none := by
  have he : reBullet = Re.seq .bol (Re.seq (.chr isBulletClass)
      (Re.seq (.rep isWhiteSpace 1 none true) (Re.seq (.cap 1 (.rep isDot 1 none true)) .eol))) :=
    rfl
  rw [he]
  apply exec_bol_none
  intro s' hs'
  rw [Re.matches_seq] at hs'
  obtain ⟨m, hchr, -⟩ := hs'
  rw [Re.matches_chr] at hchr
  obtain ⟨c, cs, hrest, hc, -⟩ := hchr
  simp only at hrest
  rw [h c (by rw [hrest]; rfl)] at hc
  cases hc

/-- A list line starts, trimmed, with `-`, `*` or a digit. -/
theorem listLine_head (l t : Str) (h : ListLine l t) :
    ∃ c cs, trim l = c :: cs ∧ (c = '-' ∨ c = '*' ∨ isDigit c = true) := by
  obtain ⟨mk, w, hl, hmk, -⟩ := h
  rcases hmk with rfl | rfl | ⟨ds, hds, hdig, rfl⟩
  · exact ⟨'-', w ++ t, by rw [hl]; rfl, Or.inl rfl⟩
  · exact ⟨'*', w ++ t, by rw [hl]; rfl, Or.inr (Or.inl rfl)⟩
  · cases ds with
    | nil => exact absurd rfl hds
    | cons d ds' =>
      exact ⟨d, ds' ++ ".".toList ++ w ++ t, by rw [hl]; simp [List.append_assoc],
        Or.inr (Or.inr (hdig d (by simp)))⟩

/-- The list loop takes a list line and pushes its text. -/
theorem listLoop_cons (l t : Str) (ls : List Str) (h : ListLine l t) :
    listLoop (l :: ls) = (t :: (listLoop ls).1, (listLoop ls).2 + 1) := by
  obtain ⟨mk, w, hl, hmk, hw, hws, ht, hhead, hdot⟩ := h
  rcases hmk with rfl | rfl | ⟨ds, hds, hdig, rfl⟩
  · obtain ⟨m, hm, hg⟩ := reBullet_exec '-' w t (by decide) hw hws ht hhead hdot
    have e : "-".toList ++ w ++ t = '-' :: (w ++ t) := rfl
    simp only [listLoop, hl, e, hm, hg, Option.getD]
  · obtain ⟨m, hm, hg⟩ := reBullet_exec '*' w t (by decide) hw hws ht hhead hdot
    have e : "*".toList ++ w ++ t = '*' :: (w ++ t) := rfl
    simp only [listLoop, hl, e, hm, hg, Option.getD]
  · obtain ⟨m, hm, hg⟩ := reNumber_exec ds w t hds hdig hw hws ht hhead hdot
    have hnone : reBullet.exec (ds ++ ".".toList ++ w ++ t) = none := by
      apply reBullet_exec_none
      cases ds with
      | nil => exact absurd rfl hds
      | cons d ds' =>
        intro c hc
        simp only [List.cons_append, List.head?_cons, Option.some.injEq] at hc
        subst hc
        have := hdig d (by simp)
        simp only [isDigit, Bool.and_eq_true, decide_eq_true_eq] at this
        simp only [isBulletClass, Bool.or_eq_false_iff, beq_eq_false_iff_ne, ne_eq]
        omega
    simp only [listLoop, hl, hnone, hm, hg, Option.getD]

/-- The list loop stops at a line that is no item, moving over it when it is
blank. -/
theorem listLoop_stop (post : List Str)
    (h : ∀ l, post.head? = some l → NotListItem l) : listLoop post = ([], blankNext post) := by
  cases post with
  | nil => rfl
  | cons l rest =>
    obtain ⟨h1, h2⟩ := h l rfl
    simp only [listLoop, h1, h2, blankNext]
    split <;> rfl

theorem listLoop_run (post : List Str) (h : ∀ l, post.head? = some l → NotListItem l) :
    ∀ (ps : List (Str × Str)), (∀ p ∈ ps, ListLine p.1 p.2) →
      listLoop (ps.map Prod.fst ++ post) = (ps.map Prod.snd, ps.length + blankNext post) := by
  intro ps
  induction ps with
  | nil =>
    intro _
    simp [listLoop_stop post h]
  | cons p rest ih =>
    intro hps
    have hp := hps p (by simp)
    have hrest := ih (fun q hq => hps q (by simp [hq]))
    simp only [List.map_cons, List.cons_append, List.length_cons]
    rw [listLoop_cons p.1 p.2 _ hp, hrest]
    simp only [Prod.mk.injEq, true_and]
    omega

/-- A list line passes one of the two tests of source line 233. -/
theorem listLine_start (l t : Str) (h : ListLine l t) :
    (reBulletStart.test (trim l) || reNumberStart.test (trim l)) = true := by
  obtain ⟨mk, w, hl, hmk, hw, hws, ht, -, -⟩ := h
  have e1 : reBulletStart = Re.seq .bol (Re.seq (.chr isBulletClass)
      (.rep isWhiteSpace 1 none true)) := rfl
  have e2 : reNumberStart = Re.seq .bol (Re.seq (.rep isDigit 1 none true)
      (Re.seq (.chr (is '.')) (.rep isWhiteSpace 1 none true))) := rfl
  have hwlen : 1 ≤ w.length := by
    cases w with
    | nil => exact absurd rfl hw
    | cons d ds => simp
  have hbullet : ∀ b : Char, isBulletClass b = true →
      reBulletStart.test (b :: (w ++ t)) = true := by
    intro b hb
    rw [e1, Re.test_bol_iff]
    exact ⟨_, Re.matches_seq_intro ((Re.matches_chr _ _ _).2 ⟨b, w ++ t, rfl, hb, rfl⟩)
      (Re.matches_rep_append isWhiteSpace 1 none true w t _ _ hws hwlen (Or.inr trivial))⟩
  rw [hl]
  rcases hmk with rfl | rfl | ⟨ds, hds, hdig, rfl⟩
  · have := hbullet '-' (by decide)
    have e : "-".toList ++ w ++ t = '-' :: (w ++ t) := rfl
    rw [e, this]; rfl
  · have := hbullet '*' (by decide)
    have e : "*".toList ++ w ++ t = '*' :: (w ++ t) := rfl
    rw [e, this]; rfl
  · have hnum : reNumberStart.test (ds ++ ".".toList ++ w ++ t) = true := by
      rw [e2, Re.test_bol_iff]
      have h1 := Re.matches_rep_append isDigit 1 none true ds ('.' :: (w ++ t)) 0
        (List.replicate 1 none) hdig
        (by cases ds with
          | nil => exact absurd rfl hds
          | cons d ds => simp)
        (Or.inr trivial)
      have h2 : (Re.chr (is '.')).Matches ⟨0 + ds.length, '.' :: (w ++ t), List.replicate 1 none⟩
          ⟨0 + ds.length + 1, w ++ t, List.replicate 1 none⟩ :=
        (Re.matches_chr _ _ _).2 ⟨'.', w ++ t, rfl, by decide, rfl⟩
      have h3 := Re.matches_rep_append isWhiteSpace 1 none true w t (0 + ds.length + 1)
        (List.replicate 1 none) hws hwlen (Or.inr trivial)
      have e : ds ++ ".".toList ++ w ++ t = ds ++ '.' :: (w ++ t) := by
        have : ".".toList = ['.'] := rfl
        rw [this]; simp [List.append_assoc]
      rw [e]
      exact ⟨_, Re.matches_seq_intro h1 (Re.matches_seq_intro h2 h3)⟩
    rw [hnum, Bool.or_true]

/-- C10 (mixed list collapse), amended: the texts hold no line terminator.
A non-empty sequence of adjacent lines, each a bullet line (`-` or `*`, white
space, text) or a numbered line (digits, a dot, white space, text) whose text
holds no line terminator, followed by the end of the input or by a line that
is no list item, makes the pass push one list block whose items are the
texts of the lines, in order; the cursor moves past the sequence, and past
the line after it when that line is blank. -/
theorem step_list (env : Env) (ps : List (Str × Str)) (post : List Str) (hne : ps ≠ [])
    (hps : ∀ p ∈ ps, ListLine p.1 p.2)
    (hpost : ∀ l, post.head? = some l → NotListItem l) :
    step env (ps.map Prod.fst ++ post) =
      ([Block.list (ps.map Prod.snd)], ps.length + blankNext post) := by
  have hloop := listLoop_run post hpost ps hps
  cases ps with
  | nil => exact absurd rfl hne
  | cons p rest =>
    have hp := hps p (by simp)
    obtain ⟨c, cs, hcs, hc⟩ := listLine_head p.1 p.2 hp
    have hstart := listLine_start p.1 p.2 hp
    have hc1 : c ≠ Char.ofNat 96 := by
      rcases hc with rfl | rfl | hc
      · decide
      · decide
      · rintro rfl; revert hc; decide
    have hc2 : c ≠ ':' := by
      rcases hc with rfl | rfl | hc
      · decide
      · decide
      · rintro rfl; revert hc; decide
    have hc3 : startsWith "#".toList (c :: cs) = false := by
      apply startsWith_cons_of_head
      intro d hd
      cases hd
      rcases hc with rfl | rfl | hc
      · decide
      · decide
      · rintro rfl; revert hc; decide
    have hc4 : startsWith ">".toList (c :: cs) = false := by
      apply startsWith_cons_of_head
      intro d hd
      cases hd
      rcases hc with rfl | rfl | hc
      · decide
      · decide
      · rintro rfl; revert hc; decide
    simp only [List.map_cons, List.cons_append] at hloop ⊢
    rw [step_of_plain_head env _ _ c cs hcs hc1 hc2]
    rw [hcs] at hstart
    simp only [stepFrom, reHeader_exec_none _ hc3, hc4, Bool.false_eq_true, if_false, hstart,
      if_true, hloop]
    simp

/-- C10, the example of the specification: a bullet line, a numbered line and
a bullet line give one list. -/
theorem step_list_example :
    step Env.plain ([("- a".toList, "a".toList), ("1. b".toList, "b".toList),
        ("* c".toList, "c".toList)].map Prod.fst ++ []) =
      ([Block.list ([("- a".toList, "a".toList), ("1. b".toList, "b".toList),
        ("* c".toList, "c".toList)].map Prod.snd)], 3 + blankNext []) ∧
    parseNotionContent Env.plain 1 "- a\n1. b\n* c".toList =
      some [Block.list ["a".toList, "b".toList, "c".toList]] :=
  ⟨step_list Env.plain [("- a".toList, "a".toList), ("1. b".toList, "b".toList),
      ("* c".toList, "c".toList)] [] (by decide)
      (by
        intro p hp
        simp only [List.mem_cons, List.mem_singleton, List.not_mem_nil, or_false] at hp
        rcases hp with rfl | rfl | rfl
        · exact ⟨"-".toList, " ".toList, by decide, Or.inl rfl, by decide,
            by unfold AllWs; decide, by decide, by decide, by decide⟩
        · exact ⟨"1.".toList, " ".toList, by decide,
            Or.inr (Or.inr ⟨"1".toList, by decide, by decide, rfl⟩), by decide,
            by unfold AllWs; decide, by decide, by decide, by decide⟩
        · exact ⟨"*".toList, " ".toList, by decide, Or.inr (Or.inl rfl), by decide,
            by unfold AllWs; decide, by decide, by decide, by decide⟩)
      (by intro l hl; cases hl),
    by decide⟩

/-- C10 as stated fails: the bullet line `- `, `a`, U+2028, `b` passes the
test that opens the list branch, but the item pattern does not match it; no
list is pushed and the cursor stays where it is. -/
theorem step_list_line_separator :
    trim "- a\u2028b".toList = "-".toList ++ " ".toList ++ "a\u2028b".toList ∧
      step Env.plain ["- a\u2028b".toList] = ([], 0) ∧
      ∀ fuel, parseNotionContent Env.plain fuel "- a\u2028b".toList = none := by
  refine ⟨by decide, by decide, ?_⟩
  intro fuel
  exact (stallsOn_of_step Env.plain fuel _ (by decide) (by decide) (by decide)).2.2

/-! ## Storage URLs -/

theorem Re.lit_matches_append (w b : Str) (pos : Nat) (caps : List (Option Str)) :
    (Re.lit w).Matches ⟨pos, w ++ b, caps⟩ ⟨pos + w.length, b, caps⟩ :=
  (Re.lit_matches w _ _).2 ⟨b, rfl, rfl⟩

theorem reSupabaseBody_matches (s host rest : Str) (caps : List (Option Str))
    (hs : s = [] ∨ s = "s".toList) (hhost : host ≠ []) (hslash : ∀ c ∈ host, c ≠ '/') :
    reSupabaseBody.Matches
      ⟨0, "http".toList ++ s ++ "://".toList ++ host ++
        ".supabase.co/storage/v1/object/".toList ++ rest, caps⟩
      ⟨"http".toList.length + s.length + "://".toList.length + host.length +
        ".supabase.co/storage/v1/object/".toList.length, rest, caps⟩ := by
  have hbody : reSupabaseBody = Re.seq (Re.lit "http".toList)
      (Re.seq (.rep (is 's') 0 (some 1) true) (Re.seq (Re.lit "://".toList)
      (Re.seq (.rep (isNot '/') 1 none true)
        (Re.lit ".supabase.co/storage/v1/object/".toList)))) := rfl
  rw [hbody]
  simp only [List.append_assoc]
  have h1 := Re.lit_matches_append "http".toList
    (s ++ ("://".toList ++ (host ++ (".supabase.co/storage/v1/object/".toList ++ rest)))) 0 caps
  have h2 := Re.matches_rep_append (is 's') 0 (some 1) true s
    ("://".toList ++ (host ++ (".supabase.co/storage/v1/object/".toList ++ rest)))
    (0 + "http".toList.length) caps
    (by rcases hs with rfl | rfl
        · intro c hc; cases hc
        · decide)
    (Nat.zero_le _)
    (by rcases hs with rfl | rfl
        · exact Or.inr (Nat.zero_le 1)
        · exact Or.inr (Nat.le_refl 1))
  have h3 := Re.lit_matches_append "://".toList
    (host ++ (".supabase.co/storage/v1/object/".toList ++ rest))
    (0 + "http".toList.length + s.length) caps
  have h4 := Re.matches_rep_append (isNot '/') 1 none true host
    (".supabase.co/storage/v1/object/".toList ++ rest)
    (0 + "http".toList.length + s.length + "://".toList.length) caps
    (fun c hc => by simp [isNot, hslash c hc])
    (by cases host with
        | nil => exact absurd rfl hhost
        | cons d ds => simp)
    (Or.inr trivial)
  have h5 := Re.lit_matches_append ".supabase.co/storage/v1/object/".toList rest
    (0 + "http".toList.length + s.length + "://".toList.length + host.length) caps
  rw [Nat.zero_add] at h1 h2 h3 h4 h5
  exact Re.matches_seq_intro h1 (Re.matches_seq_intro h2 (Re.matches_seq_intro h3
    (Re.matches_seq_intro h4 h5)))

/-- A match of the second pattern of `extractImageUrl` captures the whole
input. -/
theorem reSupabaseExtract_group (t : Str) (m : Match) (h : reSupabaseExtract.exec t = some m) :
    m.group 1 = some t := by
  have e1 : reSupabaseExtract = Re.seq .bol (Re.seq (.cap 1
      (.seq reSupabaseBody (.rep notWhiteSpace 1 none true))) .eol) := rfl
  have c1 : (Re.seq reSupabaseBody (.rep notWhiteSpace 1 none true)).capFree = true := by decide
  rw [e1] at h
  obtain ⟨s', hs', hm⟩ := Re.exec_bol_sound _ _ _ h
  rw [Re.matches_seq] at hs'
  obtain ⟨m1, hcap, heol⟩ := hs'
  rw [Re.matches_cap] at hcap
  obtain ⟨m0, hbody, rfl⟩ := hcap
  rw [Re.matches_eol] at heol
  obtain ⟨hnil, rfl⟩ := heol
  have hcaps := (Re.matches_capFree _ c1 _ _ hbody).1
  simp only at hnil hcaps
  have hg : (Re.seq (Re.cap 1 (Re.seq reSupabaseBody (.rep notWhiteSpace 1 none true)))
      Re.eol).groups = 1 := rfl
  rw [hm]
  simp [Match.group, hnil, hcaps, hg, List.replicate]

theorem reSupabaseExtract_exec_isSome (t : Str)
    (h : ∃ pos, (Re.seq reSupabaseBody (.rep notWhiteSpace 1 none true)).Matches
      ⟨0, t, [none, none]⟩ ⟨pos, [], [none, none]⟩) :
    (reSupabaseExtract.exec t).isSome = true := by
  have e1 : reSupabaseExtract = Re.seq .bol (Re.seq (.cap 1
      (.seq reSupabaseBody (.rep notWhiteSpace 1 none true))) .eol) := rfl
  obtain ⟨pos, hp⟩ := h
  rw [e1, Re.exec_bol]
  apply Re.matchAt_complete _ _ _
    ⟨pos, [], ([none, none] : List (Option Str)).set 1 (some (t.take (t.length - 0)))⟩
  exact Re.matches_seq_intro ((Re.matches_bol _ _).2 ⟨rfl, rfl⟩)
    (Re.matches_seq_intro ((Re.matches_cap _ _ _ _).2 ⟨_, hp, rfl⟩)
      ((Re.matches_eol _ _).2 ⟨rfl, rfl⟩))

/-- The function `extractImageUrl` returns its trimmed argument when that has
the shape of a storage URL with a path free of white space. -/
theorem extractImageUrl_storage (line s host rest : Str)
    (hs : s = [] ∨ s = "s".toList) (hhost : host ≠ []) (hslash : ∀ c ∈ host, c ≠ '/')
    (hrest : rest ≠ []) (hws : ∀ c ∈ rest, isWhiteSpace c = false)
    (hline : trim line = "http".toList ++ s ++ "://".toList ++ host ++
      ".supabase.co/storage/v1/object/".toList ++ rest) :
    extractImageUrl line = some (trim line) := by
  have hb := reSupabaseBody_matches s host rest [none, none] hs hhost hslash
  have hr := Re.matches_rep_append notWhiteSpace 1 none true rest []
    ("http".toList.length + s.length + "://".toList.length + host.length +
        ".supabase.co/storage/v1/object/".toList.length) [none, none]
    (fun c hc => by simp [notWhiteSpace, hws c hc])
    (by cases rest with
        | nil => exact absurd rfl hrest
        | cons d ds => simp)
    (Or.inr trivial)
  rw [List.append_nil] at hr
  rw [← hline] at hb
  have hsome := reSupabaseExtract_exec_isSome (trim line) ⟨_, Re.matches_seq_intro hb hr⟩
  unfold extractImageUrl
  dsimp only
  cases h1 : reStandardExtract.exec (trim line) with
  | some m => exact reStandardExtract_group _ _ h1
  | none =>
    dsimp only
    cases h2 : reSupabaseExtract.exec (trim line) with
    | none => rw [h2] at hsome; cases hsome
    | some m => exact reSupabaseExtract_group _ _ h2

/-- C11 (storage URL paragraph on the HTML path).  For a `p` element whose
converted text, once trimmed, is `http://` or `https://`, a host that is not
empty and holds no `/`, `.supabase.co/storage/v1/object/` and then one or more
characters that are no white space, `processNode` returns exactly one image
block, with that URL as `src` and empty `alt` and `caption`, and no paragraph
block. -/
theorem processNode_storage_url (env : Env) (tagName : Str) (attrs : List (Str × Str))
    (children : List Node) (s host rest : Str)
    (htag : toLowerCase env tagName = "p".toList)
    (hs : s = [] ∨ s = "s".toList) (hhost : host ≠ []) (hslash : ∀ c ∈ host, c ≠ '/')
    (hrest : rest ≠ []) (hws : ∀ c ∈ rest, isWhiteSpace c = false)
    (hurl : trim (getTextWithFormatting env children) = "http".toList ++ s ++ "://".toList ++
      host ++ ".supabase.co/storage/v1/object/".toList ++ rest) :
    processNode env (.element tagName attrs children) =
      [Block.image (trim (getTextWithFormatting env children)) [] []] := by
  have hex := extractImageUrl_storage _ s host rest hs hhost hslash hrest hws hurl
  have hne : trim (getTextWithFormatting env children) ≠ [] := by
    rw [hurl]; simp
  unfold processNode
  simp only [htag]
  rw [if_neg (by decide), if_pos trivial, hex]
  cases hc : trim (getTextWithFormatting env children) with
  | nil => exact absurd hc hne
  | cons c cs => simp [Option.filter]

/-- C11, an example: a storage URL in a `P` element. -/
theorem processNode_storage_url_example :
    processNode Env.plain (.element "P".toList []
        [.text " https://abc.supabase.co/storage/v1/object/public/img/a1".toList]) =
      [Block.image "https://abc.supabase.co/storage/v1/object/public/img/a1".toList [] []] :=
  processNode_storage_url Env.plain "P".toList []
    [.text " https://abc.supabase.co/storage/v1/object/public/img/a1".toList] "s".toList
    "abc".toList "public/img/a1".toList (by decide) (Or.inr rfl) (by decide) (by decide)
    (by decide) (by decide) (by decide)

/-- C11, where the claim as written fails: a storage URL that ends right after
`object/`, and one whose path holds a space, give a paragraph block. -/
theorem processNode_storage_url_no_path :
    processNode Env.plain (.element "P".toList []
        [.text "https://abc.supabase.co/storage/v1/object/".toList]) =
      [Block.paragraph "https://abc.supabase.co/storage/v1/object/".toList] ∧
    processNode Env.plain (.element "P".toList []
        [.text "https://abc.supabase.co/storage/v1/object/my file".toList]) =
      [Block.paragraph "https://abc.supabase.co/storage/v1/object/my file".toList] := by
  decide

/-- C19 (the two image tests).  The tests disagree: on a storage URL that ends
right after `object/`, and on one whose path holds a space, `isImageUrl` is
true and `extractImageUrl` returns nothing, and a scan that reaches such a line
never ends.  The other direction holds: whenever `extractImageUrl` returns a
URL, `isImageUrl` is true. -/
theorem isImageUrl_extractImageUrl_disagree :
    (isImageUrl "https://abc.supabase.co/storage/v1/object/".toList = true ∧
      extractImageUrl "https://abc.supabase.co/storage/v1/object/".toList = none) ∧
    (isImageUrl "https://abc.supabase.co/storage/v1/object/my file".toList = true ∧
      extractImageUrl "https://abc.supabase.co/storage/v1/object/my file".toList = none) ∧
    (∀ fuel, parseNotionContent Env.plain fuel
      "https://abc.supabase.co/storage/v1/object/".toList = none) ∧
    (∀ (s u : Str), extractImageUrl s = some u → isImageUrl s = true) := by
  refine ⟨by decide, by decide, ?_, fun s u h => isImageUrl_of_extractImageUrl s u h⟩
  intro fuel
  have h0 : normalize "https://abc.supabase.co/storage/v1/object/".toList =
      "https://abc.supabase.co/storage/v1/object/".toList := by decide
  have h1 : isHTML "https://abc.supabase.co/storage/v1/object/".toList = false := by decide
  have h2 : splitOn '\n' "https://abc.supabase.co/storage/v1/object/".toList =
      ["https://abc.supabase.co/storage/v1/object/".toList] := by decide
  have h3 : (step Env.plain ["https://abc.supabase.co/storage/v1/object/".toList]).2 = 0 := by
    decide
  unfold parseNotionContent
  simp only [h0, h1, h2, Bool.false_eq_true, if_false]
  exact scan_stalled Env.plain _ _ h3 fuel

/-! ## Line endings -/

theorem replaceAllGo_crlf : ∀ (n : Nat) (s : Str), s.length ≤ n → ∀ pos,
    reCRLF.replaceAllGo "\n".toList s pos 0 = dropCRLF s := by
  have e1 : reCRLF = Re.lit ('\r' :: ['\n']) := rfl
  intro n
  induction n using Nat.strong_induction_on with
  | _ n ih =>
    intro s hs pos
    match s, hs with
    | [], _ => simp [e1, Re.replaceAllGo, Re.matchAt, Re.lit, Re.run, dropCRLF]
    | [c], _ =>
      by_cases hc : c = '\r'
      · subst hc
        simp [e1, Re.replaceAllGo, Re.matchAt, Re.lit, Re.run, dropCRLF]
      · simp [e1, Re.replaceAllGo, Re.matchAt, Re.lit, Re.run, dropCRLF, hc]
    | c :: d :: s, hs =>
      simp only [List.length_cons] at hs
      by_cases hc : c = '\r'
      · by_cases hd : d = '\n'
        · subst hc; subst hd
          have h1 := ih (n - 2) (by omega) s (by omega) (pos + 1 + 1)
          have a1 : pos + 1 + 1 - pos = 2 := by omega
          rw [e1] at h1
          simp [e1, Re.replaceAllGo, Re.matchAt, Re.lit, Re.run, dropCRLF, a1] at h1 ⊢
          exact h1
        · subst hc
          have h1 := ih (n - 1) (by omega) (d :: s) (by simp only [List.length_cons]; omega)
            (pos + 1)
          rw [e1] at h1
          simp [e1, Re.replaceAllGo, Re.matchAt, Re.lit, Re.run, dropCRLF, hd] at h1 ⊢
          exact h1
      · have h1 := ih (n - 1) (by omega) (d :: s) (by simp only [List.length_cons]; omega)
          (pos + 1)
        rw [e1] at h1
        simp [e1, Re.replaceAllGo, Re.matchAt, Re.lit, Re.run, dropCRLF, hc] at h1 ⊢
        exact h1

theorem replaceAllGo_cr : ∀ (s : Str) (pos : Nat),
    reCR.replaceAllGo "\n".toList s pos 0 = s.map crToLf := by
  have e2 : reCR = Re.lit ('\r' :: []) := rfl
  intro s
  induction s with
  | nil => intro pos; simp [e2, Re.replaceAllGo, Re.matchAt, Re.lit, Re.run]
  | cons c cs ih =>
    intro pos
    have h1 := ih (pos + 1)
    rw [e2] at h1
    by_cases hc : c = '\r'
    · subst hc
      cases cs with
      | nil => simp [e2, Re.replaceAllGo, Re.matchAt, Re.lit, Re.run, crToLf]
      | cons d ds =>
        simp [e2, Re.replaceAllGo, Re.matchAt, Re.lit, Re.run, crToLf] at h1 ⊢
        exact h1
    · simp [e2, Re.replaceAllGo, Re.matchAt, Re.lit, Re.run, crToLf, hc] at h1 ⊢
      exact h1

/-- The normalisation of line endings, as one pass for the pairs `\r\n` and
one for the remaining `\r`. -/
theorem normalize_eq (s : Str) : normalize s = (dropCRLF s).map crToLf := by
  unfold normalize Re.replaceAll
  rw [replaceAllGo_crlf s.length s (Nat.le_refl _) 0, replaceAllGo_cr]

theorem mem_dropCRLF (s : Str) : ∀ c ∈ dropCRLF s, c ∈ s := by
  induction s using dropCRLF.induct with
  | case1 => intro c hc; cases hc
  | case2 c => intro x hx; simpa [dropCRLF] using hx
  | case3 c d s h ih =>
    intro x hx
    obtain ⟨rfl, rfl⟩ := h
    simp only [dropCRLF, and_self, if_true, List.mem_cons] at hx
    rcases hx with rfl | hx
    · simp
    · simp [ih x hx]
  | case4 c d s h ih =>
    intro x hx
    simp only [dropCRLF, h, if_false, List.mem_cons] at hx
    rcases hx with rfl | hx
    · simp
    · have := ih x hx
      simp only [List.mem_cons] at this ⊢
      exact Or.inr this

theorem length_dropCRLF (s : Str) : (dropCRLF s).length ≤ s.length := by
  induction s using dropCRLF.induct with
  | case1 => simp [dropCRLF]
  | case2 c => simp [dropCRLF]
  | case3 c d s h ih =>
    obtain ⟨rfl, rfl⟩ := h
    simp only [dropCRLF, and_self, if_true, List.length_cons]
    omega
  | case4 c d s h ih =>
    simp only [dropCRLF, h, if_false, List.length_cons] at ih ⊢
    omega

theorem length_normalize (s : Str) : (normalize s).length ≤ s.length := by
  rw [normalize_eq, List.length_map]
  exact length_dropCRLF s

theorem allWs_normalize (s : Str) (h : AllWs s) : AllWs (normalize s) := by
  intro c hc
  rw [normalize_eq, List.mem_map] at hc
  obtain ⟨d, hd, rfl⟩ := hc
  unfold crToLf
  split
  · decide
  · exact h d (mem_dropCRLF s d hd)

theorem mem_of_mem_splitOn (sep : Char) : ∀ (t l : Str), l ∈ splitOn sep t → ∀ c ∈ l, c ∈ t := by
  intro t
  induction t with
  | nil =>
    intro l hl c hc
    simp only [splitOn, List.mem_singleton] at hl
    subst hl; cases hc
  | cons d ds ih =>
    intro l hl c hc
    by_cases hd : d = sep
    · simp only [splitOn, hd, if_true, List.mem_cons] at hl
      rcases hl with rfl | hl
      · cases hc
      · exact List.mem_cons_of_mem _ (ih l hl c hc)
    · simp only [splitOn, hd, if_false] at hl
      cases hsp : splitOn sep ds with
      | nil =>
        rw [hsp] at hl
        simp only [List.mem_singleton] at hl
        subst hl
        simp only [List.mem_singleton] at hc
        subst hc
        simp
      | cons a rest =>
        rw [hsp] at hl
        simp only [List.mem_cons] at hl
        rcases hl with rfl | hl
        · simp only [List.mem_cons] at hc ⊢
          rcases hc with rfl | hc
          · exact Or.inl rfl
          · exact Or.inr (ih a (by rw [hsp]; simp) c hc)
        · exact List.mem_cons_of_mem _ (ih l (by rw [hsp]; simp [hl]) c hc)

theorem length_splitOn (sep : Char) (t : Str) : (splitOn sep t).length ≤ t.length + 1 := by
  induction t with
  | nil => simp [splitOn]
  | cons d ds ih =>
    by_cases hd : d = sep
    · simp only [splitOn, hd, if_true, List.length_cons]; omega
    · simp only [splitOn, hd, if_false]
      cases hsp : splitOn sep ds with
      | nil => simp
      | cons a rest =>
        rw [hsp] at ih
        simp only [List.length_cons] at ih ⊢
        omega

/-- The scan of blank lines pushes nothing. -/
theorem scan_blank (env : Env) : ∀ (ls : List Str), (∀ l ∈ ls, trim l = []) →
    ∀ fuel, ls.length ≤ fuel → scan env fuel ls = some [] := by
  intro ls
  induction ls with
  | nil => intro _ fuel _; cases fuel <;> rfl
  | cons l ls ih =>
    intro h fuel hf
    cases fuel with
    | zero => simp at hf
    | succ n =>
      have hl : trim l = [] := h l (by simp)
      have hstep : step env (l :: ls) = ([], 1) := by simp [step, hl]
      have := ih (fun x hx => h x (by simp [hx])) n (by simpa using hf)
      simp [scan, hstep, this]

theorem isHTML_of_allWs (t : Str) (h : AllWs t) : isHTML t = false := by
  cases hh : isHTML t with
  | false => rfl
  | true =>
    rw [isHTML_iff] at hh
    obtain ⟨a, c, b, d, rfl, -⟩ := hh
    have := h '<' (by simp)
    revert this; decide

/-- C14 (empty paste).  On a content that consists of white space and line
endings only, the empty one included, `parseNotionContent` returns the empty
sequence of blocks; as many passes as the content has characters, and one
more, suffice. -/
theorem parseNotionContent_blank (env : Env) (fuel : Nat) (content : Str)
    (hws : AllWs content) (hfuel : content.length < fuel) :
    parseNotionContent env fuel content = some [] := by
  have h1 := allWs_normalize content hws
  unfold parseNotionContent
  simp only [isHTML_of_allWs _ h1, Bool.false_eq_true, if_false]
  apply scan_blank
  · intro l hl
    exact trim_of_allWs l (fun c hc => h1 c (mem_of_mem_splitOn _ _ l hl c hc))
  · have := length_splitOn '\n' (normalize content)
    have := length_normalize content
    omega

/-- C14, examples: the empty content, and white space with the three kinds
of line ending. -/
theorem parseNotionContent_blank_example :
    parseNotionContent Env.plain 1 [] = some [] ∧
    parseNotionContent Env.plain 12 "  \r\n\t\n \r  ".toList = some [] :=
  ⟨parseNotionContent_blank Env.plain 1 [] (by unfold AllWs; decide) (by decide),
    parseNotionContent_blank Env.plain 12 "  \r\n\t\n \r  ".toList (by unfold AllWs; decide)
      (by decide)⟩

/-! ## Fences and markers, closed or not -/

theorem splitOn_ne_nil (sep : Char) (t : Str) : splitOn sep t ≠ [] := by
  cases t with
  | nil => simp [splitOn]
  | cons c cs =>
    by_cases hc : c = sep
    · simp [splitOn, hc]
    · simp only [splitOn, hc, if_false]
      cases splitOn sep cs <;> simp

theorem joinWith_splitOn (sep : Char) (t : Str) : joinWith [sep] (splitOn sep t) = t := by
  induction t with
  | nil => rfl
  | cons c cs ih =>
    by_cases hc : c = sep
    · simp only [splitOn, hc, if_true]
      cases hsp : splitOn sep cs with
      | nil => exact absurd hsp (splitOn_ne_nil sep cs)
      | cons a rest => rw [hsp] at ih; simp [joinWith, ih]
    · simp only [splitOn, hc, if_false]
      cases hsp : splitOn sep cs with
      | nil => exact absurd hsp (splitOn_ne_nil sep cs)
      | cons a rest =>
        rw [hsp] at ih
        cases rest with
        | nil => simp [joinWith] at ih ⊢; exact ih
        | cons b rest => simp [joinWith] at ih ⊢; exact ih

/-- One pass of the loop, then the rest of the scan. -/
theorem scan_cons (env : Env) (fuel : Nat) (l : Str) (ls : List Str) (bs : List Block) (n : Nat)
    (h : step env (l :: ls) = (bs, n)) :
    scan env (fuel + 1) (l :: ls) =
      (scan env fuel ((l :: ls).drop n)).map (fun blocks => bs ++ blocks) := by
  simp only [scan, h]
  cases scan env fuel ((l :: ls).drop n) <;> rfl

/-- Blank lines cost one pass each and push nothing. -/
theorem scan_blank_append (env : Env) (fuel : Nat) (rest : List Str) :
    ∀ (blanks : List Str), (∀ l ∈ blanks, trim l = []) →
      scan env (blanks.length + fuel) (blanks ++ rest) = scan env fuel rest := by
  intro blanks
  induction blanks with
  | nil => intro _; simp
  | cons l ls ih =>
    intro h
    have hl : trim l = [] := h l (by simp)
    have hstep : step env (l :: (ls ++ rest)) = ([], 1) := by simp [step, hl]
    have e : (l :: ls).length + fuel = (ls.length + fuel) + 1 := by
      simp only [List.length_cons]; omega
    rw [e, List.cons_append, scan_cons env _ l _ _ _ hstep]
    simp only [List.drop_succ_cons, List.drop_zero, List.nil_append]
    rw [ih (fun x hx => h x (by simp [hx]))]
    cases scan env fuel rest <;> rfl

/-- The pass on a line that opens a code fence. -/
theorem step_of_fence (env : Env) (line : Str) (ls : List Str)
    (h : startsWith fence (trim line) = true) :
    step env (line :: ls) =
      ([Block.code (orElseStr (trim ((trim line).drop 3)) "text".toList)
          (capitalize env (orElseStr (trim ((trim line).drop 3)) "text".toList))
          (joinWith "\n".toList (ls.takeWhile (fun l => !startsWith fence (trim l))))],
        (ls.takeWhile (fun l => !startsWith fence (trim l))).length + 2) := by
  have h1 : (trim line).isEmpty = false := by
    cases ht : trim line with
    | nil => rw [ht] at h; simp [startsWith, fence] at h
    | cons c cs => rfl
  simp only [step, h, h1, Bool.false_eq_true, if_false, if_true]

/-- The callout pattern matches every line that starts with the marker and
holds no line terminator. -/
theorem reCallout_exec_isSome (r : Str) (hdot : ∀ c ∈ r, isLineTerminator c = false) :
    (reCallout.exec (marker ++ r)).isSome = true := by
  have e : reCallout = Re.seq .bol (Re.seq (Re.lit ":::".toList)
      (Re.seq (.opt (.cap 1 (.rep isWord 1 none true))) (Re.seq (.rep isWhiteSpace 0 none true)
      (Re.seq (.cap 2 (.rep isDot 0 none false)) (Re.seq (.opt (Re.lit "::".toList)) .eol))))) :=
    rfl
  rw [e, Re.exec_bol]
  apply Re.matchAt_complete _ _ _
    ⟨0 + ":::".toList.length + 0 + r.length, [],
      ([none, none, none] : List (Option Str)).set 2 (some (r.take (r.length - 0)))⟩
  have h1 := Re.lit_matches_append ":::".toList r 0 [none, none, none]
  have h2 := Re.matches_rep_append isWhiteSpace 0 none true [] r (0 + ":::".toList.length)
    [none, none, none] (by intro c hc; cases hc) (Nat.le_refl _) (Or.inl rfl)
  have h3 := Re.matches_rep_append isDot 0 none false r [] (0 + ":::".toList.length + 0)
    [none, none, none] (fun c hc => isDot_of_not_lineTerminator c (hdot c hc)) (Nat.zero_le _)
    (Or.inr trivial)
  rw [List.append_nil] at h3
  exact Re.matches_seq_intro ((Re.matches_bol _ _).2 ⟨rfl, rfl⟩)
    (Re.matches_seq_intro h1 (Re.matches_seq_intro (Re.matches_opt_skip _ _)
      (Re.matches_seq_intro h2 (Re.matches_seq_intro ((Re.matches_cap _ _ _ _).2 ⟨_, h3, rfl⟩)
        (Re.matches_seq_intro (Re.matches_opt_skip _ _) ((Re.matches_eol _ _).2 ⟨rfl, rfl⟩))))))

/-- The pass on a line that starts with the marker, does not end with it and
holds no line terminator: the multi-line callout. -/
theorem step_of_marker (env : Env) (line : Str) (ls : List Str)
    (h : startsWith marker (trim line) = true) (hend : endsWith marker (trim line) = false)
    (hdot : ∀ c ∈ trim line, isLineTerminator c = false) :
    ∃ variant title, step env (line :: ls) =
      ([Block.callout variant title
          (trim (joinWith "\n".toList (ls.takeWhile (fun l => !startsWith marker (trim l)))))],
        (ls.takeWhile (fun l => !startsWith marker (trim l))).length + 2) := by
  obtain ⟨r, hr⟩ := (startsWith_iff _ _).1 h
  have h1 : (trim line).isEmpty = false := by
    rw [hr]; rfl
  have h2 : startsWith fence (trim line) = false := by
    rw [hr]; rfl
  have h3 := reCallout_exec_isSome r (fun c hc => hdot c (by rw [hr]; simp [hc]))
  rw [← hr] at h3
  cases hm : reCallout.exec (trim line) with
  | none => rw [hm] at h3; cases h3
  | some m =>
    refine ⟨calloutVariant (capOr (m.group 1) "insight".toList),
      orElseStr (capOr (m.group 2) [])
        (capitalize env (capOr (m.group 1) "insight".toList)), ?_⟩
    simp only [step, h, h1, h2, hm, stepCallout, hend, Bool.false_and, Bool.false_eq_true,
      if_false, if_true]

/-- C18 (unterminated constructs).  Take a content not detected as HTML whose
lines are blank lines, a first line that is not blank, and later lines.  When
the first line starts (trimmed) with three backticks and no later line does,
the parser returns exactly one code block, whose content is the later lines
joined with a line feed.  When the first line starts (trimmed) with `:::`,
does not end with `:::`, holds no line terminator, and no later line starts
(trimmed) with `:::`, the parser returns exactly one callout block, whose
content is the later lines joined with a line feed and trimmed.  One pass for
each blank line and one more suffice. -/
theorem parseNotionContent_unterminated (env : Env) (fuel : Nat) (content : Str)
    (blanks : List Str) (first : Str) (later : List Str)
    (hhtml : isHTML (normalize content) = false)
    (hlines : splitOn '\n' (normalize content) = blanks ++ first :: later)
    (hblank : ∀ l ∈ blanks, trim l = []) :
    (startsWith fence (trim first) = true →
      (∀ l ∈ later, startsWith fence (trim l) = false) →
      parseNotionContent env (blanks.length + (fuel + 1)) content =
        some [Block.code (orElseStr (trim ((trim first).drop 3)) "text".toList)
          (capitalize env (orElseStr (trim ((trim first).drop 3)) "text".toList))
          (joinWith "\n".toList later)]) ∧
    (startsWith marker (trim first) = true → endsWith marker (trim first) = false →
      (∀ c ∈ trim first, isLineTerminator c = false) →
      (∀ l ∈ later, startsWith marker (trim l) = false) →
      ∃ variant title, parseNotionContent env (blanks.length + (fuel + 1)) content =
        some [Block.callout variant title (trim (joinWith "\n".toList later))]) := by
  have hparse : parseNotionContent env (blanks.length + (fuel + 1)) content =
      scan env (fuel + 1) (first :: later) := by
    unfold parseNotionContent
    simp only [hhtml, Bool.false_eq_true, if_false, hlines]
    exact scan_blank_append env (fuel + 1) (first :: later) blanks hblank
  constructor
  · intro hopen hlater
    have h4 : later.takeWhile (fun l => !startsWith fence (trim l)) = later :=
      takeWhile_all _ later (by intro y hy; simp [hlater y hy])
    have hstep := step_of_fence env first later hopen
    rw [h4] at hstep
    rw [hparse]
    exact scan_all env fuel first later _ _ hstep (by omega)
  · intro hopen hend hdot hlater
    have h4 : later.takeWhile (fun l => !startsWith marker (trim l)) = later :=
      takeWhile_all _ later (by intro y hy; simp [hlater y hy])
    obtain ⟨variant, title, hstep⟩ := step_of_marker env first later hopen hend hdot
    rw [h4] at hstep
    refine ⟨variant, title, ?_⟩
    rw [hparse]
    exact scan_all env fuel first later _ _ hstep (by omega)

/-- C18, examples: a fence and a callout that are never closed. -/
theorem parseNotionContent_unterminated_example :
    parseNotionContent Env.plain 2 "\n```js\nlet a\n\n# b ".toList =
      some [Block.code "js".toList "Js".toList "let a\n\n# b ".toList] ∧
    ∃ variant title, parseNotionContent Env.plain 2 "\n:::tip Read this\n one\n\n# two ".toList =
      some [Block.callout variant title "one\n\n# two".toList] :=
  ⟨(parseNotionContent_unterminated Env.plain 0 "\n```js\nlet a\n\n# b ".toList [[]]
      "```js".toList ["let a".toList, [], "# b ".toList] (by decide) (by decide) (by decide)).1
      (by decide) (by decide),
    (parseNotionContent_unterminated Env.plain 0 "\n:::tip Read this\n one\n\n# two ".toList [[]]
      ":::tip Read this".toList [" one".toList, [], "# two ".toList] (by decide) (by decide)
      (by decide)).2 (by decide) (by decide) (by decide) (by decide)⟩

/-- C18, where the claim as written fails: after an opening line that is the
bare marker the later lines are no callout content, and the parser returns
two blocks. -/
theorem parseNotionContent_unterminated_bare :
    parseNotionContent Env.plain 2 ":::\nbody".toList =
      some [Block.callout "insight".toList "Insight".toList [],
        Block.paragraph "body".toList] := by
  decide

/-! ## Invariants of the blocks -/

theorem calloutVariant_mem (v : Str) : calloutVariant v ∈ calloutVariants := by
  unfold calloutVariant
  split
  · rename_i h
    simpa [calloutVariants] using h
  · decide

/-- The first group of a match of the header pattern is one to three
characters long. -/
theorem reHeader_level (t : Str) (m : Match) (h : reHeader.exec t = some m) :
    1 ≤ ((m.group 1).getD []).length ∧ ((m.group 1).getD []).length ≤ 3 := by
  have e : reHeader = Re.seq .bol (Re.seq (.cap 1 (.rep (is '#') 1 (some 3) true))
      (Re.seq (.rep isWhiteSpace 1 none true) (Re.seq (.cap 2 (.rep isDot 1 none true)) .eol))) :=
    rfl
  rw [e] at h
  obtain ⟨s', hs', hm⟩ := Re.exec_bol_sound _ _ _ h
  rw [Re.matches_seq] at hs'
  obtain ⟨m1, h1, hs'⟩ := hs'
  rw [Re.matches_seq] at hs'
  obtain ⟨m2, h2, hs'⟩ := hs'
  rw [Re.matches_seq] at hs'
  obtain ⟨m3, h3, h4⟩ := hs'
  rw [Re.matches_cap] at h1 h3
  obtain ⟨a1, ha1, rfl⟩ := h1
  obtain ⟨a3, ha3, rfl⟩ := h3
  rw [Re.matches_rep] at ha1 h2 ha3
  obtain ⟨j1, hj1, rfl⟩ := ha1
  obtain ⟨j2, hj2, rfl⟩ := h2
  obtain ⟨j3, hj3, rfl⟩ := ha3
  rw [Re.matches_eol] at h4
  obtain ⟨-, rfl⟩ := h4
  obtain ⟨hl, -, hlo, hhi⟩ := hj1
  simp only at hl hlo hhi
  have hj : 1 ≤ j1 ∧ j1 ≤ 3 := by
    rcases hhi with h0 | h0
    · omega
    · simp only [withinMax] at h0; omega
  have hg : (Re.seq (Re.cap 1 (Re.rep (is '#') 1 (some 3) true))
      (Re.seq (Re.rep isWhiteSpace 1 none true)
        (Re.seq (Re.cap 2 (Re.rep isDot 1 none true)) Re.eol))).groups = 2 := rfl
  subst hm
  simp only [Match.group, hg, List.replicate, List.length_drop]
  have hlen : (t.take (t.length - (t.length - j1))).length = j1 := by
    rw [List.length_take]; omega
  simp [hlen, hj]

theorem stepFrom_wellFormed (trimmedLine line : Str) (ls : List Str) :
    ∀ b ∈ (stepFrom trimmedLine line ls).1, b.WellFormed := by
  intro b hb
  unfold stepFrom at hb
  split at hb
  · rename_i m hm
    simp only [List.mem_singleton] at hb
    subst hb
    exact reHeader_level _ _ hm
  · split at hb
    · dsimp only at hb
      split at hb <;>
        (simp only [List.mem_singleton] at hb; subst hb; trivial)
    · split at hb
      · dsimp only at hb
        split at hb
        · rename_i hpos
          simp only [List.mem_singleton] at hb
          subst hb
          intro h0
          rw [h0] at hpos
          exact absurd hpos (by decide)
        · cases hb
      · split at hb
        · simp only [List.mem_singleton] at hb; subst hb; trivial
        · split at hb
          · dsimp only at hb
            split at hb <;>
              (simp only [List.mem_singleton] at hb; subst hb; trivial)
          · dsimp only at hb
            split at hb
            · simp only [List.mem_singleton] at hb; subst hb; trivial
            · cases hb

theorem step_wellFormed (env : Env) (lines : List Str) :
    ∀ b ∈ (step env lines).1, b.WellFormed := by
  intro b hb
  cases lines with
  | nil => cases hb
  | cons line ls =>
    unfold step at hb
    dsimp only at hb
    split at hb
    · cases hb
    · split at hb
      · simp only [List.mem_singleton] at hb; subst hb; trivial
      · split at hb
        · unfold stepCallout at hb
          dsimp only at hb
          split at hb <;>
            (simp only [List.mem_singleton] at hb; subst hb; exact calloutVariant_mem _)
        · exact stepFrom_wellFormed _ _ _ b hb

theorem scan_wellFormed (env : Env) : ∀ (fuel : Nat) (lines : List Str) (blocks : List Block),
    scan env fuel lines = some blocks → ∀ b ∈ blocks, b.WellFormed := by
  intro fuel
  induction fuel with
  | zero =>
    intro lines blocks h b hb
    cases lines with
    | nil => simp only [scan, Option.some.injEq] at h; subst h; cases hb
    | cons l ls => simp [scan] at h
  | succ n ih =>
    intro lines blocks h b hb
    cases lines with
    | nil => simp only [scan, Option.some.injEq] at h; subst h; cases hb
    | cons l ls =>
      simp only [scan] at h
      split at h
      · rename_i rest hrest
        simp only [Option.some.injEq] at h
        subst h
        rcases List.mem_append.1 hb with h1 | h1
        · exact step_wellFormed env _ b h1
        · exact ih _ _ hrest b h1
      · cases h

/-- Every block that `parseNotionContent` returns, by either parser, keeps
the invariants. -/
theorem parseNotionContent_wellFormed (env : Env) (fuel : Nat) (content : Str)
    (blocks : List Block) (h : parseNotionContent env fuel content = some blocks) :
    ∀ b ∈ blocks, b.WellFormed := by
  unfold parseNotionContent at h
  dsimp only at h
  split at h
  · simp only [Option.some.injEq] at h
    subst h
    exact processNodes_wellFormed env _
  · exact scan_wellFormed env _ _ _ h

/-! ## The keyword of a callout -/

theorem calloutTail_isSome (pos : Nat) (s : Str) (caps : List (Option Str)) :
    ((Re.seq (.rep isWhiteSpace 0 none true) (Re.seq (.cap 2 (.rep isDot 0 none false))
      (Re.seq (.opt (Re.lit "::".toList)) .eol))).run ⟨pos, s, caps⟩ some).isSome = true ↔
    CalloutTailOk s := by
  constructor
  · intro h
    cases hr : (Re.seq (.rep isWhiteSpace 0 none true) (Re.seq (.cap 2 (.rep isDot 0 none false))
      (Re.seq (.opt (Re.lit "::".toList)) .eol))).run ⟨pos, s, caps⟩ some with
    | none => rw [hr] at h; cases h
    | some x =>
      obtain ⟨s', hs', -⟩ := Re.run_sound _ _ _ _ hr
      rw [Re.matches_seq] at hs'
      obtain ⟨m1, h1, hs'⟩ := hs'
      rw [Re.matches_seq] at hs'
      obtain ⟨m2, h2, hs'⟩ := hs'
      rw [Re.matches_seq] at hs'
      obtain ⟨m3, h3, h4⟩ := hs'
      rw [Re.matches_rep] at h1
      obtain ⟨j1, hj1, rfl⟩ := h1
      rw [Re.matches_cap] at h2
      obtain ⟨a2, ha2, rfl⟩ := h2
      rw [Re.matches_rep] at ha2
      obtain ⟨j2, hj2, rfl⟩ := ha2
      rw [Re.matches_eol] at h4
      obtain ⟨hnil, -⟩ := h4
      rw [Re.matches_opt, Re.lit_matches] at h3
      refine ⟨j1, j2, hj1, hj2, ?_⟩
      rcases h3 with ⟨b, hb, rfl⟩ | rfl
      · simp only at hnil hb
        subst hnil
        right
        simpa using hb
      · left
        exact hnil
  · rintro ⟨j1, j2, hj1, hj2, hend⟩
    rcases hend with hend | hend
    · exact Re.run_complete _ ⟨pos, s, caps⟩
        ⟨pos + j1 + j2, (s.drop j1).drop j2,
          caps.set 2 (some ((s.drop j1).take ((s.drop j1).length - ((s.drop j1).drop j2).length)))⟩
        some
        (Re.matches_seq_intro ((Re.matches_rep _ _ _ _ _ _).2 ⟨j1, hj1, rfl⟩)
          (Re.matches_seq_intro
            ((Re.matches_cap _ _ _ _).2 ⟨_, (Re.matches_rep _ _ _ _ _ _).2 ⟨j2, hj2, rfl⟩, rfl⟩)
            (Re.matches_seq_intro (Re.matches_opt_skip _ _)
              ((Re.matches_eol _ _).2 ⟨hend, rfl⟩)))) rfl
    · exact Re.run_complete _ ⟨pos, s, caps⟩
        ⟨pos + j1 + j2 + "::".toList.length, [],
          caps.set 2 (some ((s.drop j1).take ((s.drop j1).length - ((s.drop j1).drop j2).length)))⟩
        some
        (Re.matches_seq_intro ((Re.matches_rep _ _ _ _ _ _).2 ⟨j1, hj1, rfl⟩)
          (Re.matches_seq_intro
            ((Re.matches_cap _ _ _ _).2 ⟨_, (Re.matches_rep _ _ _ _ _ _).2 ⟨j2, hj2, rfl⟩, rfl⟩)
            (Re.matches_seq_intro
              (Re.matches_opt_take ((Re.lit_matches _ _ _).2 ⟨[], by simpa using hend, rfl⟩))
              ((Re.matches_eol _ _).2 ⟨rfl, rfl⟩)))) rfl

/-- When the tail of the callout pattern matches after a part of the keyword,
it matches after the whole keyword. -/
theorem calloutTailOk_of_word (w r : Str) (hw : ∀ c ∈ w, isWord c = true)
    (h : CalloutTailOk (w ++ r)) : CalloutTailOk r := by
  cases w with
  | nil => exact h
  | cons c cs =>
    obtain ⟨j1, j2, hj1, hj2, hend⟩ := h
    have hc : isWord c = true := hw c (by simp)
    have hcws : isWhiteSpace c = false := by
      have : ∀ d, isWord d = true → isWhiteSpace d = false := by
        intro d hd
        simp only [isWord, isLower, isUpper, isDigit, Bool.or_eq_true, Bool.and_eq_true,
          decide_eq_true_eq, beq_iff_eq] at hd
        cases hws : isWhiteSpace d with
        | false => rfl
        | true =>
          simp only [isWhiteSpace, isLineTerminator, Bool.or_eq_true, decide_eq_true_eq,
            beq_iff_eq, Bool.and_eq_true] at hws
          omega
      exact this c hc
    have hj10 : j1 = 0 := by
      cases j1 with
      | zero => rfl
      | succ j =>
        have := hj1.2.1 c (by simp)
        rw [hcws] at this
        cases this
    subst hj10
    simp only [List.drop_zero] at hj2 hend
    have hlen : (c :: cs).length ≤ j2 := by
      by_contra hlt
      have hlt : j2 < (c :: cs).length := Nat.lt_of_not_le hlt
      have hd : ((c :: cs) ++ r).drop j2 = (c :: cs).drop j2 ++ r := by
        rw [List.drop_append_of_le_length (Nat.le_of_lt hlt)]
      obtain ⟨d, ds, hds⟩ : ∃ d ds, (c :: cs).drop j2 = d :: ds := by
        cases h0 : (c :: cs).drop j2 with
        | nil =>
          rw [List.drop_eq_nil_iff] at h0
          omega
        | cons d ds => exact ⟨d, ds, rfl⟩
      have hdw : isWord d = true := hw d (List.mem_of_mem_drop (by rw [hds]; simp))
      rw [hd, hds] at hend
      rcases hend with h0 | h0
      · cases h0
      · simp only [List.cons_append] at h0
        have : d = ':' := by
          have := congrArg List.head? h0
          simpa using this
        subst this
        revert hdw; decide
    have hz : RepOk isWhiteSpace 0 none 0 r 0 :=
      ⟨Nat.zero_le _, (by intro x hx; cases hx), Nat.le_refl _, Or.inl rfl⟩
    refine ⟨0, j2 - (c :: cs).length, hz, ?_, ?_⟩
    · obtain ⟨h1, h2, -, -⟩ := hj2
      refine ⟨?_, ?_, Nat.zero_le _, Or.inr trivial⟩
      · simp only [List.drop_zero]
        simp only [List.length_append] at h1
        omega
      · intro x hx
        apply h2 x
        simp only [List.drop_zero] at hx
        rw [List.take_append_eq_append_take, List.take_of_length_le hlen]
        exact List.mem_append_right _ hx
    · simp only [List.drop_zero]
      have : ((c :: cs) ++ r).drop j2 = r.drop (j2 - (c :: cs).length) := by
        rw [List.drop_append_eq_append_drop, List.drop_eq_nil_of_le hlen, List.nil_append]
      rw [← this]
      exact hend

/-- The tail of the callout pattern leaves the first group as it is. -/
theorem calloutTail_caps (s0 x : MState)
    (h : (Re.seq (.rep isWhiteSpace 0 none true) (Re.seq (.cap 2 (.rep isDot 0 none false))
      (Re.seq (.opt (Re.lit "::".toList)) .eol))).run s0 some = some x) :
    x.caps.get? 1 = s0.caps.get? 1 := by
  obtain ⟨s', hs', hx⟩ := Re.run_sound _ _ _ _ h
  cases hx
  rw [Re.matches_seq] at hs'
  obtain ⟨m1, h1, hs'⟩ := hs'
  rw [Re.matches_seq] at hs'
  obtain ⟨m2, h2, hs'⟩ := hs'
  rw [Re.matches_seq] at hs'
  obtain ⟨m3, h3, h4⟩ := hs'
  rw [Re.matches_rep] at h1
  obtain ⟨j1, hj1, rfl⟩ := h1
  rw [Re.matches_cap] at h2
  obtain ⟨a2, ha2, rfl⟩ := h2
  rw [Re.matches_rep] at ha2
  obtain ⟨j2, hj2, rfl⟩ := ha2
  rw [Re.matches_eol] at h4
  obtain ⟨-, rfl⟩ := h4
  rw [Re.matches_opt, Re.lit_matches] at h3
  rcases h3 with ⟨b, -, rfl⟩ | rfl <;> simp [List.getElem?_set]

/-- The first group of the callout pattern is the whole keyword, the longest
run of word characters after the marker, or is not set when there is none. -/
theorem reCallout_keyword (kw r : Str) (m : Match)
    (hkw : ∀ c ∈ kw, isWord c = true) (hr : ∀ c, r.head? = some c → isWord c = false)
    (h : reCallout.exec (marker ++ kw ++ r) = some m) :
    capOr (m.group 1) "insight".toList = orElseStr kw "insight".toList := by
  have hb : reCallout = Re.seq .bol (Re.seq (Re.lit ":::".toList)
      (Re.seq (.opt (.cap 1 (.rep isWord 1 none true)))
        (Re.seq (.rep isWhiteSpace 0 none true) (Re.seq (.cap 2 (.rep isDot 0 none false))
          (Re.seq (.opt (Re.lit "::".toList)) .eol))))) := rfl
  have hg : reCallout.groups = 2 := rfl
  rw [hb, Re.exec_bol, ← hb] at h
  unfold Re.matchAt at h
  split at h
  · cases h
  · rename_i x hx
    simp only [Option.some.injEq] at h
    subst h
    rw [hg, hb] at hx
    simp only [Re.run_seq, Re.run_bol_zero, List.replicate] at hx
    rw [Re.run_lit_of_eq ":::".toList (kw ++ r) _ _ _ _ (by simp [marker, List.append_assoc])]
      at hx
    -- the continuation after the keyword
    have P1 := calloutTail_caps
    have P2 := calloutTail_isSome
    simp only [Re.run_seq] at P1 P2
    have hgoal : (x.caps.get? 1).join = if kw = [] then none else some kw := by
      cases kw with
      | nil =>
        rw [Re.run_opt_none _ _ _ (by
          rw [Re.run_cap]
          exact Re.run_rep_none_of_head isWord 1 none true _ _ _ _ (by decide) hr)] at hx
        have := P1 _ _ hx
        rw [this]
        rfl
      | cons c cs =>
        cases hK : (Re.rep isWhiteSpace 0 none true).run
            ⟨0 + ":::".toList.length + (c :: cs).length, r,
              ([none, none, none] : List (Option Str)).set 1 (some (c :: cs))⟩
            (fun s' => (Re.cap 2 (Re.rep isDot 0 none false)).run s'
              (fun s' => (Re.opt (Re.lit "::".toList)).run s' (fun s' => Re.eol.run s' some))) with
        | some y =>
          have hrun : (Re.cap 1 (Re.rep isWord 1 none true)).run
              ⟨0 + ":::".toList.length, c :: cs ++ r, [none, none, none]⟩
              (fun s' => (Re.rep isWhiteSpace 0 none true).run s'
                (fun s' => (Re.cap 2 (Re.rep isDot 0 none false)).run s'
                  (fun s' => (Re.opt (Re.lit "::".toList)).run s'
                    (fun s' => Re.eol.run s' some)))) = some y := by
            rw [Re.run_cap]
            apply Re.run_rep_greedy isWord 1 none (c :: cs) r _ _ _ _ _ rfl hkw
              (by simp) (Or.inr trivial) (fun d hd => Or.inl (hr d hd))
            simp only [take_append_sub]
            exact hK
          rw [Re.run_opt_some _ _ _ _ hrun] at hx
          cases hx
          have := P1 _ _ hK
          rw [this]
          rfl
        | none =>
          exfalso
          have hr0 : ¬ CalloutTailOk r := by
            intro h0
            have := (P2 (0 + ":::".toList.length + (c :: cs).length) r
              (([none, none, none] : List (Option Str)).set 1 (some (c :: cs)))).2 h0
            rw [hK] at this
            cases this
          have hcap : (Re.cap 1 (Re.rep isWord 1 none true)).run
              ⟨0 + ":::".toList.length, c :: cs ++ r, [none, none, none]⟩
              (fun s' => (Re.rep isWhiteSpace 0 none true).run s'
                (fun s' => (Re.cap 2 (Re.rep isDot 0 none false)).run s'
                  (fun s' => (Re.opt (Re.lit "::".toList)).run s'
                    (fun s' => Re.eol.run s' some)))) = none := by
            rw [Re.run_cap]
            apply Re.run_rep_none
            intro j hj
            cases hk : (Re.rep isWhiteSpace 0 none true).run
              { pos := 0 + ":::".toList.length + j, rest := (c :: cs ++ r).drop j,
                caps := ([none, none, none] : List (Option Str)).set 1
                  (some ((c :: cs ++ r).take ((c :: cs ++ r).length -
                    ((c :: cs ++ r).drop j).length))) }
              (fun s' => (Re.cap 2 (Re.rep isDot 0 none false)).run s'
                (fun s' => (Re.opt (Re.lit "::".toList)).run s'
                  (fun s' => Re.eol.run s' some))) with
            | none => rfl
            | some z =>
              exfalso
              have hok := (P2 _ _ _).1 (by rw [hk]; rfl)
              have hjle : j ≤ (c :: cs).length := by
                by_contra hlt
                have hlt : (c :: cs).length < j := Nat.lt_of_not_le hlt
                obtain ⟨h1, h2, -, -⟩ := hj
                have hlen : (c :: cs).length < (c :: cs ++ r).length := by omega
                have hlen2 : (c :: cs).length < ((c :: cs ++ r).take j).length := by
                  rw [List.length_take]; omega
                have hmem := h2 (((c :: cs ++ r).take j).get ⟨(c :: cs).length, hlen2⟩)
                  (List.get_mem _ _ _)
                have hget : ((c :: cs ++ r).take j).get ⟨(c :: cs).length, hlen2⟩ =
                    (c :: cs ++ r).get ⟨(c :: cs).length, hlen⟩ := by
                  simp [List.getElem_take']
                rw [hget] at hmem
                have hhead : r.head? = some ((c :: cs ++ r).get ⟨(c :: cs).length, hlen⟩) := by
                  rw [List.get_eq_getElem, List.getElem_append_right (Nat.le_refl _)]
                  simp only [Nat.sub_self]
                  cases r with
                  | nil => simp at hlen
                  | cons d ds => rfl
                rw [hr _ hhead] at hmem
                cases hmem
              rw [List.drop_append_of_le_length hjle] at hok
              exact hr0 (calloutTailOk_of_word _ r
                (fun d hd => hkw d (List.mem_of_mem_drop hd)) hok)
          rw [Re.run_opt_none _ _ _ hcap] at hx
          have hok := (P2 _ _ _).1 (by rw [hx]; rfl)
          exact hr0 (calloutTailOk_of_word _ r hkw hok)
    have hgrp : Match.group ⟨0, x.pos, x.rest, x.caps.set 0
        (some ((marker ++ kw ++ r).take ((marker ++ kw ++ r).length - x.rest.length)))⟩ 1 =
        (x.caps.get? 1).join := by
      simp [Match.group, List.getElem?_set]
    rw [hgrp, hgoal]
    cases kw <;> rfl

/-- The rules after the callout push nothing for a line that starts with the
marker. -/
theorem stepFrom_marker (line : Str) (ls : List Str) (r : Str) (ht : trim line = marker ++ r) :
    stepFrom (trim line) line ls = ([], 0) := by
  have hcs : trim line = ':' :: (':' :: ':' :: r) := by rw [ht]; rfl
  have h1 : reHeader.exec (trim line) = none := reHeader_exec_none _ (by rw [hcs]; rfl)
  have h2 : startsWith ">".toList (trim line) = false := by rw [hcs]; rfl
  have h3 : reBulletStart.test (trim line) = false :=
    reBulletStart_test_false _ (by rw [hcs]; intro c hc; cases hc; decide)
  have h4 : reNumberStart.test (trim line) = false :=
    reNumberStart_test_false _ (by rw [hcs]; intro c hc; cases hc; decide)
  have h5 : extractImageUrl (trim line) = none :=
    extractImageUrl_none_of_head (trim line) ':' (':' :: ':' :: r)
      (by rw [trim_trim]; exact hcs) (by decide)
  have h6 : reMdImage.exec (trim line) = none := reMdImage_exec_none _ (by rw [hcs]; rfl)
  have h7 : paragraphStop (trim line) = true := by
    have : startsWith marker (trim line) = true := by rw [ht]; exact startsWith_append _ _
    simp [paragraphStop, this]
  simp only [stepFrom, h1, h2, h3, h4, h5, h6, Bool.or_self, Bool.false_eq_true, if_false,
    Option.filter, List.map_cons, List.takeWhile_cons, h7, Bool.not_true]
  rfl

/-- Every block that the pass on a line starting with the marker pushes is a
callout whose variant comes from the keyword, the longest run of word
characters after the marker. -/
theorem step_marker_blocks (env : Env) (line : Str) (ls : List Str) (kw r : Str)
    (ht : trim line = marker ++ kw ++ r) (hkw : ∀ c ∈ kw, isWord c = true)
    (hr : ∀ c, r.head? = some c → isWord c = false) :
    ∀ b ∈ (step env (line :: ls)).1, ∃ title text,
      b = Block.callout (calloutVariant (orElseStr kw "insight".toList)) title text := by
  intro b hb
  have h0 : (trim line).isEmpty = false := by rw [ht]; rfl
  have h1 : startsWith fence (trim line) = false := by rw [ht]; rfl
  have h2 : startsWith marker (trim line) = true := by
    rw [ht, List.append_assoc]; exact startsWith_append _ _
  unfold step at hb
  simp only [h0, h1, h2, Bool.false_eq_true, if_false, if_true] at hb
  split at hb
  · rename_i m hm
    rw [ht] at hm
    have hv := reCallout_keyword kw r m hkw hr hm
    unfold stepCallout at hb
    dsimp only at hb
    rw [hv] at hb
    split at hb <;>
      (simp only [List.mem_singleton] at hb; subst hb; exact ⟨_, _, rfl⟩)
  · rw [stepFrom_marker line ls (kw ++ r) (by rw [ht, List.append_assoc])] at hb
    cases hb

theorem calloutVariant_orElse (kw : Str) :
    calloutVariant (orElseStr kw "insight".toList) =
      if kw ∈ calloutVariants then kw else "insight".toList := by
  cases kw with
  | nil => decide
  | cons c cs =>
    simp only [orElseStr, List.isEmpty_cons, Bool.false_eq_true, if_false, calloutVariant,
      calloutVariants, List.contains_eq_any_beq, List.any_cons, List.any_nil, Bool.or_false,
      Bool.or_eq_true, beq_iff_eq, List.mem_cons, List.mem_singleton, List.not_mem_nil, or_false]

/-- C15 (header levels).  Every header block has a level of 1, 2 or 3: those
that a pass of the plain-text scan pushes, whether or not the scan ends, and
those in a result of `parseNotionContent`, by either parser.  On the HTML path
an element `h1` to `h6` with numeral `n` gives one header block, of level
`min(n, 3)`. -/
theorem header_level_bounds (env : Env) :
    (∀ (lines : List Str) (level : Nat) (text : Str),
      Block.header level text ∈ (step env lines).1 → level = 1 ∨ level = 2 ∨ level = 3) ∧
    (∀ (fuel : Nat) (content : Str) (blocks : List Block),
      parseNotionContent env fuel content = some blocks →
      ∀ (level : Nat) (text : Str), Block.header level text ∈ blocks →
        level = 1 ∨ level = 2 ∨ level = 3) ∧
    (∀ (tagName : Str) (attrs : List (Str × Str)) (children : List Node) (n : Nat),
      1 ≤ n → n ≤ 6 → toLowerCase env tagName = ['h', Nat.digitChar n] →
      processNode env (.element tagName attrs children) =
        [Block.header (min n 3) (getTextWithFormatting env children)]) := by
  have key : ∀ (level : Nat) (text : Str), (Block.header level text).WellFormed →
      level = 1 ∨ level = 2 ∨ level = 3 := by
    intro level text h
    have h' : 1 ≤ level ∧ level ≤ 3 := h
    omega
  refine ⟨?_, ?_, ?_⟩
  · intro lines level text h
    exact key level text (step_wellFormed env lines _ h)
  · intro fuel content blocks hp level text h
    exact key level text (parseNotionContent_wellFormed env fuel content blocks hp _ h)
  · intro tagName attrs children n h1 h6 htag
    unfold processNode
    simp only [htag]
    have hn : n = 1 ∨ n = 2 ∨ n = 3 ∨ n = 4 ∨ n = 5 ∨ n = 6 := by omega
    rcases hn with rfl | rfl | rfl | rfl | rfl | rfl <;> rfl

/-- C15, examples: a line of three hashes and an element `H5`. -/
theorem header_level_bounds_example :
    parseNotionContent Env.plain 1 "### Title".toList = some [Block.header 3 "Title".toList] ∧
    (3 = 1 ∨ 3 = 2 ∨ 3 = 3) ∧
    processNode Env.plain (.element "H5".toList [] [.text "Title".toList]) =
      [Block.header 3 "Title".toList] :=
  ⟨by decide,
    (header_level_bounds Env.plain).2.1 1 "### Title".toList [Block.header 3 "Title".toList]
      (by decide) 3 "Title".toList (by simp),
    (header_level_bounds Env.plain).2.2 "H5".toList [] [.text "Title".toList] 5 (by decide)
      (by decide) (by decide)⟩

/-- A line that passes one of the two list tests of source line 233 starts
with a character of the bullet class or with a digit. -/
theorem listStart_head (t : Str)
    (h : (reBulletStart.test t || reNumberStart.test t) = true) :
    ∃ c cs, t = c :: cs ∧ (isBulletClass c = true ∨ isDigit c = true) := by
  have e1 : reBulletStart = Re.seq .bol (Re.seq (.chr isBulletClass)
      (.rep isWhiteSpace 1 none true)) := rfl
  have e2 : reNumberStart = Re.seq .bol (Re.seq (.rep isDigit 1 none true)
      (Re.seq (.chr (is '.')) (.rep isWhiteSpace 1 none true))) := rfl
  rw [Bool.or_eq_true] at h
  rcases h with h | h
  · rw [e1, Re.test_bol_iff] at h
    obtain ⟨s', m, hchr, -⟩ := h
    rw [Re.matches_chr] at hchr
    obtain ⟨c, cs, hrest, hc, -⟩ := hchr
    exact ⟨c, cs, hrest, Or.inl hc⟩
  · rw [e2, Re.test_bol_iff] at h
    obtain ⟨s', m, hrep, -⟩ := h
    rw [Re.matches_rep] at hrep
    obtain ⟨j, ⟨hj1, hj2, hj3, -⟩, -⟩ := hrep
    simp only at hj1 hj2 hj3
    cases t with
    | nil => simp at hj1; omega
    | cons c cs =>
      cases j with
      | zero => omega
      | succ j => exact ⟨c, cs, rfl, Or.inr (hj2 c (by simp))⟩

/-- C16 (lists have an item).  Every list block has at least one item: those
that a pass of the plain-text scan pushes, whether or not the scan ends, and
those in a result of `parseNotionContent`, by either parser.  An element `ul`
or `ol` without a direct `li` child gives no block, and so does a pass of the
list rule whose loop captures no item. -/
theorem list_items_nonempty (env : Env) :
    (∀ (lines : List Str) (items : List Str),
      Block.list items ∈ (step env lines).1 → items ≠ []) ∧
    (∀ (fuel : Nat) (content : Str) (blocks : List Block),
      parseNotionContent env fuel content = some blocks →
      ∀ (items : List Str), Block.list items ∈ blocks → items ≠ []) ∧
    (∀ (tagName : Str) (attrs : List (Str × Str)) (children : List Node),
      toLowerCase env tagName = "ul".toList ∨ toLowerCase env tagName = "ol".toList →
      (∀ c ∈ children, isElementNamed env "li".toList c = false) →
      processNode env (.element tagName attrs children) = []) ∧
    (∀ (line : Str) (ls : List Str),
      (reBulletStart.test (trim line) || reNumberStart.test (trim line)) = true →
      (listLoop (line :: ls)).1 = [] → (step env (line :: ls)).1 = []) := by
  refine ⟨?_, ?_, ?_, ?_⟩
  · intro lines items h
    exact step_wellFormed env lines _ h
  · intro fuel content blocks hp items h
    exact parseNotionContent_wellFormed env fuel content blocks hp _ h
  · intro tagName attrs children htag hli
    have hf : children.filter (isElementNamed env "li".toList) = [] := by
      rw [List.filter_eq_nil_iff]
      intro c hc
      rw [hli c hc]
      exact Bool.false_ne_true
    unfold processNode
    rcases htag with htag | htag
    · simp only [htag, hf]
      rw [if_neg (by decide), if_neg (by decide), if_neg (by decide), if_pos (by decide)]
      rfl
    · simp only [htag, hf]
      rw [if_neg (by decide), if_neg (by decide), if_neg (by decide), if_pos (by decide)]
      rfl
  · intro line ls htest hitems
    obtain ⟨c, cs, hcs, hc⟩ := listStart_head _ htest
    have hne : c ≠ Char.ofNat 96 ∧ c ≠ ':' ∧ c ≠ '#' ∧ c ≠ '>' := by
      refine ⟨?_, ?_, ?_, ?_⟩ <;>
        (intro e; subst e; revert hc; decide)
    rw [step_of_plain_head env line ls c cs hcs hne.1 hne.2.1]
    have h1 : reHeader.exec (c :: cs) = none :=
      reHeader_exec_none _ (startsWith_cons_of_head _ _ _ (by intro d hd; cases hd; exact hne.2.2.1))
    have h2 : startsWith ">".toList (c :: cs) = false :=
      startsWith_cons_of_head _ _ _ (by intro d hd; cases hd; exact hne.2.2.2)
    rw [hcs] at htest
    simp only [stepFrom, h1, h2, htest, hitems, Bool.false_eq_true, if_false, if_true,
      List.length_nil, Nat.lt_irrefl]

/-- C16, examples: a list of two items, an element `UL` whose only child is
a text, and a list line with a line separator in its text, of which the loop
captures nothing. -/
theorem list_items_nonempty_example :
    parseNotionContent Env.plain 1 "- one\n- two".toList =
      some [Block.list ["one".toList, "two".toList]] ∧
    ["one".toList, "two".toList] ≠ [] ∧
    processNode Env.plain (.element "UL".toList [] [.text "one".toList]) = [] ∧
    (step Env.plain ["- one\u2028two".toList]).1 = [] :=
  ⟨by decide,
    (list_items_nonempty Env.plain).2.1 1 "- one\n- two".toList
      [Block.list ["one".toList, "two".toList]] (by decide) _ (by simp),
    (list_items_nonempty Env.plain).2.2.1 "UL".toList [] [.text "one".toList] (Or.inl (by decide))
      (by decide),
    (list_items_nonempty Env.plain).2.2.2 "- one\u2028two".toList [] (by decide) (by decide)⟩

/-- C20 (callout variants).  Every callout block has one of the four
variants: those that a pass of the plain-text scan pushes, whether or not the
scan ends, and those in a result of `parseNotionContent`, by either parser.
On the plain-text path, for a line that is (trimmed) the marker, a keyword of
word characters that may be empty, and a remainder that does not start with
a word character, every block that the pass pushes is a callout whose variant
is the keyword when that is one of the four and `insight` otherwise; and the
pass pushes exactly one block when the line holds no line terminator. -/
theorem callout_variant_of_keyword (env : Env) :
    (∀ (lines : List Str) (variant title text : Str),
      Block.callout variant title text ∈ (step env lines).1 → variant ∈ calloutVariants) ∧
    (∀ (fuel : Nat) (content : Str) (blocks : List Block),
      parseNotionContent env fuel content = some blocks →
      ∀ (variant title text : Str), Block.callout variant title text ∈ blocks →
        variant ∈ calloutVariants) ∧
    (∀ (line : Str) (ls : List Str) (kw r : Str), trim line = marker ++ kw ++ r →
      (∀ c ∈ kw, isWord c = true) → (∀ c, r.head? = some c → isWord c = false) →
      (∀ b ∈ (step env (line :: ls)).1, ∃ title text,
        b = Block.callout (if kw ∈ calloutVariants then kw else "insight".toList) title text) ∧
      ((∀ c ∈ trim line, isLineTerminator c = false) → (step env (line :: ls)).1.length = 1)) := by
  refine ⟨?_, ?_, ?_⟩
  · intro lines variant title text h
    exact step_wellFormed env lines _ h
  · intro fuel content blocks hp variant title text h
    exact parseNotionContent_wellFormed env fuel content blocks hp _ h
  · intro line ls kw r ht hkw hr
    constructor
    · rw [← calloutVariant_orElse]
      exact step_marker_blocks env line ls kw r ht hkw hr
    · intro hdot
      have h0 : (trim line).isEmpty = false := by rw [ht]; rfl
      have h1 : startsWith fence (trim line) = false := by rw [ht]; rfl
      have h2 : startsWith marker (trim line) = true := by
        rw [ht, List.append_assoc]; exact startsWith_append _ _
      have h3 := reCallout_exec_isSome (kw ++ r)
        (fun c hc => hdot c (by rw [ht, List.append_assoc]; simp [hc]))
      rw [← List.append_assoc, ← ht] at h3
      cases hm : reCallout.exec (trim line) with
      | none => rw [hm] at h3; cases h3
      | some m =>
        simp only [step, h0, h1, h2, hm, stepCallout, Bool.false_eq_true, if_false, if_true]
        split <;> rfl

/-- C20, examples: a keyword among the four, another word, no keyword, and
the `aside` element of the HTML path. -/
theorem callout_variant_of_keyword_example :
    (step Env.plain [":::warning Mind the gap".toList, "text".toList, ":::".toList]).1 =
      [Block.callout "warning".toList "Mind the gap".toList "text".toList] ∧
    (step Env.plain [":::note Mind the gap".toList, "text".toList, ":::".toList]).1 =
      [Block.callout "insight".toList "Mind the gap".toList "text".toList] ∧
    (step Env.plain ["::: Mind the gap".toList, "text".toList, ":::".toList]).1 =
      [Block.callout "insight".toList "Mind the gap".toList "text".toList] ∧
    processNode Env.plain (.element "ASIDE".toList [] [.text "text".toList]) =
      [Block.callout "insight".toList "Quick Note".toList "text".toList] ∧
    (∀ b ∈ (step Env.plain [":::tipx".toList]).1, ∃ title text,
      b = Block.callout "insight".toList title text) :=
  ⟨by decide, by decide, by decide, by decide,
    ((callout_variant_of_keyword Env.plain).2.2 ":::tipx".toList [] "tipx".toList []
      (by decide) (by decide) (by intro c hc; cases hc)).1⟩

/-! ## The scan of two texts with a blank line between them -/

theorem takeWhile_append_of_stop {α : Type} (p : α → Bool) (x : α) (b : List α) (hx : p x = false) :
    ∀ (a : List α), (a ++ x :: b).takeWhile p = a.takeWhile p := by
  intro a
  induction a with
  | nil => simp [List.takeWhile_cons, hx]
  | cons y ys ih =>
    simp only [List.cons_append, List.takeWhile_cons]
    split
    · rw [ih]
    · rfl

/-- More fuel does not change a result. -/
theorem scan_mono (env : Env) : ∀ (f : Nat) (lines : List Str) (r : List Block),
    scan env f lines = some r → ∀ g, f ≤ g → scan env g lines = some r := by
  intro f
  induction f with
  | zero =>
    intro lines r h g _
    cases lines with
    | nil =>
      simp only [scan, Option.some.injEq] at h
      subst h
      cases g <;> rfl
    | cons l ls => simp [scan] at h
  | succ n ih =>
    intro lines r h g hg
    cases lines with
    | nil =>
      simp only [scan, Option.some.injEq] at h
      subst h
      cases g <;> rfl
    | cons l ls =>
      cases g with
      | zero => omega
      | succ g =>
        simp only [scan] at h ⊢
        split at h
        · rename_i rest hrest
          rw [ih _ _ hrest g (by omega)]
          exact h
        · cases h

/-- The list loop before a blank line: the same items, and the blank line is
passed over when the loop runs up to it. -/
theorem listLoop_append_blank (Y : List Str) : ∀ (A : List Str),
    (listLoop (A ++ [] :: Y)).1 = (listLoop A).1 ∧
    (((listLoop (A ++ [] :: Y)).2 = (listLoop A).2 ∧ (listLoop A).2 ≤ A.length) ∨
      ((listLoop (A ++ [] :: Y)).2 = A.length + 1 ∧ (listLoop A).2 = A.length)) := by
  intro A
  induction A with
  | nil =>
    have e1 : reBullet.exec (trim []) = none := by decide
    have e2 : reNumber.exec (trim []) = none := by decide
    have e3 : (trim []).isEmpty = true := by decide
    simp [listLoop, e1, e2, e3]
  | cons l A ih =>
    obtain ⟨ih1, ih2⟩ := ih
    have hA : A.append ([] :: Y) = A ++ [] :: Y := rfl
    simp only [List.cons_append, listLoop, List.length_cons]
    cases h1 : reBullet.exec (trim l) with
    | some m =>
      simp only [hA]
      refine ⟨by rw [ih1], ?_⟩
      rcases ih2 with ⟨h, hle⟩ | ⟨h, he⟩
      · left; exact ⟨by rw [h], by omega⟩
      · right; exact ⟨by rw [h], by rw [he]⟩
    | none =>
      cases h2 : reNumber.exec (trim l) with
      | some m =>
        simp only [hA]
        refine ⟨by rw [ih1], ?_⟩
        rcases ih2 with ⟨h, hle⟩ | ⟨h, he⟩
        · left; exact ⟨by rw [h], by omega⟩
        · right; exact ⟨by rw [h], by rw [he]⟩
      | none =>
        simp only [true_and]
        left
        split <;> simp

/-- The rules from the header on, before a blank line: the same blocks, and
the cursor moves the same way, or by one more when a list runs up to the
blank line. -/
theorem stepFrom_append_blank (t l : Str) (ls Y : List Str) :
    (stepFrom t l (ls ++ [] :: Y)).1 = (stepFrom t l ls).1 ∧
    (((stepFrom t l (ls ++ [] :: Y)).2 = (stepFrom t l ls).2 ∧
        (stepFrom t l ls).2 ≤ ls.length + 1) ∨
      ((stepFrom t l (ls ++ [] :: Y)).2 = ls.length + 2 ∧
        (stepFrom t l ls).2 = ls.length + 1)) := by
  have hq : (l :: (ls ++ [] :: Y)).takeWhile (fun l => startsWith ">".toList (trim l)) =
      (l :: ls).takeWhile (fun l => startsWith ">".toList (trim l)) := by
    rw [← List.cons_append]
    exact takeWhile_append_of_stop _ _ _ (by decide) _
  have hp : ((l :: (ls ++ [] :: Y)).map trim).takeWhile (fun pLine => !paragraphStop pLine) =
      ((l :: ls).map trim).takeWhile (fun pLine => !paragraphStop pLine) := by
    rw [← List.cons_append, List.map_append, List.map_cons]
    exact takeWhile_append_of_stop _ _ _ (by decide) _
  have hl := listLoop_append_blank Y (l :: ls)
  rw [List.cons_append] at hl
  have hqlen : ((l :: ls).takeWhile (fun l => startsWith ">".toList (trim l))).length ≤
      ls.length + 1 := by
    have := (List.takeWhile_sublist (fun l => startsWith ">".toList (trim l))
      (l := l :: ls)).length_le
    simpa using this
  have hplen : (((l :: ls).map trim).takeWhile (fun pLine => !paragraphStop pLine)).length ≤
      ls.length + 1 := by
    have := (List.takeWhile_sublist (fun pLine => !paragraphStop pLine)
      (l := (l :: ls).map trim)).length_le
    simpa using this
  unfold stepFrom
  rw [hq, hp]
  cases h1 : reHeader.exec t with
  | some m => exact ⟨rfl, Or.inl ⟨rfl, by simp⟩⟩
  | none =>
    dsimp only
    cases h2 : startsWith ">".toList t with
    | true =>
      simp only [if_true]
      split
      · exact ⟨by first | rfl | trivial, Or.inl ⟨by first | rfl | trivial, hqlen⟩⟩
      · exact ⟨by first | rfl | trivial, Or.inl ⟨by first | rfl | trivial, hqlen⟩⟩
    | false =>
      simp only [Bool.false_eq_true, if_false]
      cases h3 : (reBulletStart.test t || reNumberStart.test t) with
      | true =>
        simp only [if_true]
        obtain ⟨hl1, hl2⟩ := hl
        refine ⟨by rw [hl1], ?_⟩
        simpa using hl2
      | false =>
        simp only [Bool.false_eq_true, if_false]
        split
        · exact ⟨by first | rfl | trivial, Or.inl ⟨by first | rfl | trivial, by simp⟩⟩
        · split
          · try dsimp only
            split
            · exact ⟨by first | rfl | trivial, Or.inl ⟨by first | rfl | trivial, by simp⟩⟩
            · exact ⟨by first | rfl | trivial, Or.inl ⟨by first | rfl | trivial, by simp⟩⟩
          · exact ⟨by first | rfl | trivial, Or.inl ⟨by first | rfl | trivial, hplen⟩⟩

/-- One pass before a blank line, on a line that opens neither a fence nor a
callout. -/
theorem step_append_blank (env : Env) (l : Str) (ls Y : List Str) (hl : NoOpener l) :
    (step env (l :: (ls ++ [] :: Y))).1 = (step env (l :: ls)).1 ∧
    (((step env (l :: (ls ++ [] :: Y))).2 = (step env (l :: ls)).2 ∧
        (step env (l :: ls)).2 ≤ ls.length + 1) ∨
      ((step env (l :: (ls ++ [] :: Y))).2 = ls.length + 2 ∧
        (step env (l :: ls)).2 = ls.length + 1)) := by
  obtain ⟨h1, h2⟩ := hl
  unfold step
  simp only [h1, h2, Bool.false_eq_true, if_false]
  split
  · exact ⟨rfl, Or.inl ⟨rfl, by simp⟩⟩
  · exact stepFrom_append_blank (trim l) l ls Y

theorem scan_nil (env : Env) (fuel : Nat) : scan env fuel [] = some [] := by
  cases fuel <;> rfl

theorem scan_succ (env : Env) (fuel : Nat) (l : Str) (ls : List Str) :
    scan env (fuel + 1) (l :: ls) =
      (scan env fuel ((l :: ls).drop (step env (l :: ls)).2)).map
        (fun blocks => (step env (l :: ls)).1 ++ blocks) :=
  scan_cons env fuel l ls _ _ rfl

/-- The scan of lines without fence or callout opener, a blank line, and
further lines: the blocks of the first lines, then those of the further
lines. -/
theorem scan_append_blank (env : Env) (Y : List Str) (b : List Block) (fb : Nat)
    (hY : scan env fb Y = some b) : ∀ (fa : Nat) (X : List Str) (a : List Block),
    (∀ l ∈ X, NoOpener l) → scan env fa X = some a →
      scan env (fa + fb + 1) (X ++ [] :: Y) = some (a ++ b) := by
  have hblank : ∀ g, fb ≤ g → scan env (g + 1) ([] :: Y) = some b := by
    intro g hg
    have hstep : step env ([] :: Y) = ([], 1) := by
      have : (trim []).isEmpty = true := by decide
      simp [step, this]
    rw [scan_cons env g [] Y [] 1 hstep]
    simp only [List.drop_succ_cons, List.drop_zero, List.nil_append]
    rw [scan_mono env fb Y b hY g hg]
    rfl
  intro fa
  induction fa with
  | zero =>
    intro X a _ h
    cases X with
    | nil =>
      simp only [scan, Option.some.injEq] at h
      subst h
      simpa using hblank fb (Nat.le_refl _)
    | cons l ls => simp [scan] at h
  | succ n ih =>
    intro X a hX h
    cases X with
    | nil =>
      simp only [scan, Option.some.injEq] at h
      subst h
      simpa using hblank (n + 1 + fb) (by omega)
    | cons l ls =>
      have hloc := step_append_blank env l ls Y (hX l (by simp))
      have h0 := scan_succ env n l ls
      rw [h] at h0
      cases hrest : scan env n ((l :: ls).drop (step env (l :: ls)).2) with
      | none => rw [hrest] at h0; cases h0
      | some a' =>
        rw [hrest] at h0
        simp only [Option.map_some', Option.some.injEq] at h0
        subst h0
        have e : n + 1 + fb + 1 = (n + fb + 1) + 1 := by omega
        rw [e, List.cons_append, scan_succ, hloc.1]
        rcases hloc.2 with ⟨h1, h2⟩ | ⟨h1, h2⟩
        · have hdrop : (l :: (ls ++ [] :: Y)).drop (step env (l :: ls)).2 =
              (l :: ls).drop (step env (l :: ls)).2 ++ [] :: Y := by
            rw [← List.cons_append, List.drop_append_of_le_length (by simpa using h2)]
          rw [h1, hdrop, ih _ a' (fun x hx => hX x (List.mem_of_mem_drop hx)) hrest]
          simp
        · have hdrop : (l :: (ls ++ [] :: Y)).drop (ls.length + 2) = Y := by
            simp [List.drop_append]
          have ha' : a' = [] := by
            rw [h2] at hrest
            have : (l :: ls).drop (ls.length + 1) = [] :=
              List.drop_eq_nil_of_le (by simp)
            rw [this, scan_nil] at hrest
            cases hrest
            rfl
          rw [h1, hdrop, scan_mono env fb Y b hY (n + fb + 1) (by omega), ha']
          simp

/-- The other direction: when the scan of the whole returns, so do the scans
of the two parts, and the result is their blocks in this order. -/
theorem scan_of_append_blank (env : Env) (Y : List Str) : ∀ (f : Nat) (X : List Str)
    (r : List Block), (∀ l ∈ X, NoOpener l) → scan env f (X ++ [] :: Y) = some r →
      ∃ a b, scan env f X = some a ∧ scan env f Y = some b ∧ r = a ++ b := by
  intro f
  induction f with
  | zero =>
    intro X r _ h
    cases X <;> simp [scan] at h
  | succ n ih =>
    intro X r hX h
    cases X with
    | nil =>
      have hstep : step env ([] :: Y) = ([], 1) := by
        have : (trim []).isEmpty = true := by decide
        simp [step, this]
      rw [List.nil_append, scan_cons env n [] Y [] 1 hstep] at h
      simp only [List.drop_succ_cons, List.drop_zero, List.nil_append] at h
      cases hrest : scan env n Y with
      | none => rw [hrest] at h; cases h
      | some b =>
        rw [hrest] at h
        simp only [Option.map_some', Option.some.injEq] at h
        exact ⟨[], b, rfl, scan_mono env n Y b hrest (n + 1) (by omega), by simpa using h.symm⟩
    | cons l ls =>
      have hloc := step_append_blank env l ls Y (hX l (by simp))
      rw [List.cons_append, scan_succ, hloc.1] at h
      rcases hloc.2 with ⟨h1, h2⟩ | ⟨h1, h2⟩
      · have hdrop : (l :: (ls ++ [] :: Y)).drop (step env (l :: ls)).2 =
            (l :: ls).drop (step env (l :: ls)).2 ++ [] :: Y := by
          rw [← List.cons_append, List.drop_append_of_le_length (by simpa using h2)]
        rw [h1, hdrop] at h
        cases hrest : scan env n ((l :: ls).drop (step env (l :: ls)).2 ++ [] :: Y) with
        | none => rw [hrest] at h; cases h
        | some r' =>
          rw [hrest] at h
          simp only [Option.map_some', Option.some.injEq] at h
          obtain ⟨a', b, ha', hb, hr'⟩ :=
            ih _ r' (fun x hx => hX x (List.mem_of_mem_drop hx)) hrest
          refine ⟨(step env (l :: ls)).1 ++ a', b, ?_,
            scan_mono env n Y b hb (n + 1) (by omega), ?_⟩
          · rw [scan_succ, ha']
            rfl
          · rw [← h, hr', List.append_assoc]
      · have hdrop : (l :: (ls ++ [] :: Y)).drop (ls.length + 2) = Y := by
          simp [List.drop_append]
        rw [h1, hdrop] at h
        cases hrest : scan env n Y with
        | none => rw [hrest] at h; cases h
        | some b =>
          rw [hrest] at h
          simp only [Option.map_some', Option.some.injEq] at h
          refine ⟨(step env (l :: ls)).1, b, ?_, scan_mono env n Y b hrest (n + 1) (by omega),
            h.symm⟩
          rw [scan_succ, h2]
          have : (l :: ls).drop (ls.length + 1) = [] := List.drop_eq_nil_of_le (by simp)
          rw [this, scan_nil]
          simp

/-! ## The lines of two texts with two line feeds between them -/

theorem dropCRLF_cons_of_ne (c : Char) (s : Str) (h : c ≠ '\r') :
    dropCRLF (c :: s) = c :: dropCRLF s := by
  cases s with
  | nil => rfl
  | cons d s => simp [dropCRLF, h]

theorem dropCRLF_crlf (s : Str) : dropCRLF ('\r' :: '\n' :: s) = '\n' :: dropCRLF s := by
  simp [dropCRLF]

theorem dropCRLF_append_of_head (Q : Str) (h : ∀ c, Q.head? = some c → c ≠ '\n') :
    ∀ (P : Str), dropCRLF (P ++ Q) = dropCRLF P ++ dropCRLF Q := by
  intro P
  induction P using dropCRLF.induct with
  | case1 => rfl
  | case2 c =>
    cases Q with
    | nil => simp [dropCRLF]
    | cons d Q =>
      have : d ≠ '\n' := h d rfl
      simp [dropCRLF, this]
  | case3 c d s hcd ih =>
    obtain ⟨rfl, rfl⟩ := hcd
    simp only [List.cons_append, dropCRLF_crlf, ih]
  | case4 c d s hcd ih =>
    simp only [List.cons_append] at ih ⊢
    simp only [dropCRLF, hcd, if_false, ih, List.cons_append]

theorem dropCRLF_append_of_last (Q : Str) :
    ∀ (P : Str), (∀ c, P.getLast? = some c → c ≠ '\r') →
      dropCRLF (P ++ Q) = dropCRLF P ++ dropCRLF Q := by
  intro P
  induction P using dropCRLF.induct with
  | case1 => intro _; rfl
  | case2 c =>
    intro h
    have : c ≠ '\r' := h c rfl
    rw [List.singleton_append, dropCRLF_cons_of_ne c Q this]
    rfl
  | case3 c d s hcd ih =>
    intro h
    obtain ⟨rfl, rfl⟩ := hcd
    have hs : ∀ c, s.getLast? = some c → c ≠ '\r' := by
      intro c hc
      apply h c
      cases s with
      | nil => cases hc
      | cons e s => simpa [List.getLast?_cons_cons] using hc
    simp only [List.cons_append, dropCRLF_crlf, ih hs]
  | case4 c d s hcd ih =>
    intro h
    have hs : ∀ x, (d :: s).getLast? = some x → x ≠ '\r' := by
      intro x hx
      apply h x
      simpa [List.getLast?_cons_cons] using hx
    have := ih hs
    simp only [List.cons_append] at this ⊢
    simp only [dropCRLF, hcd, if_false, this, List.cons_append]

theorem splitOn_append (sep : Char) (Z : Str) :
    ∀ (X : Str), splitOn sep (X ++ sep :: Z) = splitOn sep X ++ splitOn sep Z := by
  intro X
  induction X with
  | nil => simp [splitOn]
  | cons c X ih =>
    have hA : X.append (sep :: Z) = X ++ sep :: Z := rfl
    by_cases hc : c = sep
    · simp only [List.cons_append, splitOn, hc, if_true, hA, ih, List.cons_append]
    · simp only [List.cons_append, splitOn, hc, if_false, hA, ih]
      cases hX : splitOn sep X with
      | nil => exact absurd hX (splitOn_ne_nil sep X)
      | cons a rest => rfl

theorem hasTag_append (P X Q : Str) (h : HasTag X) : HasTag (P ++ X ++ Q) := by
  obtain ⟨a, c, b, d, rfl, hc⟩ := h
  exact ⟨P ++ a, c, b, d ++ Q, by simp [List.append_assoc], hc⟩

/-- The normalised text of `A`, two line feeds and `B`, and its lines: the
lines of `A`, a blank line, and the lines of `B`; when `A` ends in a carriage
return, that and the first line feed are one line ending, and the last line
of `A` is the blank line. -/
theorem lines_append_blank (A B : Str) :
    ∃ (sep : Str) (X : List Str),
      normalize (A ++ "\n\n".toList ++ B) = normalize A ++ sep ++ normalize B ∧
      splitOn '\n' (normalize (A ++ "\n\n".toList ++ B)) =
        X ++ [] :: splitOn '\n' (normalize B) ∧
      (splitOn '\n' (normalize A) = X ∨ splitOn '\n' (normalize A) = X ++ [[]]) := by
  have hB : dropCRLF ('\n' :: '\n' :: B) = '\n' :: '\n' :: dropCRLF B := by
    rw [dropCRLF_cons_of_ne _ _ (by decide), dropCRLF_cons_of_ne _ _ (by decide)]
  have e1 : "\n".toList = ['\n'] := rfl
  have e2 : "\n\n".toList = ['\n', '\n'] := rfl
  have c1 : crToLf '\n' = '\n' := by decide
  have c2 : crToLf '\r' = '\n' := by decide
  by_cases hlast : A.getLast? = some '\r'
  · obtain ⟨A', rfl⟩ : ∃ A', A = A' ++ ['\r'] := by
      rcases List.eq_nil_or_concat A with h | ⟨A', c, h⟩
      · rw [h] at hlast; cases hlast
      · rw [h, List.concat_eq_append, List.getLast?_append] at hlast
        simp at hlast
        exact ⟨A', by rw [h, hlast, List.concat_eq_append]⟩
    have h1 : dropCRLF (A' ++ ['\r'] ++ "\n\n".toList ++ B) =
        dropCRLF A' ++ '\n' :: '\n' :: dropCRLF B := by
      have e : A' ++ ['\r'] ++ "\n\n".toList ++ B = A' ++ ('\r' :: '\n' :: '\n' :: B) := by
        simp [List.append_assoc]
      rw [e, dropCRLF_append_of_head _ (by intro c hc; cases hc; decide), dropCRLF_crlf,
        dropCRLF_cons_of_ne _ _ (by decide)]
    have h2 : dropCRLF (A' ++ ['\r']) = dropCRLF A' ++ ['\r'] := by
      rw [dropCRLF_append_of_head _ (by intro c hc; cases hc; decide)]
      rfl
    have hn : normalize (A' ++ ['\r'] ++ "\n\n".toList ++ B) =
        normalize A' ++ '\n' :: ('\n' :: normalize B) := by
      rw [normalize_eq, h1, normalize_eq, normalize_eq, List.map_append, List.map_cons,
        List.map_cons, c1]
    have hA : normalize (A' ++ ['\r']) = normalize A' ++ '\n' :: [] := by
      rw [normalize_eq, h2, normalize_eq, List.map_append, List.map_cons, c2, List.map_nil]
    refine ⟨"\n".toList, splitOn '\n' (normalize A'), ?_, ?_, Or.inr ?_⟩
    · rw [hn, hA, e1]
      simp [List.append_assoc]
    · rw [hn, splitOn_append]
      rfl
    · rw [hA, splitOn_append]
      rfl
  · have h1 : dropCRLF (A ++ "\n\n".toList ++ B) = dropCRLF A ++ '\n' :: '\n' :: dropCRLF B := by
      have e : A ++ "\n\n".toList ++ B = A ++ ('\n' :: '\n' :: B) := by
        simp [List.append_assoc]
      rw [e, dropCRLF_append_of_last _ A (by intro c hc e; exact hlast (by rw [hc, e])), hB]
    have hn : normalize (A ++ "\n\n".toList ++ B) =
        normalize A ++ '\n' :: ('\n' :: normalize B) := by
      rw [normalize_eq, h1, normalize_eq, normalize_eq, List.map_append, List.map_cons,
        List.map_cons, c1]
    refine ⟨"\n\n".toList, splitOn '\n' (normalize A), ?_, ?_, Or.inl rfl⟩
    · rw [hn, e2]
      simp [List.append_assoc]
    · rw [hn, splitOn_append]
      rfl

/-- C12 (source order).  Let `A` be a text none of whose lines, after the
normalisation of the line endings, starts (trimmed) with three backticks or
`:::`, and let `A`, two line feeds and `B` be not detected as HTML.  When
the parser returns on `A` and on `B`, it returns on `A`, two line feeds and
`B`, and the result is the blocks of `A`, unchanged and in order, followed by
those of `B`; the passes of the two parses and one more suffice.  When it
returns on `A`, two line feeds and `B`, it returns on `A` and on `B`, and
the result is again the blocks of `A` followed by those of `B`. -/
theorem parseNotionContent_append (env : Env) (A B : Str)
    (hA : ∀ l ∈ splitOn '\n' (normalize A), NoOpener l)
    (hhtml : isHTML (normalize (A ++ "\n\n".toList ++ B)) = false) :
    (∀ (fa fb : Nat) (a b : List Block), parseNotionContent env fa A = some a →
      parseNotionContent env fb B = some b →
      parseNotionContent env (fa + fb + 1) (A ++ "\n\n".toList ++ B) = some (a ++ b)) ∧
    (∀ (f : Nat) (r : List Block),
      parseNotionContent env f (A ++ "\n\n".toList ++ B) = some r →
      ∃ a b, parseNotionContent env (f + 1) A = some a ∧ parseNotionContent env f B = some b ∧
        r = a ++ b) := by
  obtain ⟨sep, X, hn, hl, hX⟩ := lines_append_blank A B
  have hhA : isHTML (normalize A) = false := by
    cases h : isHTML (normalize A) with
    | false => rfl
    | true =>
      rw [isHTML_iff] at h
      have := hasTag_append [] (normalize A) (sep ++ normalize B) h
      rw [List.nil_append, ← List.append_assoc, ← hn, ← isHTML_iff, hhtml] at this
      cases this
  have hhB : isHTML (normalize B) = false := by
    cases h : isHTML (normalize B) with
    | false => rfl
    | true =>
      rw [isHTML_iff] at h
      have := hasTag_append (normalize A ++ sep) (normalize B) [] h
      rw [List.append_nil, ← hn, ← isHTML_iff, hhtml] at this
      cases this
  have pA : ∀ f, parseNotionContent env f A = scan env f (splitOn '\n' (normalize A)) := by
    intro f
    simp only [parseNotionContent, hhA, Bool.false_eq_true, if_false]
  have pB : ∀ f, parseNotionContent env f B = scan env f (splitOn '\n' (normalize B)) := by
    intro f
    simp only [parseNotionContent, hhB, Bool.false_eq_true, if_false]
  have pAB : ∀ f, parseNotionContent env f (A ++ "\n\n".toList ++ B) =
      scan env f (X ++ [] :: splitOn '\n' (normalize B)) := by
    intro f
    simp only [parseNotionContent, hhtml, Bool.false_eq_true, if_false, hl]
  have hXo : ∀ l ∈ X, NoOpener l := by
    intro l hl
    rcases hX with h | h
    · exact hA l (by rw [h]; exact hl)
    · exact hA l (by rw [h]; exact List.mem_append_left _ hl)
  constructor
  · intro fa fb a b ha hb
    rw [pA] at ha
    rw [pB] at hb
    rw [pAB]
    rcases hX with h | h
    · rw [h] at ha
      exact scan_append_blank env _ b fb hb fa X a hXo ha
    · rw [h] at ha
      obtain ⟨a', b', ha', hb', hab⟩ := scan_of_append_blank env [] fa X a hXo ha
      rw [scan_nil] at hb'
      cases hb'
      rw [List.append_nil] at hab
      subst hab
      exact scan_append_blank env _ b fb hb fa X a hXo ha'
  · intro f r hr
    rw [pAB] at hr
    obtain ⟨a, b, ha, hb, hab⟩ := scan_of_append_blank env _ f X r hXo hr
    refine ⟨a, b, ?_, by rw [pB]; exact hb, hab⟩
    rw [pA]
    rcases hX with h | h
    · rw [h]
      exact scan_mono env f X a ha (f + 1) (by omega)
    · rw [h]
      have := scan_append_blank env [] [] 0 (scan_nil env 0) f X a hXo ha
      simpa using this

/-- C12, an example: a list at the end of the first text and a list at the
start of the second stay two blocks, in the order of the source. -/
theorem parseNotionContent_append_example :
    parseNotionContent Env.plain 5 ("# T\r\n- one".toList ++ "\n\n".toList ++ "- two\ntext".toList) =
      some ([Block.header 1 "T".toList, Block.list ["one".toList]] ++
        [Block.list ["two".toList], Block.paragraph "text".toList]) :=
  (parseNotionContent_append Env.plain "# T\r\n- one".toList "- two\ntext".toList
    (by simp only [NoOpener]; decide) (by decide)).1 2 2 _ _ (by decide) (by decide)

/-! ## The inline round trip -/

theorem Re.run_alt_some (a b : Re) (s x : MState) (k : MState → Option MState)
    (h : a.run s k = some x) : (Re.alt a b).run s k = some x := by
  simp [Re.run, h]

theorem Re.run_alt_none (a b : Re) (s : MState) (k : MState → Option MState)
    (h : a.run s k = none) : (Re.alt a b).run s k = b.run s k := by
  simp [Re.run, h]

/-- A pattern that starts with a literal fails where the literal does not
stand. -/
theorem Re.run_seq_lit_none (w : Str) (r : Re) (rest : Str) (pos : Nat) (caps : List (Option Str))
    (k : MState → Option MState) (h : startsWith w rest = false) :
    (Re.seq (Re.lit w) r).run ⟨pos, rest, caps⟩ k = none := by
  rw [Re.run_seq]
  exact Re.run_lit_none _ _ _ _ _ h

/-- An alternative `open (.+?) close` of the inline pattern on a text that
starts with `open`, a text `s` free of line terminators and of the first
character of `close`, and `close`. -/
theorem inlineAlt_run (w1 s w2 R : Str) (d : Char) (ds : Str) (i pos : Nat)
    (caps : List (Option Str)) (k : MState → Option MState) (x : MState)
    (hw2 : w2 = d :: ds) (hs : s ≠ []) (hdot : ∀ c ∈ s, c ≠ d ∧ isLineTerminator c = false)
    (hk : k ⟨pos + w1.length + s.length + w2.length, R, caps.set i (some s)⟩ = some x) :
    (Re.seq (Re.lit w1) (Re.seq (.cap i (.rep isDot 1 none false)) (Re.lit w2))).run
      ⟨pos, w1 ++ s ++ w2 ++ R, caps⟩ k = some x := by
  rw [Re.run_seq, Re.run_lit_of_eq w1 (s ++ (w2 ++ R)) _ _ _ _ (by simp [List.append_assoc]),
    Re.run_seq, Re.run_cap]
  apply Re.run_rep_lazy isDot 1 none s (w2 ++ R) _ _ _ _ _ rfl
    (fun c hc => isDot_of_not_lineTerminator c (hdot c hc).2)
    (by cases s with
        | nil => exact absurd rfl hs
        | cons e es => simp)
    (Or.inr trivial)
  · intro j hj _
    apply Re.run_lit_none
    rw [hw2]
    apply startsWith_cons_of_head
    intro c hc
    have hne : s.drop j ≠ [] := by
      simp only [ne_eq, List.drop_eq_nil_iff, not_le]
      exact hj
    have hmem : c ∈ s.drop j := by
      cases hd : s.drop j with
      | nil => exact absurd hd hne
      | cons e es =>
        rw [hd] at hc
        cases hc
        simp
    exact (hdot c (List.mem_of_mem_drop hmem)).1
  · rw [Re.run_lit_of_eq w2 R _ _ _ _ rfl]
    simp only [take_append_sub]
    exact hk

theorem Re.matchAt_of_run (r : Re) (pos : Nat) (rest : Str) (x : MState)
    (h : r.run ⟨pos, rest, List.replicate (r.groups + 1) none⟩ some = some x) :
    r.matchAt pos rest =
      some ⟨pos, x.pos, x.rest, x.caps.set 0 (some (rest.take (rest.length - x.rest.length)))⟩ := by
  simp [Re.matchAt, h]

theorem reInline_eq : reInline = Re.cap 1 (Re.alt
    (Re.seq (Re.lit "***".toList) (Re.seq (.cap 2 (.rep isDot 1 none false)) (Re.lit "***".toList)))
    (Re.alt
      (Re.seq (Re.lit "**".toList) (Re.seq (.cap 3 (.rep isDot 1 none false)) (Re.lit "**".toList)))
    (Re.alt
      (Re.seq (Re.lit "*".toList) (Re.seq (.cap 4 (.rep isDot 1 none false)) (Re.lit "*".toList)))
    (Re.alt
      (Re.seq (Re.lit "`".toList) (Re.seq (.cap 5 (.rep isDot 1 none false)) (Re.lit "`".toList)))
      (Re.seq (Re.lit "[".toList) (Re.seq (.cap 6 (.rep (isNot ']') 1 none true))
        (Re.seq (Re.lit "](".toList) (Re.seq (.cap 7 (.rep (isNot ')') 1 none true))
          (Re.lit ")".toList))))))))) := rfl

/-- The inline pattern does not match at a character other than `*`, a
backtick and `[`, nor at the end of the text. -/
theorem reInline_matchAt_none (pos : Nat) (rest : Str)
    (h : ∀ c, rest.head? = some c → c ≠ '*' ∧ c ≠ Char.ofNat 96 ∧ c ≠ '[') :
    reInline.matchAt pos rest = none := by
  have h1 : startsWith "***".toList rest = false :=
    startsWith_cons_of_head _ _ _ (fun c hc => (h c hc).1)
  have h2 : startsWith "**".toList rest = false :=
    startsWith_cons_of_head _ _ _ (fun c hc => (h c hc).1)
  have h3 : startsWith "*".toList rest = false :=
    startsWith_cons_of_head _ _ _ (fun c hc => (h c hc).1)
  have h4 : startsWith "`".toList rest = false :=
    startsWith_cons_of_head _ _ _ (fun c hc => (h c hc).2.1)
  have h5 : startsWith "[".toList rest = false :=
    startsWith_cons_of_head _ _ _ (fun c hc => (h c hc).2.2)
  unfold Re.matchAt
  rw [reInline_eq, Re.run_cap,
    Re.run_alt_none _ _ _ _ (Re.run_seq_lit_none _ _ _ _ _ _ h1),
    Re.run_alt_none _ _ _ _ (Re.run_seq_lit_none _ _ _ _ _ _ h2),
    Re.run_alt_none _ _ _ _ (Re.run_seq_lit_none _ _ _ _ _ _ h3),
    Re.run_alt_none _ _ _ _ (Re.run_seq_lit_none _ _ _ _ _ _ h4),
    Re.run_seq_lit_none _ _ _ _ _ _ h5]

/-- The search of the inline pattern passes over a text without `*`, backtick
and `[`. -/
theorem reInline_execFrom_skip (rest : Str) : ∀ (t : Str) (pos : Nat),
    (∀ c ∈ t, c ≠ '*' ∧ c ≠ Char.ofNat 96 ∧ c ≠ '[') →
      reInline.execFrom pos (t ++ rest) = reInline.execFrom (pos + t.length) rest := by
  intro t
  induction t with
  | nil => intro pos _; rfl
  | cons c cs ih =>
    intro pos h
    have hm := reInline_matchAt_none pos (c :: cs ++ rest)
      (by intro d hd; cases hd; exact h c (by simp))
    rw [List.cons_append] at hm ⊢
    simp only [Re.execFrom, hm]
    rw [ih (pos + 1) (fun d hd => h d (by simp [hd]))]
    simp only [List.length_cons]
    congr 1
    omega

theorem matchesPart_strongEm (pos : Nat) (s R : Str) (h : (Inline.strongEm s).Plain) :
    MatchesPart pos (.strongEm s) R := by
  obtain ⟨hs, hc⟩ := h
  obtain ⟨c, cs, rfl⟩ : ∃ c cs, s = c :: cs := by
    cases s with
    | nil => exact absurd rfl hs
    | cons c cs => exact ⟨c, cs, rfl⟩
  have hc0 : c ≠ '*' := (hc c (by simp)).1
  have hrun : reInline.run ⟨pos, "***".toList ++ (c :: cs) ++ "***".toList ++ R,
      List.replicate (reInline.groups + 1) none⟩ some =
      some ⟨pos + "***".toList.length + (c :: cs).length + "***".toList.length, R,
        ((List.replicate (reInline.groups + 1) none).set 2 (some (c :: cs))).set 1
          (some (("***".toList ++ (c :: cs) ++ "***".toList ++ R).take
            (("***".toList ++ (c :: cs) ++ "***".toList ++ R).length - R.length)))⟩ := by
    rw [reInline_eq, Re.run_cap]
    exact Re.run_alt_some _ _ _ _ _
      (inlineAlt_run "***".toList (c :: cs) "***".toList R '*' "**".toList 2 pos _ _ _ rfl
        (by simp) hc rfl)
  refine ⟨_, Re.matchAt_of_run reInline pos _ _ hrun, rfl, ?_, rfl, ?_⟩
  · simp [Inline.markup]
    omega
  · have hg : reInline.groups = 7 := rfl
    simp [inlinePart, truthy, Match.group, hg, List.replicate, Option.filter]

theorem matchesPart_strong (pos : Nat) (s R : Str) (h : (Inline.strong s).Plain) :
    MatchesPart pos (.strong s) R := by
  obtain ⟨hs, hc⟩ := h
  obtain ⟨c, cs, rfl⟩ : ∃ c cs, s = c :: cs := by
    cases s with
    | nil => exact absurd rfl hs
    | cons c cs => exact ⟨c, cs, rfl⟩
  have hc0 : c ≠ '*' := (hc c (by simp)).1
  have f0 : startsWith "***".toList ("**".toList ++ (c :: cs) ++ "**".toList ++ R) = false := by
    simp [startsWith, hc0.symm]
  have hrun : reInline.run ⟨pos, "**".toList ++ (c :: cs) ++ "**".toList ++ R,
      List.replicate (reInline.groups + 1) none⟩ some =
      some ⟨pos + "**".toList.length + (c :: cs).length + "**".toList.length, R,
        ((List.replicate (reInline.groups + 1) none).set 3 (some (c :: cs))).set 1
          (some (("**".toList ++ (c :: cs) ++ "**".toList ++ R).take
            (("**".toList ++ (c :: cs) ++ "**".toList ++ R).length - R.length)))⟩ := by
    rw [reInline_eq, Re.run_cap, Re.run_alt_none _ _ _ _ (Re.run_seq_lit_none _ _ _ _ _ _ f0)]
    exact Re.run_alt_some _ _ _ _ _
      (inlineAlt_run "**".toList (c :: cs) "**".toList R '*' "*".toList 3 pos _ _ _ rfl
        (by simp) hc rfl)
  refine ⟨_, Re.matchAt_of_run reInline pos _ _ hrun, rfl, ?_, rfl, ?_⟩
  · simp [Inline.markup]
    omega
  · have hg : reInline.groups = 7 := rfl
    simp [inlinePart, truthy, Match.group, hg, List.replicate, Option.filter]

theorem matchesPart_em (pos : Nat) (s R : Str) (h : (Inline.em s).Plain) :
    MatchesPart pos (.em s) R := by
  obtain ⟨hs, hc⟩ := h
  obtain ⟨c, cs, rfl⟩ : ∃ c cs, s = c :: cs := by
    cases s with
    | nil => exact absurd rfl hs
    | cons c cs => exact ⟨c, cs, rfl⟩
  have hc0 : c ≠ '*' := (hc c (by simp)).1
  have f0 : startsWith "***".toList ("*".toList ++ (c :: cs) ++ "*".toList ++ R) = false := by
    simp [startsWith, hc0.symm]
  have f1 : startsWith "**".toList ("*".toList ++ (c :: cs) ++ "*".toList ++ R) = false := by
    simp [startsWith, hc0.symm]
  have hrun : reInline.run ⟨pos, "*".toList ++ (c :: cs) ++ "*".toList ++ R,
      List.replicate (reInline.groups + 1) none⟩ some =
      some ⟨pos + "*".toList.length + (c :: cs).length + "*".toList.length, R,
        ((List.replicate (reInline.groups + 1) none).set 4 (some (c :: cs))).set 1
          (some (("*".toList ++ (c :: cs) ++ "*".toList ++ R).take
            (("*".toList ++ (c :: cs) ++ "*".toList ++ R).length - R.length)))⟩ := by
    rw [reInline_eq, Re.run_cap, Re.run_alt_none _ _ _ _ (Re.run_seq_lit_none _ _ _ _ _ _ f0), Re.run_alt_none _ _ _ _ (Re.run_seq_lit_none _ _ _ _ _ _ f1)]
    exact Re.run_alt_some _ _ _ _ _
      (inlineAlt_run "*".toList (c :: cs) "*".toList R '*' [] 4 pos _ _ _ rfl
        (by simp) hc rfl)
  refine ⟨_, Re.matchAt_of_run reInline pos _ _ hrun, rfl, ?_, rfl, ?_⟩
  · simp [Inline.markup]
    omega
  · have hg : reInline.groups = 7 := rfl
    simp [inlinePart, truthy, Match.group, hg, List.replicate, Option.filter]

theorem matchesPart_code (pos : Nat) (s R : Str) (h : (Inline.code s).Plain) :
    MatchesPart pos (.code s) R := by
  obtain ⟨hs, hc⟩ := h
  obtain ⟨c, cs, rfl⟩ : ∃ c cs, s = c :: cs := by
    cases s with
    | nil => exact absurd rfl hs
    | cons c cs => exact ⟨c, cs, rfl⟩
  have hc0 : c ≠ (Char.ofNat 96) := (hc c (by simp)).1
  have f0 : startsWith "***".toList ("`".toList ++ (c :: cs) ++ "`".toList ++ R) = false := by
    simp [startsWith]
  have f1 : startsWith "**".toList ("`".toList ++ (c :: cs) ++ "`".toList ++ R) = false := by
    simp [startsWith]
  have f2 : startsWith "*".toList ("`".toList ++ (c :: cs) ++ "`".toList ++ R) = false := by
    simp [startsWith]
  have hrun : reInline.run ⟨pos, "`".toList ++ (c :: cs) ++ "`".toList ++ R,
      List.replicate (reInline.groups + 1) none⟩ some =
      some ⟨pos + "`".toList.length + (c :: cs).length + "`".toList.length, R,
        ((List.replicate (reInline.groups + 1) none).set 5 (some (c :: cs))).set 1
          (some (("`".toList ++ (c :: cs) ++ "`".toList ++ R).take
            (("`".toList ++ (c :: cs) ++ "`".toList ++ R).length - R.length)))⟩ := by
    rw [reInline_eq, Re.run_cap, Re.run_alt_none _ _ _ _ (Re.run_seq_lit_none _ _ _ _ _ _ f0), Re.run_alt_none _ _ _ _ (Re.run_seq_lit_none _ _ _ _ _ _ f1), Re.run_alt_none _ _ _ _ (Re.run_seq_lit_none _ _ _ _ _ _ f2)]
    exact Re.run_alt_some _ _ _ _ _
      (inlineAlt_run "`".toList (c :: cs) "`".toList R (Char.ofNat 96) [] 5 pos _ _ _ rfl
        (by simp) hc rfl)
  refine ⟨_, Re.matchAt_of_run reInline pos _ _ hrun, rfl, ?_, rfl, ?_⟩
  · simp [Inline.markup]
    omega
  · have hg : reInline.groups = 7 := rfl
    simp [inlinePart, truthy, Match.group, hg, List.replicate, Option.filter]

theorem matchesPart_link (pos : Nat) (href s R : Str) (h : (Inline.link href s).Plain) :
    MatchesPart pos (.link href s) R := by
  obtain ⟨hs, hsc, hh, hhc⟩ := h
  have f0 : startsWith "***".toList
      ("[".toList ++ s ++ "](".toList ++ href ++ ")".toList ++ R) = false := by
    simp [startsWith]
  have f1 : startsWith "**".toList
      ("[".toList ++ s ++ "](".toList ++ href ++ ")".toList ++ R) = false := by
    simp [startsWith]
  have f2 : startsWith "*".toList
      ("[".toList ++ s ++ "](".toList ++ href ++ ")".toList ++ R) = false := by
    simp [startsWith]
  have f3 : startsWith "`".toList
      ("[".toList ++ s ++ "](".toList ++ href ++ ")".toList ++ R) = false := by
    simp [startsWith]
  have hrun : reInline.run ⟨pos, "[".toList ++ s ++ "](".toList ++ href ++ ")".toList ++ R,
      List.replicate (reInline.groups + 1) none⟩ some =
      some ⟨pos + "[".toList.length + s.length + "](".toList.length + href.length +
          ")".toList.length, R,
        (((List.replicate (reInline.groups + 1) none).set 6 (some s)).set 7 (some href)).set 1
          (some (("[".toList ++ s ++ "](".toList ++ href ++ ")".toList ++ R).take
            (("[".toList ++ s ++ "](".toList ++ href ++ ")".toList ++ R).length - R.length)))⟩ := by
    rw [reInline_eq, Re.run_cap, Re.run_alt_none _ _ _ _ (Re.run_seq_lit_none _ _ _ _ _ _ f0),
      Re.run_alt_none _ _ _ _ (Re.run_seq_lit_none _ _ _ _ _ _ f1),
      Re.run_alt_none _ _ _ _ (Re.run_seq_lit_none _ _ _ _ _ _ f2),
      Re.run_alt_none _ _ _ _ (Re.run_seq_lit_none _ _ _ _ _ _ f3),
      Re.run_seq, Re.run_lit_of_eq "[".toList (s ++ ("](".toList ++ (href ++ (")".toList ++ R))))
        _ _ _ _ (by simp [List.append_assoc]),
      Re.run_seq, Re.run_cap]
    apply Re.run_rep_greedy (isNot ']') 1 none s ("](".toList ++ (href ++ (")".toList ++ R)))
      _ _ _ _ _ rfl (fun c hc => by simp [isNot, hsc c hc])
      (by cases s with
          | nil => exact absurd rfl hs
          | cons e es => simp)
      (Or.inr trivial)
      (by intro c hc; cases hc; exact Or.inl (by decide))
    simp only [take_append_sub]
    rw [Re.run_seq, Re.run_lit_of_eq "](".toList (href ++ (")".toList ++ R)) _ _ _ _ rfl,
      Re.run_seq, Re.run_cap]
    apply Re.run_rep_greedy (isNot ')') 1 none href (")".toList ++ R)
      _ _ _ _ _ rfl (fun c hc => by simp [isNot, hhc c hc])
      (by cases href with
          | nil => exact absurd rfl hh
          | cons e es => simp)
      (Or.inr trivial)
      (by intro c hc; cases hc; exact Or.inl (by decide))
    simp only [take_append_sub]
    rw [Re.run_lit_of_eq ")".toList R _ _ _ _ rfl]
    dsimp only
    simp only [take_append_sub]
  refine ⟨_, Re.matchAt_of_run reInline pos _ _ hrun, rfl, ?_, rfl, ?_⟩
  · simp [Inline.markup]
    omega
  · have hg : reInline.groups = 7 := rfl
    cases s with
    | nil => exact absurd rfl hs
    | cons c cs =>
      cases href with
      | nil => exact absurd rfl hh
      | cons d ds =>
        simp [inlinePart, truthy, Match.group, hg, List.replicate, Option.filter]

/-- The inline pattern matches at the markup of a part that is no literal
text. -/
theorem matchesPart_of_plain (pos : Nat) (p : Inline) (R : Str) (hp : p.Plain)
    (ht : p.isText = false) : MatchesPart pos p R := by
  cases p with
  | text s => cases ht
  | strongEm s => exact matchesPart_strongEm pos s R hp
  | strong s => exact matchesPart_strong pos s R hp
  | em s => exact matchesPart_em pos s R hp
  | code s => exact matchesPart_code pos s R hp
  | link href s => exact matchesPart_link pos href s R hp

/-- The helper `getTextWithFormatting` writes the markup of the part for a
node that re-serialises from it. -/
theorem formatChild_of_represents (env : Env) (n : Node) (p : Inline)
    (h : Represents env n p) (hp : p.Plain) : formatChild env n = p.markup := by
  have e1 : fence.take 1 = "`".toList := by decide
  cases p with
  | text s => cases h; rfl
  | strongEm s =>
    obtain ⟨tagName, attrs, inner, attrs2, rfl, h1, h2⟩ := h
    have hin : formatChild env (.element inner attrs2 [.text s]) = "*".toList ++ s ++ "*".toList := by
      rcases h2 with h2 | h2 <;>
        simp [formatChild, getTextWithFormatting, h2]
    have hg : getTextWithFormatting env [.element inner attrs2 [.text s]] =
        "*".toList ++ s ++ "*".toList := by
      rw [getTextWithFormatting, hin, getTextWithFormatting, List.append_nil]
    unfold formatChild
    rw [hg]
    rcases h1 with h1 | h1 <;> simp [h1, Inline.markup]
  | strong s =>
    obtain ⟨tagName, attrs, rfl, h1⟩ := h
    rcases h1 with h1 | h1 <;>
      simp [formatChild, getTextWithFormatting, h1, Inline.markup]
  | em s =>
    obtain ⟨tagName, attrs, rfl, h1⟩ := h
    rcases h1 with h1 | h1 <;>
      simp [formatChild, getTextWithFormatting, h1, Inline.markup]
  | code s =>
    obtain ⟨tagName, attrs, rfl, h1⟩ := h
    simp [formatChild, getTextWithFormatting, h1, Inline.markup, e1]
  | link href s =>
    obtain ⟨tagName, attrs, rfl, h1, h2⟩ := h
    obtain ⟨-, -, hh, -⟩ := hp
    cases href with
    | nil => exact absurd rfl hh
    | cons c cs =>
      have h2' : getAttribute ['h', 'r', 'e', 'f'] attrs = some (c :: cs) := h2
      simp [formatChild, getTextWithFormatting, h1, h2', Inline.markup, Option.filter]

theorem getTextWithFormatting_of_represents (env : Env) :
    ∀ (children : List Node) (spans : List Inline), List.Forall₂ (Represents env) children spans →
      (∀ p ∈ spans, p.Plain) →
      getTextWithFormatting env children = (spans.map Inline.markup).flatten := by
  intro children spans h
  induction h with
  | nil => intro _; rfl
  | cons hab _ ih =>
    intro hp
    rw [getTextWithFormatting, formatChild_of_represents env _ _ hab (hp _ (by simp)),
      ih (fun p hq => hp p (by simp [hq]))]
    rfl

theorem reInline_execFrom_nil (pos : Nat) : reInline.execFrom pos [] = none := by
  simp only [Re.execFrom]
  exact reInline_matchAt_none pos [] (by intro c hc; cases hc)

/-- The loop of `renderInlineMarkdown` on the markup of a sequence of parts
gives the sequence back. -/
theorem inlineLoop_spans : ∀ (n : Nat) (spans : List Inline), spans.length ≤ n →
    (∀ p ∈ spans, p.Plain) → NoAdjacentTexts spans → ∀ (fuel pos : Nat), spans.length < fuel →
      inlineLoop fuel pos (spans.map Inline.markup).flatten = some spans := by
  intro n
  induction n with
  | zero =>
    intro spans hn _ _ fuel pos hf
    cases spans with
    | cons p ps => simp at hn
    | nil =>
      cases fuel with
      | zero => simp at hf
      | succ f => simp [inlineLoop, reInline_execFrom_nil]
  | succ n ih =>
    intro spans hn hp hadj fuel pos hf
    cases fuel with
    | zero => omega
    | succ f =>
      have mark : ∀ (q : Inline) (rest : List Inline) (pos' : Nat), q.isText = false →
          q.Plain → rest.length ≤ n → (∀ p ∈ rest, p.Plain) → NoAdjacentTexts rest →
          rest.length < f →
          ∃ m, reInline.execFrom pos' (q.markup ++ (rest.map Inline.markup).flatten) = some m ∧
            m.index = pos' ∧ inlinePart m = [q] ∧
            inlineLoop f m.stop m.after = some rest := by
        intro q rest pos' hq hqp hlen hrp hra hrf
        obtain ⟨m, hm, hi, hs, ha, hpart⟩ :=
          matchesPart_of_plain pos' q (rest.map Inline.markup).flatten hqp hq
        refine ⟨m, Re.execFrom_of_matchAt _ _ _ _ hm, hi, hpart, ?_⟩
        rw [ha]
        exact ih rest hlen hrp hra f m.stop hrf
      cases spans with
      | nil => simp [inlineLoop, reInline_execFrom_nil]
      | cons p ps =>
        simp only [List.length_cons] at hn hf
        cases hpt : p.isText with
        | false =>
          have hadj' : NoAdjacentTexts ps := by
            cases ps with
            | nil => trivial
            | cons b rest => exact hadj.2
          obtain ⟨m, hm, hi, hpart, hloop⟩ := mark p ps pos hpt (hp p (by simp)) (by omega)
            (fun q hq => hp q (by simp [hq])) hadj' (by omega)
          simp only [List.map_cons, List.flatten_cons, inlineLoop, hm, hloop, hi, hpart,
            Nat.lt_irrefl, if_false, List.nil_append, List.singleton_append]
        | true =>
          cases p with
          | text t =>
            obtain ⟨ht, htc⟩ := hp (.text t) (by simp)
            cases ps with
            | nil =>
              have e : reInline.execFrom pos (t ++ []) = none := by
                rw [reInline_execFrom_skip [] t pos htc]
                exact reInline_execFrom_nil _
              have hne : (t ++ []).isEmpty = false := by
                cases t with
                | nil => exact absurd rfl ht
                | cons c cs => rfl
              have hmk : (Inline.text t).markup = t := rfl
              rw [List.append_nil] at e hne
              simp only [List.map_cons, List.map_nil, List.flatten_cons, List.flatten_nil,
                hmk, List.append_nil, inlineLoop, e, hne, Bool.false_eq_true, if_false]
            | cons q rest =>
              have hq : q.isText = false := by
                rcases hadj.1 with h | h
                · cases h
                · exact h
              have hadj' : NoAdjacentTexts rest := by
                cases rest with
                | nil => trivial
                | cons b rest => exact hadj.2.2
              simp only [List.length_cons] at hn hf
              obtain ⟨m, hm, hi, hpart, hloop⟩ := mark q rest (pos + t.length) hq
                (hp q (by simp)) (by omega) (fun x hx => hp x (by simp [hx])) hadj' (by omega)
              have e : reInline.execFrom pos
                  (t ++ (q.markup ++ (rest.map Inline.markup).flatten)) = some m := by
                rw [reInline_execFrom_skip _ t pos htc]
                exact hm
              have hlt : pos < pos + t.length := by
                cases t with
                | nil => exact absurd rfl ht
                | cons c cs => simp
              have hmk : (Inline.text t).markup = t := rfl
              simp only [List.map_cons, List.flatten_cons, hmk, inlineLoop, e, hloop,
                hi, hpart, hlt, if_true, Nat.add_sub_cancel_left, List.take_left',
                List.singleton_append, List.cons_append, List.nil_append]
          | strongEm s => cases hpt
          | strong s => cases hpt
          | em s => cases hpt
          | code s => cases hpt
          | link href s => cases hpt

theorem markup_ne_nil (p : Inline) (hp : p.Plain) : p.markup ≠ [] := by
  cases p with
  | text s => exact hp.1
  | strongEm s => simp [Inline.markup]
  | strong s => simp [Inline.markup]
  | em s => simp [Inline.markup]
  | code s => simp [Inline.markup]
  | link href s => simp [Inline.markup]

/-- C13 (inline round trip).  Take the child nodes of an element and a
sequence of parts, not empty, that they re-serialise from, one for one and in
order: a text node for a literal text; a `strong` or `b`, `em` or `i`, `code`,
or `a` with `href` around one text node for a bold, italic, code or link part;
a `strong` or `b` around one `em` or `i` around one text node for a bold
italic part.  Let no two literal texts follow each other, and let the texts be
plain: a literal text not empty and without `*`, backtick and `[`, a bold or
italic text not empty and without `*` and line terminator, a code text not
empty and without backtick and line terminator, a link text not empty and
without `]`, a `href` not empty and without `)`.  Then `renderInlineMarkdown`
on the text of `getTextWithFormatting` returns exactly these parts: the same
marks, texts and hrefs in the same order.  One pass of the loop for each part
and one more suffice. -/
theorem renderInlineMarkdown_roundtrip (env : Env) (fuel : Nat) (children : List Node)
    (spans : List Inline) (hrep : List.Forall₂ (Represents env) children spans)
    (hplain : ∀ p ∈ spans, p.Plain) (hadj : NoAdjacentTexts spans) (hne : spans ≠ [])
    (hfuel : spans.length < fuel) :
    renderInlineMarkdown fuel (getTextWithFormatting env children) = some (.parts spans) := by
  rw [getTextWithFormatting_of_represents env children spans hrep hplain]
  have hloop := inlineLoop_spans spans.length spans (Nat.le_refl _) hplain hadj fuel 0 hfuel
  have htext : ((spans.map Inline.markup).flatten).isEmpty = false := by
    cases spans with
    | nil => exact absurd rfl hne
    | cons p ps =>
      have := markup_ne_nil p (hplain p (by simp))
      cases hm : p.markup with
      | nil => exact absurd hm this
      | cons c cs => simp [hm]
  have hlen : 0 < spans.length := by
    cases spans with
    | nil => exact absurd rfl hne
    | cons p ps => simp
  simp only [renderInlineMarkdown, htext, hloop, hlen, Bool.false_eq_true, if_false, if_true]

/-- C13, an example: a text, a bold, an italic, a code and a link. -/
theorem renderInlineMarkdown_roundtrip_example :
    renderInlineMarkdown 6 (getTextWithFormatting Env.plain
      [.text "see ".toList, .element "STRONG".toList [] [.text "a".toList],
        .element "I".toList [] [.text "b".toList], .element "CODE".toList [] [.text "x*y".toList],
        .element "A".toList [("href".toList, "/u".toList)] [.text "t".toList]]) =
      some (.parts [.text "see ".toList, .strong "a".toList, .em "b".toList,
        .code "x*y".toList, .link "/u".toList "t".toList]) :=
  renderInlineMarkdown_roundtrip Env.plain 6 _ _
    (.cons rfl (.cons ⟨_, _, rfl, Or.inl (by decide)⟩ (.cons ⟨_, _, rfl, Or.inr (by decide)⟩
      (.cons ⟨_, _, rfl, by decide⟩ (.cons ⟨_, _, rfl, by decide, by decide⟩ .nil)))))
    (by
      intro p hp
      simp only [List.mem_cons, List.mem_singleton, List.not_mem_nil, or_false] at hp
      rcases hp with rfl | rfl | rfl | rfl | rfl
      · exact ⟨by decide, by decide⟩
      · exact ⟨by decide, by decide⟩
      · exact ⟨by decide, by decide⟩
      · exact ⟨by decide, by decide⟩
      · exact ⟨by decide, by decide, by decide, by decide⟩)
    ⟨Or.inr rfl, Or.inl rfl, Or.inl rfl, Or.inl rfl, trivial⟩ (by simp) (by decide)

/-- C13, where the claim as written fails: a text node with asterisks comes
back with an italic part that the element does not have, and an italic inside
a bold comes back as one bold part and a literal asterisk. -/
theorem renderInlineMarkdown_roundtrip_fails :
    renderInlineMarkdown 3 (getTextWithFormatting Env.plain [.text "2 * 3 * 4".toList]) =
      some (.parts [.text "2 ".toList, .em " 3 ".toList, .text " 4".toList]) ∧
    renderInlineMarkdown 3 (getTextWithFormatting Env.plain
      [.element "STRONG".toList [] [.text "a".toList,
        .element "EM".toList [] [.text "b".toList]]]) =
      some (.parts [.strong "a*b".toList, .text "*".toList]) := by
  decide

/-! ## The closing marker and the dash class -/

/-- C23 (em dash and en dash).  The claim does not hold of the code: the class
of the attribution pattern holds neither U+2014 nor U+2013, so a quote line
with one of them as separator is not split, while the same line with `--`
is. -/
theorem quote_dash_not_split :
    parseNotionContent Env.plain 1 "> Poker is war — Doyle".toList =
      some [Block.quote "Poker is war — Doyle".toList []] ∧
    parseNotionContent Env.plain 1 "> Poker is war – Doyle".toList =
      some [Block.quote "Poker is war – Doyle".toList []] ∧
    parseNotionContent Env.plain 1 "> Poker is war -- Doyle".toList =
      some [Block.quote "Poker is war".toList "Doyle".toList] ∧
    isDashClass (Char.ofNat 0x2014) = false ∧ isDashClass (Char.ofNat 0x2013) = false := by
  decide

/-! ## The HTML path: containers and the inline conversion -/

theorem processNodes_eq_flatten (env : Env) :
    ∀ (ns : List Node), processNodes env ns = (ns.map (processNode env)).flatten := by
  intro ns
  induction ns with
  | nil => rfl
  | cons n ns ih => rw [processNodes, ih]; rfl

/-- C26 (containers).  For an element whose tag is `div`, `article`,
`section`, `main` or `span`, in any letter case, `processNode` returns the
concatenation of `processNode` over its child nodes in document order, and
`parseHTMLContent` returns that concatenation over the child nodes of the
body; so nodes inside any number of nested `div` elements give the blocks
that they give by themselves. -/
theorem processNode_container (env : Env) :
    (∀ (tagName : Str) (attrs : List (Str × Str)) (children : List Node),
      toLowerCase env tagName ∈ containerTags →
      processNode env (.element tagName attrs children) =
        (children.map (processNode env)).flatten) ∧
    (∀ (html : Str), parseHTMLContent env html =
      ((env.domBody html).map (processNode env)).flatten) ∧
    (∀ (k : Nat) (ns : List Node), processNodes env (nest k ns) = processNodes env ns) := by
  have hc : ∀ (tagName : Str) (attrs : List (Str × Str)) (children : List Node),
      toLowerCase env tagName ∈ containerTags →
      processNode env (.element tagName attrs children) = processNodes env children := by
    intro tagName attrs children htag
    unfold processNode
    simp only [containerTags, List.mem_cons, List.mem_singleton, List.not_mem_nil, or_false] at htag
    rcases htag with h | h | h | h | h <;>
      (simp only [h]
       rw [if_neg (by decide), if_neg (by decide), if_neg (by decide), if_neg (by decide),
         if_neg (by decide), if_neg (by decide), if_neg (by decide), if_pos (by decide)])
  refine ⟨?_, ?_, ?_⟩
  · intro tagName attrs children htag
    rw [hc tagName attrs children htag, processNodes_eq_flatten]
  · intro html
    rw [parseHTMLContent, processNodes_eq_flatten]
  · intro k
    induction k with
    | zero => intro ns; rfl
    | succ k ih =>
      intro ns
      have hd : toLowerCase env "div".toList ∈ containerTags := by
        have : toLowerCase env "div".toList = "div".toList := by
          simp [toLowerCase]
          decide
        rw [this]
        decide
      rw [nest, processNodes, hc _ _ _ hd, ih]
      simp [processNodes]

/-- C26, an example: a paragraph and a header under nested containers. -/
theorem processNode_container_example :
    processNode Env.plain (.element "SECTION".toList []
      [.element "DIV".toList [] [.element "P".toList [] [.text "one".toList]],
        .element "H2".toList [] [.text "two".toList]]) =
      [Block.paragraph "one".toList, Block.header 2 "two".toList] ∧
    processNode Env.plain (.element "SECTION".toList []
      [.element "DIV".toList [] [.element "P".toList [] [.text "one".toList]],
        .element "H2".toList [] [.text "two".toList]]) =
      ([.element "DIV".toList [] [.element "P".toList [] [.text "one".toList]],
        .element "H2".toList [] [.text "two".toList]].map (processNode Env.plain)).flatten :=
  ⟨by decide, (processNode_container Env.plain).1 "SECTION".toList [] _ (by decide)⟩

/-- C25 (inline conversion).  The helper `getTextWithFormatting` equals the
reference definition: on the child nodes of an element it is the
concatenation, in document order, of `conv` of each child, where `conv` is the
text of a text node, the converted children between two asterisks for `strong`
and `b`, between single asterisks for `em` and `i`, between backticks for
`code`, `[...](href)` for an `a` with a `href` that is not empty and the
converted children alone for an `a` without, one space for `br`, the
converted children alone for any other element, and nothing for a node of
another kind. -/
theorem getTextWithFormatting_eq_conv (env : Env) :
    (∀ (children : List Node),
      getTextWithFormatting env children = (children.map (conv env)).flatten) ∧
    (∀ (n : Node), formatChild env n = conv env n) := by
  refine ⟨?_, formatChild_eq_conv env⟩
  intro children
  rw [getTextWithFormatting_eq_convAll]
  induction children with
  | nil => rfl
  | cons n ns ih => rw [convAll, ih]; rfl

/-- The function `renderInlineMarkdown` on the markup of a sequence of plain
parts. -/
theorem renderInlineMarkdown_spans (fuel : Nat) (spans : List Inline)
    (hplain : ∀ p ∈ spans, p.Plain) (hadj : NoAdjacentTexts spans) (hne : spans ≠ [])
    (hfuel : spans.length < fuel) :
    renderInlineMarkdown fuel (spans.map Inline.markup).flatten = some (.parts spans) := by
  have hloop := inlineLoop_spans spans.length spans (Nat.le_refl _) hplain hadj fuel 0 hfuel
  have htext : ((spans.map Inline.markup).flatten).isEmpty = false := by
    cases spans with
    | nil => exact absurd rfl hne
    | cons p ps =>
      have := markup_ne_nil p (hplain p (by simp))
      cases hm : p.markup with
      | nil => exact absurd hm this
      | cons c cs => simp [hm]
  have hlen : 0 < spans.length := by
    cases spans with
    | nil => exact absurd rfl hne
    | cons p ps => simp
  simp only [renderInlineMarkdown, htext, hloop, hlen, Bool.false_eq_true, if_false, if_true]

/-! ## The single-line callout -/

/-- The callout pattern on `:::`, a keyword, white space, a text without
colon and line terminator, and `:::`: the second group is the text and one
colon. -/
theorem reCallout_exec_closed (k w T : Str) (hk : k ≠ []) (hkw : ∀ c ∈ k, isWord c = true)
    (hw : w ≠ []) (hws : AllWs w) (hT : T ≠ [])
    (hTh : ∀ c, T.head? = some c → isWhiteSpace c = false)
    (hcol : ∀ c ∈ T, c ≠ ':' ∧ isLineTerminator c = false) :
    reCallout.exec (marker ++ k ++ w ++ T ++ marker) =
      some ⟨0, 3 + k.length + w.length + (T.length + 1) + 2, [],
        [some (marker ++ k ++ w ++ T ++ marker), some k, some (T ++ ":".toList)]⟩ := by
  have hrun : reCallout.run ⟨0, marker ++ k ++ w ++ T ++ marker, [none, none, none]⟩ some =
      some ⟨3 + k.length + w.length + (T.length + 1) + 2, [],
        [none, some k, some (T ++ ":".toList)]⟩ := by
    simp only [reCallout, Re.cat_cons_cons, Re.cat_singleton, Re.run_seq, Re.run_bol_zero]
    rw [Re.run_lit_of_eq ":::".toList (k ++ (w ++ (T ++ marker))) _ _ _ _
      (by simp [marker, List.append_assoc])]
    apply Re.run_opt_some
    rw [Re.run_cap]
    apply Re.run_rep_greedy isWord 1 none k (w ++ (T ++ marker)) _ _ _ _ _ rfl hkw
      (by cases k with
        | nil => exact absurd rfl hk
        | cons d ds => simp)
      (Or.inr trivial)
    · intro c hc
      left
      cases w with
      | nil => exact absurd rfl hw
      | cons d ds =>
        cases hc
        have hd : isWhiteSpace c = true := hws c (by simp)
        cases hcw : isWord c with
        | false => rfl
        | true =>
          exfalso
          simp only [isWord, isLower, isUpper, isDigit, Bool.or_eq_true, Bool.and_eq_true,
            decide_eq_true_eq, beq_iff_eq] at hcw
          simp only [isWhiteSpace, isLineTerminator, Bool.or_eq_true, decide_eq_true_eq,
            beq_iff_eq, Bool.and_eq_true] at hd
          omega
    · simp only
      apply Re.run_rep_greedy isWhiteSpace 0 none w (T ++ marker) _ _ _ _ _ rfl
        hws (Nat.zero_le _) (Or.inr trivial)
      · intro c hc
        left
        apply hTh c
        cases T with
        | nil => exact absurd rfl hT
        | cons d ds => exact hc
      · rw [Re.run_cap]
        apply Re.run_rep_lazy isDot 0 none (T ++ ":".toList) "::".toList _ _ _ _ _
          (by simp [marker, List.append_assoc])
          (fun c hc => by
            rcases List.mem_append.1 hc with h | h
            · exact isDot_of_not_lineTerminator c (hcol c h).2
            · have hc' : c = ':' := by simpa using h
              subst hc'
              decide)
          (Nat.zero_le _) (Or.inr trivial)
        · intro i hi _
          have hlen : 3 ≤ ((T ++ ":".toList).drop i ++ "::".toList).length := by
            simp only [List.length_append, List.length_drop]
            have : "::".toList.length = 2 := rfl
            simp only [List.length_append] at hi
            omega
          apply calloutTail_none
          · intro h0
            dsimp only at h0
            rw [h0] at hlen
            simp at hlen
          · intro h0
            dsimp only at h0
            rw [h0] at hlen
            revert hlen
            decide
        · have l1 : ":::".toList.length = 3 := rfl
          have e : (Re.lit "::".toList).run
              ⟨0 + ":::".toList.length + k.length + w.length + (T ++ ":".toList).length,
                "::".toList,
                ([none, none, none].set 1 (some ((k ++ (w ++ (T ++ marker))).take
                  ((k ++ (w ++ (T ++ marker))).length - (w ++ (T ++ marker)).length)))).set 2
                  (some ((T ++ marker).take ((T ++ marker).length - "::".toList.length)))⟩
              (fun s' => Re.eol.run s' some) =
              some ⟨3 + k.length + w.length + (T.length + 1) + 2, [],
                [none, some k, some (T ++ ":".toList)]⟩ := by
            rw [Re.run_lit_of_eq "::".toList [] _ _ _ _ (List.append_nil _).symm, Re.run_eol_nil]
            have h1 : (T ++ marker).take ((T ++ marker).length - "::".toList.length) =
                T ++ ":".toList := by
              have : T ++ marker = (T ++ ":".toList) ++ "::".toList := by
                simp [marker, List.append_assoc]
              rw [this, take_append_sub]
            rw [h1, take_append_sub]
            simp [l1]
          dsimp only
          exact Re.run_opt_some _ _ _ _ e
  have hb : reCallout = Re.seq .bol (Re.cat [Re.lit ":::".toList,
      .opt (.cap 1 (.rep isWord 1 none true)), .rep isWhiteSpace 0 none true,
      .cap 2 (.rep isDot 0 none false), .opt (Re.lit "::".toList), .eol]) := rfl
  have hg : reCallout.groups = 2 := rfl
  rw [hb, Re.exec_bol, ← hb]
  simp only [Re.matchAt, hg, List.replicate, hrun]
  simp

theorem isWord_not_ws (c : Char) (h : isWhiteSpace c = true) : isWord c = false := by
  cases hcw : isWord c with
  | false => rfl
  | true =>
    exfalso
    simp only [isWord, isLower, isUpper, isDigit, Bool.or_eq_true, Bool.and_eq_true,
      decide_eq_true_eq, beq_iff_eq] at hcw
    simp only [isWhiteSpace, isLineTerminator, Bool.or_eq_true, decide_eq_true_eq,
      beq_iff_eq, Bool.and_eq_true] at h
    omega

/-- The test of source line 164 for the degenerate form fails when a text
stands between the keyword and the closing marker. -/
theorem reCalloutBare_test_false (k w T : Str) (hkw : ∀ c ∈ k, isWord c = true)
    (hw : w ≠ []) (hws : AllWs w) (hT : T ≠ [])
    (hTh : ∀ c, T.head? = some c → isWhiteSpace c = false) (hcol : ∀ c ∈ T, c ≠ ':') :
    reCalloutBare.test (marker ++ k ++ w ++ T ++ marker) = false := by
  have e : reCalloutBare = Re.seq .bol (Re.seq (Re.lit ":::".toList)
      (Re.seq (.rep isWord 1 none true) (Re.seq (.rep isWhiteSpace 0 none true)
        (Re.seq (Re.lit ":::".toList) .eol)))) := rfl
  obtain ⟨t0, ts, hT0⟩ : ∃ t0 ts, T = t0 :: ts := by
    cases T with
    | nil => exact absurd rfl hT
    | cons t0 ts => exact ⟨t0, ts, rfl⟩
  have ht0 : isWhiteSpace t0 = false := hTh t0 (by rw [hT0]; rfl)
  have ht0c : t0 ≠ ':' := hcol t0 (by rw [hT0]; simp)
  obtain ⟨w0, ws, hW0⟩ : ∃ w0 ws, w = w0 :: ws := by
    cases w with
    | nil => exact absurd rfl hw
    | cons w0 ws => exact ⟨w0, ws, rfl⟩
  cases ht : reCalloutBare.test (marker ++ k ++ w ++ T ++ marker) with
  | false => rfl
  | true =>
    exfalso
    rw [e, Re.test_bol_iff] at ht
    obtain ⟨s', hs'⟩ := ht
    rw [Re.matches_seq] at hs'
    obtain ⟨m1, h1, hs'⟩ := hs'
    rw [Re.lit_matches] at h1
    obtain ⟨b, hb, rfl⟩ := h1
    simp only at hb
    have hb' : b = k ++ (w ++ (T ++ marker)) := by
      have : marker ++ k ++ w ++ T ++ marker = ":::".toList ++ (k ++ (w ++ (T ++ marker))) := by
        simp [marker, List.append_assoc]
      rw [this] at hb
      exact (List.append_cancel_left hb).symm
    subst hb'
    rw [Re.matches_seq] at hs'
    obtain ⟨m2, h2, hs'⟩ := hs'
    rw [Re.matches_rep] at h2
    obtain ⟨j, ⟨hj1, hj2, -, -⟩, rfl⟩ := h2
    rw [Re.matches_seq] at hs'
    obtain ⟨m3, h3, hs'⟩ := hs'
    rw [Re.matches_rep] at h3
    obtain ⟨i, ⟨hi1, hi2, -, -⟩, rfl⟩ := h3
    rw [Re.matches_seq] at hs'
    obtain ⟨m4, h4, -⟩ := hs'
    rw [Re.lit_matches] at h4
    obtain ⟨b4, hb4, -⟩ := h4
    simp only at hj1 hj2 hi1 hi2 hb4
    -- the remainder after the word run and the white space starts with a colon
    have hhead : (((k ++ (w ++ (T ++ marker))).drop j).drop i).head? = some ':' := by
      rw [hb4]; rfl
    rw [List.drop_drop] at hhead
    have hmem : ∀ n, n < j + i → ∀ c, (k ++ (w ++ (T ++ marker))).get? n = some c →
        (n < j → isWord c = true) ∧ (j ≤ n → isWhiteSpace c = true) := by
      intro n hn c hc
      constructor
      · intro hnj
        apply hj2 c
        rw [List.get?_eq_getElem?] at hc
        exact List.mem_iff_getElem?.2 ⟨n, by rw [List.getElem?_take_of_lt hnj]; exact hc⟩
      · intro hjn
        apply hi2 c
        rw [List.get?_eq_getElem?] at hc
        refine List.mem_iff_getElem?.2 ⟨n - j, ?_⟩
        rw [List.getElem?_take_of_lt (by omega), List.getElem?_drop]
        have : j + (n - j) = n := by omega
        rw [this]
        exact hc
    -- the position j + i is at most the start of `T`
    have hle : j + i ≤ k.length + w.length := by
      by_contra hgt
      have hgt : k.length + w.length < j + i := Nat.lt_of_not_le hgt
      have hget : (k ++ (w ++ (T ++ marker))).get? (k.length + w.length) = some t0 := by
        rw [List.get?_eq_getElem?, List.getElem?_append_right (by omega),
          List.getElem?_append_right (by omega), hT0]
        simp
      obtain ⟨hA, hB⟩ := hmem _ hgt t0 hget
      by_cases hlt : k.length + w.length < j
      · have := hA hlt
        obtain ⟨hA0, hB0⟩ := hmem k.length (by omega) w0 (by
          rw [List.get?_eq_getElem?, List.getElem?_append_right (Nat.le_refl _), hW0]
          simp)
        have h1 := hA0 (by omega)
        rw [isWord_not_ws w0 (hws w0 (by rw [hW0]; simp))] at h1
        cases h1
      · have := hB (by omega)
        rw [ht0] at this
        cases this
    -- but the character there is white space, a word character, or the head of `T`
    by_cases hk : j + i < k.length
    · have hc : (k ++ (w ++ (T ++ marker))).drop (j + i) =
          k.drop (j + i) ++ (w ++ (T ++ marker)) := by
        rw [List.drop_append_of_le_length (by omega)]
      rw [hc] at hhead
      cases hd : k.drop (j + i) with
      | nil =>
        rw [List.drop_eq_nil_iff] at hd
        omega
      | cons d ds =>
        rw [hd] at hhead
        cases hhead
        have := hkw ':' (List.mem_of_mem_drop (by rw [hd]; simp))
        revert this
        decide
    · by_cases hwl : j + i < k.length + w.length
      · have hc : (k ++ (w ++ (T ++ marker))).drop (j + i) =
            w.drop (j + i - k.length) ++ (T ++ marker) := by
          rw [List.drop_append_eq_append_drop, List.drop_eq_nil_of_le (by omega), List.nil_append,
            List.drop_append_of_le_length (by omega)]
        rw [hc] at hhead
        cases hd : w.drop (j + i - k.length) with
        | nil =>
          rw [List.drop_eq_nil_iff] at hd
          omega
        | cons d ds =>
          rw [hd] at hhead
          cases hhead
          have := hws ':' (List.mem_of_mem_drop (by rw [hd]; simp))
          revert this
          decide
      · have hc : (k ++ (w ++ (T ++ marker))).drop (j + i) = T ++ marker := by
          have : j + i = k.length + w.length := by omega
          rw [this, List.drop_append_eq_append_drop, List.drop_eq_nil_of_le (by omega),
            List.nil_append]
          simp
        rw [hc, hT0] at hhead
        cases hhead
        exact ht0c rfl

/-- The pattern `/:::$/` finds nothing in a text without colon followed by one
colon. -/
theorem reCalloutClose_exec_none (T : Str) (hcol : ∀ c ∈ T, c ≠ ':') :
    reCalloutClose.exec (T ++ ":".toList) = none := by
  have e : reCalloutClose = Re.seq (Re.lit ":::".toList) .eol := rfl
  unfold Re.exec
  apply Re.execFrom_none
  intro i _
  have hs : startsWith ":::".toList ((T ++ ":".toList).drop i) = false := by
    cases h : startsWith ":::".toList ((T ++ ":".toList).drop i) with
    | false => rfl
    | true =>
      exfalso
      obtain ⟨t, ht⟩ := (startsWith_iff _ _).1 h
      have h2 : 2 ≤ ((T ++ ":".toList).drop i).length := by
        rw [ht]; simp
      have hlt : i < T.length := by
        simp only [List.length_drop, List.length_append] at h2
        have : ":".toList.length = 1 := rfl
        omega
      have hd : (T ++ ":".toList).drop i = T.drop i ++ ":".toList := by
        rw [List.drop_append_of_le_length (by omega)]
      rw [hd] at ht
      cases hd2 : T.drop i with
      | nil =>
        rw [List.drop_eq_nil_iff] at hd2
        omega
      | cons d ds =>
        rw [hd2] at ht
        have : d = ':' := by
          have := congrArg List.head? ht
          simpa using this
        exact (hcol d (List.mem_of_mem_drop (by rw [hd2]; simp))) this
  unfold Re.matchAt
  rw [e, Re.run_seq_lit_none _ _ _ _ _ _ hs]

/-- C21 (single-line callout).  The claim does not hold of the code: for a
keyword `k` of word characters and a text `T` that is not blank and holds no
colon and no line terminator, the pass on the line `:::`, `k`, a space, `T`
and `:::` pushes one callout whose title is `k` with its first character
upper-cased, and whose content is `T` without its leading white space
followed by one colon: of the closing marker two colons are taken by the
pattern and the third stays in the content. -/
theorem step_callout_single (env : Env) (k T : Str) (ls : List Str)
    (hk : k ≠ []) (hkw : ∀ c ∈ k, isWord c = true) (hT : trim T ≠ [])
    (hcol : ∀ c ∈ T, c ≠ ':' ∧ isLineTerminator c = false) :
    step env ((marker ++ k ++ " ".toList ++ T ++ marker) :: ls) =
      ([Block.callout (calloutVariant k) (capitalize env k) (trimStart T ++ ":".toList)], 1) := by
  have hT' : trimStart T ≠ [] := trimStart_ne_nil T hT
  have hTh := trimStart_head T
  have hsub : ∀ c ∈ trimStart T, c ≠ ':' ∧ isLineTerminator c = false :=
    fun c hc => hcol c (mem_trimStart T c hc)
  have hw : AllWs (" ".toList ++ T.takeWhile isWhiteSpace) := by
    intro c hc
    rcases List.mem_append.1 hc with h | h
    · have hc' : c = ' ' := by simpa using h
      subst hc'
      decide
    · exact List.mem_takeWhile_imp h
  have hline : marker ++ k ++ " ".toList ++ T ++ marker =
      marker ++ k ++ (" ".toList ++ T.takeWhile isWhiteSpace) ++ trimStart T ++ marker := by
    have : T = T.takeWhile isWhiteSpace ++ trimStart T := by
      unfold trimStart
      exact (List.takeWhile_append_dropWhile isWhiteSpace T).symm
    conv => lhs; rw [this]
    simp [List.append_assoc]
  rw [hline]
  have htrim : trim (marker ++ k ++ (" ".toList ++ T.takeWhile isWhiteSpace) ++ trimStart T ++
      marker) = marker ++ k ++ (" ".toList ++ T.takeWhile isWhiteSpace) ++ trimStart T ++
      marker := by
    apply trim_of_isTrimmed
    constructor
    · intro c hc
      have : (marker ++ k ++ (" ".toList ++ T.takeWhile isWhiteSpace) ++ trimStart T ++
          marker).head? = some ':' := rfl
      rw [this] at hc
      cases hc
      decide
    · intro c hc
      rw [getLast?_append_of_ne_nil _ _ (by decide)] at hc
      cases hc
      decide
  have h1 : (marker ++ k ++ (" ".toList ++ T.takeWhile isWhiteSpace) ++ trimStart T ++
      marker).isEmpty = false := rfl
  have h2 : startsWith fence (marker ++ k ++ (" ".toList ++ T.takeWhile isWhiteSpace) ++
      trimStart T ++ marker) = false := rfl
  have h3 : startsWith marker (marker ++ k ++ (" ".toList ++ T.takeWhile isWhiteSpace) ++
      trimStart T ++ marker) = true := by
    simp only [List.append_assoc]; exact startsWith_append _ _
  have h4 : endsWith marker (marker ++ k ++ (" ".toList ++ T.takeWhile isWhiteSpace) ++
      trimStart T ++ marker) = true := endsWith_append _ _
  have h5 := reCalloutBare_test_false k (" ".toList ++ T.takeWhile isWhiteSpace) (trimStart T)
    hkw (by simp) hw hT' hTh (fun c hc => (hsub c hc).1)
  have h6 := reCallout_exec_closed k (" ".toList ++ T.takeWhile isWhiteSpace) (trimStart T)
    hk hkw (by simp) hw hT' hTh hsub
  have h7 : reCalloutClose.replaceFirst (trimStart T ++ ":".toList) [] =
      trimStart T ++ ":".toList := by
    unfold Re.replaceFirst
    rw [reCalloutClose_exec_none _ (fun c hc => (hsub c hc).1)]
  have h8 : trim (trimStart T ++ ":".toList) = trimStart T ++ ":".toList := by
    apply trim_of_isTrimmed
    constructor
    · intro c hc
      rw [head?_append_of_ne_nil _ _ hT'] at hc
      exact hTh c hc
    · intro c hc
      rw [getLast?_append_of_ne_nil _ _ (by decide)] at hc
      cases hc
      decide
  have h9 : capOr (some k) "insight".toList = k := by
    cases k with
    | nil => exact absurd rfl hk
    | cons c cs => rfl
  have h10 : capOr (some (trimStart T ++ ":".toList)) [] = trimStart T ++ ":".toList := by
    cases hc : trimStart T ++ ":".toList with
    | nil => rfl
    | cons c cs => rfl
  simp only [step, htrim, h1, h2, h3, h6, stepCallout, h4, h5, Bool.false_eq_true, if_false,
    if_true, Bool.not_false, Bool.and_self]
  simp only [Match.group, List.get?, Option.join, Option.some_bind, id, h9, h10, h7, h8]

/-- C21, the example of the specification: the content is `Fold more:`. -/
theorem step_callout_single_example :
    step Env.plain [":::tip Fold more:::".toList] =
      ([Block.callout "tip".toList "Tip".toList "Fold more:".toList], 1) :=
  step_callout_single Env.plain "tip".toList "Fold more".toList [] (by decide) (by decide)
    (by decide) (by decide)

/-! ## The end of a list -/

/-- The list loop on a run of list items followed by other lines. -/
theorem listLoop_items (tail : List Str) : ∀ (A : List Str), (∀ l ∈ A, IsListItem l) →
    listLoop (A ++ tail) = ((listLoop A).1 ++ (listLoop tail).1, A.length + (listLoop tail).2) ∧
    (listLoop A).1.length = A.length := by
  intro A
  induction A with
  | nil => intro _; simp [listLoop]
  | cons l A ih =>
    intro h
    obtain ⟨ih1, ih2⟩ := ih (fun x hx => h x (by simp [hx]))
    have hl := h l (by simp)
    have hA : A.append tail = A ++ tail := rfl
    simp only [List.cons_append, listLoop, hA]
    cases h1 : reBullet.exec (trim l) with
    | some m =>
      simp only [ih1, ih2, List.length_cons, List.cons_append, and_true, Prod.mk.injEq, true_and]
      omega
    | none =>
      cases h2 : reNumber.exec (trim l) with
      | some m =>
        simp only [ih1, ih2, List.length_cons, List.cons_append, and_true, Prod.mk.injEq,
          true_and]
        omega
      | none =>
        rcases hl with hl | hl
        · rw [h1] at hl; cases hl
        · rw [h2] at hl; cases hl

/-- A list item passes one of the two tests of source line 233. -/
theorem isListItem_start (l : Str) (h : IsListItem l) :
    (reBulletStart.test (trim l) || reNumberStart.test (trim l)) = true := by
  have e1 : reBulletStart = Re.seq .bol (Re.seq (.chr isBulletClass)
      (.rep isWhiteSpace 1 none true)) := rfl
  have e2 : reNumberStart = Re.seq .bol (Re.seq (.rep isDigit 1 none true)
      (Re.seq (.chr (is '.')) (.rep isWhiteSpace 1 none true))) := rfl
  have b1 : reBullet = Re.seq .bol (Re.seq (.chr isBulletClass)
      (Re.seq (.rep isWhiteSpace 1 none true) (Re.seq (.cap 1 (.rep isDot 1 none true)) .eol))) :=
    rfl
  have b2 : reNumber = Re.seq .bol (Re.seq (.rep isDigit 1 none true)
      (Re.seq (.chr (is '.')) (Re.seq (.rep isWhiteSpace 1 none true)
        (Re.seq (.cap 1 (.rep isDot 1 none true)) .eol)))) := rfl
  rw [Bool.or_eq_true]
  rcases h with h | h
  · left
    cases hm : reBullet.exec (trim l) with
    | none => rw [hm] at h; cases h
    | some m =>
      rw [b1] at hm
      obtain ⟨s', hs', -⟩ := Re.exec_bol_sound _ _ _ hm
      rw [Re.matches_seq] at hs'
      obtain ⟨m1, h1, hs'⟩ := hs'
      rw [Re.matches_seq] at hs'
      obtain ⟨m2, h2, -⟩ := hs'
      rw [e1, Re.test_bol_iff]
      have c1 : (Re.seq (Re.chr isBulletClass) (Re.rep isWhiteSpace 1 none true)).capFree = true :=
        by decide
      exact ⟨_, (Re.matches_capFree _ c1 _ _ (Re.matches_seq_intro h1 h2)).2 _⟩
  · right
    cases hm : reNumber.exec (trim l) with
    | none => rw [hm] at h; cases h
    | some m =>
      rw [b2] at hm
      obtain ⟨s', hs', -⟩ := Re.exec_bol_sound _ _ _ hm
      rw [Re.matches_seq] at hs'
      obtain ⟨m1, h1, hs'⟩ := hs'
      rw [Re.matches_seq] at hs'
      obtain ⟨m2, h2, hs'⟩ := hs'
      rw [Re.matches_seq] at hs'
      obtain ⟨m3, h3, -⟩ := hs'
      rw [e2, Re.test_bol_iff]
      have c1 : (Re.seq (Re.rep isDigit 1 none true) (Re.seq (Re.chr (is '.'))
          (Re.rep isWhiteSpace 1 none true))).capFree = true := by decide
      exact ⟨_, (Re.matches_capFree _ c1 _ _
        (Re.matches_seq_intro h1 (Re.matches_seq_intro h2 h3))).2 _⟩

/-! ## The attribution pattern in general -/

theorem isDashClass_not_ws (c : Char) (h : isDashClass c = true) : isWhiteSpace c = false := by
  simp only [isDashClass, Bool.or_eq_true, beq_iff_eq] at h
  rcases h with (((h | h) | h) | h) | h <;> simp [isWhiteSpace, h]

theorem isLineTerminator_ws (c : Char) (h : isLineTerminator c = true) :
    isWhiteSpace c = true := by
  simp only [isLineTerminator, Bool.or_eq_true, beq_iff_eq] at h
  rcases h with ((h | h) | h) | h <;> simp [isWhiteSpace, h]

theorem isDot_of_not_ws (c : Char) (h : isWhiteSpace c = false) : isDot c = true := by
  cases hl : isLineTerminator c with
  | false => simp [isDot, hl]
  | true => rw [isLineTerminator_ws c hl] at h; cases h

/-- Two ways to cut a text at a character of the class with none after it
are the same. -/
theorem dash_cut_unique : ∀ (U V : Str) (d e : Char) (A B : Str),
    isDashClass d = true → isDashClass e = true →
    (∀ c ∈ A, isDashClass c = false) → (∀ c ∈ B, isDashClass c = false) →
    U ++ d :: A = V ++ e :: B → U = V ∧ d = e ∧ A = B := by
  intro U V d e A B hd he hA hB h
  rw [List.append_eq_append_iff] at h
  rcases h with ⟨a', hV, h2⟩ | ⟨c', hU, h2⟩
  · cases a' with
    | nil =>
      simp only [List.nil_append, List.cons.injEq] at h2
      exact ⟨by simp [hV], h2.1, h2.2⟩
    | cons x xs =>
      simp only [List.cons_append, List.cons.injEq] at h2
      have : e ∈ A := by rw [h2.2]; simp
      rw [hA e this] at he; cases he
  · cases c' with
    | nil =>
      simp only [List.nil_append, List.cons.injEq] at h2
      exact ⟨by simp [hU], h2.1.symm, h2.2.symm⟩
    | cons x xs =>
      simp only [List.cons_append, List.cons.injEq] at h2
      have : d ∈ B := by rw [h2.2]; simp
      rw [hB d this] at hd; cases hd

theorem afterLastDash_cut (U : Str) (d : Char) (A : Str) (hd : isDashClass d = true)
    (hA : ∀ c ∈ A, isDashClass c = false) : afterLastDash (U ++ d :: A) = A := by
  unfold afterLastDash List.rtakeWhile
  have : (U ++ d :: A).reverse = A.reverse ++ d :: U.reverse := by simp
  rw [this, takeWhile_append_stop _ _ _ _ (by intro y hy; simp [hA y (List.mem_reverse.1 hy)])
    (by simp [hd])]
  simp

theorem uptoLastDash_cut (U : Str) (d : Char) (A : Str) (hd : isDashClass d = true)
    (hA : ∀ c ∈ A, isDashClass c = false) : uptoLastDash (U ++ d :: A) = U ++ [d] := by
  unfold uptoLastDash List.rdropWhile
  have : (U ++ d :: A).reverse = A.reverse ++ d :: U.reverse := by simp
  rw [this, List.dropWhile_append_of_pos
    (by intro y hy; simp [hA y (List.mem_reverse.1 hy)])]
  simp [List.dropWhile_cons, hd]

theorem uptoLastDash_append_after (s : Str) : uptoLastDash s ++ afterLastDash s = s := by
  unfold uptoLastDash afterLastDash List.rdropWhile List.rtakeWhile
  rw [← List.reverse_append, List.takeWhile_append_dropWhile, List.reverse_reverse]

theorem afterLastDash_free (s : Str) : ∀ c ∈ afterLastDash s, isDashClass c = false := by
  intro c hc
  unfold afterLastDash List.rtakeWhile at hc
  have := List.mem_takeWhile_imp (List.mem_reverse.1 hc)
  simpa using this

theorem uptoLastDash_last (s : Str) :
    ∀ c, (uptoLastDash s).getLast? = some c → isDashClass c = true := by
  intro c hc
  unfold uptoLastDash List.rdropWhile at hc
  rw [List.getLast?_reverse] at hc
  have := List.head?_dropWhile_not (fun c => !isDashClass c) s.reverse
  rw [hc] at this
  simpa using this

/-- What a match of the part of the attribution pattern after its first
group looks like: white space, one or two characters of the class, white
space, and a non-empty rest without a character of the class, up to the end
of the text. -/
theorem reAttributionTail_matches (t : Str) (pos : Nat) (caps : List (Option Str))
    (s' : MState)
    (h : (Re.seq (Re.seq (.rep isWhiteSpace 0 none true)
        (Re.seq (.rep isDashClass 1 (some 2) true) (.rep isWhiteSpace 0 none true)))
        (Re.seq (.cap 2 (.rep (fun c => !isDashClass c) 1 none true)) .eol)).Matches
        ⟨pos, t, caps⟩ s') :
    ∃ x dd y a, t = x ++ (dd ++ (y ++ a)) ∧ AllWs x ∧ dd ≠ [] ∧ dd.length ≤ 2 ∧
      (∀ c ∈ dd, isDashClass c = true) ∧ AllWs y ∧ a ≠ [] ∧
      (∀ c ∈ a, isDashClass c = false) ∧ s'.caps = caps.set 2 (some a) := by
  rw [Re.matches_seq] at h
  obtain ⟨m3, h123, h45⟩ := h
  rw [Re.matches_seq] at h123
  obtain ⟨m1, h1, h23⟩ := h123
  rw [Re.matches_seq] at h23
  obtain ⟨m2, h2, h3⟩ := h23
  rw [Re.matches_seq] at h45
  obtain ⟨m4, h4, h5⟩ := h45
  rw [Re.matches_rep] at h1 h2 h3
  rw [Re.matches_cap] at h4
  obtain ⟨m4', h4, hm4⟩ := h4
  rw [Re.matches_rep] at h4
  rw [Re.matches_eol] at h5
  obtain ⟨j1, ⟨-, hj1, -, -⟩, rfl⟩ := h1
  obtain ⟨j2, ⟨hl2, hj2, hlo2, hhi2⟩, rfl⟩ := h2
  obtain ⟨j3, ⟨-, hj3, -, -⟩, rfl⟩ := h3
  obtain ⟨j4, ⟨hl4, hj4, hlo4, -⟩, rfl⟩ := h4
  obtain ⟨h5a, rfl⟩ := h5
  subst hm4
  dsimp only at *
  have e4 : ((t.drop j1).drop j2).drop j3 = (((t.drop j1).drop j2).drop j3).take j4 := by
    conv_lhs => rw [← List.take_append_drop j4 (((t.drop j1).drop j2).drop j3), h5a]
    simp
  refine ⟨t.take j1, (t.drop j1).take j2, ((t.drop j1).drop j2).take j3,
    ((t.drop j1).drop j2).drop j3, ?_, hj1, ?_, ?_, hj2, hj3, ?_, ?_, ?_⟩
  · simp only [List.take_append_drop]
  · intro h0
    have : ((t.drop j1).take j2).length = 0 := by rw [h0]; rfl
    rw [List.length_take] at this
    omega
  · rw [List.length_take]
    rcases hhi2 with h0 | h0
    · omega
    · have : 0 + j2 ≤ 2 := h0
      omega
  · intro h0
    rw [h0] at hl4
    simp at hl4
    omega
  · intro c hc
    rw [e4] at hc
    simpa using hj4 c hc
  · rw [h5a]
    simp only [List.length_nil, Nat.sub_zero, List.take_length]

/-- What a match of the attribution pattern looks like. -/
theorem reAttribution_matches (t : Str) (pos : Nat) (caps : List (Option Str)) (s' : MState)
    (h : reAttribution.Matches ⟨pos, t, caps⟩ s') :
    ∃ g x dd y a, t = g ++ (x ++ (dd ++ (y ++ a))) ∧ g ≠ [] ∧ (∀ c ∈ g, isDot c = true) ∧
      AllWs x ∧ dd ≠ [] ∧ dd.length ≤ 2 ∧ (∀ c ∈ dd, isDashClass c = true) ∧ AllWs y ∧
      a ≠ [] ∧ (∀ c ∈ a, isDashClass c = false) ∧
      s'.caps = (caps.set 1 (some g)).set 2 (some a) := by
  have hb : reAttribution = Re.seq (.cap 1 (.rep isDot 1 none false))
      (Re.seq (Re.seq (.rep isWhiteSpace 0 none true)
        (Re.seq (.rep isDashClass 1 (some 2) true) (.rep isWhiteSpace 0 none true)))
        (Re.seq (.cap 2 (.rep (fun c => !isDashClass c) 1 none true)) .eol)) := rfl
  rw [hb, Re.matches_seq] at h
  obtain ⟨m1, h1, h2⟩ := h
  rw [Re.matches_cap] at h1
  obtain ⟨m0, h0, hm1⟩ := h1
  rw [Re.matches_rep] at h0
  obtain ⟨j, ⟨hl, hj, hlo, -⟩, rfl⟩ := h0
  subst hm1
  dsimp only at *
  obtain ⟨x, dd, y, a, ht, hx, hdd, hdl, hdc, hy, ha, hac, hcaps⟩ :=
    reAttributionTail_matches _ _ _ _ h2
  have htake : t.take (t.length - (t.drop j).length) = t.take j := by
    rw [List.length_drop]
    congr 1
    omega
  rw [htake] at hcaps
  refine ⟨t.take j, x, dd, y, a, ?_, ?_, hj, hx, hdd, hdl, hdc, hy, ha, hac, hcaps⟩
  · rw [← ht, List.take_append_drop]
  · intro h0
    have : (t.take j).length = 0 := by rw [h0]; rfl
    rw [List.length_take] at this
    omega

/-- A text of the shape of the attribution pattern is matched by it. -/
theorem reAttribution_matches_intro (g x dd y a : Str) (pos : Nat) (caps : List (Option Str))
    (hg : g ≠ []) (hgd : ∀ c ∈ g, isDot c = true) (hx : AllWs x) (hdd : dd ≠ [])
    (hdl : dd.length ≤ 2) (hdc : ∀ c ∈ dd, isDashClass c = true) (hy : AllWs y) (ha : a ≠ [])
    (hac : ∀ c ∈ a, isDashClass c = false) :
    ∃ s', reAttribution.Matches ⟨pos, g ++ (x ++ (dd ++ (y ++ a))), caps⟩ s' := by
  have hb : reAttribution = Re.seq (.cap 1 (.rep isDot 1 none false))
      (Re.seq (Re.seq (.rep isWhiteSpace 0 none true)
        (Re.seq (.rep isDashClass 1 (some 2) true) (.rep isWhiteSpace 0 none true)))
        (Re.seq (.cap 2 (.rep (fun c => !isDashClass c) 1 none true)) .eol)) := rfl
  have hgl : 1 ≤ g.length := by
    cases g with
    | nil => exact absurd rfl hg
    | cons c cs => simp
  have hal : 1 ≤ a.length := by
    cases a with
    | nil => exact absurd rfl ha
    | cons c cs => simp
  have hddl : 1 ≤ dd.length := by
    cases dd with
    | nil => exact absurd rfl hdd
    | cons c cs => simp
  rw [hb]
  have h1 : (Re.cap 1 (.rep isDot 1 none false)).Matches ⟨pos, g ++ (x ++ (dd ++ (y ++ a))), caps⟩
      ⟨pos + g.length, x ++ (dd ++ (y ++ a)), caps.set 1 (some g)⟩ := by
    rw [Re.matches_cap]
    refine ⟨_, Re.matches_rep_append isDot 1 none false g _ pos caps hgd hgl (Or.inr trivial), ?_⟩
    simp
  have h2 := Re.matches_rep_append isWhiteSpace 0 none true x (dd ++ (y ++ a)) (pos + g.length)
    (caps.set 1 (some g)) hx (Nat.zero_le _) (Or.inr trivial)
  have h3 := Re.matches_rep_append isDashClass 1 (some 2) true dd (y ++ a)
    (pos + g.length + x.length) (caps.set 1 (some g)) hdc hddl (Or.inr hdl)
  have h4 := Re.matches_rep_append isWhiteSpace 0 none true y a
    (pos + g.length + x.length + dd.length) (caps.set 1 (some g)) hy (Nat.zero_le _)
    (Or.inr trivial)
  have h5 : (Re.cap 2 (.rep (fun c => !isDashClass c) 1 none true)).Matches
      ⟨pos + g.length + x.length + dd.length + y.length, a, caps.set 1 (some g)⟩
      ⟨pos + g.length + x.length + dd.length + y.length + a.length, [],
        (caps.set 1 (some g)).set 2 (some a)⟩ := by
    rw [Re.matches_cap]
    have := Re.matches_rep_append (fun c => !isDashClass c) 1 none true a []
      (pos + g.length + x.length + dd.length + y.length) (caps.set 1 (some g))
      (fun c hc => by simp [hac c hc]) hal (Or.inr trivial)
    rw [List.append_nil] at this
    refine ⟨_, this, ?_⟩
    simp
  have h6 : Re.eol.Matches ⟨pos + g.length + x.length + dd.length + y.length + a.length, [],
        (caps.set 1 (some g)).set 2 (some a)⟩
      ⟨pos + g.length + x.length + dd.length + y.length + a.length, [],
        (caps.set 1 (some g)).set 2 (some a)⟩ := by
    rw [Re.matches_eol]
    exact ⟨rfl, rfl⟩
  exact ⟨_, Re.matches_seq_intro h1 (Re.matches_seq_intro
    (Re.matches_seq_intro h2 (Re.matches_seq_intro h3 h4)) (Re.matches_seq_intro h5 h6))⟩

theorem allWs_not_dash (w : Str) (h : AllWs w) : ∀ c ∈ w, isDashClass c = false := by
  intro c hc
  cases hd : isDashClass c with
  | false => rfl
  | true =>
    have h1 := h c hc
    rw [isDashClass_not_ws c hd] at h1
    cases h1

/-- The attribution pattern on a text of its shape, the first part without
line terminator and the one or two characters of the class not preceded by a
further one that the pattern could take in their place. -/
theorem reAttribution_exec_shape (G w1 ds : Str) (dl : Char) (w2 At : Str)
    (hG : G ≠ []) (hGdot : ∀ c ∈ G, isLineTerminator c = false)
    (hGlast : ∀ c, G.getLast? = some c → isWhiteSpace c = false)
    (hw1 : AllWs w1) (hdsl : ds.length ≤ 1) (hds : ∀ c ∈ ds, isDashClass c = true)
    (hdl : isDashClass dl = true)
    (hmax : ds = [] → w1 = [] →
      (G.length = 1 ∨ ∀ c, G.getLast? = some c → isDashClass c = false))
    (hw2 : AllWs w2) (hA : At ≠ []) (hAhead : ∀ c, At.head? = some c → isWhiteSpace c = false)
    (hAd : ∀ c ∈ At, isDashClass c = false) :
    ∃ m, reAttribution.exec (G ++ (w1 ++ (ds ++ dl :: (w2 ++ At)))) = some m ∧
      m.group 1 = some G ∧ m.group 2 = some At := by
  have hb : reAttribution = Re.seq (.cap 1 (.rep isDot 1 none false))
      (Re.seq (Re.seq (.rep isWhiteSpace 0 none true)
        (Re.seq (.rep isDashClass 1 (some 2) true) (.rep isWhiteSpace 0 none true)))
        (Re.seq (.cap 2 (.rep (fun c => !isDashClass c) 1 none true)) .eol)) := rfl
  have hrun : reAttribution.run ⟨0, G ++ (w1 ++ (ds ++ dl :: (w2 ++ At))),
      [none, none, none]⟩ some =
      some ⟨0 + G.length + w1.length + (ds ++ [dl]).length + w2.length + At.length, [],
        [none, some G, some At]⟩ := by
    rw [hb, Re.run_seq, Re.run_cap]
    apply Re.run_rep_lazy isDot 1 none G (w1 ++ (ds ++ dl :: (w2 ++ At))) _ _ _ _ _ rfl
      (fun c hc => isDot_of_not_lineTerminator c (hGdot c hc))
      (by cases G with
        | nil => exact absurd rfl hG
        | cons d ds => simp)
      (Or.inr trivial)
    · intro i hi hi1
      dsimp only
      apply Re.run_none
      intro s' hs'
      exfalso
      obtain ⟨x, dd, y, a, ht, hx, hdd, hddl, hdc, hy, ha, hac, -⟩ :=
        reAttributionTail_matches _ _ _ _ hs'
      have hGi : G.drop i ≠ [] := by
        simp only [ne_eq, List.drop_eq_nil_iff, not_le]; exact hi
      have hGil : (G.drop i).getLast? = G.getLast? := getLast?_drop_of_lt G i hi
      obtain ⟨z, hz⟩ : ∃ z, (G.drop i).getLast? = some z := by
        cases hq : (G.drop i).getLast? with
        | none => rw [List.getLast?_eq_none_iff] at hq; exact absurd hq hGi
        | some z => exact ⟨z, rfl⟩
      have hzmem : z ∈ G.drop i := List.mem_of_getLast?_eq_some hz
      have hzws : isWhiteSpace z = false := hGlast z (by rw [← hGil]; exact hz)
      -- the last character of the class on both sides
      obtain ⟨dd', e, rfl⟩ : ∃ dd' e, dd = dd' ++ [e] := by
        rcases List.eq_nil_or_concat dd with h0 | ⟨dd', e, h0⟩
        · exact absurd h0 hdd
        · exact ⟨dd', e, by simpa using h0⟩
      have he : isDashClass e = true := hdc e (by simp)
      have hcut := dash_cut_unique (G.drop i ++ (w1 ++ ds)) (x ++ dd') dl e (w2 ++ At) (y ++ a)
        hdl he
        (by
          intro c hc
          rcases List.mem_append.1 hc with hc | hc
          · exact allWs_not_dash w2 hw2 c hc
          · exact hAd c hc)
        (by
          intro c hc
          rcases List.mem_append.1 hc with hc | hc
          · exact allWs_not_dash y hy c hc
          · exact hac c hc)
        (by simpa [List.append_assoc] using ht)
      obtain ⟨hE, -, -⟩ := hcut
      cases dd' with
      | nil =>
        rw [List.append_nil] at hE
        have := hx z (by rw [← hE]; exact List.mem_append_left _ hzmem)
        rw [hzws] at this; cases this
      | cons e' r =>
        cases r with
        | cons e'' r' => simp at hddl
        | nil =>
          have he' : isDashClass e' = true := hdc e' (by simp)
          cases ds with
          | cons d' r2 =>
            cases r2 with
            | cons d'' r3 => simp at hdsl
            | nil =>
              have h1 : (G.drop i ++ w1) ++ [d'] = x ++ [e'] := by
                simpa [List.append_assoc] using hE
              have h2 := (List.append_inj' h1 rfl).1
              have := hx z (by rw [← h2]; exact List.mem_append_left _ hzmem)
              rw [hzws] at this; cases this
          | nil =>
            rw [List.append_nil] at hE
            rcases List.eq_nil_or_concat w1 with h0 | ⟨w1', q, h0⟩
            · subst h0
              rw [List.append_nil] at hE
              have h3 : (G.drop i).getLast? = some e' := by rw [hE]; simp
              rw [hGil] at h3
              rcases hmax rfl rfl with h4 | h4
              · omega
              · rw [h4 e' h3] at he'; cases he'
            · have h1 : (G.drop i ++ w1') ++ [q] = x ++ [e'] := by
                rw [← hE, h0]; simp
              have h2 := (List.append_inj' h1 rfl).2
              have hq : q = e' := by simpa using h2
              have hqw := hw1 q (by rw [h0]; simp)
              rw [hq, isDashClass_not_ws e' he'] at hqw
              cases hqw
    · dsimp only
      simp only [Re.run_seq]
      apply Re.run_rep_greedy isWhiteSpace 0 none w1 (ds ++ dl :: (w2 ++ At)) _ _ _ _ _ rfl
        hw1 (Nat.zero_le _) (Or.inr trivial)
      · intro c hc
        left
        have hcm : isDashClass c = true := by
          cases ds with
          | nil =>
            simp only [List.nil_append, List.head?_cons, Option.some.injEq] at hc
            rw [← hc]; exact hdl
          | cons d' r =>
            simp only [List.cons_append, List.head?_cons, Option.some.injEq] at hc
            rw [← hc]; exact hds d' (by simp)
        exact isDashClass_not_ws c hcm
      · apply Re.run_rep_greedy isDashClass 1 (some 2) (ds ++ [dl]) (w2 ++ At) _ _ _ _ _
          (by simp)
          (by
            intro c hc
            rcases List.mem_append.1 hc with hc | hc
            · exact hds c hc
            · simp only [List.mem_singleton] at hc; rw [hc]; exact hdl)
          (by simp) (Or.inr (by simp only [List.length_append, List.length_singleton]; show _ ≤ 2; omega))
        · intro c hc
          left
          cases w2 with
          | nil => exact hAd c (List.mem_of_mem_head? hc)
          | cons q r =>
            simp only [List.cons_append, List.head?_cons, Option.some.injEq] at hc
            rw [← hc]
            exact allWs_not_dash _ hw2 q (by simp)
        · apply Re.run_rep_greedy isWhiteSpace 0 none w2 At _ _ _ _ _ rfl
            hw2 (Nat.zero_le _) (Or.inr trivial)
          · intro c hc
            exact Or.inl (hAhead c hc)
          · rw [Re.run_cap]
            apply Re.run_rep_greedy (fun c => !isDashClass c) 1 none At [] _ _ _ _ _
              (List.append_nil _).symm
              (fun c hc => by simp [hAd c hc])
              (by cases At with
                | nil => exact absurd rfl hA
                | cons d ds => simp)
              (Or.inr trivial)
            · intro c hc; cases hc
            · dsimp only
              rw [Re.run_eol_nil]
              simp [List.take_left']
  have hg : reAttribution.groups = 2 := rfl
  have hm := Re.matchAt_of_run reAttribution 0 (G ++ (w1 ++ (ds ++ dl :: (w2 ++ At)))) _
    (by rw [hg]; exact hrun)
  refine ⟨_, Re.execFrom_of_matchAt _ _ _ _ hm, ?_, ?_⟩ <;> simp [Match.group]

/-- A search that succeeds found its match at the first index with a match. -/
theorem Re.execFrom_first (r : Re) (m : Match) :
    ∀ (rest : Str) (pos : Nat), r.execFrom pos rest = some m →
      ∃ i, i ≤ rest.length ∧ r.matchAt (pos + i) (rest.drop i) = some m ∧
        ∀ j, j < i → r.matchAt (pos + j) (rest.drop j) = none := by
  intro rest
  induction rest with
  | nil =>
    intro pos h
    exact ⟨0, Nat.le_refl _, by simpa [Re.execFrom] using h, by intro j hj; omega⟩
  | cons c cs ih =>
    intro pos h
    simp only [Re.execFrom] at h
    split at h
    · rename_i m' hm'
      cases h
      exact ⟨0, Nat.zero_le _, by simpa using hm', by intro j hj; omega⟩
    · rename_i hnone
      obtain ⟨i, hi, hm, hfirst⟩ := ih (pos + 1) h
      refine ⟨i + 1, by simpa using hi, ?_, ?_⟩
      · have e : pos + (i + 1) = pos + 1 + i := by omega
        rw [e]
        simpa using hm
      · intro j hj
        cases j with
        | zero => simpa using hnone
        | succ j =>
          have e : pos + (j + 1) = pos + 1 + j := by omega
          rw [e]
          simpa using hfirst j (by omega)

/-- A trimmed text that the pattern splits, cut into the parts of the
pattern. -/
theorem splitsAtDash_shape (s : Str) (hs : IsTrimmed s) (h : SplitsAtDash s) :
    ∃ G w1 ds dl w2 At, s = G ++ (w1 ++ (ds ++ dl :: (w2 ++ At))) ∧ G ≠ [] ∧
      (∀ c, G.getLast? = some c → isWhiteSpace c = false) ∧
      AllWs w1 ∧ ds.length ≤ 1 ∧ (∀ c ∈ ds, isDashClass c = true) ∧ isDashClass dl = true ∧
      (ds = [] → w1 = [] → (G.length = 1 ∨ ∀ c, G.getLast? = some c → isDashClass c = false)) ∧
      AllWs w2 ∧ At ≠ [] ∧ (∀ c, At.head? = some c → isWhiteSpace c = false) ∧
      (∀ c ∈ At, isDashClass c = false) ∧
      G = trim (beforeSeparator s) ∧ At = trim (afterLastDash s) ∧
      beforeSeparator s = G ++ w1 ∧ afterLastDash s = w2 ++ At := by
  obtain ⟨hB, hA0⟩ := h
  have hsplit := uptoLastDash_append_after s
  -- the last character of the class
  obtain ⟨P, dl, hP⟩ : ∃ P dl, uptoLastDash s = P ++ [dl] := by
    rcases List.eq_nil_or_concat (uptoLastDash s) with h0 | ⟨P, dl, h0⟩
    · rw [h0] at hB; simp at hB
    · exact ⟨P, dl, by simpa using h0⟩
  have hdl : isDashClass dl = true := uptoLastDash_last s dl (by rw [hP]; simp)
  have hPl : 1 ≤ P.length := by
    rw [hP] at hB
    simp only [List.length_append, List.length_singleton] at hB
    omega
  have hdrop : (uptoLastDash s).dropLast = P := by rw [hP]; simp
  -- the attribution
  have hAlast : (afterLastDash s).getLast? = s.getLast? := by
    conv_rhs => rw [← hsplit]
    exact (getLast?_append_of_ne_nil _ _ hA0).symm
  have hAt0 : IsTrimmed (trimStart (afterLastDash s)) := by
    refine ⟨trimStart_head _, ?_⟩
    intro c hc
    apply hs.2 c
    rw [← hAlast]
    unfold trimStart at hc
    have hne : (afterLastDash s).dropWhile isWhiteSpace ≠ [] := by
      intro h0; rw [h0] at hc; cases hc
    have e := List.takeWhile_append_dropWhile isWhiteSpace (afterLastDash s)
    rw [← e, getLast?_append_of_ne_nil _ _ hne]
    exact hc
  have hAtne : trimStart (afterLastDash s) ≠ [] := by
    intro h0
    unfold trimStart at h0
    rw [List.dropWhile_eq_nil_iff] at h0
    obtain ⟨z, hz⟩ : ∃ z, (afterLastDash s).getLast? = some z := by
      cases hq : (afterLastDash s).getLast? with
      | none => rw [List.getLast?_eq_none_iff] at hq; exact absurd hq hA0
      | some z => exact ⟨z, rfl⟩
    have h1 := h0 z (List.mem_of_getLast?_eq_some hz)
    rw [hs.2 z (by rw [← hAlast]; exact hz)] at h1
    cases h1
  have hAeq : afterLastDash s =
      (afterLastDash s).takeWhile isWhiteSpace ++ trimStart (afterLastDash s) := by
    unfold trimStart
    exact (List.takeWhile_append_dropWhile isWhiteSpace _).symm
  have hw2 : AllWs ((afterLastDash s).takeWhile isWhiteSpace) := by
    intro c hc
    exact List.mem_takeWhile_imp hc
  have hAtd : ∀ c ∈ trimStart (afterLastDash s), isDashClass c = false := by
    intro c hc
    apply afterLastDash_free s c
    rw [hAeq]
    exact List.mem_append_right _ hc
  have hAttrim : trimStart (afterLastDash s) = trim (afterLastDash s) := by
    rw [← trim_trimStart, trim_of_isTrimmed _ hAt0]
  -- the part before the separator: not empty, and it starts as the text does
  have key : ∀ (Q ds : Str), Q ≠ [] → Q ++ ds = P → beforeSeparator s = Q →
      ds.length ≤ 1 → (∀ c ∈ ds, isDashClass c = true) →
      (ds = [] → (Q.length = 1 ∨ ∀ c, Q.getLast? = some c → isDashClass c = false)) →
      ∃ G w1 ds dl w2 At, s = G ++ (w1 ++ (ds ++ dl :: (w2 ++ At))) ∧ G ≠ [] ∧
      (∀ c, G.getLast? = some c → isWhiteSpace c = false) ∧
      AllWs w1 ∧ ds.length ≤ 1 ∧ (∀ c ∈ ds, isDashClass c = true) ∧ isDashClass dl = true ∧
      (ds = [] → w1 = [] →
        (G.length = 1 ∨ ∀ c, G.getLast? = some c → isDashClass c = false)) ∧
      AllWs w2 ∧ At ≠ [] ∧ (∀ c, At.head? = some c → isWhiteSpace c = false) ∧
      (∀ c ∈ At, isDashClass c = false) ∧
      G = trim (beforeSeparator s) ∧ At = trim (afterLastDash s) ∧
      beforeSeparator s = G ++ w1 ∧ afterLastDash s = w2 ++ At := by
    intro Q ds hQ hQP hQs hdsl hds hmax
    have hQhead : ∀ c, Q.head? = some c → isWhiteSpace c = false := by
      intro c hc
      apply hs.1 c
      rw [← hsplit, hP, ← hQP]
      cases Q with
      | nil => exact absurd rfl hQ
      | cons q r => simpa using hc
    have hGt := isTrimmed_trimEnd_of Q hQhead
    have hQeq := trimEnd_append_rtakeWhile Q
    have hGne : trimEnd Q ≠ [] := by
      intro h0
      rw [h0, List.nil_append] at hQeq
      cases Q with
      | nil => exact absurd rfl hQ
      | cons q r =>
        have h1 : isWhiteSpace q = true := by
          have : q ∈ (q :: r).rtakeWhile isWhiteSpace := by rw [hQeq]; simp
          unfold List.rtakeWhile at this
          exact List.mem_takeWhile_imp (List.mem_reverse.1 this)
        rw [hQhead q rfl] at h1
        cases h1
    have hw1 : AllWs (Q.rtakeWhile isWhiteSpace) := by
      intro c hc
      unfold List.rtakeWhile at hc
      exact List.mem_takeWhile_imp (List.mem_reverse.1 hc)
    have hGtrim : trimEnd Q = trim Q := by
      unfold trim
      rw [trimStart_of_head Q hQhead]
    refine ⟨trimEnd Q, Q.rtakeWhile isWhiteSpace, ds, dl,
      (afterLastDash s).takeWhile isWhiteSpace, trimStart (afterLastDash s), ?_, hGne, hGt.2,
      hw1, hdsl, hds, hdl, ?_, hw2, hAtne, hAt0.1, hAtd, by rw [hQs, hGtrim], hAttrim,
      by rw [hQs, hQeq], hAeq⟩
    · conv_lhs => rw [← hsplit, hP, ← hQP, ← hQeq, hAeq]
      simp [List.append_assoc]
    · intro hd hw
      rw [hw, List.append_nil] at hQeq
      rw [hQeq]
      exact hmax hd
  by_cases hc : 2 ≤ P.length ∧ P.getLast?.map isDashClass = some true
  · obtain ⟨hc1, hc2⟩ := hc
    obtain ⟨P', d', hP'⟩ : ∃ P' d', P = P' ++ [d'] := by
      rcases List.eq_nil_or_concat P with h0 | ⟨P', d', h0⟩
      · rw [h0] at hc1; simp at hc1
      · exact ⟨P', d', by simpa using h0⟩
    have hd' : isDashClass d' = true := by
      rw [hP'] at hc2
      simpa using hc2
    have hP'ne : P' ≠ [] := by
      intro h0
      rw [hP', h0] at hc1
      simp at hc1
    apply key P' [d'] hP'ne hP'.symm
    · unfold beforeSeparator
      rw [hdrop, if_pos ⟨hc1, hc2⟩, hP']
      simp
    · simp
    · intro c hc; simp only [List.mem_singleton] at hc; rw [hc]; exact hd'
    · intro h0; cases h0
  · have hPne : P ≠ [] := by
      intro h0; rw [h0] at hPl; simp at hPl
    apply key P [] hPne (List.append_nil _)
    · unfold beforeSeparator
      rw [hdrop, if_neg hc]
    · simp
    · intro c hc; cases hc
    · intro _
      by_cases h2 : 2 ≤ P.length
      · right
        intro c hcl
        cases hd : isDashClass c with
        | false => rfl
        | true =>
          exfalso
          apply hc
          refine ⟨h2, ?_⟩
          rw [hcl]
          simp [hd]
      · left
        omega

theorem trim_ne_nil_of_mem (t : Str) (c : Char) (hc : c ∈ t) (hw : isWhiteSpace c = false) :
    trim t ≠ [] := by
  intro h0
  obtain ⟨w1, w2, h1, h2, ht⟩ := trim_decomp t
  rw [h0] at ht
  rw [ht] at hc
  simp only [List.append_nil, List.mem_append] at hc
  rcases hc with hc | hc
  · rw [h1 c hc] at hw; cases hw
  · rw [h2 c hc] at hw; cases hw

/-- A trimmed text is split by the attribution pattern exactly when its last
character of the class is neither its first nor its last character. -/
theorem reAttribution_exec_isSome_iff (s : Str) (hs : IsTrimmed s) :
    (reAttribution.exec s).isSome = true ↔ SplitsAtDash s := by
  have hg : reAttribution.groups = 2 := rfl
  constructor
  · intro h
    cases hm : reAttribution.exec s with
    | none => rw [hm] at h; cases h
    | some m =>
      obtain ⟨i, hi, hmi⟩ := Re.execFrom_sound _ m s 0 hm
      obtain ⟨s', hs', -⟩ := Re.matchAt_sound _ _ _ _ hmi
      obtain ⟨g, x, dd, y, a, ht, hgne, -, -, hdd, -, hdc, hy, ha, hac, -⟩ :=
        reAttribution_matches _ _ _ _ hs'
      obtain ⟨dd', e, rfl⟩ : ∃ dd' e, dd = dd' ++ [e] := by
        rcases List.eq_nil_or_concat dd with h0 | ⟨dd', e, h0⟩
        · exact absurd h0 hdd
        · exact ⟨dd', e, by simpa using h0⟩
      have he : isDashClass e = true := hdc e (by simp)
      have hse : s = (s.take i ++ (g ++ (x ++ dd'))) ++ e :: (y ++ a) := by
        conv_lhs => rw [← List.take_append_drop i s, ht]
        simp [List.append_assoc]
      have hfree : ∀ c ∈ y ++ a, isDashClass c = false := by
        intro c hc
        rcases List.mem_append.1 hc with hc | hc
        · exact allWs_not_dash y hy c hc
        · exact hac c hc
      have hgl : 1 ≤ g.length := by
        cases g with
        | nil => exact absurd rfl hgne
        | cons c cs => simp
      constructor
      · rw [hse, uptoLastDash_cut _ e _ he hfree]
        simp only [List.length_append, List.length_singleton]
        omega
      · rw [hse, afterLastDash_cut _ e _ he hfree]
        intro h0
        apply ha
        exact (List.append_eq_nil.1 h0).2
  · intro h
    obtain ⟨G, w1, ds, dl, w2, At, hse, hG, hGlast, hw1, hdsl, hds, hdl, -, hw2, hA, -, hAd, -, -,
      -, -⟩ := splitsAtDash_shape s hs h
    obtain ⟨G0, z, rfl⟩ : ∃ G0 z, G = G0 ++ [z] := by
      rcases List.eq_nil_or_concat G with h0 | ⟨G0, z, h0⟩
      · exact absurd h0 hG
      · exact ⟨G0, z, by simpa using h0⟩
    have hz : isWhiteSpace z = false := hGlast z (by simp)
    obtain ⟨s', hs'⟩ := reAttribution_matches_intro [z] w1 (ds ++ [dl]) w2 At (0 + G0.length)
      (List.replicate (reAttribution.groups + 1) none) (by simp)
      (by intro c hc; simp only [List.mem_singleton] at hc; rw [hc]; exact isDot_of_not_ws z hz)
      hw1 (by simp) (by simp only [List.length_append, List.length_singleton]; omega)
      (by
        intro c hc
        rcases List.mem_append.1 hc with hc | hc
        · exact hds c hc
        · simp only [List.mem_singleton] at hc; rw [hc]; exact hdl)
      hw2 hA hAd
    have hdrop : s.drop G0.length = [z] ++ (w1 ++ ((ds ++ [dl]) ++ (w2 ++ At))) := by
      rw [hse]
      simp [List.append_assoc]
    unfold Re.exec
    apply Re.execFrom_complete _ s 0 G0.length
    · rw [hse]; simp
    · rw [hdrop]
      exact Re.matchAt_complete _ _ _ _ hs'

/-- Both groups of a match of the attribution pattern on a trimmed text hold
a character that is no white space. -/
theorem reAttribution_groups (s : Str) (hs : IsTrimmed s) (m : Match)
    (h : reAttribution.exec s = some m) :
    ∃ g a, m.group 1 = some g ∧ m.group 2 = some a ∧ trim g ≠ [] ∧ trim a ≠ [] := by
  have hg : reAttribution.groups = 2 := rfl
  obtain ⟨i, hi, hmi, hfirst⟩ := Re.execFrom_first _ m s 0 h
  obtain ⟨s', hs', hm⟩ := Re.matchAt_sound _ _ _ _ hmi
  obtain ⟨g, x, dd, y, a, ht, hgne, hgd, hx, hdd, hdl, hdc, hy, ha, hac, hcaps⟩ :=
    reAttribution_matches _ _ _ _ hs'
  have hse : s = s.take i ++ (g ++ (x ++ (dd ++ (y ++ a)))) := by
    conv_lhs => rw [← List.take_append_drop i s, ht]
  refine ⟨g, a, ?_, ?_, ?_, ?_⟩
  · rw [hm, hcaps, hg]
    simp [Match.group]
  · rw [hm, hcaps, hg]
    simp [Match.group]
  · by_cases hall : ∀ c ∈ g, isWhiteSpace c = true
    · exfalso
      cases hu : s.take i with
      | nil =>
        rw [hu, List.nil_append] at hse
        cases g with
        | nil => exact hgne rfl
        | cons c cs =>
          have h1 := hall c (by simp)
          rw [hs.1 c (by rw [hse]; rfl)] at h1
          cases h1
      | cons u0 us =>
        have hhead : ∀ c, (u0 :: us).head? = some c → isWhiteSpace c = false := by
          intro c hc
          apply hs.1 c
          rw [hse, hu]
          simpa using hc
        have hst := isTrimmed_trimEnd_of (u0 :: us) hhead
        have hueq := trimEnd_append_rtakeWhile (u0 :: us)
        have hw : AllWs ((u0 :: us).rtakeWhile isWhiteSpace) := by
          intro c hc
          unfold List.rtakeWhile at hc
          exact List.mem_takeWhile_imp (List.mem_reverse.1 hc)
        generalize (u0 :: us).rtakeWhile isWhiteSpace = W at hueq hw
        obtain ⟨G0, z, hG0⟩ : ∃ G0 z, trimEnd (u0 :: us) = G0 ++ [z] := by
          rcases List.eq_nil_or_concat (trimEnd (u0 :: us)) with h0 | ⟨G0, z, h0⟩
          · rw [h0, List.nil_append] at hueq
            have h1 := hw u0 (by rw [hueq]; simp)
            rw [hhead u0 rfl] at h1
            cases h1
          · exact ⟨G0, z, by simpa using h0⟩
        have hz : isWhiteSpace z = false := hst.2 z (by rw [hG0]; simp)
        have hdrop : s.drop G0.length = [z] ++ ((W ++ (g ++ x)) ++ (dd ++ (y ++ a))) := by
          rw [hse, hu, ← hueq, hG0]
          simp [List.append_assoc]
        have hlen : G0.length < i := by
          have h1 : (s.take i).length = i := by
            rw [List.length_take]; omega
          rw [hu, ← hueq, hG0] at h1
          simp only [List.length_append, List.length_singleton] at h1
          omega
        obtain ⟨s2, hs2⟩ := reAttribution_matches_intro [z]
          (W ++ (g ++ x)) dd y a (0 + G0.length)
          (List.replicate (reAttribution.groups + 1) none) (by simp)
          (by intro c hc; simp only [List.mem_singleton] at hc; rw [hc]; exact isDot_of_not_ws z hz)
          (allWs_append hw (allWs_append hall hx)) hdd hdl hdc hy ha hac
        have h1 := Re.matchAt_complete _ _ _ _ hs2
        rw [← hdrop, hfirst _ hlen] at h1
        cases h1
    · push_neg at hall
      obtain ⟨c, hc, hcw⟩ := hall
      exact trim_ne_nil_of_mem g c hc (by simpa using hcw)
  · obtain ⟨z, hz⟩ : ∃ z, a.getLast? = some z := by
      cases hq : a.getLast? with
      | none => rw [List.getLast?_eq_none_iff] at hq; exact absurd hq ha
      | some z => exact ⟨z, rfl⟩
    have hsl : s.getLast? = some z := by
      rw [hse]
      have e : s.take i ++ (g ++ (x ++ (dd ++ (y ++ a)))) =
          (s.take i ++ (g ++ (x ++ (dd ++ y)))) ++ a := by simp [List.append_assoc]
      rw [e, getLast?_append_of_ne_nil _ _ ha]
      exact hz
    exact trim_ne_nil_of_mem a z (List.mem_of_getLast?_eq_some hz) (hs.2 z hsl)

/-- The pass on a line whose trimmed form starts with `>`. -/
theorem step_quote (env : Env) (line : Str) (ls : List Str)
    (h : startsWith ">".toList (trim line) = true) :
    step env (line :: ls) =
      (match reAttribution.exec (quoteText (line :: ls)) with
        | some m => [Block.quote (trim ((m.group 1).getD [])) (trim ((m.group 2).getD []))]
        | none => [Block.quote (quoteText (line :: ls)) []],
       quoteLength (line :: ls)) := by
  cases ht : trim line with
  | nil => rw [ht] at h; cases h
  | cons c cs =>
    have hc : c = '>' := by
      rw [ht] at h
      simp only [startsWith] at h
      have : ('>' == c) = true := by
        revert h
        cases ('>' == c) <;> simp
      exact (beq_iff_eq.1 this).symm
    subst hc
    rw [step_of_plain_head env _ _ '>' cs ht (by decide) (by decide)]
    have hhead : reHeader.exec ('>' :: cs) = none := reHeader_exec_none _ rfl
    have hgt : startsWith ">".toList ('>' :: cs) = true := by rw [← ht]; exact h
    simp only [stepFrom, hhead, hgt, if_true, quoteText, quoteLength]
    split <;> rename_i hm <;> simp only [hm]

/-! ## Slugs -/

theorem reSlugRun_matchAt_none (pos : Nat) (s : Str)
    (h : ∀ c, s.head? = some c → isSlugChar c = true) : reSlugRun.matchAt pos s = none := by
  have hr : reSlugRun.run ⟨pos, s, List.replicate (reSlugRun.groups + 1) none⟩ some = none := by
    unfold reSlugRun
    apply Re.run_rep_none_of_head _ _ _ _ _ _ _ _ (by decide)
    intro c hc
    have := h c hc
    unfold isSlugChar at this
    simp [this]
  simp [Re.matchAt, hr]

theorem reSlugRun_matchAt_some (pos : Nat) (c : Char) (cs : Str) (h : isSlugChar c = false) :
    ∃ m, reSlugRun.matchAt pos (c :: cs) = some m ∧
      m.stop - pos = 1 + (cs.takeWhile (fun c => !isSlugChar c)).length := by
  have hsplit : c :: cs = (c :: cs.takeWhile (fun c => !isSlugChar c)) ++
      cs.dropWhile (fun c => !isSlugChar c) := by
    simp [List.takeWhile_append_dropWhile]
  have hr : reSlugRun.run ⟨pos, c :: cs, List.replicate (reSlugRun.groups + 1) none⟩ some =
      some ⟨pos + (c :: cs.takeWhile (fun c => !isSlugChar c)).length,
        cs.dropWhile (fun c => !isSlugChar c), List.replicate (reSlugRun.groups + 1) none⟩ := by
    unfold reSlugRun
    apply Re.run_rep_greedy _ 1 none (c :: cs.takeWhile (fun c => !isSlugChar c))
      (cs.dropWhile (fun c => !isSlugChar c)) _ _ _ _ _ hsplit
    · intro d hd
      rcases List.mem_cons.1 hd with rfl | hd
      · unfold isSlugChar at h; simp [h]
      · have := List.mem_takeWhile_imp hd
        simpa [isSlugChar] using this
    · simp
    · exact Or.inr trivial
    · intro d hd
      left
      have := List.head?_dropWhile_not (fun c => !isSlugChar c) cs
      rw [hd] at this
      simpa [isSlugChar] using this
    · rfl
  refine ⟨_, Re.matchAt_of_run _ _ _ _ hr, ?_⟩
  simp
  omega

/-- The first replacement of `generateSlug`, with and without characters of
the last match still to pass over. -/
theorem reSlugRun_replaceAllGo : ∀ (s : Str),
    (∀ pos, reSlugRun.replaceAllGo "-".toList s pos 0 = collapseRuns false s) ∧
    (∀ pos, reSlugRun.replaceAllGo "-".toList s pos
      (s.takeWhile (fun c => !isSlugChar c)).length = collapseRuns true s) := by
  intro s
  induction s with
  | nil =>
    refine ⟨?_, ?_⟩ <;> intro pos <;>
      simp [Re.replaceAllGo, reSlugRun_matchAt_none pos [] (by intro c hc; cases hc),
        collapseRuns]
  | cons c cs ih =>
    obtain ⟨ihA, ihB⟩ := ih
    cases hc : isSlugChar c with
    | true =>
      have hnone := fun pos => reSlugRun_matchAt_none pos (c :: cs)
        (by intro d hd; cases hd; exact hc)
      have hA : ∀ pos, reSlugRun.replaceAllGo "-".toList (c :: cs) pos 0 =
          collapseRuns false (c :: cs) := by
        intro pos
        simp only [Re.replaceAllGo, if_true, hnone pos, ihA]
        simp [collapseRuns, hc]
      refine ⟨hA, ?_⟩
      intro pos
      have h0 : ((c :: cs).takeWhile (fun c => !isSlugChar c)).length = 0 := by
        simp [List.takeWhile_cons, hc]
      rw [h0, hA]
      simp [collapseRuns, hc]
    | false =>
      refine ⟨?_, ?_⟩
      · intro pos
        obtain ⟨m, hm, hstop⟩ := reSlugRun_matchAt_some pos c cs hc
        have h1 : ¬ (m.stop - pos = 0) := by omega
        have h2 : m.stop - pos - 1 = (cs.takeWhile (fun c => !isSlugChar c)).length := by omega
        simp only [Re.replaceAllGo, if_true, hm, h1, if_false, h2, ihB]
        simp [collapseRuns, hc]
      · intro pos
        have h0 : ((c :: cs).takeWhile (fun c => !isSlugChar c)).length =
            (cs.takeWhile (fun c => !isSlugChar c)).length + 1 := by
          simp [List.takeWhile_cons, hc]
        rw [h0]
        simp only [Re.replaceAllGo, Nat.add_one_ne_zero, if_false, Nat.add_sub_cancel, ihB]
        simp [collapseRuns, hc]

theorem reSlugEnds_matchAt_bol (c : Char) (cs : Str) :
    (c = '-' → ∃ m, reSlugEnds.matchAt 0 (c :: cs) = some m ∧ m.stop = 1) ∧
    (c ≠ '-' → reSlugEnds.matchAt 0 (c :: cs) = none) := by
  constructor
  · intro h
    subst h
    cases cs <;> simp [reSlugEnds, Re.matchAt, Re.run, is, Re.groups]
  · intro h
    simp [reSlugEnds, Re.matchAt, Re.run, is, Re.groups, h]

theorem reSlugEnds_matchAt_pos (pos : Nat) (hpos : 0 < pos) (c : Char) (cs : Str) :
    (c = '-' ∧ cs = [] → ∃ m, reSlugEnds.matchAt pos (c :: cs) = some m ∧ m.stop = pos + 1) ∧
    (¬ (c = '-' ∧ cs = []) → reSlugEnds.matchAt pos (c :: cs) = none) := by
  have hp : pos ≠ 0 := by omega
  constructor
  · rintro ⟨h1, h2⟩
    subst h1 h2
    simp [reSlugEnds, Re.matchAt, Re.run, is, Re.groups, hp]
  · intro h
    by_cases h1 : c = '-'
    · have h2 : cs ≠ [] := fun h2 => h ⟨h1, h2⟩
      cases cs with
      | nil => exact absurd rfl h2
      | cons d r => simp [reSlugEnds, Re.matchAt, Re.run, is, Re.groups, hp, h1]
    · simp [reSlugEnds, Re.matchAt, Re.run, is, Re.groups, hp, h1]

theorem reSlugEnds_matchAt_nil (pos : Nat) : reSlugEnds.matchAt pos [] = none := by
  by_cases hp : pos = 0 <;> simp [reSlugEnds, Re.matchAt, Re.run, is, Re.groups, hp]

/-- The second replacement of `generateSlug` past the start of the text. -/
theorem reSlugEnds_replaceAllGo : ∀ (s : Str) (pos : Nat), 0 < pos →
    reSlugEnds.replaceAllGo [] s pos 0 = dropEndDash s := by
  intro s
  induction s with
  | nil =>
    intro pos _
    simp [Re.replaceAllGo, reSlugEnds_matchAt_nil, dropEndDash]
  | cons c cs ih =>
    intro pos hpos
    by_cases h : c = '-' ∧ cs = []
    · obtain ⟨m, hm, hstop⟩ := (reSlugEnds_matchAt_pos pos hpos c cs).1 h
      obtain ⟨h1, h2⟩ := h
      subst h1 h2
      have e1 : ¬ (m.stop - pos = 0) := by omega
      have e2 : m.stop - pos - 1 = 0 := by omega
      simp [Re.replaceAllGo, hm, e1, e2, reSlugEnds_matchAt_nil, dropEndDash]
    · have hm := (reSlugEnds_matchAt_pos pos hpos c cs).2 h
      simp only [Re.replaceAllGo, if_true, hm, ih (pos + 1) (by omega)]
      cases cs with
      | nil =>
        have : c ≠ '-' := fun hc => h ⟨hc, rfl⟩
        simp [dropEndDash, this]
      | cons d r => simp [dropEndDash]

theorem reSlugEnds_replaceAll (s : Str) : reSlugEnds.replaceAll s [] = stripEnds s := by
  unfold Re.replaceAll
  cases s with
  | nil => simp [Re.replaceAllGo, reSlugEnds_matchAt_nil, stripEnds]
  | cons c cs =>
    by_cases h : c = '-'
    · obtain ⟨m, hm, hstop⟩ := (reSlugEnds_matchAt_bol c cs).1 h
      have e1 : ¬ (m.stop - 0 = 0) := by omega
      have e2 : m.stop - 0 - 1 = 0 := by omega
      subst h
      simp only [Re.replaceAllGo, if_true, hm, e1, if_false, e2, List.nil_append,
        reSlugEnds_replaceAllGo cs (0 + 1) (by omega), stripEnds]
    · have hm := (reSlugEnds_matchAt_bol c cs).2 h
      simp only [Re.replaceAllGo, if_true, hm, reSlugEnds_replaceAllGo cs (0 + 1) (by omega),
        stripEnds, h, if_false]

/-- What `generateSlug` computes. -/
theorem generateSlug_eq (env : Env) (title : Str) :
    generateSlug env title = stripEnds (collapseRuns false (toLowerCase env title)) := by
  unfold generateSlug
  rw [reSlugEnds_replaceAll]
  unfold Re.replaceAll
  rw [(reSlugRun_replaceAllGo _).1 0]

theorem isSlugChar_ne_dash (c : Char) (h : isSlugChar c = true) : c ≠ '-' := by
  rintro rfl
  revert h
  decide

theorem mem_collapseRuns : ∀ (s : Str) (b : Bool) (c : Char), c ∈ collapseRuns b s →
    isSlugChar c = true ∨ c = '-' := by
  intro s
  induction s with
  | nil => intro b c hc; simp [collapseRuns] at hc
  | cons d ds ih =>
    intro b c hc
    simp only [collapseRuns] at hc
    split at hc
    · rename_i hd
      rcases List.mem_cons.1 hc with rfl | hc
      · exact Or.inl hd
      · exact ih false c hc
    · split at hc
      · exact ih true c hc
      · rcases List.mem_cons.1 hc with rfl | hc
        · exact Or.inr rfl
        · exact ih true c hc

theorem chain_collapseRuns : ∀ (s : Str) (b : Bool),
    List.Chain' (fun a b => ¬ (a = '-' ∧ b = '-')) (collapseRuns b s) ∧
    (b = true → (collapseRuns b s).head? ≠ some '-') := by
  intro s
  induction s with
  | nil => intro b; simp [collapseRuns]
  | cons d ds ih =>
    intro b
    simp only [collapseRuns]
    split
    · rename_i hd
      have hne := isSlugChar_ne_dash d hd
      refine ⟨?_, ?_⟩
      · rw [List.chain'_cons']
        exact ⟨fun y _ h => hne h.1, (ih false).1⟩
      · intro _ h
        simp only [List.head?_cons, Option.some.injEq] at h
        exact hne h
    · split
      · exact ⟨(ih true).1, fun _ => (ih true).2 rfl⟩
      · rename_i hb
        refine ⟨?_, fun h => absurd h hb⟩
        rw [List.chain'_cons']
        refine ⟨?_, (ih true).1⟩
        intro y hy h
        apply (ih true).2 rfl
        rw [Option.mem_def] at hy
        rw [hy, h.2]

theorem mem_dropEndDash : ∀ (l : Str) (c : Char), c ∈ dropEndDash l → c ∈ l
  | [], c, h => by simp [dropEndDash] at h
  | [d], c, h => by
    simp only [dropEndDash] at h
    split at h
    · cases h
    · exact h
  | d :: e :: r, c, h => by
    simp only [dropEndDash] at h
    rcases List.mem_cons.1 h with rfl | h
    · simp
    · exact List.mem_cons_of_mem _ (mem_dropEndDash (e :: r) c h)

theorem dropEndDash_facts : ∀ (l : Str), List.Chain' (fun a b => ¬ (a = '-' ∧ b = '-')) l →
    List.Chain' (fun a b => ¬ (a = '-' ∧ b = '-')) (dropEndDash l) ∧
    (dropEndDash l).getLast? ≠ some '-' ∧
    (∀ h, (dropEndDash l).head? = some h → l.head? = some h) ∧
    (dropEndDash l = [] → l = [] ∨ l = ['-'])
  | [], _ => by simp [dropEndDash]
  | [d], _ => by
    by_cases hd : d = '-'
    · simp [dropEndDash, hd]
    · simp [dropEndDash, hd]
  | d :: e :: r, hch => by
    rw [List.chain'_cons] at hch
    obtain ⟨ih1, ih2, ih3, ih4⟩ := dropEndDash_facts (e :: r) hch.2
    simp only [dropEndDash]
    refine ⟨?_, ?_, ?_, ?_⟩
    · rw [List.chain'_cons']
      refine ⟨?_, ih1⟩
      intro y hy
      rw [Option.mem_def] at hy
      have := ih3 y hy
      simp only [List.head?_cons, Option.some.injEq] at this
      rw [← this]
      exact hch.1
    · cases hx : dropEndDash (e :: r) with
      | nil =>
        rcases ih4 hx with h0 | h0
        · cases h0
        · simp only [List.cons.injEq, and_true] at h0
          simp only [List.getLast?_singleton, ne_eq, Option.some.injEq]
          intro hd
          exact hch.1 ⟨hd, h0.1⟩
      | cons x xs =>
        rw [hx] at ih2
        rw [List.getLast?_cons_cons]
        exact ih2
    · intro h hh
      simpa using hh
    · intro h0
      cases h0

/-- The last step of `generateSlug` on a text of slug characters and dashes
without two dashes in a row gives a clean slug. -/
theorem isSlug_stripEnds (y : Str) (hy : ∀ c ∈ y, isSlugChar c = true ∨ c = '-')
    (hch : List.Chain' (fun a b => ¬ (a = '-' ∧ b = '-')) y) : IsSlug (stripEnds y) := by
  have key : ∀ l : Str, (∀ c ∈ l, isSlugChar c = true ∨ c = '-') →
      List.Chain' (fun a b => ¬ (a = '-' ∧ b = '-')) l → l.head? ≠ some '-' →
      IsSlug (dropEndDash l) := by
    intro l hl hc hh
    obtain ⟨f1, f2, f3, -⟩ := dropEndDash_facts l hc
    refine ⟨fun c hc => hl c (mem_dropEndDash l c hc), ?_, f2, f1⟩
    intro h0
    exact hh (f3 _ h0)
  cases y with
  | nil => simp [stripEnds, IsSlug]
  | cons c cs =>
    have e : stripEnds (c :: cs) = if c = '-' then dropEndDash cs else dropEndDash (c :: cs) := by
      cases cs <;> by_cases hc : c = '-' <;> simp [stripEnds, dropEndDash, hc]
    rw [e]
    split
    · rename_i hc
      rw [List.chain'_cons'] at hch
      apply key cs (fun d hd => hy d (List.mem_cons_of_mem _ hd)) hch.2
      intro h0
      exact hch.1 '-' (by rw [Option.mem_def]; exact h0) ⟨hc, rfl⟩
    · rename_i hc
      apply key (c :: cs) hy hch
      simpa using hc

theorem collapseRuns_of_isSlug : ∀ (x : Str) (b : Bool),
    (∀ c ∈ x, isSlugChar c = true ∨ c = '-') →
    List.Chain' (fun a b => ¬ (a = '-' ∧ b = '-')) x →
    (b = true → x.head? ≠ some '-') → collapseRuns b x = x := by
  intro x
  induction x with
  | nil => intro b _ _ _; rfl
  | cons c cs ih =>
    intro b hx hch hb
    rw [List.chain'_cons'] at hch
    have hcs : ∀ d ∈ cs, isSlugChar d = true ∨ d = '-' := fun d hd =>
      hx d (List.mem_cons_of_mem _ hd)
    rcases hx c (by simp) with hc | hc
    · simp only [collapseRuns, hc, if_true]
      rw [ih false hcs hch.2 (by intro h0; cases h0)]
    · subst hc
      have hb' : b = false := by
        cases b with
        | false => rfl
        | true => exact absurd rfl (hb rfl)
      subst hb'
      have h1 : isSlugChar '-' = false := by decide
      simp only [collapseRuns, h1, Bool.false_eq_true, if_false]
      rw [ih true hcs hch.2]
      intro _ h0
      exact hch.1 '-' (by rw [Option.mem_def]; exact h0) ⟨rfl, rfl⟩

theorem dropEndDash_of_last : ∀ (l : Str), l.getLast? ≠ some '-' → dropEndDash l = l
  | [], _ => rfl
  | [d], h => by
    have : d ≠ '-' := by simpa using h
    simp [dropEndDash, this]
  | d :: e :: r, h => by
    rw [List.getLast?_cons_cons] at h
    simp only [dropEndDash]
    rw [dropEndDash_of_last (e :: r) h]

theorem stripEnds_of_isSlug (x : Str) (h : IsSlug x) : stripEnds x = x := by
  obtain ⟨-, h1, h2, -⟩ := h
  cases x with
  | nil => rfl
  | cons c cs =>
    have hc : c ≠ '-' := by simpa using h1
    simp only [stripEnds, hc, if_false]
    cases cs with
    | nil => rfl
    | cons d r =>
      rw [List.getLast?_cons_cons] at h2
      rw [dropEndDash_of_last _ h2]

theorem toLowerCase_of_isSlug (env : Env) (x : Str) (h : IsSlug x) : toLowerCase env x = x := by
  have hx := h.1
  have hall : x.all (fun c => decide (c.toNat < 0x80)) = true := by
    rw [List.all_eq_true]
    intro c hc
    rcases hx c hc with h1 | h1
    · simp only [isSlugChar, isLower, isDigit, Bool.or_eq_true, Bool.and_eq_true,
        decide_eq_true_eq] at h1 ⊢
      omega
    · subst h1; decide
  have hmap : x.map asciiLower = x := by
    conv_rhs => rw [← List.map_id x]
    apply List.map_congr_left
    intro c hc
    have hup : isUpper c = false := by
      rcases hx c hc with h1 | h1
      · simp only [isSlugChar, isLower, isDigit, Bool.or_eq_true, Bool.and_eq_true,
          decide_eq_true_eq] at h1
        simp only [isUpper, Bool.and_eq_false_imp, decide_eq_true_eq, decide_eq_false_iff_not]
        omega
      · subst h1; decide
    simp [asciiLower, hup]
  unfold toLowerCase
  rw [hall, if_pos rfl, hmap]

theorem joinWith_cons_cons (sep : Str) (c : Char) (r : Str) (rs : List Str) :
    joinWith sep ((c :: r) :: rs) = c :: joinWith sep (r :: rs) := by
  cases rs <;> simp [joinWith]

/-- A clean slug that is not empty is a sequence of non-empty runs of slug
characters separated by single dashes. -/
theorem isRuns_of_isSlug : ∀ (n : Nat) (x : Str), x.length ≤ n → IsSlug x → x ≠ [] → IsRuns x := by
  intro n
  induction n with
  | zero =>
    intro x hn _ hne
    cases x with
    | nil => exact absurd rfl hne
    | cons c cs => simp at hn
  | succ n ih =>
    intro x hn hx hne
    obtain ⟨h1, h2, h3, h4⟩ := hx
    cases x with
    | nil => exact absurd rfl hne
    | cons c cs =>
      have hc : isSlugChar c = true := by
        rcases h1 c (by simp) with h | h
        · exact h
        · exact absurd (by rw [h]; rfl) h2
      cases cs with
      | nil =>
        refine ⟨[[c]], by simp, ?_, rfl⟩
        intro r hr
        simp only [List.mem_singleton] at hr
        subst hr
        exact ⟨by simp, by intro d hd; simp only [List.mem_singleton] at hd; rw [hd]; exact hc⟩
      | cons d r =>
        rw [List.chain'_cons] at h4
        rw [List.getLast?_cons_cons] at h3
        have hsub : ∀ e ∈ d :: r, isSlugChar e = true ∨ e = '-' := fun e he =>
          h1 e (List.mem_cons_of_mem _ he)
        by_cases hd : d = '-'
        · subst hd
          cases r with
          | nil => simp at h3
          | cons e r2 =>
            have h5 := h4.2
            rw [List.chain'_cons] at h5
            have he : e ≠ '-' := fun h0 => h5.1 ⟨rfl, h0⟩
            rw [List.getLast?_cons_cons] at h3
            obtain ⟨runs, hr1, hr2, hr3⟩ := ih (e :: r2) (by simp at hn ⊢; omega)
              ⟨fun q hq => hsub q (List.mem_cons_of_mem _ hq), by simpa using he, h3, h5.2⟩
              (by simp)
            cases runs with
            | nil => exact absurd rfl hr1
            | cons r0 rs =>
              refine ⟨[c] :: r0 :: rs, by simp, ?_, ?_⟩
              · intro q hq
                rcases List.mem_cons.1 hq with rfl | hq
                · exact ⟨by simp, by
                    intro d hd; simp only [List.mem_singleton] at hd; rw [hd]; exact hc⟩
                · exact hr2 q hq
              · simp only [joinWith]
                rw [← hr3]
                rfl
        · obtain ⟨runs, hr1, hr2, hr3⟩ := ih (d :: r) (by simp at hn ⊢; omega)
            ⟨hsub, by simpa using hd, h3, h4.2⟩ (by simp)
          cases runs with
          | nil => exact absurd rfl hr1
          | cons r0 rs =>
            refine ⟨(c :: r0) :: rs, by simp, ?_, ?_⟩
            · intro q hq
              rcases List.mem_cons.1 hq with rfl | hq
              · refine ⟨by simp, ?_⟩
                intro e he
                rcases List.mem_cons.1 he with rfl | he
                · exact hc
                · exact (hr2 r0 (by simp)).2 e he
              · exact hr2 q (List.mem_cons_of_mem _ hq)
            · rw [joinWith_cons_cons, ← hr3]

/-- C30: for every title, `generateSlug` gives a clean slug: it holds only
characters of `[a-z0-9]` and `-`, has no `-` at its start or end and no two
`-` next to each other, so that it is empty or consists of non-empty runs of
characters of `[a-z0-9]` separated by single `-`; and `generateSlug` applied
to its own result gives that result again. -/
theorem generateSlug_clean (env : Env) (title : Str) :
    IsSlug (generateSlug env title) ∧
    (generateSlug env title = [] ∨ IsRuns (generateSlug env title)) ∧
    generateSlug env (generateSlug env title) = generateSlug env title := by
  have hslug : IsSlug (generateSlug env title) := by
    rw [generateSlug_eq]
    exact isSlug_stripEnds _ (fun c hc => mem_collapseRuns _ _ c hc) (chain_collapseRuns _ _).1
  refine ⟨hslug, ?_, ?_⟩
  · by_cases h : generateSlug env title = []
    · exact Or.inl h
    · exact Or.inr (isRuns_of_isSlug _ _ (Nat.le_refl _) hslug h)
  · generalize generateSlug env title = x at hslug
    rw [generateSlug_eq, toLowerCase_of_isSlug env x hslug,
      collapseRuns_of_isSlug x false hslug.1 hslug.2.2.2 (by intro h; cases h),
      stripEnds_of_isSlug x hslug]

/-- C30, examples. -/
theorem generateSlug_clean_example :
    generateSlug Env.plain "  Hello, World!  ".toList = "hello-world".toList ∧
    generateSlug Env.plain "3-Bet  Pots -- a GUIDE".toList = "3-bet-pots-a-guide".toList ∧
    generateSlug Env.plain "?!".toList = [] := by
  decide

/-! ## The scan before a line that opens a fence or a callout -/

/-- The loop after `n` passes and the scan: the scan returns the blocks pushed
so far followed by those of the scan of the remaining lines, which are a
final part of the lines. -/
theorem scan_of_passes (env : Env) : ∀ (n : Nat) (lines : List Str) (a : List Block)
    (rest : List Str), passes env n lines = (a, rest) →
    (∀ fuel, scan env (n + fuel) lines = (scan env fuel rest).map (fun b => a ++ b)) ∧
    ∃ before, lines = before ++ rest := by
  intro n
  induction n with
  | zero =>
    intro lines a rest h
    simp only [passes, Prod.mk.injEq] at h
    obtain ⟨rfl, rfl⟩ := h
    refine ⟨?_, [], rfl⟩
    intro fuel
    rw [Nat.zero_add]
    cases scan env fuel lines <;> simp
  | succ n ih =>
    intro lines a rest h
    cases lines with
    | nil =>
      simp only [passes, Prod.mk.injEq] at h
      obtain ⟨rfl, rfl⟩ := h
      refine ⟨?_, [], rfl⟩
      intro fuel
      rw [scan_nil, scan_nil]
      rfl
    | cons l ls =>
      simp only [passes, Prod.mk.injEq] at h
      obtain ⟨ha, hr⟩ := h
      obtain ⟨ih1, before, ih2⟩ := ih ((l :: ls).drop (step env (l :: ls)).2)
        (passes env n ((l :: ls).drop (step env (l :: ls)).2)).1 rest (by rw [← hr])
      refine ⟨?_, (l :: ls).take (step env (l :: ls)).2 ++ before, ?_⟩
      · intro fuel
        have e : n + 1 + fuel = (n + fuel) + 1 := by omega
        rw [e, scan_succ, ih1 fuel, ← ha]
        cases scan env fuel rest <;> simp
      · rw [List.append_assoc, ← ih2, List.take_append_drop]

theorem reNumber_exec_none (s : Str)
    (h : ∀ c, s.head? = some c → isDigit c = false) : reNumber.exec s = none := by
  have he : reNumber = Re.seq .bol (Re.seq (.rep isDigit 1 none true) (Re.seq (.chr (is '.'))
      (Re.seq (.rep isWhiteSpace 1 none true) (Re.seq (.cap 1 (.rep isDot 1 none true)) .eol)))) :=
    rfl
  rw [he]
  apply exec_bol_none
  intro s' hs'
  rw [Re.matches_seq] at hs'
  obtain ⟨m, hrep, -⟩ := hs'
  rw [Re.matches_rep] at hrep
  obtain ⟨j, ⟨hl, hj, hlo, -⟩, -⟩ := hrep
  dsimp only at hl hj
  cases s with
  | nil => simp at hl; omega
  | cons c cs =>
    cases j with
    | zero => omega
    | succ j =>
      have := hj c (by simp)
      rw [h c rfl] at this
      cases this

/-- What the loops of the scan see in a line that opens a fence or a callout:
it is not blank, no quote line and no list item, and the paragraph loop stops
at it. -/
theorem isOpener_facts (f : Str) (h : IsOpener f) :
    (trim f).isEmpty = false ∧ startsWith ">".toList (trim f) = false ∧ NotListItem f ∧
      paragraphStop (trim f) = true := by
  have key : ∀ (c : Char) (r : Str), trim f = c :: r → c ≠ '>' → isBulletClass c = false →
      isDigit c = false →
      (startsWith fence (trim f) = true ∨ startsWith marker (trim f) = true) →
      (trim f).isEmpty = false ∧ startsWith ">".toList (trim f) = false ∧ NotListItem f ∧
        paragraphStop (trim f) = true := by
    intro c r hf h1 h2 h3 h4
    refine ⟨by rw [hf]; rfl, ?_, ⟨?_, ?_⟩, ?_⟩
    · rw [hf]
      exact startsWith_cons_of_head _ _ _ (by intro d hd; cases hd; exact h1)
    · exact reBullet_exec_none _ (by rw [hf]; intro d hd; cases hd; exact h2)
    · exact reNumber_exec_none _ (by rw [hf]; intro d hd; cases hd; exact h3)
    · unfold paragraphStop
      rcases h4 with h4 | h4 <;> simp [h4]
  rcases h with h | h
  · obtain ⟨r, hr⟩ := (startsWith_iff _ _).1 h
    exact key (Char.ofNat 96) _ hr (by decide) (by decide) (by decide) (Or.inl h)
  · obtain ⟨r, hr⟩ := (startsWith_iff _ _).1 h
    exact key ':' _ hr (by decide) (by decide) (by decide) (Or.inr h)

/-- The list loop before a line that is no list item and not blank. -/
theorem listLoop_append_stop (f : Str) (Y : List Str) (hf : NotListItem f)
    (hne : (trim f).isEmpty = false) : ∀ (A : List Str),
    listLoop (A ++ f :: Y) = listLoop A := by
  intro A
  induction A with
  | nil => simp [listLoop, hf.1, hf.2, hne]
  | cons l A ih =>
    have hA : A.append (f :: Y) = A ++ f :: Y := rfl
    simp only [List.cons_append, listLoop, hA, ih]

/-- The rules from the header on, before a line that opens a fence or a
callout: the same blocks and the same move of the cursor. -/
theorem stepFrom_append_opener (t l : Str) (ls : List Str) (f : Str) (Y : List Str)
    (hf : IsOpener f) : stepFrom t l (ls ++ f :: Y) = stepFrom t l ls := by
  obtain ⟨f1, f2, f3, f4⟩ := isOpener_facts f hf
  have hq : (l :: (ls ++ f :: Y)).takeWhile (fun l => startsWith ">".toList (trim l)) =
      (l :: ls).takeWhile (fun l => startsWith ">".toList (trim l)) := by
    rw [← List.cons_append]
    exact takeWhile_append_of_stop _ _ _ (by exact f2) _
  have hp : ((l :: (ls ++ f :: Y)).map trim).takeWhile (fun pLine => !paragraphStop pLine) =
      ((l :: ls).map trim).takeWhile (fun pLine => !paragraphStop pLine) := by
    rw [← List.cons_append, List.map_append, List.map_cons]
    exact takeWhile_append_of_stop _ _ _ (by simp [f4]) _
  have hl := listLoop_append_stop f Y f3 f1 (l :: ls)
  rw [List.cons_append] at hl
  unfold stepFrom
  rw [hq, hp, hl]

/-- One pass before a line that opens a fence or a callout, on a line that
opens neither. -/
theorem step_append_opener (env : Env) (l : Str) (ls : List Str) (f : Str) (Y : List Str)
    (hl : NoOpener l) (hf : IsOpener f) :
    step env (l :: (ls ++ f :: Y)) = step env (l :: ls) := by
  obtain ⟨h1, h2⟩ := hl
  unfold step
  simp only [h1, h2, Bool.false_eq_true, if_false]
  split
  · rfl
  · exact stepFrom_append_opener (trim l) l ls f Y hf

theorem step_le_of_noOpener (env : Env) (l : Str) (ls : List Str) (hl : NoOpener l) :
    (step env (l :: ls)).2 ≤ ls.length + 1 := by
  rcases (step_append_blank env l ls [] hl).2 with ⟨-, h⟩ | ⟨-, h⟩
  · exact h
  · omega

/-- The loop on lines that open no fence and no callout, followed by a line
that opens one: when the scan of the first lines returns, the loop comes to
stand at the opening line, after at most as many passes, having pushed the
blocks of the first lines. -/
theorem passes_before_opener (env : Env) (f : Str) (Y : List Str) (hf : IsOpener f) :
    ∀ (fa : Nat) (X : List Str) (a : List Block), (∀ l ∈ X, NoOpener l) →
      scan env fa X = some a → ∃ n, n ≤ fa ∧ passes env n (X ++ f :: Y) = (a, f :: Y) := by
  intro fa
  induction fa with
  | zero =>
    intro X a _ h
    cases X with
    | nil =>
      simp only [scan, Option.some.injEq] at h
      subst h
      exact ⟨0, Nat.le_refl _, rfl⟩
    | cons l ls => simp [scan] at h
  | succ k ih =>
    intro X a hX h
    cases X with
    | nil =>
      simp only [scan, Option.some.injEq] at h
      subst h
      exact ⟨0, Nat.zero_le _, rfl⟩
    | cons l ls =>
      have hloc := step_append_opener env l ls f Y (hX l (by simp)) hf
      have hle := step_le_of_noOpener env l ls (hX l (by simp))
      have h0 := scan_succ env k l ls
      rw [h] at h0
      cases hrest : scan env k ((l :: ls).drop (step env (l :: ls)).2) with
      | none => rw [hrest] at h0; cases h0
      | some a' =>
        rw [hrest] at h0
        simp only [Option.map_some', Option.some.injEq] at h0
        obtain ⟨n, hn, hp⟩ := ih _ a' (fun x hx => hX x (List.mem_of_mem_drop hx)) hrest
        refine ⟨n + 1, by omega, ?_⟩
        have hdrop : (l :: (ls ++ f :: Y)).drop (step env (l :: ls)).2 =
            (l :: ls).drop (step env (l :: ls)).2 ++ f :: Y := by
          rw [← List.cons_append, List.drop_append_of_le_length (by simpa using hle)]
        show passes env (n + 1) (l :: (ls ++ f :: Y)) = _
        simp only [passes, hloc, hdrop, hp]
        rw [h0]

theorem joinWith_append_cons (sep : Str) : ∀ (xs : List Str) (y : Str) (ys : List Str),
    xs ≠ [] → joinWith sep (xs ++ y :: ys) = joinWith sep xs ++ sep ++ joinWith sep (y :: ys) := by
  intro xs
  induction xs with
  | nil => intro y ys h; exact absurd rfl h
  | cons a rest ih =>
    intro y ys _
    cases rest with
    | nil => simp [joinWith]
    | cons b rest =>
      have := ih y ys (by simp)
      simp only [List.cons_append] at this ⊢
      simp only [joinWith, this, List.append_assoc]

/-! ## The content of a code block -/

/-- C17 (code content), amended.  Take a content not detected as HTML in which
the loop, on the lines of the text with its line endings normalised, comes to
stand after some passes at an opening line that starts (trimmed) with three
backticks, followed by content lines none of which does, a closing line that
does, and further lines.  The pass there pushes a code block whose content is
the content lines joined with a line feed, every character of them
unchanged: it is the stretch of the normalised text between the line break
after the opening line and the one before the closing line.  The result is
the blocks pushed before, this block, and the blocks of the further lines. -/
theorem parseNotionContent_code_content (env : Env) (n fuel : Nat) (content : Str)
    (pre : List Block) (first : Str) (body : List Str) (close : Str) (post : List Str)
    (hhtml : isHTML (normalize content) = false)
    (hreach : passes env n (splitOn '\n' (normalize content)) =
      (pre, first :: (body ++ close :: post)))
    (hopen : startsWith fence (trim first) = true)
    (hbody : ∀ l ∈ body, startsWith fence (trim l) = false)
    (hclose : startsWith fence (trim close) = true) :
    step env (first :: (body ++ close :: post)) =
      ([Block.code (orElseStr (trim ((trim first).drop 3)) "text".toList)
          (capitalize env (orElseStr (trim ((trim first).drop 3)) "text".toList))
          (joinWith "\n".toList body)], body.length + 2) ∧
    parseNotionContent env (n + (fuel + 1)) content =
      (scan env fuel post).map (fun blocks => pre ++
        Block.code (orElseStr (trim ((trim first).drop 3)) "text".toList)
          (capitalize env (orElseStr (trim ((trim first).drop 3)) "text".toList))
          (joinWith "\n".toList body) :: blocks) ∧
    (∃ before, splitOn '\n' (normalize content) = before ++ first :: (body ++ close :: post) ∧
      normalize content = joinWith "\n".toList (before ++ first :: (body ++ close :: post)) ∧
      (body ≠ [] → ∃ head, normalize content = head ++ (first ++ "\n".toList ++
        joinWith "\n".toList body ++ "\n".toList ++ joinWith "\n".toList (close :: post)))) := by
  have h4 : (body ++ close :: post).takeWhile (fun l => !startsWith fence (trim l)) = body :=
    takeWhile_append_stop _ body close post (by intro y hy; simp [hbody y hy]) (by simp [hclose])
  have hstep := step_of_fence env first (body ++ close :: post) hopen
  rw [h4] at hstep
  have hdrop : (first :: (body ++ close :: post)).drop (body.length + 2) = post := by
    simp [List.drop_append]
  obtain ⟨hscan, before, hbefore⟩ := scan_of_passes env n _ pre _ hreach
  refine ⟨hstep, ?_, before, hbefore, ?_, ?_⟩
  · unfold parseNotionContent
    simp only [hhtml, Bool.false_eq_true, if_false]
    rw [hscan (fuel + 1), scan_cons env fuel first _ _ _ hstep, hdrop]
    cases scan env fuel post <;> rfl
  · rw [← hbefore]
    exact (joinWith_splitOn '\n' (normalize content)).symm
  · intro hne
    have hj : normalize content =
        joinWith "\n".toList (before ++ first :: (body ++ close :: post)) := by
      rw [← hbefore]
      exact (joinWith_splitOn '\n' (normalize content)).symm
    have hfb : joinWith "\n".toList (first :: (body ++ close :: post)) =
        first ++ "\n".toList ++ joinWith "\n".toList body ++ "\n".toList ++
          joinWith "\n".toList (close :: post) := by
      have e1 := joinWith_append_cons "\n".toList body close post hne
      cases hb : body with
      | nil => exact absurd hb hne
      | cons b rest =>
        rw [hb] at e1
        simp only [List.cons_append] at e1 ⊢
        simp only [joinWith, e1, List.append_assoc]
    cases hbf : before with
    | nil =>
      refine ⟨[], ?_⟩
      rw [hj, hbf, List.nil_append, hfb, List.nil_append]
    | cons x xs =>
      refine ⟨joinWith "\n".toList (x :: xs) ++ "\n".toList, ?_⟩
      rw [hj, hbf, joinWith_append_cons "\n".toList (x :: xs) first _ (by simp), hfb]

/-- C17, examples: a fence after a paragraph, with line endings of the content
lines rewritten and all other characters, leading and trailing spaces and
inline markup included, left as they are. -/
theorem parseNotionContent_code_content_example :
    parseNotionContent Env.plain 2 "text\r\n```js\r\n  let **a** = 1; \r\n\r\nb\r\n```".toList =
      some [Block.paragraph "text".toList,
        Block.code "js".toList "Js".toList "  let **a** = 1; \n\nb".toList] :=
  (parseNotionContent_code_content Env.plain 1 0
    "text\r\n```js\r\n  let **a** = 1; \r\n\r\nb\r\n```".toList
    [Block.paragraph "text".toList] "```js".toList
    ["  let **a** = 1; ".toList, [], "b".toList] "```".toList []
    (by decide) (by decide) (by decide) (by decide) (by decide)).2.1

/-- C17, where the claim as written fails: the line endings between the
fences are rewritten (the source text between them is `a\r\nb`, the content is
`a\nb`), and a fenced block with a tag in it is handed to the HTML parser.
Where the loop does not come to stand at the opening line there is no code
block for the lines: inside a callout they are its content, and after a line
on which the scan stalls nothing is returned. -/
theorem parseNotionContent_code_content_rewritten :
    parseNotionContent Env.plain 1 "```\na\r\nb\n```".toList =
      some [Block.code "text".toList "Text".toList "a\nb".toList] ∧
    isHTML (normalize "```html\n<b>x</b>\n```".toList) = true ∧
    parseNotionContent Env.plain 1 "```html\n<b>x</b>\n```".toList =
      some (parseHTMLContent Env.plain "```html\n<b>x</b>\n```".toList) ∧
    parseNotionContent Env.plain 1 ":::tip\n```\ncode\n```\n:::".toList =
      some [Block.callout "tip".toList "Tip".toList "```\ncode\n```".toList] ∧
    (∀ fuel, parseNotionContent Env.plain fuel "#hashtag\n```\ncode\n```".toList = none) := by
  refine ⟨by decide, by decide, by decide, by decide, ?_⟩
  intro fuel
  have h1 : isHTML (normalize "#hashtag\n```\ncode\n```".toList) = false := by decide
  have h2 : splitOn '\n' (normalize "#hashtag\n```\ncode\n```".toList) =
      ["#hashtag".toList, "```".toList, "code".toList, "```".toList] := by decide
  simp only [parseNotionContent, h1, h2]
  exact scan_stalled Env.plain _ _ (by decide) fuel

/-! ## What follows a list -/

/-- The pass on a run of list items followed by a line that is no list item,
or by the end of the lines. -/
theorem step_list_items (env : Env) (A post : List Str) (hne : A ≠ [])
    (hA : ∀ l ∈ A, IsListItem l) (hpost : ∀ l, post.head? = some l → NotListItem l) :
    (listLoop A).1.length = A.length ∧
    step env (A ++ post) = ([Block.list (listLoop A).1], A.length + blankNext post) := by
  obtain ⟨hloop, hlen⟩ := listLoop_items post A hA
  rw [listLoop_stop post hpost] at hloop
  refine ⟨hlen, ?_⟩
  cases A with
  | nil => exact absurd rfl hne
  | cons p rest =>
    have hstart := isListItem_start p (hA p (by simp))
    obtain ⟨c, cs, hcs, hc⟩ := listStart_head _ hstart
    have hc1 : c ≠ Char.ofNat 96 := by
      rcases hc with hc | hc <;> (rintro rfl; revert hc; decide)
    have hc2 : c ≠ ':' := by
      rcases hc with hc | hc <;> (rintro rfl; revert hc; decide)
    have hc3 : startsWith "#".toList (c :: cs) = false := by
      apply startsWith_cons_of_head
      intro d hd
      cases hd
      rcases hc with hc | hc <;> (rintro rfl; revert hc; decide)
    have hc4 : startsWith ">".toList (c :: cs) = false := by
      apply startsWith_cons_of_head
      intro d hd
      cases hd
      rcases hc with hc | hc <;> (rintro rfl; revert hc; decide)
    have hpos : 0 < (listLoop (p :: rest)).1.length := by rw [hlen]; simp
    simp only [List.cons_append] at hloop ⊢
    rw [step_of_plain_head env _ _ c cs hcs hc1 hc2]
    rw [hcs] at hstart
    simp only [stepFrom, reHeader_exec_none _ hc3, hc4, Bool.false_eq_true, if_false, hstart,
      if_true, hloop, List.append_nil]
    simp [hpos]

/-- A pass of the rules from the header on that moves the cursor, on a line
that is not blank, pushes a block. -/
theorem stepFrom_blocks_ne_nil (l : Str) (ls : List Str) (hl : (trim l).isEmpty = false)
    (h : 0 < (stepFrom (trim l) l ls).2) : (stepFrom (trim l) l ls).1 ≠ [] := by
  cases h1 : reHeader.exec (trim l) with
  | some m => simp [stepFrom, h1]
  | none =>
    cases h2 : startsWith ">".toList (trim l) with
    | true =>
      simp only [stepFrom, h1, h2, if_true]
      split <;> simp
    | false =>
      cases h3 : (reBulletStart.test (trim l) || reNumberStart.test (trim l)) with
      | true =>
        simp only [stepFrom, h1, h2, h3, if_true, Bool.false_eq_true, if_false] at h ⊢
        have hpos : 0 < (listLoop (l :: ls)).1.length := by
          cases hb : reBullet.exec (trim l) with
          | some m => simp [listLoop, hb]
          | none =>
            cases hn : reNumber.exec (trim l) with
            | some m => simp [listLoop, hb, hn]
            | none => simp [listLoop, hb, hn, hl] at h
        simp [hpos]
      | false =>
        cases h4 : (extractImageUrl (trim l)).filter (fun u => !u.isEmpty) with
        | some u =>
          simp only [stepFrom, h1, h2, h3, h4, Bool.false_eq_true, if_false]
          simp
        | none =>
          cases h5 : reMdImage.exec (trim l) with
          | some m =>
            simp only [stepFrom, h1, h2, h3, h4, h5, Bool.false_eq_true, if_false]
            split <;> simp
          | none =>
            simp only [stepFrom, h1, h2, h3, h4, h5, Bool.false_eq_true, if_false] at h ⊢
            simp only [h, if_true]
            simp

/-- A pass that moves the cursor, on a line that is not blank, pushes a
block. -/
theorem step_blocks_ne_nil (env : Env) (l : Str) (ls : List Str)
    (hl : (trim l).isEmpty = false) (h : 0 < (step env (l :: ls)).2) :
    (step env (l :: ls)).1 ≠ [] := by
  cases hf : startsWith fence (trim l) with
  | true =>
    simp only [step, hl, hf, Bool.false_eq_true, if_false, if_true]
    simp
  | false =>
    cases hm : (if startsWith marker (trim l) then reCallout.exec (trim l) else none) with
    | some m =>
      simp only [step, hl, hf, hm, Bool.false_eq_true, if_false]
      unfold stepCallout
      split <;> simp
    | none =>
      simp only [step, hl, hf, hm, Bool.false_eq_true, if_false] at h ⊢
      exact stepFrom_blocks_ne_nil l ls hl h

/-- C24 (list termination), amended: the scan of the lines that remain
returns.  A run of list items ends at the first line that is no list item,
or at the end of the lines.  The pass pushes one list block with one item for
each line of the run and moves the cursor past the run; a blank ending line
is passed over as well, a non-blank ending line is not.  The result is the
list block followed by the blocks of the lines that remain, and when the
ending line is not blank the first of these are the blocks, at least one,
that the pass on that line pushes. -/
theorem scan_list_end (env : Env) (fuel : Nat) (A post : List Str) (b : List Block)
    (hne : A ≠ []) (hA : ∀ l ∈ A, IsListItem l)
    (hpost : ∀ l, post.head? = some l → NotListItem l)
    (hrest : scan env fuel (post.drop (blankNext post)) = some b) :
    (listLoop A).1.length = A.length ∧
    step env (A ++ post) = ([Block.list (listLoop A).1], A.length + blankNext post) ∧
    scan env (fuel + 1) (A ++ post) = some (Block.list (listLoop A).1 :: b) ∧
    (∀ x rest, post = x :: rest → (trim x).isEmpty = false →
      (step env (x :: rest)).1 ≠ [] ∧ 0 < (step env (x :: rest)).2 ∧
        ∃ b', b = (step env (x :: rest)).1 ++ b') := by
  obtain ⟨hlen, hstep⟩ := step_list_items env A post hne hA hpost
  refine ⟨hlen, hstep, ?_, ?_⟩
  · cases A with
    | nil => exact absurd rfl hne
    | cons p rest =>
      simp only [List.cons_append] at hstep ⊢
      rw [scan_cons env fuel _ _ _ _ hstep]
      have hd : (p :: (rest ++ post)).drop ((p :: rest).length + blankNext post) =
          post.drop (blankNext post) := by
        rw [← List.cons_append, ← List.drop_drop, List.drop_left]
      rw [hd, hrest]
      rfl
  · intro x rest hx hxne
    subst hx
    have hb0 : blankNext (x :: rest) = 0 := by simp [blankNext, hxne]
    rw [hb0, List.drop_zero] at hrest
    have hadv : 0 < (step env (x :: rest)).2 := by
      rcases Nat.eq_zero_or_pos (step env (x :: rest)).2 with h0 | h0
      · rw [scan_stalled env x rest h0 fuel] at hrest
        cases hrest
      · exact h0
    refine ⟨step_blocks_ne_nil env x rest hxne hadv, hadv, ?_⟩
    cases fuel with
    | zero => simp [scan] at hrest
    | succ k =>
      rw [scan_succ] at hrest
      cases hs : scan env k ((x :: rest).drop (step env (x :: rest)).2) with
      | none => rw [hs] at hrest; cases hrest
      | some b' =>
        rw [hs] at hrest
        simp only [Option.map_some', Option.some.injEq] at hrest
        exact ⟨b', hrest.symm⟩

/-- C24, the examples of the specification: a plain line after an item
becomes a paragraph of its own, and a blank line between two items makes two
lists. -/
theorem scan_list_end_example :
    (IsListItem "- a".toList ∧ NotListItem "plain text".toList ∧ NotListItem [] ∧
      parseNotionContent Env.plain 5 "- a\nplain text".toList =
        some [Block.list ["a".toList], Block.paragraph "plain text".toList] ∧
      parseNotionContent Env.plain 5 "- a\n\n- b".toList =
        some [Block.list ["a".toList], Block.list ["b".toList]] ∧
      (listLoop ["- a".toList]).1 = ["a".toList]) ∧
    ((listLoop ["- a".toList]).1.length = 1 ∧
      step Env.plain ["- a".toList, "plain text".toList] =
        ([Block.list (listLoop ["- a".toList]).1], 1 + 0) ∧
      scan Env.plain (1 + 1) ["- a".toList, "plain text".toList] =
        some [Block.list (listLoop ["- a".toList]).1, Block.paragraph "plain text".toList] ∧
      (∀ x rest, ["plain text".toList] = x :: rest → (trim x).isEmpty = false →
        (step Env.plain (x :: rest)).1 ≠ [] ∧ 0 < (step Env.plain (x :: rest)).2 ∧
          ∃ b', [Block.paragraph "plain text".toList] = (step Env.plain (x :: rest)).1 ++ b')) :=
  ⟨by decide,
   scan_list_end Env.plain 1 ["- a".toList] ["plain text".toList]
    [Block.paragraph "plain text".toList] (by decide)
    (by intro l hl; simp at hl; subst hl; decide)
    (by intro l hl; simp at hl; subst hl; decide) (by decide)⟩

/-- C24, where the claim as written fails: a line on which the scan stalls is
no list item and not blank, and after a list it is not parsed as a construct
of its own: the parser returns for no amount of fuel. -/
theorem scan_list_end_stalls :
    IsListItem "- a".toList ∧ NotListItem "#hashtag".toList ∧
      (trim "#hashtag".toList).isEmpty = false ∧
      (∀ fuel, parseNotionContent Env.plain fuel "- a\n#hashtag".toList = none) := by
  refine ⟨by decide, by decide, by decide, ?_⟩
  intro fuel
  have h1 : isHTML (normalize "- a\n#hashtag".toList) = false := by decide
  have h2 : splitOn '\n' (normalize "- a\n#hashtag".toList) =
      ["- a".toList, "#hashtag".toList] := by decide
  have h3 : step Env.plain ["- a".toList, "#hashtag".toList] =
      ([Block.list ["a".toList]], 1) := by decide
  simp only [parseNotionContent, h1, h2]
  cases fuel with
  | zero => rfl
  | succ k =>
    rw [scan_cons Env.plain k _ _ _ _ h3]
    simp only [List.drop_succ_cons, List.drop_zero]
    rw [scan_stalled Env.plain "#hashtag".toList [] (by decide) k]
    rfl

/-! ## The bare marker -/

/-- C28 (bare opening marker), amended: a line that is only the marker `:::`,
without keyword and title, ends with `:::` and is taken as a single-line
callout.  Whatever follows, the pass on it pushes one callout with variant
`insight`, title `Insight` and empty content and moves on by one line.  For
body lines that open no fence and no callout and whose scan returns, the
lines `:::`, the body lines and `:::` give that callout, the blocks of the
body lines, and a second such callout for the closing marker. -/
theorem scan_bare_marker (env : Env) (fb : Nat) (line : Str) (body : List Str)
    (b : List Block) (hline : trim line = marker) (hbody : ∀ l ∈ body, NoOpener l)
    (hscan : scan env fb body = some b) :
    (∀ ls, step env (line :: ls) =
      ([Block.callout "insight".toList "Insight".toList []], 1)) ∧
    scan env (fb + 2) (line :: (body ++ [marker])) =
      some (Block.callout "insight".toList "Insight".toList [] ::
        (b ++ [Block.callout "insight".toList "Insight".toList []])) := by
  have hstep : ∀ ls, step env (line :: ls) =
      ([Block.callout "insight".toList "Insight".toList []], 1) := by
    intro ls
    simp only [step, hline]
    rfl
  refine ⟨hstep, ?_⟩
  have hlast : scan env 1 [marker] =
      some [Block.callout "insight".toList "Insight".toList []] := by
    have : step env [marker] = ([Block.callout "insight".toList "Insight".toList []], 1) := rfl
    exact scan_all env 0 marker [] _ 1 this (by simp)
  obtain ⟨n, hn, hp⟩ := passes_before_opener env marker [] (Or.inr (by decide)) fb body b hbody
    hscan
  have h1 := (scan_of_passes env n _ b _ hp).1 1
  rw [hlast] at h1
  have h2 := scan_mono env (n + 1) _ _ h1 (fb + 1) (by omega)
  have e : fb + 2 = (fb + 1) + 1 := rfl
  rw [e, scan_cons env (fb + 1) line _ _ _ (hstep _)]
  simp only [List.drop_succ_cons, List.drop_zero]
  rw [h2]
  rfl

/-- C28, an example: one body line. -/
theorem scan_bare_marker_example :
    (trim ":::".toList = marker ∧ NoOpener "body".toList ∧
      scan Env.plain 1 ["body".toList] = some [Block.paragraph "body".toList]) ∧
    ((∀ ls, step Env.plain (":::".toList :: ls) =
      ([Block.callout "insight".toList "Insight".toList []], 1)) ∧
    scan Env.plain (1 + 2) (":::".toList :: (["body".toList] ++ [marker])) =
      some (Block.callout "insight".toList "Insight".toList [] ::
        ([Block.paragraph "body".toList] ++
          [Block.callout "insight".toList "Insight".toList []]))) :=
  ⟨by decide,
   scan_bare_marker Env.plain 1 ":::".toList ["body".toList] [Block.paragraph "body".toList]
    (by decide) (by intro l hl; simp at hl; subst hl; decide) (by decide)⟩

/-- C28, where the claim as written fails: the lines `:::`, `body` and `:::`
do not give one callout with content `body`, but an empty callout, a
paragraph and a second empty callout. -/
theorem parseNotionContent_bare_marker :
    parseNotionContent Env.plain 3 ":::\nbody\n:::".toList =
      some [Block.callout "insight".toList "Insight".toList [],
        Block.paragraph "body".toList,
        Block.callout "insight".toList "Insight".toList []] ∧
    parseNotionContent Env.plain 3 ":::\nbody\n:::".toList ≠
      some [Block.callout "insight".toList "Insight".toList "body".toList] := by
  decide

/-! ## The attribution of a blockquote -/

/-- The attribution split in terms of the class of the pattern as it is
written on source line 215 (hyphen-minus, U+201A, U+00C4, U+00EE and U+00EC),
for a joined text without line terminator that is split: the attribution is
the trimmed text after the last character of the class, the content is the
trimmed text before the last one or two characters of the class. -/
theorem step_quote_split_class (env : Env) (line : Str) (ls : List Str)
    (hq : startsWith ">".toList (trim line) = true)
    (hlt : ∀ c ∈ quoteText (line :: ls), isLineTerminator c = false)
    (hsplit : (reAttribution.exec (quoteText (line :: ls))).isSome = true) :
    step env (line :: ls) =
      ([Block.quote (trim (beforeSeparator (quoteText (line :: ls))))
          (trim (afterLastDash (quoteText (line :: ls))))], quoteLength (line :: ls)) ∧
    (∀ c ∈ trim (afterLastDash (quoteText (line :: ls))), isDashClass c = false) ∧
    (∃ sep, quoteText (line :: ls) =
        beforeSeparator (quoteText (line :: ls)) ++ sep ++ afterLastDash (quoteText (line :: ls)) ∧
      1 ≤ sep.length ∧ sep.length ≤ 2 ∧ ∀ c ∈ sep, isDashClass c = true) := by
  have hs : IsTrimmed (quoteText (line :: ls)) := isTrimmed_trim _
  have hsp := (reAttribution_exec_isSome_iff _ hs).1 hsplit
  obtain ⟨G, w1, ds, dl, w2, At, hse, hG, hGlast, hw1, hdsl, hds, hdl, hmax, hw2, hA, hAhead, hAd,
    hGeq, hAeq, hbefore, hafter⟩ := splitsAtDash_shape _ hs hsp
  have hGdot : ∀ c ∈ G, isLineTerminator c = false := by
    intro c hc
    apply hlt c
    rw [hse]
    exact List.mem_append_left _ hc
  obtain ⟨m, hm, hm1, hm2⟩ := reAttribution_exec_shape G w1 ds dl w2 At hG hGdot hGlast hw1 hdsl
    hds hdl hmax hw2 hA hAhead hAd
  rw [← hse] at hm
  refine ⟨?_, ?_, ds ++ [dl], ?_, by simp, ?_, ?_⟩
  · rw [step_quote env line ls hq, hm]
    simp only [hm1, hm2, Option.getD_some]
    rw [hGeq, hAeq, trim_trim, trim_trim]
  · rw [← hAeq]
    exact hAd
  · rw [hbefore, hafter]
    conv_lhs => rw [hse]
    simp [List.append_assoc]
  · simp only [List.length_append, List.length_singleton]
    omega
  · intro c hc
    rcases List.mem_append.1 hc with hc | hc
    · exact hds c hc
    · simp only [List.mem_singleton] at hc
      rw [hc]
      exact hdl

/-- The split of a blockquote in terms of the class of the pattern as it is
written on source line 215: with `s` the joined and trimmed text, the text is
split exactly when the last character of the class in `s` is neither the
first nor the last character of `s`; then the content and the attribution of
the quote block are not empty and have no white space at either end;
otherwise the content is `s` and the attribution is empty. -/
theorem step_quote_parts (env : Env) (line : Str) (ls : List Str)
    (hq : startsWith ">".toList (trim line) = true) :
    ((reAttribution.exec (quoteText (line :: ls))).isSome = true ↔
      SplitsAtDash (quoteText (line :: ls))) ∧
    (SplitsAtDash (quoteText (line :: ls)) →
      ∃ c a, step env (line :: ls) = ([Block.quote c a], quoteLength (line :: ls)) ∧
        c ≠ [] ∧ a ≠ [] ∧ IsTrimmed c ∧ IsTrimmed a) ∧
    (¬ SplitsAtDash (quoteText (line :: ls)) →
      step env (line :: ls) =
        ([Block.quote (quoteText (line :: ls)) []], quoteLength (line :: ls))) := by
  have hs : IsTrimmed (quoteText (line :: ls)) := isTrimmed_trim _
  have hiff := reAttribution_exec_isSome_iff _ hs
  refine ⟨hiff, ?_, ?_⟩
  · intro hsp
    have h1 := hiff.2 hsp
    cases hm : reAttribution.exec (quoteText (line :: ls)) with
    | none => rw [hm] at h1; cases h1
    | some m =>
      obtain ⟨g, a, hg, ha, hgt, hat⟩ := reAttribution_groups _ hs m hm
      refine ⟨trim g, trim a, ?_, hgt, hat, isTrimmed_trim _, isTrimmed_trim _⟩
      rw [step_quote env line ls hq, hm]
      simp only [hg, ha, Option.getD_some]
  · intro hsp
    cases hm : reAttribution.exec (quoteText (line :: ls)) with
    | none =>
      rw [step_quote env line ls hq, hm]
    | some m =>
      exfalso
      apply hsp
      apply hiff.1
      rw [hm]
      rfl

/-- Examples of the split: a text with a hyphen inside is split, a text that
starts with its only hyphen is not. -/
theorem step_quote_parts_example :
    (parseNotionContent Env.plain 1 "> well-known fact".toList =
        some [Block.quote "well".toList "known fact".toList] ∧
      parseNotionContent Env.plain 1 "> - x".toList = some [Block.quote "- x".toList []] ∧
      SplitsAtDash (quoteText ["> well-known fact".toList]) ∧
      ¬ SplitsAtDash (quoteText ["> - x".toList])) ∧
    (((reAttribution.exec (quoteText ["> well-known fact".toList])).isSome = true ↔
      SplitsAtDash (quoteText ["> well-known fact".toList])) ∧
    (SplitsAtDash (quoteText ["> well-known fact".toList]) →
      ∃ c a, step Env.plain ["> well-known fact".toList] =
          ([Block.quote c a], quoteLength ["> well-known fact".toList]) ∧
        c ≠ [] ∧ a ≠ [] ∧ IsTrimmed c ∧ IsTrimmed a) ∧
    (¬ SplitsAtDash (quoteText ["> well-known fact".toList]) →
      step Env.plain ["> well-known fact".toList] =
        ([Block.quote (quoteText ["> well-known fact".toList]) []],
          quoteLength ["> well-known fact".toList]))) :=
  ⟨by decide, step_quote_parts Env.plain "> well-known fact".toList [] (by decide)⟩

theorem takeWhile_congr_mem {α : Type} (p q : α → Bool) : ∀ (l : List α),
    (∀ x ∈ l, p x = q x) → l.takeWhile p = l.takeWhile q := by
  intro l
  induction l with
  | nil => intro _; rfl
  | cons a l ih =>
    intro h
    simp only [List.takeWhile_cons, h a (by simp), ih (fun x hx => h x (by simp [hx]))]

theorem dropWhile_congr_mem {α : Type} (p q : α → Bool) : ∀ (l : List α),
    (∀ x ∈ l, p x = q x) → l.dropWhile p = l.dropWhile q := by
  intro l
  induction l with
  | nil => intro _; rfl
  | cons a l ih =>
    intro h
    simp only [List.dropWhile_cons, h a (by simp), ih (fun x hx => h x (by simp [hx]))]

theorem plainDashes_agree (s : Str) (h : PlainDashes s) :
    ∀ c ∈ s, isDashLike c = isDashClass c := by
  intro c hc
  rcases h c hc with rfl | ⟨h1, h2⟩
  · decide
  · rw [h1, h2]

/-- On a text whose only dashes are hyphens, and which holds none of the
other characters of the class, the dashes are the characters of the class. -/
theorem dashLike_eq_class (s : Str) (h : PlainDashes s) :
    afterLastDashLike s = afterLastDash s ∧ uptoLastDashLike s = uptoLastDash s ∧
      beforeSeparatorLike s = beforeSeparator s := by
  have hag := plainDashes_agree s h
  have hrev : ∀ x ∈ s.reverse, (fun c => !isDashLike c) x = (fun c => !isDashClass c) x := by
    intro x hx
    simp only [hag x (List.mem_reverse.1 hx)]
  have h1 : afterLastDashLike s = afterLastDash s := by
    unfold afterLastDashLike afterLastDash List.rtakeWhile
    rw [takeWhile_congr_mem _ _ _ hrev]
  have h2 : uptoLastDashLike s = uptoLastDash s := by
    unfold uptoLastDashLike uptoLastDash List.rdropWhile
    rw [dropWhile_congr_mem _ _ _ hrev]
  refine ⟨h1, h2, ?_⟩
  unfold beforeSeparatorLike beforeSeparator
  rw [h2]
  have h3 : (uptoLastDash s).dropLast.getLast?.map isDashLike =
      (uptoLastDash s).dropLast.getLast?.map isDashClass := by
    cases hl : (uptoLastDash s).dropLast.getLast? with
    | none => rfl
    | some c =>
      have hc : c ∈ s := by
        have m1 := List.mem_of_getLast?_eq_some hl
        have m2 := List.dropLast_subset _ m1
        rw [← uptoLastDash_append_after s]
        exact List.mem_append_left _ m2
      simp only [Option.map_some', hag c hc]
  rw [h3]

theorem mem_of_mem_trim (t : Str) (c : Char) (h : c ∈ trim t) : c ∈ t := by
  obtain ⟨w1, w2, -, -, ht⟩ := trim_decomp t
  rw [ht]
  simp [h]

/-- C22 (the attribution split uses the last separator), amended: the joined
text holds no line terminator, no dash other than the hyphen-minus, and none
of the characters U+201A, U+00C4, U+00EE and U+00EC.  For every such
blockquote whose joined text is split, the attribution is the trimmed text
after the last dash of the joined text, and holds no dash; the content is the
trimmed text before the last separator, which is the last dash, with the dash
right before it when there is one that is not the first character of the
text, whatever dashes the content holds. -/
theorem step_quote_last_separator (env : Env) (line : Str) (ls : List Str)
    (hq : startsWith ">".toList (trim line) = true)
    (hplain : PlainDashes (quoteText (line :: ls)))
    (hlt : ∀ c ∈ quoteText (line :: ls), isLineTerminator c = false)
    (hsplit : (reAttribution.exec (quoteText (line :: ls))).isSome = true) :
    step env (line :: ls) =
      ([Block.quote (trim (beforeSeparatorLike (quoteText (line :: ls))))
          (trim (afterLastDashLike (quoteText (line :: ls))))], quoteLength (line :: ls)) ∧
    (∀ c ∈ trim (afterLastDashLike (quoteText (line :: ls))), isDashLike c = false) ∧
    (∃ sep, quoteText (line :: ls) =
        beforeSeparatorLike (quoteText (line :: ls)) ++ sep ++
          afterLastDashLike (quoteText (line :: ls)) ∧
      1 ≤ sep.length ∧ sep.length ≤ 2 ∧ ∀ c ∈ sep, c = '-') := by
  obtain ⟨e1, -, e3⟩ := dashLike_eq_class _ hplain
  have hag := plainDashes_agree _ hplain
  obtain ⟨h1, h2, sep, h3, h4, h5, h6⟩ := step_quote_split_class env line ls hq hlt hsplit
  rw [e1, e3]
  refine ⟨h1, ?_, sep, h3, h4, h5, ?_⟩
  · intro c hc
    have hmem : c ∈ quoteText (line :: ls) := by
      have := mem_of_mem_trim _ c hc
      rw [← uptoLastDash_append_after (quoteText (line :: ls))]
      exact List.mem_append_right _ this
    rw [hag c hmem]
    exact h2 c hc
  · intro c hc
    have hmem : c ∈ quoteText (line :: ls) := by
      rw [h3]
      simp [hc]
    rcases hplain c hmem with h | ⟨-, h⟩
    · exact h
    · rw [h6 c hc] at h
      cases h

/-- C22, the examples of the specification. -/
theorem step_quote_last_separator_example :
    (parseNotionContent Env.plain 1 "> a - b -- c".toList =
        some [Block.quote "a - b".toList "c".toList] ∧
      parseNotionContent Env.plain 1 "> well-known fact".toList =
        some [Block.quote "well".toList "known fact".toList] ∧
      trim (beforeSeparatorLike (quoteText ["> a - b -- c".toList])) = "a - b".toList ∧
      trim (afterLastDashLike (quoteText ["> a - b -- c".toList])) = "c".toList) ∧
    (step Env.plain ["> a - b -- c".toList] =
      ([Block.quote (trim (beforeSeparatorLike (quoteText ["> a - b -- c".toList])))
          (trim (afterLastDashLike (quoteText ["> a - b -- c".toList])))],
        quoteLength ["> a - b -- c".toList]) ∧
    (∀ c ∈ trim (afterLastDashLike (quoteText ["> a - b -- c".toList])),
      isDashLike c = false) ∧
    (∃ sep, quoteText ["> a - b -- c".toList] =
        beforeSeparatorLike (quoteText ["> a - b -- c".toList]) ++ sep ++
          afterLastDashLike (quoteText ["> a - b -- c".toList]) ∧
      1 ≤ sep.length ∧ sep.length ≤ 2 ∧ ∀ c ∈ sep, c = '-')) :=
  ⟨by decide,
   step_quote_last_separator Env.plain "> a - b -- c".toList [] (by decide) (by decide)
    (by decide) (by decide)⟩

/-- C22, where the claim as written fails: the first group of the pattern
does not cross a line separator U+2028, so what stands before one in the
quote text is lost from the content, though the text holds one hyphen and no
other dash. -/
theorem step_quote_last_separator_fails :
    parseNotionContent Env.plain 1 "> x\u2028y - z".toList =
        some [Block.quote "y".toList "z".toList] ∧
      PlainDashes (quoteText ["> x\u2028y - z".toList]) ∧
      trim (beforeSeparatorLike (quoteText ["> x\u2028y - z".toList])) = "x\u2028y".toList ∧
      trim (afterLastDashLike (quoteText ["> x\u2028y - z".toList])) = "z".toList := by
  decide

/-- C29 (the parts of a split blockquote).  The claim does not hold of the
code, both ways: the class of the attribution pattern is written mis-encoded
on source line 215, so a text with an em dash that is neither its first nor
its last character is not split, and a text without any dash is split at the
letter U+00EE. -/
theorem quote_parts_dash_like :
    parseNotionContent Env.plain 1 "> all in — now".toList =
        some [Block.quote "all in — now".toList []] ∧
      isDashLike (Char.ofNat 0x2014) = true ∧ isDashClass (Char.ofNat 0x2014) = false ∧
      parseNotionContent Env.plain 1 "> naîve".toList =
        some [Block.quote "na".toList "ve".toList] ∧
      (∀ c ∈ "naîve".toList, isDashLike c = false) ∧ isDashClass (Char.ofNat 0xEE) = true := by
  decide

/-! ## The inline renderer on any text -/

theorem inlineMark_matches_inv (w1 w2 : Str) (i : Nat) (s s' : MState)
    (h : (Re.seq (Re.lit w1) (Re.seq (.cap i (.rep isDot 1 none false)) (Re.lit w2))).Matches
      s s') :
    ∃ x b, x ≠ [] ∧ s.rest = w1 ++ (x ++ (w2 ++ b)) ∧
      s' = ⟨s.pos + w1.length + x.length + w2.length, b, s.caps.set i (some x)⟩ := by
  rw [Re.matches_seq] at h
  obtain ⟨m1, h1, h⟩ := h
  rw [Re.lit_matches] at h1
  obtain ⟨b1, hb1, rfl⟩ := h1
  rw [Re.matches_seq] at h
  obtain ⟨m2, h2, h3⟩ := h
  rw [Re.matches_cap] at h2
  obtain ⟨m0, h0, rfl⟩ := h2
  rw [Re.matches_rep] at h0
  obtain ⟨j, ⟨hl, -, hlo, -⟩, rfl⟩ := h0
  rw [Re.lit_matches] at h3
  obtain ⟨b, hb, rfl⟩ := h3
  dsimp only at hl hlo hb ⊢
  have hj : b1.length - (b1.drop j).length = j := by
    rw [List.length_drop]; omega
  refine ⟨b1.take j, b, ?_, ?_, ?_⟩
  · intro h0
    have : (b1.take j).length = 0 := by rw [h0]; rfl
    rw [List.length_take] at this
    omega
  · rw [hb1, ← hb, List.take_append_drop]
  · rw [hj, List.length_take, Nat.min_eq_left hl]

theorem inlineLink_matches_inv (s s' : MState)
    (h : (Re.seq (Re.lit "[".toList) (Re.seq (.cap 6 (.rep (isNot ']') 1 none true))
        (Re.seq (Re.lit "](".toList) (Re.seq (.cap 7 (.rep (isNot ')') 1 none true))
          (Re.lit ")".toList))))).Matches s s') :
    ∃ x y b, x ≠ [] ∧ y ≠ [] ∧
      s.rest = "[".toList ++ (x ++ ("](".toList ++ (y ++ (")".toList ++ b)))) ∧
      s' = ⟨s.pos + 1 + x.length + 2 + y.length + 1, b,
        (s.caps.set 6 (some x)).set 7 (some y)⟩ := by
  rw [Re.matches_seq] at h
  obtain ⟨m1, h1, h⟩ := h
  rw [Re.lit_matches] at h1
  obtain ⟨b1, hb1, rfl⟩ := h1
  rw [Re.matches_seq] at h
  obtain ⟨m2, h2, h⟩ := h
  rw [Re.matches_cap] at h2
  obtain ⟨m0, h0, rfl⟩ := h2
  rw [Re.matches_rep] at h0
  obtain ⟨j, ⟨hl, -, hlo, -⟩, rfl⟩ := h0
  rw [Re.matches_seq] at h
  obtain ⟨m3, h3, h⟩ := h
  rw [Re.lit_matches] at h3
  obtain ⟨b2, hb2, rfl⟩ := h3
  rw [Re.matches_seq] at h
  obtain ⟨m4, h4, h5⟩ := h
  rw [Re.matches_cap] at h4
  obtain ⟨m5, h6, rfl⟩ := h4
  rw [Re.matches_rep] at h6
  obtain ⟨k, ⟨hl2, -, hlo2, -⟩, rfl⟩ := h6
  rw [Re.lit_matches] at h5
  obtain ⟨b, hb, rfl⟩ := h5
  dsimp only at hl hlo hb2 hl2 hlo2 hb ⊢
  have hj : b1.length - (b1.drop j).length = j := by
    rw [List.length_drop]; omega
  have hk : b2.length - (b2.drop k).length = k := by
    rw [List.length_drop]; omega
  refine ⟨b1.take j, b2.take k, b, ?_, ?_, ?_, ?_⟩
  · intro h0
    have : (b1.take j).length = 0 := by rw [h0]; rfl
    rw [List.length_take] at this
    omega
  · intro h0
    have : (b2.take k).length = 0 := by rw [h0]; rfl
    rw [List.length_take] at this
    omega
  · rw [hb1, ← hb, List.take_append_drop, ← hb2, List.take_append_drop]
  · rw [hj, hk, List.length_take, List.length_take, Nat.min_eq_left hl, Nat.min_eq_left hl2]
    rfl

/-- What a match of the inline pattern is: the markup of a part that is no
literal text, and the part is what the match adds to `parts`. -/
theorem reInline_matchAt_inv (pos : Nat) (t : Str) (m : Match)
    (h : reInline.matchAt pos t = some m) :
    ∃ p, inlinePart m = [p] ∧ p.isText = false ∧ p.markup ≠ [] ∧ t = p.markup ++ m.after ∧
      m.index = pos ∧ m.stop = pos + p.markup.length := by
  have hg : reInline.groups = 7 := rfl
  obtain ⟨s', hs', hm⟩ := Re.matchAt_sound _ _ _ _ h
  rw [reInline_eq, Re.matches_cap] at hs'
  obtain ⟨m0, h0, hs'eq⟩ := hs'
  have hcons : ∀ x : Str, x ≠ [] → ∃ c cs, x = c :: cs := by
    intro x hx
    cases x with
    | nil => exact absurd rfl hx
    | cons c cs => exact ⟨c, cs, rfl⟩
  rw [Re.matches_alt] at h0
  rcases h0 with h1 | h0
  · obtain ⟨x, b, hx, hrest, rfl⟩ := inlineMark_matches_inv _ _ _ _ _ h1
    obtain ⟨c, cs, rfl⟩ := hcons x hx
    subst hs'eq
    subst hm
    dsimp only at hrest ⊢
    refine ⟨.strongEm (c :: cs), ?_, rfl, by simp [Inline.markup], ?_, rfl, ?_⟩
    · simp [inlinePart, truthy, Match.group, hg, List.replicate, Option.filter]
    · rw [hrest]; simp [Inline.markup]
    · simp [Inline.markup]; omega
  rw [Re.matches_alt] at h0
  rcases h0 with h1 | h0
  · obtain ⟨x, b, hx, hrest, rfl⟩ := inlineMark_matches_inv _ _ _ _ _ h1
    obtain ⟨c, cs, rfl⟩ := hcons x hx
    subst hs'eq
    subst hm
    dsimp only at hrest ⊢
    refine ⟨.strong (c :: cs), ?_, rfl, by simp [Inline.markup], ?_, rfl, ?_⟩
    · simp [inlinePart, truthy, Match.group, hg, List.replicate, Option.filter]
    · rw [hrest]; simp [Inline.markup]
    · simp [Inline.markup]; omega
  rw [Re.matches_alt] at h0
  rcases h0 with h1 | h0
  · obtain ⟨x, b, hx, hrest, rfl⟩ := inlineMark_matches_inv _ _ _ _ _ h1
    obtain ⟨c, cs, rfl⟩ := hcons x hx
    subst hs'eq
    subst hm
    dsimp only at hrest ⊢
    refine ⟨.em (c :: cs), ?_, rfl, by simp [Inline.markup], ?_, rfl, ?_⟩
    · simp [inlinePart, truthy, Match.group, hg, List.replicate, Option.filter]
    · rw [hrest]; simp [Inline.markup]
    · simp [Inline.markup]; omega
  rw [Re.matches_alt] at h0
  rcases h0 with h1 | h1
  · obtain ⟨x, b, hx, hrest, rfl⟩ := inlineMark_matches_inv _ _ _ _ _ h1
    obtain ⟨c, cs, rfl⟩ := hcons x hx
    subst hs'eq
    subst hm
    dsimp only at hrest ⊢
    refine ⟨.code (c :: cs), ?_, rfl, by simp [Inline.markup], ?_, rfl, ?_⟩
    · simp [inlinePart, truthy, Match.group, hg, List.replicate, Option.filter]
    · rw [hrest]; simp [Inline.markup]
    · simp [Inline.markup]; omega
  · obtain ⟨x, y, b, hx, hy, hrest, rfl⟩ := inlineLink_matches_inv _ _ h1
    obtain ⟨c, cs, rfl⟩ := hcons x hx
    obtain ⟨d, ds, rfl⟩ := hcons y hy
    subst hs'eq
    subst hm
    dsimp only at hrest ⊢
    refine ⟨.link (d :: ds) (c :: cs), ?_, rfl, by simp [Inline.markup], ?_, rfl, ?_⟩
    · simp [inlinePart, truthy, Match.group, hg, List.replicate, Option.filter]
    · rw [hrest]; simp [Inline.markup]
    · simp [Inline.markup]; omega

/-- A search that fails found no match at any index. -/
theorem Re.matchAt_none_of_execFrom (r : Re) (rest : Str) (pos : Nat)
    (h : r.execFrom pos rest = none) :
    ∀ i, i ≤ rest.length → r.matchAt (pos + i) (rest.drop i) = none := by
  intro i hi
  cases hm : r.matchAt (pos + i) (rest.drop i) with
  | none => rfl
  | some m =>
    have := Re.execFrom_complete r rest pos i hi (by rw [hm]; rfl)
    rw [h] at this
    cases this

theorem noAdjacentTexts_cons (p : Inline) (ps : List Inline) (hp : p.isText = false)
    (h : NoAdjacentTexts ps) : NoAdjacentTexts (p :: ps) := by
  cases ps with
  | nil => trivial
  | cons q qs => exact ⟨Or.inl hp, h⟩

/-- The loop of `renderInlineMarkdown` returns on every text, with more
passes than the text has characters; the markup of the parts, one after the
other, is the text; no two literal parts follow each other; and the parts are
the scan of the text. -/
theorem inlineLoop_scan : ∀ (fuel pos : Nat) (rest : Str), rest.length < fuel →
    ∃ ps, inlineLoop fuel pos rest = some ps ∧ (ps.map Inline.markup).flatten = rest ∧
      NoAdjacentTexts ps ∧ IsScan pos ps := by
  intro fuel
  induction fuel with
  | zero => intro pos rest h; omega
  | succ f ih =>
    intro pos rest hlen
    cases he : reInline.execFrom pos rest with
    | none =>
      cases rest with
      | nil =>
        exact ⟨[], by simp [inlineLoop, he], rfl, trivial, trivial⟩
      | cons c cs =>
        refine ⟨[.text (c :: cs)], by simp [inlineLoop, he], by simp [Inline.markup], trivial,
          ?_, trivial⟩
        have hnone := Re.matchAt_none_of_execFrom _ _ _ he
        have hmk : (Inline.text (c :: cs)).markup = c :: cs := rfl
        simp only [Inline.isText, if_true, hmk, List.map_cons, List.map_nil, List.flatten_cons,
          List.flatten_nil, List.append_nil]
        exact ⟨by simp, fun j hj => hnone j (by omega)⟩
    | some m =>
      obtain ⟨i, hi, hmi, hfirst⟩ := Re.execFrom_first _ m rest pos he
      obtain ⟨p, hpart, hpt, hpne, hsplit, hidx, hstop⟩ := reInline_matchAt_inv _ _ _ hmi
      have hplen : 0 < p.markup.length := by
        cases hq : p.markup with
        | nil => exact absurd hq hpne
        | cons c cs => simp
      have hrest : rest = rest.take i ++ (p.markup ++ m.after) := by
        rw [← hsplit, List.take_append_drop]
      have hafter : m.after.length < f := by
        have := congrArg List.length hrest
        simp only [List.length_append, List.length_take] at this
        omega
      obtain ⟨ps, hloop, hflat, hadj, hscan⟩ := ih m.stop m.after hafter
      have hscanp : IsScan (pos + i) (p :: ps) := by
        refine ⟨?_, ?_⟩
        · rw [if_neg (by rw [hpt]; simp)]
          refine ⟨m, ?_, hpart, hflat.symm⟩
          rw [List.map_cons, List.flatten_cons, hflat, ← hsplit]
          exact hmi
        · rw [← hstop]
          exact hscan
      rcases Nat.eq_zero_or_pos i with h0 | h0
      · subst h0
        refine ⟨p :: ps, ?_, ?_, noAdjacentTexts_cons p ps hpt hadj, hscanp⟩
        · have hlt : ¬ (pos < m.index) := by rw [hidx]; omega
          simp only [inlineLoop, he, hloop, hlt, if_false, hpart, List.nil_append,
            List.singleton_append]
        · rw [List.map_cons, List.flatten_cons, hflat]
          simpa using hsplit.symm
      · have hlt : pos < m.index := by rw [hidx]; omega
        have hsub : m.index - pos = i := by rw [hidx]; omega
        have hmk : (Inline.text (rest.take i)).markup = rest.take i := rfl
        have hflat2 : (((Inline.text (rest.take i)) :: p :: ps).map Inline.markup).flatten =
            rest := by
          rw [List.map_cons, List.flatten_cons, List.map_cons, List.flatten_cons, hflat, hmk]
          exact hrest.symm
        refine ⟨.text (rest.take i) :: p :: ps, ?_, hflat2, ⟨Or.inr hpt,
          noAdjacentTexts_cons p ps hpt hadj⟩, ?_, ?_⟩
        · simp only [inlineLoop, he, hloop, hlt, if_true, hpart, hsub, List.singleton_append,
            List.cons_append, List.nil_append]
        · have hit : (Inline.text (rest.take i)).isText = true := rfl
          rw [if_pos hit, hflat2, hmk]
          refine ⟨?_, ?_⟩
          · intro h1
            have : (rest.take i).length = 0 := by rw [h1]; rfl
            rw [List.length_take] at this
            omega
          · intro j hj
            rw [List.length_take] at hj
            exact hfirst j (by omega)
        · rw [hmk, List.length_take, Nat.min_eq_left hi]
          exact hscanp

/-- C27 (inline renderer), amended: the texts between the marks hold no line
terminator.  On every text that is not empty `renderInlineMarkdown` returns,
with more passes than the text has characters, an array of parts whose
markups, one after the other, are the text (the matches do not overlap and
the text outside them is kept as literal parts, no two of which follow each
other), and the parts are the scan of the text from left to right: at no
index inside a literal part does the pattern match, and every other part is
what the pattern, with its alternatives in the order bold italic, bold,
italic, code, link, matches at the index where the part starts.  The markup
of any sequence of parts with plain texts, no two literal parts following
each other, renders as that sequence.  In particular, for every text `x`
that is not empty and holds no asterisk and no line terminator, three
asterisks around `x` render as one bold italic part of `x`, two as one bold
part, one as one italic part; and a text `t` that is not empty and holds no
asterisk, backtick or `[` renders as that text alone. -/
theorem renderInlineMarkdown_marks :
    (∀ (fuel : Nat) (text : Str), text ≠ [] → text.length < fuel →
      ∃ ps, renderInlineMarkdown fuel text = some (.parts ps) ∧
        (ps.map Inline.markup).flatten = text ∧ NoAdjacentTexts ps ∧ IsScan 0 ps) ∧
    (∀ (fuel : Nat) (spans : List Inline), (∀ p ∈ spans, p.Plain) → NoAdjacentTexts spans →
      spans ≠ [] → spans.length < fuel →
      renderInlineMarkdown fuel (spans.map Inline.markup).flatten = some (.parts spans)) ∧
    (∀ (fuel : Nat) (x t : Str), 2 ≤ fuel → x ≠ [] →
      (∀ c ∈ x, c ≠ '*' ∧ isLineTerminator c = false) → t ≠ [] →
      (∀ c ∈ t, c ≠ '*' ∧ c ≠ Char.ofNat 96 ∧ c ≠ '[') →
      renderInlineMarkdown fuel ("***".toList ++ x ++ "***".toList) =
        some (.parts [.strongEm x]) ∧
      renderInlineMarkdown fuel ("**".toList ++ x ++ "**".toList) = some (.parts [.strong x]) ∧
      renderInlineMarkdown fuel ("*".toList ++ x ++ "*".toList) = some (.parts [.em x]) ∧
      renderInlineMarkdown fuel t = some (.parts [.text t])) := by
  refine ⟨?_, ?_, ?_⟩
  · intro fuel text hne hlen
    obtain ⟨ps, hloop, hflat, hadj, hscan⟩ := inlineLoop_scan fuel 0 text hlen
    have hps : 0 < ps.length := by
      cases ps with
      | nil => exact absurd hflat.symm hne
      | cons p ps => simp
    have hemp : text.isEmpty = false := by
      cases text with
      | nil => exact absurd rfl hne
      | cons c cs => rfl
    refine ⟨ps, ?_, hflat, hadj, hscan⟩
    simp only [renderInlineMarkdown, hemp, hloop, hps, Bool.false_eq_true, if_false, if_true]
  · intro fuel spans hplain hadj hne hfuel
    exact renderInlineMarkdown_spans fuel spans hplain hadj hne hfuel
  · intro fuel x t hfuel hx hxc ht htc
    have key : ∀ p : Inline, p.Plain →
        renderInlineMarkdown fuel p.markup = some (.parts [p]) := by
      intro p hp
      have := renderInlineMarkdown_spans fuel [p]
        (by intro q hq; simp only [List.mem_singleton] at hq; subst hq; exact hp) trivial
        (by simp) (by simpa using hfuel)
      simpa using this
    exact ⟨key (.strongEm x) ⟨hx, hxc⟩, key (.strong x) ⟨hx, hxc⟩, key (.em x) ⟨hx, hxc⟩,
      key (.text t) ⟨ht, htc⟩⟩

/-- C27, examples: a text with marks and literal text between them; a text
with an asterisk that no second one closes; and the four cases of the
claim. -/
theorem renderInlineMarkdown_marks_example :
    (renderInlineMarkdown 4 "a **b** and *c*!".toList =
        some (.parts [.text "a ".toList, .strong "b".toList, .text " and ".toList,
          .em "c".toList, .text "!".toList]) ∧
      renderInlineMarkdown 3 "***a** b*".toList =
        some (.parts [.strong "*a".toList, .text " b*".toList])) ∧
    (∃ ps, renderInlineMarkdown 17 "a **b** and *c*!".toList = some (.parts ps) ∧
      (ps.map Inline.markup).flatten = "a **b** and *c*!".toList ∧ NoAdjacentTexts ps ∧
      IsScan 0 ps) ∧
    renderInlineMarkdown 3
        ([Inline.text "a ".toList, .strong "b".toList].map Inline.markup).flatten =
      some (.parts [.text "a ".toList, .strong "b".toList]) ∧
    (renderInlineMarkdown 2 ("***".toList ++ "fold or call".toList ++ "***".toList) =
        some (.parts [.strongEm "fold or call".toList]) ∧
      renderInlineMarkdown 2 ("**".toList ++ "fold or call".toList ++ "**".toList) =
        some (.parts [.strong "fold or call".toList]) ∧
      renderInlineMarkdown 2 ("*".toList ++ "fold or call".toList ++ "*".toList) =
        some (.parts [.em "fold or call".toList]) ∧
      renderInlineMarkdown 2 "a (b) c".toList = some (.parts [.text "a (b) c".toList])) :=
  ⟨by decide,
   renderInlineMarkdown_marks.1 17 "a **b** and *c*!".toList (by decide) (by decide),
   renderInlineMarkdown_marks.2.1 3 [.text "a ".toList, .strong "b".toList]
    (by
      intro p hp
      simp only [List.mem_cons, List.mem_singleton, List.not_mem_nil, or_false] at hp
      rcases hp with rfl | rfl
      · exact ⟨by decide, by decide⟩
      · exact ⟨by decide, by decide⟩)
    ⟨Or.inr rfl, trivial⟩ (by simp) (by decide),
   renderInlineMarkdown_marks.2.2 2 "fold or call".toList "a (b) c".toList (by decide)
    (by decide) (by decide) (by decide) (by decide)⟩

/-- C27, where the claim as written fails: a text without asterisks that
holds a line feed is not rendered as a bold part. -/
theorem renderInlineMarkdown_marks_line_feed :
    renderInlineMarkdown 2 "**a\nb**".toList = some (.parts [.text "**a\nb**".toList]) ∧
    renderInlineMarkdown 3 "*a\nb*".toList = some (.parts [.text "*a\nb*".toList]) := by
  decide


end Freenachos
